import Mathlib

/-!
# Ordered Covering routing-table minimiser

A shallow embedding of `routing_table.h` and `ordered_covering.h`.

* `uint32_t` values are natural numbers; the bitwise complement is taken
  modulo `2^32` (`not32`).
* `std::vector` is a `List`; iterators are indices into it.  Dereferencing an
  iterator that is not inside the vector, or writing through one, yields
  `none`.
* `std::set<KeyMask>` is a list kept in `operator<` order; `std::map` is an
  association list kept in `operator<` order of its keys.
* Loops whose termination is not structural take a `fuel` argument and
  yield `none` when it runs out.
-/

namespace RoutingTable

/-- Bitwise complement of a `uint32_t`. -/
def not32 (x : Nat) : Nat := 0xffffffff ^^^ (x % 2 ^ 32)

/-- Number of set bits among the low 32 bits (`__builtin_popcount`). -/
def popcount (x : Nat) : Nat := (List.range 32).countP (fun i => x.testBit i)

/-- A key and mask pair. -/
structure KeyMask where
  key : Nat
  mask : Nat
deriving DecidableEq

/-- True if two keymasks would match any of the same keys. -/
def KeyMask.intersect (a b : KeyMask) : Bool :=
  (a.key &&& b.mask) == (b.key &&& a.mask)

/-- The 64-bit value `(key << 32) | mask` used to order keymasks. -/
def KeyMask.as64 (a : KeyMask) : Nat :=
  ((a.key <<< 32) % 2 ^ 64) ||| a.mask

/-- The ordering `operator<` applied to keymasks for use with maps. -/
def KeyMask.lt (a b : KeyMask) : Bool := decide (a.as64 < b.as64)

/-- Two keymasks are equivalent as keys of a map or members of a set when
neither is less than the other. -/
def KeyMask.equiv (a b : KeyMask) : Bool := !a.lt b && !b.lt a

/-- A mask indicating the presence of Xs in a keymask. -/
def KeyMask.get_xs (a : KeyMask) : Nat := not32 a.mask &&& not32 a.key

/-- The number of Xs in a keymask. -/
def KeyMask.count_xs (a : KeyMask) : Nat := popcount a.get_xs

/-- A routing table entry. -/
structure Entry where
  keymask : KeyMask
  source : Nat
  route : Nat
deriving DecidableEq

/-- Routing tables are just vectors. -/
abbrev Table := List Entry

end RoutingTable

namespace OrderedCovering

open RoutingTable

/-- A `std::set<KeyMask>`: the members in `operator<` order. -/
abbrev KeyMaskSet := List KeyMask

/-- The alias table: a `std::map` from keymask to a set of keymasks. -/
abbrev Aliases := List (KeyMask × KeyMaskSet)

/-- A merge is a vector of flags, one per table entry. -/
abbrev Merge := List Bool

/-- The flag `merge[i]`. -/
def Merge.test (merge : Merge) (i : Nat) : Bool := merge.getD i false

/-- Insertion of one element into a `std::set`. -/
def set_insert (x : KeyMask) : KeyMaskSet → KeyMaskSet
  | [] => [x]
  | y :: s =>
    if x.lt y then x :: y :: s
    else if y.lt x then y :: set_insert x s
    else y :: s

/-- Range insertion `s.insert(first, last)` into a `std::set`. -/
def set_insert_all (xs : List KeyMask) (s : KeyMaskSet) : KeyMaskSet :=
  xs.foldl (fun acc x => set_insert x acc) s

/-- The lookup `aliases.find(k)`: the mapped set, when the key is present. -/
def aliases_find (k : KeyMask) : Aliases → Option KeyMaskSet
  | [] => none
  | (k', s) :: rest =>
    if k.equiv k' then some s else aliases_find k rest

/-- The test `aliases.count(k)`. -/
def aliases_count (aliases : Aliases) (k : KeyMask) : Bool :=
  (aliases_find k aliases).isSome

/-- The removal `aliases.erase(k)`. -/
def aliases_erase (k : KeyMask) (aliases : Aliases) : Aliases :=
  aliases.filter (fun p => !k.equiv p.1)

/-- The update `aliases[k].insert(xs.begin(), xs.end())`: the set mapped by `k`
is created empty when `k` is not yet a key. -/
def aliases_insert (k : KeyMask) (xs : List KeyMask) : Aliases → Aliases
  | [] => [(k, set_insert_all xs [])]
  | (k', s) :: rest =>
    if k.lt k' then (k, set_insert_all xs []) :: (k', s) :: rest
    else if k'.lt k then (k', s) :: aliases_insert k xs rest
    else (k', set_insert_all xs s) :: rest

/-! ### Merges -/

/-- Completely empty a merge. -/
def merge_clear (merge : Merge) : Merge := merge.map (fun _ => false)

/-- The goodness of a merge: one less than the number of set flags. -/
def merge_goodness (merge : Merge) : Int :=
  merge.foldl (fun count b => if b then count + 1 else count) (-1)

/-- The running values of the loop of `merge_entries`. -/
structure MergeAcc where
  any_ones : Nat
  all_ones : Nat
  all_sels : Nat
  sources : Nat
  routes : Nat
deriving DecidableEq

/-- One iteration of the loop of `merge_entries`. -/
def merge_entries_step (merge : Merge) (acc : MergeAcc) (ie : Nat × Entry) : MergeAcc :=
  if merge.test ie.1 then
    { any_ones := acc.any_ones ||| ie.2.keymask.key
      all_ones := acc.all_ones &&& ie.2.keymask.key
      all_sels := acc.all_sels &&& ie.2.keymask.mask
      sources := acc.sources ||| ie.2.source
      routes := acc.routes ||| ie.2.route }
  else acc

/-- The values accumulated by the loop of `merge_entries`. -/
def merge_entries_acc (table : Table) (merge : Merge) : MergeAcc :=
  table.enum.foldl (merge_entries_step merge)
    { any_ones := 0, all_ones := 0xffffffff, all_sels := 0xffffffff, sources := 0, routes := 0 }

/-- The entry that would be the result of a merge. -/
def merge_entries (table : Table) (merge : Merge) : Entry :=
  let acc := merge_entries_acc table merge
  let any_zeros := not32 acc.all_ones
  let new_xs := acc.any_ones ^^^ any_zeros
  let mask := acc.all_sels &&& new_xs
  let key := acc.all_ones &&& mask
  { keymask := { key := key, mask := mask }, source := acc.sources, route := acc.routes }

/-! ### Insertion index -/

/-- The binary search loop of `get_insertion_index`.  The entry under `pos` is
read before the bounds are compared, so a `pos` outside the table gives `none`. -/
def get_insertion_index_search (table : Table) (generality : Nat) :
    Nat → Nat → Nat → Nat → Option Nat
  | 0, _, _, _ => none
  | fuel + 1, bottom, top, pos =>
    match table.get? pos with
    | none => none
    | some e =>
      if e.keymask.count_xs != generality && decide (bottom < pos) && decide (pos < top) then
        if e.keymask.count_xs < generality then
          get_insertion_index_search table generality fuel pos top (pos + (top - pos) / 2)
        else
          get_insertion_index_search table generality fuel bottom pos (bottom + (pos - bottom) / 2)
      else some pos

/-- The linear scan of `get_insertion_index` to the end of the generality band. -/
def get_insertion_index_scan (table : Table) (generality : Nat) : Nat → Nat → Nat
  | 0, pos => pos
  | fuel + 1, pos =>
    match table.get? pos with
    | none => pos
    | some e =>
      if e.keymask.count_xs ≤ generality then
        get_insertion_index_scan table generality fuel (pos + 1)
      else pos

/-- Where a new entry of the given generality should be inserted. -/
def get_insertion_index (table : Table) (generality : Nat) : Option Nat :=
  match get_insertion_index_search table generality (table.length + 1) 0 table.length
      (0 + (table.length - 0) / 2) with
  | none => none
  | some pos => some (get_insertion_index_scan table generality (table.length - pos) pos)

/-- Where the given entry should be inserted. -/
def get_insertion_index_entry (table : Table) (entry : Entry) : Option Nat :=
  get_insertion_index table entry.keymask.count_xs

/-- Where the result of the given merge should be inserted. -/
def get_insertion_index_merge (table : Table) (merge : Merge) : Option Nat :=
  get_insertion_index_entry table (merge_entries table merge)

/-! ### Applying a merge -/

/-- The assignment `*it = e` through an iterator at index `i`. -/
def write (table : Table) (i : Nat) (e : Entry) : Option Table :=
  if i < table.length then some (table.set i e) else none

/-- The call `table.resize(n)`; new slots are value-initialised. -/
def resize (table : Table) (n : Nat) : Table :=
  table.take n ++ List.replicate (n - table.length)
    { keymask := { key := 0, mask := 0 }, source := 0, route := 0 }

/-- The alias update made by `merge_apply` for one removed entry. -/
def merge_apply_aliases (aliases : Aliases) (merge_km old_km : KeyMask) : Aliases :=
  match aliases_find old_km aliases with
  | some old_entries => aliases_erase old_km (aliases_insert merge_km old_entries aliases)
  | none => aliases_insert merge_km [old_km] aliases

/-- The variables of the loop of `merge_apply`. -/
structure ApplyState where
  table : Table
  insert : Nat
  aliases : Aliases
  final_size : Nat
deriving DecidableEq

/-- One iteration of the loop of `merge_apply`, with the read cursor at `remove`. -/
def merge_apply_step (merge_entry : Entry) (insertion_point : Nat) (merge : Merge)
    (st : ApplyState) (remove : Nat) : Option ApplyState :=
  let inserted : Option ApplyState :=
    if remove = insertion_point then
      match write st.table st.insert merge_entry with
      | none => none
      | some t => some { st with table := t, insert := st.insert + 1 }
    else some st
  match inserted with
  | none => none
  | some st1 =>
    match st1.table.get? remove with
    | none => none
    | some e =>
      if !merge.test remove then
        match write st1.table st1.insert e with
        | none => none
        | some t => some { st1 with table := t, insert := st1.insert + 1 }
      else
        some { st1 with
          aliases := merge_apply_aliases st1.aliases merge_entry.keymask e.keymask
          final_size := st1.final_size - 1 }

/-- The loop of `merge_apply` over the remaining positions of the read cursor. -/
def merge_apply_loop (merge_entry : Entry) (insertion_point : Nat) (merge : Merge) :
    List Nat → ApplyState → Option ApplyState
  | [], st => some st
  | remove :: rest, st =>
    match merge_apply_step merge_entry insertion_point merge st remove with
    | none => none
    | some st1 => merge_apply_loop merge_entry insertion_point merge rest st1

/-- Apply a merge to a routing table and its alias table. -/
def merge_apply (table : Table) (aliases : Aliases) (merge : Merge) :
    Option (Table × Aliases) :=
  let merge_entry := merge_entries table merge
  match get_insertion_index_entry table merge_entry with
  | none => none
  | some insertion_point =>
    match merge_apply_loop merge_entry insertion_point merge (List.range table.length)
        { table := table, insert := 0, aliases := aliases, final_size := table.length + 1 } with
    | none => none
    | some st =>
      let last : Option Table :=
        if table.length = insertion_point then write st.table st.insert merge_entry
        else some st.table
      match last with
      | none => none
      | some t => some (resize t st.final_size, st.aliases)

/-! ### Avoid covering entries with a merge -/

/-- The result of `get_cover_info`. -/
structure CoverInfo where
  covers : Bool
  set_to_zero : Nat
  set_to_one : Nat
deriving DecidableEq

/-- The variables updated by `get_settables`. -/
structure Settables where
  stringency : Nat
  set_to_zero : Nat
  set_to_one : Nat
deriving DecidableEq

/-- Fold one collision of `a` with `b` into the settable bits. -/
def get_settables (a b : KeyMask) (s : Settables) : Settables :=
  let settable := a.get_xs &&& not32 b.get_xs
  let this_stringency := popcount settable
  if this_stringency < s.stringency then
    { stringency := this_stringency
      set_to_one := settable &&& not32 b.key
      set_to_zero := settable &&& b.key }
  else if this_stringency = s.stringency then
    { s with
      set_to_one := s.set_to_one ||| (settable &&& not32 b.key)
      set_to_zero := s.set_to_zero ||| (settable &&& b.key) }
  else s

/-- The body of the loop of `get_cover_info` for one entry below the insertion point. -/
def get_cover_info_step (aliases : Aliases) (merge_km : KeyMask)
    (st : Bool × Settables) (entry : Entry) : Bool × Settables :=
  let entry_km := entry.keymask
  if merge_km.intersect entry_km then
    match aliases_find entry_km aliases with
    | none => (true, get_settables merge_km entry_km st.2)
    | some alias_list =>
      alias_list.foldl
        (fun st1 al =>
          if al.intersect merge_km then (true, get_settables merge_km al st1.2) else st1)
        st
  else st

/-- Whether the merge would cover an entry below its insertion point, and the
bits that could be set to avoid it. -/
def get_cover_info (table : Table) (aliases : Aliases) (merge : Merge) : Option CoverInfo :=
  let merge_entry := merge_entries table merge
  let merge_km := merge_entry.keymask
  match get_insertion_index_entry table merge_entry with
  | none => none
  | some i =>
    let r := (table.drop i).foldl (get_cover_info_step aliases merge_km)
      (false, { stringency := 33, set_to_zero := 0, set_to_one := 0 })
    some { covers := r.1, set_to_zero := r.2.set_to_zero, set_to_one := r.2.set_to_one }

/-- The indices of the merged entries whose keymask satisfies `f`. -/
def find_removes (table : Table) (merge : Merge) (f : KeyMask → Bool) : List Nat :=
  (table.enum.filter (fun je => merge.test je.1 && f je.2.keymask)).map (fun je => je.1)

/-- The test used for a bit that may be set to zero. -/
def blocks_zero (bit : Nat) (km : KeyMask) : Bool :=
  (not32 km.mask &&& bit) != 0 || (km.key &&& bit) != 0

/-- The test used for a bit that may be set to one. -/
def blocks_one (bit : Nat) (km : KeyMask) : Bool :=
  (not32 km.key &&& bit) != 0

/-- The replacement rule for `best_removes` in the bit loop of the downcheck. -/
def better_removes (best_removes new_removes : List Nat) : List Nat :=
  if (best_removes.length == 0 || decide (new_removes.length < best_removes.length)) &&
      new_removes.length != 0 then new_removes
  else best_removes

/-- One iteration of the bit loop of the downcheck, for bit number `k`. -/
def best_removes_step (table : Table) (merge : Merge) (info : CoverInfo)
    (best_removes : List Nat) (k : Nat) : List Nat :=
  let bit := 1 <<< k
  if best_removes.length == 1 then best_removes
  else
    let best1 :=
      if (bit &&& info.set_to_zero) != 0 then
        better_removes best_removes (find_removes table merge (blocks_zero bit))
      else best_removes
    if (bit &&& info.set_to_one) != 0 then
      better_removes best1 (find_removes table merge (blocks_one bit))
    else best1

/-- The bit loop of the downcheck, from bit 31 down to bit 0. -/
def find_best_removes (table : Table) (merge : Merge) (info : CoverInfo) : List Nat :=
  ((List.range 32).reverse).foldl (best_removes_step table merge info) []

/-- The clearing of the flags `merge[i]` for every `i` in the list. -/
def merge_remove (merge : Merge) (removes : List Nat) : Merge :=
  removes.foldl (fun m i => m.set i false) merge

/-- The loop of `refine_merge_downcheck`; the result is the merge and `removed`. -/
def refine_merge_downcheck_loop (table : Table) (aliases : Aliases) (min_goodness : Int) :
    Nat → Merge → Int → Int → Option (Merge × Int)
  | 0, _, _, _ => none
  | fuel + 1, merge, removed, goodness =>
    if goodness > min_goodness then
      match get_cover_info table aliases merge with
      | none => none
      | some info =>
        if !info.covers then some (merge, removed)
        else if info.set_to_one == 0 && info.set_to_zero == 0 then
          refine_merge_downcheck_loop table aliases min_goodness fuel
            (merge_clear merge) (removed + (goodness + 1)) 0
        else
          let best_removes := find_best_removes table merge info
          let merge1 := merge_remove merge best_removes
          let removed1 := removed + best_removes.length
          let goodness1 := goodness - best_removes.length
          if goodness1 == 0 then
            refine_merge_downcheck_loop table aliases min_goodness fuel
              (merge_clear merge1) (removed1 + 1) goodness1
          else
            refine_merge_downcheck_loop table aliases min_goodness fuel
              merge1 removed1 goodness1
    else some (merge, removed)

/-- Prune a merge so that no entry below its insertion point is covered by the
new entry.  The result is the pruned merge and the number of pruned entries. -/
def refine_merge_downcheck (fuel : Nat) (table : Table) (aliases : Aliases) (merge : Merge)
    (min_goodness : Int) : Option (Merge × Int) :=
  refine_merge_downcheck_loop table aliases min_goodness fuel merge 0 (merge_goodness merge)

/-! ### Avoid being covered by merging -/

/-- The variables of the loop of `refine_merge_upcheck`. -/
structure UpState where
  merge : Merge
  removed : Int
  goodness : Int
  insertion_point : Nat
deriving DecidableEq

/-- One iteration of the outer loop of `refine_merge_upcheck`, at entry `index`. -/
def refine_merge_upcheck_step (table : Table) (min_goodness : Int)
    (st : UpState) (index : Nat) : Option UpState :=
  if st.goodness > min_goodness then
    if st.merge.test index then
      match table.get? index with
      | none => none
      | some entry =>
        if (List.range' (index + 1) (st.insertion_point - (index + 1))).any
            (fun j => match table.get? j with
              | none => false
              | some other => entry.keymask.intersect other.keymask) then
          let merge1 := st.merge.set index false
          match get_insertion_index_merge table merge1 with
          | none => none
          | some ip =>
            some { merge := merge1, removed := st.removed + 1, goodness := st.goodness - 1,
                   insertion_point := ip }
        else some st
    else some st
  else some st

/-- The outer loop of `refine_merge_upcheck` over the remaining entries. -/
def refine_merge_upcheck_loop (table : Table) (min_goodness : Int) :
    List Nat → UpState → Option UpState
  | [], st => some st
  | index :: rest, st =>
    match refine_merge_upcheck_step table min_goodness st index with
    | none => none
    | some st1 => refine_merge_upcheck_loop table min_goodness rest st1

/-- Prune a merge so that no merged entry is covered by an entry above the
insertion point.  The result is the pruned merge and the number of pruned entries. -/
def refine_merge_upcheck (table : Table) (merge : Merge) (min_goodness : Int) :
    Option (Merge × Int) :=
  match get_insertion_index_merge table merge with
  | none => none
  | some ip =>
    match refine_merge_upcheck_loop table min_goodness (List.range table.length).reverse
        { merge := merge, removed := 0, goodness := merge_goodness merge,
          insertion_point := ip } with
    | none => none
    | some st =>
      if st.goodness ≤ min_goodness then some (merge_clear st.merge, st.removed + st.goodness)
      else some (st.merge, st.removed)

/-! ### Get best merge -/

/-- The variables of the outer loop of `get_best_merge`. -/
structure BestState where
  best_merge : Merge
  best_goodness : Int
  considered : List Bool
deriving DecidableEq

/-- The variables of the inner loop of `get_best_merge`. -/
structure GroupState where
  current_merge : Merge
  considered : List Bool
  current_goodness : Int
deriving DecidableEq

/-- One iteration of the inner loop of `get_best_merge`. -/
def get_best_merge_group_step (entry : Entry) (st : GroupState) (other : Nat × Entry) :
    GroupState :=
  if other.2.route == entry.route then
    { current_merge := st.current_merge.set other.1 true
      considered := st.considered.set other.1 true
      current_goodness := st.current_goodness + 1 }
  else st

/-- The validation of a candidate merge against the best goodness so far: the
result is the refined merge and its goodness, when it is still better. -/
def get_best_merge_refine (fuel : Nat) (table : Table) (aliases : Aliases)
    (current_merge : Merge) (current_goodness best_goodness : Int) :
    Option (Option (Merge × Int)) :=
  match refine_merge_downcheck fuel table aliases current_merge best_goodness with
  | none => none
  | some (merge1, removed1) =>
    let goodness1 := current_goodness - removed1
    if goodness1 > best_goodness then
      match refine_merge_upcheck table merge1 best_goodness with
      | none => none
      | some (merge2, removed) =>
        let goodness2 := goodness1 - removed
        if removed != 0 && decide (goodness2 > best_goodness) then
          match refine_merge_downcheck fuel table aliases merge2 best_goodness with
          | none => none
          | some (merge3, removed3) =>
            let goodness3 := goodness2 - removed3
            if goodness3 > best_goodness then some (some (merge3, goodness3)) else some none
        else
          if goodness2 > best_goodness then some (some (merge2, goodness2)) else some none
    else some none

/-- One iteration of the outer loop of `get_best_merge`. -/
def get_best_merge_step (fuel : Nat) (table : Table) (aliases : Aliases)
    (st : BestState) (ie : Nat × Entry) : Option BestState :=
  if st.considered.getD ie.1 false then some st
  else
    let considered1 := st.considered.set ie.1 true
    let group := (table.enum.drop (ie.1 + 1)).foldl (get_best_merge_group_step ie.2)
      { current_merge := (List.replicate table.length false).set ie.1 true
        considered := considered1
        current_goodness := 0 }
    if group.current_goodness > st.best_goodness then
      match get_best_merge_refine fuel table aliases group.current_merge
          group.current_goodness st.best_goodness with
      | none => none
      | some none => some { st with considered := group.considered }
      | some (some (merge, goodness)) =>
        some { best_merge := merge, best_goodness := goodness, considered := group.considered }
    else some { st with considered := group.considered }

/-- The outer loop of `get_best_merge` over the remaining entries. -/
def get_best_merge_loop (fuel : Nat) (table : Table) (aliases : Aliases) :
    List (Nat × Entry) → BestState → Option BestState
  | [], st => some st
  | ie :: rest, st =>
    match get_best_merge_step fuel table aliases st ie with
    | none => none
    | some st1 => get_best_merge_loop fuel table aliases rest st1

/-- The best merge (greedy) in a routing table.  The downchecks run with `fuel`. -/
def get_best_merge (fuel : Nat) (table : Table) (aliases : Aliases) : Option Merge :=
  match get_best_merge_loop fuel table aliases table.enum
      { best_merge := List.replicate table.length false
        best_goodness := 0
        considered := List.replicate table.length false } with
  | none => none
  | some st => some st.best_merge

/-! ### minimise -/

/-- The loop of `minimise`: at most `steps` iterations, each downcheck with `fuel`. -/
def minimise_loop (fuel : Nat) (target_length : Nat) :
    Nat → Table → Aliases → Option (Table × Aliases)
  | 0, _, _ => none
  | steps + 1, table, aliases =>
    if table.length > target_length then
      match get_best_merge fuel table aliases with
      | none => none
      | some merge =>
        if merge_goodness merge < 1 then some (table, aliases)
        else
          match merge_apply table aliases merge with
          | none => none
          | some (table1, aliases1) => minimise_loop fuel target_length steps table1 aliases1
    else some (table, aliases)

/-- Minimise a table with a given alias table. -/
def minimise_aliases (fuel : Nat) (table : Table) (target_length : Nat) (aliases : Aliases) :
    Option (Table × Aliases) :=
  minimise_loop fuel target_length fuel table aliases

/-- Minimise a table, starting from an empty alias table that is discarded. -/
def minimise (fuel : Nat) (table : Table) (target_length : Nat) : Option Table :=
  match minimise_aliases fuel table target_length [] with
  | none => none
  | some (table1, _) => some table1

end OrderedCovering

/-! ## Vocabulary of the properties -/

namespace RoutingTable

/-- The key `k` is matched by the keymask: `k & mask == key & mask`. -/
def KeyMask.matches_key (km : KeyMask) (k : Nat) : Bool :=
  (k &&& km.mask) == (km.key &&& km.mask)

/-- The fields of the keymask are 32-bit values. -/
def KeyMask.is32 (km : KeyMask) : Prop := km.key < 2 ^ 32 ∧ km.mask < 2 ^ 32

instance (km : KeyMask) : Decidable km.is32 := by
  unfold KeyMask.is32
  infer_instance

/-- The keymask is normalised: `key & ~mask == 0`. -/
def KeyMask.normalised (km : KeyMask) : Prop := km.key &&& not32 km.mask = 0

instance (km : KeyMask) : Decidable km.normalised := by
  unfold KeyMask.normalised
  infer_instance

end RoutingTable

namespace OrderedCovering

open RoutingTable

/-- The table entries selected by a merge, in table order. -/
def selected (table : Table) (merge : Merge) : List Entry :=
  (table.enum.filter (fun ie => merge.test ie.1)).map (fun ie => ie.2)

/-- The body of the loop of `merge_entries` for a selected entry. -/
def include_entry (acc : MergeAcc) (e : Entry) : MergeAcc :=
  { any_ones := acc.any_ones ||| e.keymask.key
    all_ones := acc.all_ones &&& e.keymask.key
    all_sels := acc.all_sels &&& e.keymask.mask
    sources := acc.sources ||| e.source
    routes := acc.routes ||| e.route }

/-- Invariant I1: generalities are non-decreasing along the table. -/
def generality_sorted (table : Table) : Prop :=
  table.Pairwise (fun a b => a.keymask.count_xs ≤ b.keymask.count_xs)

instance (table : Table) : Decidable (generality_sorted table) := by
  unfold generality_sorted
  infer_instance

/-- The index `i` is the first one that is past the end of the table or holds an
entry of generality greater than `g`, and an entry of generality `g` put there
keeps the table sorted. -/
def IsInsertionIndex (table : Table) (g : Nat) (i : Nat) : Prop :=
  i ≤ table.length ∧
  (∀ j a, j < i → table[j]? = some a → a.keymask.count_xs ≤ g) ∧
  (∀ a, table[i]? = some a → g < a.keymask.count_xs) ∧
  (∀ e : Entry, e.keymask.count_xs = g →
    generality_sorted (table.take i ++ e :: table.drop i))

/-- The reference description of the merged entry: the sources and routes are
ORed, the zero bits of the mask are exactly the bits that are zero in a selected
mask or on which two selected keys disagree, and the key is the AND of the
selected keys under that mask. -/
def MergeEntriesReference (table : Table) (merge : Merge) (r : Entry) : Prop :=
  r.source = (selected table merge).foldl (fun s e => s ||| e.source) 0 ∧
  r.route = (selected table merge).foldl (fun s e => s ||| e.route) 0 ∧
  r.keymask.mask < 2 ^ 32 ∧
  (∀ i, i < 32 → (r.keymask.mask.testBit i = false ↔
    ((∃ e ∈ selected table merge, e.keymask.mask.testBit i = false) ∨
      (∃ e1 ∈ selected table merge, ∃ e2 ∈ selected table merge,
        e1.keymask.key.testBit i ≠ e2.keymask.key.testBit i)))) ∧
  r.keymask.key =
    (selected table merge).foldl (fun a e => a &&& e.keymask.key) 0xffffffff &&& r.keymask.mask

/-- Every keymask stored in the alias map, as a key or as an alias, is 32-bit. -/
def aliases_is32 (aliases : Aliases) : Prop :=
  ∀ p ∈ aliases, p.1.is32 ∧ ∀ a ∈ p.2, a.is32

instance (aliases : Aliases) : Decidable (aliases_is32 aliases) := by
  unfold aliases_is32
  infer_instance

/-- Every keymask of the table is 32-bit. -/
def table_is32 (table : Table) : Prop := ∀ e ∈ table, e.keymask.is32

instance (table : Table) : Decidable (table_is32 table) := by
  unfold table_is32
  infer_instance

/-- The set that `aliases[k]` refers to before an insertion: the walk done by
`aliases_insert` stops at the first key that is not less than `k`. -/
def aliases_slot (k : KeyMask) : Aliases → Option KeyMaskSet
  | [] => none
  | (k1, s) :: rest =>
    if k.lt k1 then none
    else if k1.lt k then aliases_slot k rest
    else some s

/-- The alias updates of `merge_apply` for the removed keymasks, in order. -/
def migrate (merge_km : KeyMask) (removed : List KeyMask) (aliases : Aliases) : Aliases :=
  removed.foldl (fun al km => merge_apply_aliases al merge_km km) aliases

/-- The aliases that a removed keymask `p` hands over are in the set `s`: the old
aliases of `p` when `p` was a key of `aliases`, and `p` itself otherwise. -/
def alias_contribution (aliases : Aliases) (p : KeyMask) (s : KeyMaskSet) : Prop :=
  match aliases_find p aliases with
  | some old => ∀ a ∈ old, a ∈ s
  | none => p ∈ s

/-- The state of the alias map `al` after the keymasks `ps` have been removed
from a table whose alias map was `aliases`, the merged keymask being `m`. -/
def MigrationInv (aliases : Aliases) (m : KeyMask) (ps : List KeyMask) (al : Aliases) : Prop :=
  (∀ k : KeyMask, k.equiv m = false →
    aliases_find k al =
      if ps.any (fun p => p.equiv k) then none else aliases_find k aliases) ∧
  (ps ≠ [] → ∃ s, aliases_find m al = some s ∧ aliases_slot m al = some s ∧
    ∀ p ∈ ps, alias_contribution aliases p s) ∧
  (∀ q ∈ al, ∀ a ∈ q.2, a.is32)

/-- Alias migration: the set of the merged keymask in `aliases1` contains, for
every selected entry with keymask `K`, the old aliases of `K` when `K` was a key
of `aliases` and `K` itself otherwise, and no selected `K` that was a key of
`aliases` is a key of `aliases1`. -/
def AliasMigration (table : Table) (aliases : Aliases) (merge : Merge) (aliases1 : Aliases) :
    Prop :=
  ∀ e ∈ selected table merge,
    (∃ s, aliases_find (merge_entries table merge).keymask aliases1 = some s ∧
      alias_contribution aliases e.keymask s) ∧
    (aliases_count aliases e.keymask = true → aliases_count aliases1 e.keymask = false)

/-- What one position of the read cursor contributes to the rewritten table. -/
def emit (merge_entry : Entry) (insertion_point : Nat) (merge : Merge) (ie : Nat × Entry) :
    List Entry :=
  (if ie.1 = insertion_point then [merge_entry] else []) ++
    (if merge.test ie.1 then [] else [ie.2])

/-- The alias update made for one position of the read cursor. -/
def alias_step (merge_km : KeyMask) (merge : Merge) (aliases : Aliases) (ie : Nat × Entry) :
    Aliases :=
  if merge.test ie.1 then merge_apply_aliases aliases merge_km ie.2.keymask else aliases

/-- The entries of an enumerated segment that are not part of the merge. -/
def kept (merge : Merge) (l : List (Nat × Entry)) : List Entry :=
  (l.filter (fun ie => !merge.test ie.1)).map (fun ie => ie.2)

/-- The pure reference of `merge_apply`: the unselected entries at indices below
`ip`, then the merged entry, then the entries at indices from `ip` on. -/
def merge_apply_reference (table : Table) (merge : Merge) (ip : Nat) : Table :=
  kept merge (table.take ip).enum ++ [merge_entries table merge] ++ table.drop ip

/-- Alias well-formedness (P3): every key of the alias map is the keymask of
some table entry and every value-set is non-empty. -/
def AliasesWellFormed (table : Table) (aliases : Aliases) : Prop :=
  (∀ p ∈ aliases, ∃ e ∈ table, e.keymask = p.1) ∧ (∀ p ∈ aliases, p.2 ≠ [])

instance (table : Table) (aliases : Aliases) : Decidable (AliasesWellFormed table aliases) := by
  unfold AliasesWellFormed
  infer_instance

/-- The state of the alias map `al` after the keymasks `ps` have been removed:
every set is non-empty and every key is the merged keymask `m` or a key of
`aliases` that is equivalent to none of the removed keymasks. -/
def WellFormedInv (aliases : Aliases) (m : KeyMask) (ps : List KeyMask) (al : Aliases) : Prop :=
  ∀ q ∈ al, q.2 ≠ [] ∧
    (q.1 = m ∨ ((∃ q0 ∈ aliases, q0.1 = q.1) ∧ ∀ p ∈ ps, p.equiv q.1 = false))

/-- A table in which the second entry `000...0X` covers the first entry
`000...00`. -/
def covering_table : Table :=
  [ { keymask := { key := 0, mask := 0xffffffff }, source := 1, route := 1 },
    { keymask := { key := 0, mask := 0xfffffffe }, source := 2, route := 1 } ]

/-- The table of the alias update test: `1111`, `000X` and `001X`. -/
def alias_table : Table :=
  [ { keymask := { key := 0xf, mask := 0xf }, source := 4, route := 32 },
    { keymask := { key := 0, mask := 0xe }, source := 1, route := 4 },
    { keymask := { key := 2, mask := 0xe }, source := 8, route := 4 } ]

/-- The alias map of the alias update test. -/
def alias_table_aliases : Aliases :=
  [ ({ key := 0, mask := 0xe }, [{ key := 0, mask := 0xf }, { key := 1, mask := 0xf }]),
    ({ key := 2, mask := 0xe }, [{ key := 2, mask := 0xf }, { key := 3, mask := 0xf }]) ]

/-- The merge `m1` has the length of `m2` and selects only entries that `m2`
selects. -/
def merge_subset (m1 m2 : Merge) : Prop :=
  m1.length = m2.length ∧ ∀ i, m1.test i = true → m2.test i = true

/-- The upcheck property for the entries at the indices in `done`: no selected
entry there intersects an entry between it and the insertion point `ip`. -/
def upcheck_ok (table : Table) (merge : Merge) (ip : Nat) (done : List Nat) : Prop :=
  ∀ i ∈ done, ∀ e, table[i]? = some e → merge.test i = true →
    ∀ j o, i < j → j < ip → table[j]? = some o → e.keymask.intersect o.keymask = false

/-- The invariant of the loop of `refine_merge_upcheck` for a merge `m0` of
goodness `g0`, once the entries at the indices in `done` have been visited. -/
def UpInv (table : Table) (min_goodness : Int) (m0 : Merge) (g0 : Int) (st : UpState)
    (done : List Nat) : Prop :=
  get_insertion_index_merge table st.merge = some st.insertion_point ∧
  merge_goodness st.merge = st.goodness ∧
  st.goodness = g0 - st.removed ∧
  0 ≤ st.removed ∧
  (st.removed = 0 → st.merge = m0) ∧
  (st.goodness > min_goodness → selected table st.merge ≠ [] →
    upcheck_ok table st.merge st.insertion_point done)

/-- The cover information of the merge says that nothing is covered. -/
def cover_free (table : Table) (aliases : Aliases) (merge : Merge) : Prop :=
  ∃ info, get_cover_info table aliases merge = some info ∧ info.covers = false

/-- The entry `e` is not covered by the keymask `km`: they do not intersect, or
`e` has aliases and none of them intersects `km`. -/
def not_covered (aliases : Aliases) (km : KeyMask) (e : Entry) : Prop :=
  km.intersect e.keymask = false ∨
    ∃ s, aliases_find e.keymask aliases = some s ∧ ∀ a ∈ s, a.intersect km = false

/-- The downcheck property: no entry at or after the insertion point of the
merge is covered by the merged keymask. -/
def downcheck_ok (table : Table) (aliases : Aliases) (merge : Merge) : Prop :=
  ∃ ip, get_insertion_index_entry table (merge_entries table merge) = some ip ∧
    ∀ e ∈ table.drop ip, not_covered aliases (merge_entries table merge).keymask e

/-- The merge is valid for the table and alias map: it has one flag per entry,
its selected entries share one route, and it passes the downcheck and the
upcheck. -/
def valid_merge (table : Table) (aliases : Aliases) (merge : Merge) : Prop :=
  merge.length = table.length ∧
  (∃ r, ∀ e ∈ selected table merge, e.route = r) ∧
  downcheck_ok table aliases merge ∧
  ∃ ip, get_insertion_index_merge table merge = some ip ∧
    (selected table merge ≠ [] → upcheck_ok table merge ip (List.range table.length))

/-- The invariant of the inner loop of `get_best_merge` for the route `r`, when
the entries below index `n` have been visited. -/
def GroupInv (table : Table) (r : Nat) (n : Nat) (st : GroupState) : Prop :=
  st.current_merge.length = table.length ∧
  (∀ j, n ≤ j → st.current_merge.test j = false) ∧
  merge_goodness st.current_merge = st.current_goodness ∧
  (∀ j, st.current_merge.test j = true → ∃ e, table[j]? = some e ∧ e.route = r)

/-- The invariant of the outer loop of `get_best_merge`. -/
def BestInv (table : Table) (aliases : Aliases) (st : BestState) : Prop :=
  0 ≤ st.best_goodness ∧
  (st.best_merge = List.replicate table.length false ∨ valid_merge table aliases st.best_merge)

/-- The table of the full minimisation test: eight entries with four-bit keys. -/
def full_table : Table :=
  [ { keymask := { key := 0x0, mask := 0xf }, source := 0, route := 6 },
    { keymask := { key := 0x1, mask := 0xf }, source := 0, route := 1 },
    { keymask := { key := 0x5, mask := 0xf }, source := 0, route := 16 },
    { keymask := { key := 0x8, mask := 0xf }, source := 0, route := 6 },
    { keymask := { key := 0x9, mask := 0xf }, source := 0, route := 1 },
    { keymask := { key := 0xe, mask := 0xf }, source := 0, route := 16 },
    { keymask := { key := 0xc, mask := 0xf }, source := 0, route := 6 },
    { keymask := { key := 0x4, mask := 0xf }, source := 0, route := 48 } ]

/-- The table expected by the full minimisation test: `0100`, `X001`, `XX00`
and `X1XX`. -/
def full_table_minimised : Table :=
  [ { keymask := { key := 0x4, mask := 0xf }, source := 0, route := 48 },
    { keymask := { key := 0x1, mask := 0x7 }, source := 0, route := 1 },
    { keymask := { key := 0x0, mask := 0x3 }, source := 0, route := 6 },
    { keymask := { key := 0x4, mask := 0x4 }, source := 0, route := 16 } ]

/-- The first-match rule of the router: the entry of lowest index whose keymask
matches the key. -/
def first_match (table : Table) (k : Nat) : Option Entry :=
  table.find? (fun e => e.keymask.matches_key k)

/-- The original entry `o` is represented in the table (P4, first half): some
entry has all route bits and all source bits of `o` and has the keymask of `o`
or holds it as an alias. -/
def represented (aliases : Aliases) (table : Table) (o : Entry) : Prop :=
  ∃ E ∈ table, E.route &&& o.route = o.route ∧ E.source &&& o.source = o.source ∧
    (E.keymask = o.keymask ∨ ∃ s, aliases_find E.keymask aliases = some s ∧ o.keymask ∈ s)

/-- The original entry `o` is represented by an entry that has its keymask and
no aliases, or by an entry that holds its keymask as an alias. -/
def represented_strong (aliases : Aliases) (table : Table) (o : Entry) : Prop :=
  ∃ E ∈ table, E.route &&& o.route = o.route ∧ E.source &&& o.source = o.source ∧
    ((E.keymask = o.keymask ∧ aliases_find E.keymask aliases = none) ∨
      ∃ s, aliases_find E.keymask aliases = some s ∧ o.keymask ∈ s)

/-- The invariant of the driver loop that relates the current table and alias
map to the original table `orig`. -/
def SemInv (orig table : Table) (aliases : Aliases) : Prop :=
  generality_sorted table ∧
  (∀ e ∈ table, e.keymask.is32 ∧ e.keymask.normalised) ∧
  (∀ q ∈ aliases, ∀ a ∈ q.2, a.is32 ∧ a.normalised) ∧
  (∀ o ∈ orig, represented_strong aliases table o) ∧
  (∀ k o, first_match orig k = some o →
    ∃ E, first_match table k = some E ∧ E.route = o.route ∧
      ∀ s, aliases_find E.keymask aliases = some s → ∃ a ∈ s, a.matches_key k = true) ∧
  (∀ e ∈ table, (aliases_find e.keymask aliases).isSome = true →
    table.countP (fun x => decide (x.keymask = e.keymask)) ≤ 1)

/-- Every keymask of the table is normalised. -/
def table_normalised (table : Table) : Prop := ∀ e ∈ table, e.keymask.normalised

instance (table : Table) : Decidable (table_normalised table) := by
  unfold table_normalised
  infer_instance

/-- Semantic preservation (P4, second half): every key that matches an entry of
`orig` is sent by first match on `result` to the route it is sent to by first
match on `orig`. -/
def routes_preserved (orig result : Table) : Prop :=
  ∀ k : Nat, (∃ e ∈ orig, e.keymask.matches_key k = true) →
    ∃ o E, first_match orig k = some o ∧ first_match result k = some E ∧ E.route = o.route

/-- The alias map left by the full minimisation test. -/
def full_table_aliases : Aliases :=
  [ ({ key := 0x0, mask := 0x3 },
      [{ key := 0x0, mask := 0xf }, { key := 0x8, mask := 0xf }, { key := 0xc, mask := 0xf }]),
    ({ key := 0x1, mask := 0x7 }, [{ key := 0x1, mask := 0xf }, { key := 0x9, mask := 0xf }]),
    ({ key := 0x4, mask := 0x4 }, [{ key := 0x5, mask := 0xf }, { key := 0xe, mask := 0xf }]) ]

/-- The table of the insertion index test: one entry of generality 30 followed
by four of generality 31. -/
def insertion_table : Table :=
  [ { keymask := { key := 0, mask := 3 }, source := 0, route := 0 },
    { keymask := { key := 0, mask := 1 }, source := 0, route := 0 },
    { keymask := { key := 1, mask := 1 }, source := 0, route := 0 },
    { keymask := { key := 0, mask := 2 }, source := 0, route := 0 },
    { keymask := { key := 2, mask := 2 }, source := 0, route := 0 } ]

/-- The table of the merge synthesis test. -/
def synthesis_table : Table :=
  [ { keymask := { key := 0, mask := 0xffffffff }, source := 1, route := 1 },
    { keymask := { key := 1, mask := 0xffffffff }, source := 2, route := 2 },
    { keymask := { key := 3, mask := 0xffffffff }, source := 4, route := 1 } ]

/-- The table of the mid-table merge application test: `0000`, `0001` and
`1111` followed by `XXXX`. -/
def mid_table : Table :=
  [ { keymask := { key := 0, mask := 0xf }, source := 1, route := 4 },
    { keymask := { key := 1, mask := 0xf }, source := 8, route := 4 },
    { keymask := { key := 0xf, mask := 0xf }, source := 4, route := 32 },
    { keymask := { key := 0, mask := 0 }, source := 4, route := 1 } ]

end OrderedCovering

/-! ## Vocabulary of the driver, the checks and the key algebra -/

namespace OrderedCovering

open RoutingTable

/-- The number of set flags of a merge. -/
def merge_popcount (merge : Merge) : Nat := merge.countP (fun b => b)

/-- The loop of `minimise` with a record of its iterations: the same control flow
as `minimise_loop`, and for every call of `merge_apply` the table it was applied
to, the merge and the table it left, in order. -/
def minimise_history (fuel : Nat) (target_length : Nat) :
    Nat → Table → Aliases → Option (List (Table × Merge × Table) × Table × Aliases)
  | 0, _, _ => none
  | steps + 1, table, aliases =>
    if table.length > target_length then
      match get_best_merge fuel table aliases with
      | none => none
      | some merge =>
        if merge_goodness merge < 1 then some ([], table, aliases)
        else
          match merge_apply table aliases merge with
          | none => none
          | some (table1, aliases1) =>
            match minimise_history fuel target_length steps table1 aliases1 with
            | none => none
            | some (history, r) => some ((table, merge, table1) :: history, r)
    else some ([], table, aliases)

/-- The shape of a merge held by `get_best_merge`: the empty merge, or a merge
with one flag per entry that selects at least two entries of one route. -/
def merge_shape (table : Table) (merge : Merge) : Prop :=
  merge = List.replicate table.length false ∨
    (merge.length = table.length ∧ (∃ r, ∀ e ∈ selected table merge, e.route = r) ∧
      1 ≤ merge_goodness merge)

/-- The table of the downcheck test in which one entry has to leave the merge:
`0001`, `1000` and `1001` followed by `0XXX`. -/
def downcheck_table : Table :=
  [ { keymask := { key := 0x1, mask := 0xf }, source := 2, route := 1 },
    { keymask := { key := 0x8, mask := 0xf }, source := 2, route := 1 },
    { keymask := { key := 0x9, mask := 0xf }, source := 2, route := 1 },
    { keymask := { key := 0x0, mask := 0x8 }, source := 1, route := 4 } ]

/-- The table of the upcheck test: `1101`, `1011`, `1001`, `0001` and `0000`
followed by `1XX1`. -/
def upcheck_table : Table :=
  [ { keymask := { key := 0xd, mask := 0xf }, source := 2, route := 8 },
    { keymask := { key := 0xb, mask := 0xf }, source := 2, route := 8 },
    { keymask := { key := 0x9, mask := 0xf }, source := 2, route := 8 },
    { keymask := { key := 0x1, mask := 0xf }, source := 2, route := 8 },
    { keymask := { key := 0x0, mask := 0xf }, source := 2, route := 8 },
    { keymask := { key := 0x9, mask := 0x9 }, source := 2, route := 4 } ]

end OrderedCovering

/-! ## Default routes -/

namespace DefaultRoutes

open RoutingTable

/-- The source mask with its two halves of three link bits exchanged. -/
def opposite_source (source : Nat) : Nat :=
  (((source <<< 3) % 2 ^ 32) &&& 0x38) ||| ((source >>> 3) &&& 0x7)

/-- The number of link bits (bits 0 to 5) set in `x`. -/
def count_links (x : Nat) : Nat :=
  (List.range 6).countP (fun i => (x &&& (1 <<< i)) != 0)

/-- The body of `defaultable` for the entry read at index `i`. -/
def defaultable_entry (table : Table) (i : Nat) (entry : Entry) : Bool :=
  if (entry.source &&& 0xffffffc0) != 0 || (entry.route &&& 0xffffffc0) != 0 then false
  else if opposite_source entry.source != entry.route then false
  else if count_links entry.source != 1 || count_links entry.route != 1 then false
  else !((table.drop (i + 1)).any (fun other => other.keymask.intersect entry.keymask))

/-- Whether the entry at index `i` may be replaced by default routing. -/
def defaultable (table : Table) (i : Nat) : Option Bool :=
  match table.get? i with
  | none => none
  | some entry => some (defaultable_entry table i entry)

/-- The variables of the loop of `minimise`. -/
structure MinState where
  table : Table
  insert : Nat
  final_size : Nat
deriving DecidableEq

/-- One iteration of the loop of `minimise`, with the read cursor at `remove`. -/
def minimise_step (st : MinState) (remove : Nat) : Option MinState :=
  match defaultable st.table remove with
  | none => none
  | some d =>
    if !d then
      match st.table.get? remove with
      | none => none
      | some e =>
        match OrderedCovering.write st.table st.insert e with
        | none => none
        | some table1 => some { st with table := table1, insert := st.insert + 1 }
    else some { st with final_size := st.final_size - 1 }

/-- The loop of `minimise` over the remaining positions of the read cursor. -/
def minimise_loop : List Nat → MinState → Option MinState
  | [], st => some st
  | remove :: rest, st =>
    match minimise_step st remove with
    | none => none
    | some st1 => minimise_loop rest st1

/-- Remove the entries that default routing handles, compacting in place. -/
def minimise (table : Table) : Option Table :=
  match minimise_loop (List.range table.length)
      { table := table, insert := 0, final_size := table.length } with
  | none => none
  | some st => some (OrderedCovering.resize st.table st.final_size)

/-- The pure filter: the entries that are not defaultable in the table as given,
in their order. -/
def minimise_reference (table : Table) : Table :=
  (table.enum.filter (fun ie => !defaultable_entry table ie.1 ie.2)).map (fun ie => ie.2)

/-- The table of the orthogonal default routes test. -/
def orthogonal_table : Table :=
  [ { keymask := { key := 0x0, mask := 0xf }, source := 0b0000100, route := 0b0100000 },
    { keymask := { key := 0x1, mask := 0xf }, source := 0b0000100, route := 0b0000100 },
    { keymask := { key := 0x2, mask := 0xf }, source := 0b0000100, route := 0b1000000 },
    { keymask := { key := 0x3, mask := 0xf }, source := 0b0100100, route := 0b0100100 },
    { keymask := { key := 0x4, mask := 0xf }, source := 0b1000000, route := 0b1000000 } ]

/-- The table of the non-orthogonal default routes test. -/
def nonorthogonal_table : Table :=
  [ { keymask := { key := 0x8, mask := 0xf }, source := 0b0000100, route := 0b0100000 },
    { keymask := { key := 0x0, mask := 0xf }, source := 0b0000100, route := 0b0100000 },
    { keymask := { key := 0x0, mask := 0x8 }, source := 0b0000100, route := 0b1000000 } ]

end DefaultRoutes

/-! ## Vocabulary of the best-merge search and of the removal sets -/

namespace OrderedCovering

open RoutingTable

/-- The merge that selects exactly the entries of route `r`. -/
def route_group (table : Table) (r : Nat) : Merge := table.map (fun e => e.route == r)

/-- The number of entries of route `r`. -/
def group_size (table : Table) (r : Nat) : Nat := table.countP (fun e => e.route == r)

/-- The merge `m` is the greedy choice among the groups of entries of equal
route: the empty merge when no group has two entries, and otherwise the whole
group of the first entry whose group has the largest size. -/
def IsGreedyChoice (table : Table) (m : Merge) : Prop :=
  ((∀ e ∈ table, group_size table e.route ≤ 1) ∧ m = List.replicate table.length false) ∨
  ∃ (i : Nat) (e : Entry), table[i]? = some e ∧ 2 ≤ group_size table e.route ∧
    m = route_group table e.route ∧
    (∀ o ∈ table, group_size table o.route ≤ group_size table e.route) ∧
    ∀ (j : Nat) (o : Entry), j < i → table[j]? = some o →
      group_size table o.route < group_size table e.route

/-- All entries of the table have the same generality. -/
def same_generality (table : Table) : Prop :=
  ∀ a ∈ table, ∀ b ∈ table, a.keymask.count_xs = b.keymask.count_xs

instance (table : Table) : Decidable (same_generality table) := by
  unfold same_generality
  infer_instance

/-- The keymasks of entries at different indices do not intersect. -/
def pairwise_disjoint (table : Table) : Prop :=
  ∀ (i j : Nat) (a b : Entry), i ≠ j → table[i]? = some a → table[j]? = some b →
    a.keymask.intersect b.keymask = false

/-- The inner loop of `get_best_merge` for the entry at index `i`, started with
the flags `considered1`, once the entries below index `n` have been visited: the
merge selects `i` and the later visited entries of the route `r`, and these are
the flags added to `considered1`. -/
def GroupExact (table : Table) (i : Nat) (r : Nat) (considered1 : List Bool) (n : Nat)
    (st : GroupState) : Prop :=
  st.current_merge.length = table.length ∧ st.considered.length = considered1.length ∧
  (∀ (j : Nat) (o : Entry), table[j]? = some o →
    st.current_merge.test j =
      (decide (j = i) || (decide (i < j) && decide (j < n) && (o.route == r)))) ∧
  ∀ (j : Nat) (o : Entry), table[j]? = some o →
    Merge.test st.considered j =
      (Merge.test considered1 j || (decide (i < j) && decide (j < n) && (o.route == r)))

/-- The outer loop of `get_best_merge` on a table on which nothing is pruned,
once the entries below index `n` have been visited: an entry is considered
exactly when an entry of its route was visited, and the best merge is the
greedy choice among the groups of the visited entries. -/
def GreedyInv (table : Table) (n : Nat) (st : BestState) : Prop :=
  st.considered.length = table.length ∧
  (∀ (j : Nat) (o : Entry), table[j]? = some o →
    (Merge.test st.considered j = true ↔
      ∃ (k : Nat) (a : Entry), k < n ∧ table[k]? = some a ∧ a.route = o.route)) ∧
  0 ≤ st.best_goodness ∧
  (∀ (k : Nat) (a : Entry), k < n → table[k]? = some a →
    (group_size table a.route : Int) - 1 ≤ st.best_goodness) ∧
  ((st.best_goodness = 0 ∧ st.best_merge = List.replicate table.length false) ∨
    ∃ (k : Nat) (a : Entry), k < n ∧ table[k]? = some a ∧
      st.best_goodness = (group_size table a.route : Int) - 1 ∧ 1 ≤ st.best_goodness ∧
      st.best_merge = route_group table a.route ∧
      ∀ (j : Nat) (o : Entry), j < k → table[j]? = some o →
        group_size table o.route < group_size table a.route)

/-- The candidate removal sets of one pass of the downcheck in the order of the
scan: bits 31 down to 0, and for each bit the set for `set_to_zero` before the
set for `set_to_one`. -/
def removal_candidates (table : Table) (merge : Merge) (info : CoverInfo) : List (List Nat) :=
  ((List.range 32).reverse).flatMap (fun k =>
    (if ((1 <<< k) &&& info.set_to_zero) != 0 then
        [find_removes table merge (blocks_zero (1 <<< k))] else []) ++
    (if ((1 <<< k) &&& info.set_to_one) != 0 then
        [find_removes table merge (blocks_one (1 <<< k))] else []))

/-- The list `best` is the first non-empty list of smallest length among
`candidates`, or empty when every candidate is empty. -/
def IsFirstSmallest (candidates : List (List Nat)) (best : List Nat) : Prop :=
  (best = [] ∧ ∀ c ∈ candidates, c = []) ∨
  (best ≠ [] ∧ ∃ n, candidates[n]? = some best ∧
    (∀ c ∈ candidates, c ≠ [] → best.length ≤ c.length) ∧
    ∀ (m : Nat) (c : List Nat), m < n → candidates[m]? = some c → c ≠ [] →
      best.length < c.length)

/-- The cover information under construction records a cover that no bit can
avoid: stringency 0 and no settable bit. -/
def NoSettable (st : Bool × Settables) : Prop :=
  st.1 = true ∧ st.2.stringency = 0 ∧ st.2.set_to_zero = 0 ∧ st.2.set_to_one = 0

/-- Stringency 0 comes with empty sets of settable bits. -/
def ZeroStringency (st : Bool × Settables) : Prop :=
  st.2.stringency = 0 → st.2.set_to_zero = 0 ∧ st.2.set_to_one = 0

/-- The table of the largest merge test: nine entries `0000` to `1000` with
three routes. -/
def largest_table : Table :=
  (List.range 9).map (fun i =>
    { keymask := { key := i, mask := 0xf }, source := 0,
      route := if i < 3 then 1 else if i < 7 then 2 else 4 })

/-- The table of the downcheck test with an unavoidable cover: `1001` and `1010`
followed by `1XXX`. -/
def unresolvable_table : Table :=
  [ { keymask := { key := 0x9, mask := 0xf }, source := 2, route := 1 },
    { keymask := { key := 0xa, mask := 0xf }, source := 2, route := 1 },
    { keymask := { key := 0x8, mask := 0x8 }, source := 1, route := 4 } ]

/-- The table of the downcheck test without covers. -/
def no_cover_table : Table :=
  [ { keymask := { key := 0x19, mask := 0x1f }, source := 2, route := 1 },
    { keymask := { key := 0x1a, mask := 0x1f }, source := 2, route := 1 },
    { keymask := { key := 0x10, mask := 0x18 }, source := 1, route := 2 },
    { keymask := { key := 0x08, mask := 0x08 }, source := 1, route := 4 } ]

/-- The alias map of the downcheck test without covers. -/
def no_cover_aliases : Aliases :=
  [ ({ key := 0x08, mask := 0x08 },
      [{ key := 0x08, mask := 0x1f }, { key := 0x1f, mask := 0x1f }]) ]

/-- The table of the downcheck test that removes one entry: `1001`, `0000` and
`0001` followed by `1XXX`. -/
def remove_one_table : Table :=
  [ { keymask := { key := 0x9, mask := 0xf }, source := 2, route := 1 },
    { keymask := { key := 0x0, mask := 0xf }, source := 2, route := 1 },
    { keymask := { key := 0x1, mask := 0xf }, source := 2, route := 1 },
    { keymask := { key := 0x8, mask := 0x8 }, source := 1, route := 4 } ]

/-- The table of the iterating downcheck test: `00000`, `00100`, `11000` and
`10100` followed by `X0XXX` and `1XXXX`. -/
def iterate_table : Table :=
  [ { keymask := { key := 0x00, mask := 0x1f }, source := 1, route := 4 },
    { keymask := { key := 0x04, mask := 0x1f }, source := 1, route := 4 },
    { keymask := { key := 0x18, mask := 0x1f }, source := 1, route := 4 },
    { keymask := { key := 0x14, mask := 0x1f }, source := 1, route := 4 },
    { keymask := { key := 0x00, mask := 0x08 }, source := 1, route := 2 },
    { keymask := { key := 0x10, mask := 0x10 }, source := 2, route := 1 } ]

/-- The table of the best merge test in which the downcheck prunes the merge. -/
def best_downcheck_table : Table :=
  [ { keymask := { key := 0x00, mask := 0xff }, source := 2, route := 1 },
    { keymask := { key := 0x10, mask := 0xff }, source := 2, route := 1 },
    { keymask := { key := 0x20, mask := 0xff }, source := 2, route := 1 },
    { keymask := { key := 0x80, mask := 0xff }, source := 2, route := 1 },
    { keymask := { key := 0xf0, mask := 0xff }, source := 2, route := 1 },
    { keymask := { key := 0x80, mask := 0x80 }, source := 6, route := 4 } ]

end OrderedCovering

namespace OrderedCovering

open RoutingTable

/-- A generality-sorted table of 32-bit keymasks whose first keymask is not
normalised (key bit 0 lies outside the mask): two entries of one route with key
bit 0 set, followed by an entry of another route that their merge would cover. -/
def looping_table : Table :=
  [ { keymask := { key := 0x1, mask := 0xfffffffe }, source := 1, route := 1 },
    { keymask := { key := 0x1, mask := 0xffffffff }, source := 1, route := 1 },
    { keymask := { key := 0x0, mask := 0x3fffffff }, source := 1, route := 2 } ]

/-- A table that is not sorted by generality: the entry `0...0XXXX` stands before
the entries `0...0100` and `0...0101`. -/
def unsorted_table : Table :=
  [ { keymask := { key := 0x2, mask := 0xffffffff }, source := 1, route := 1 },
    { keymask := { key := 0x3, mask := 0xffffffff }, source := 1, route := 1 },
    { keymask := { key := 0x0, mask := 0xfffffff0 }, source := 1, route := 1 },
    { keymask := { key := 0x4, mask := 0xffffffff }, source := 1, route := 1 },
    { keymask := { key := 0x5, mask := 0xffffffff }, source := 1, route := 1 } ]

end OrderedCovering

/-! ## Lemmas and theorems -/

namespace OrderedCovering

open RoutingTable

theorem testBit_not32 (x i : Nat) :
    (not32 x).testBit i = (decide (i < 32) && !x.testBit i) := by
  unfold not32
  have h : (0xffffffff : Nat) = 2 ^ 32 - 1 := by norm_num
  rw [h, Nat.testBit_xor, Nat.testBit_two_pow_sub_one, Nat.testBit_mod_two_pow]
  by_cases hi : i < 32 <;> simp [hi]

theorem testBit_ffffffff (i : Nat) : (0xffffffff : Nat).testBit i = decide (i < 32) := by
  have h : (0xffffffff : Nat) = 2 ^ 32 - 1 := by norm_num
  rw [h, Nat.testBit_two_pow_sub_one]

theorem foldl_filter_step {α β : Type} (p : α → Bool) (f : β → α → β) (l : List α) (init : β) :
    l.foldl (fun acc x => if p x then f acc x else acc) init = (l.filter p).foldl f init := by
  induction l generalizing init with
  | nil => rfl
  | cons a l ih =>
    by_cases h : p a <;> simp [List.filter, h, ih]

theorem merge_entries_acc_eq (table : Table) (merge : Merge) :
    merge_entries_acc table merge =
      (selected table merge).foldl include_entry
        { any_ones := 0, all_ones := 0xffffffff, all_sels := 0xffffffff, sources := 0, routes := 0 } := by
  unfold merge_entries_acc selected
  rw [List.foldl_map]
  rw [← foldl_filter_step]
  rfl

theorem foldl_include_any_ones (l : List Entry) (acc : MergeAcc) (i : Nat) :
    (l.foldl include_entry acc).any_ones.testBit i =
      (acc.any_ones.testBit i || l.any (fun e => e.keymask.key.testBit i)) := by
  induction l generalizing acc with
  | nil => simp
  | cons a l ih => simp [ih, include_entry, Nat.testBit_or, Bool.or_assoc]

theorem foldl_include_all_ones (l : List Entry) (acc : MergeAcc) (i : Nat) :
    (l.foldl include_entry acc).all_ones.testBit i =
      (acc.all_ones.testBit i && l.all (fun e => e.keymask.key.testBit i)) := by
  induction l generalizing acc with
  | nil => simp
  | cons a l ih => simp [ih, include_entry, Nat.testBit_and, Bool.and_assoc]

theorem foldl_include_all_sels (l : List Entry) (acc : MergeAcc) (i : Nat) :
    (l.foldl include_entry acc).all_sels.testBit i =
      (acc.all_sels.testBit i && l.all (fun e => e.keymask.mask.testBit i)) := by
  induction l generalizing acc with
  | nil => simp
  | cons a l ih => simp [ih, include_entry, Nat.testBit_and, Bool.and_assoc]

theorem foldl_include_sources (l : List Entry) (acc : MergeAcc) :
    (l.foldl include_entry acc).sources = l.foldl (fun s e => s ||| e.source) acc.sources := by
  induction l generalizing acc with
  | nil => rfl
  | cons a l ih => simp [ih, include_entry]

theorem foldl_include_routes (l : List Entry) (acc : MergeAcc) :
    (l.foldl include_entry acc).routes = l.foldl (fun s e => s ||| e.route) acc.routes := by
  induction l generalizing acc with
  | nil => rfl
  | cons a l ih => simp [ih, include_entry]

/-- bit `i` of the merged mask -/
theorem merge_entries_mask_testBit (table : Table) (merge : Merge) (i : Nat) :
    (merge_entries table merge).keymask.mask.testBit i =
      (decide (i < 32) && (selected table merge).all (fun e => e.keymask.mask.testBit i) &&
        ((selected table merge).any (fun e => e.keymask.key.testBit i) ==
          (selected table merge).all (fun e => e.keymask.key.testBit i))) := by
  simp only [merge_entries, merge_entries_acc_eq, Nat.testBit_and, Nat.testBit_xor, testBit_not32,
    foldl_include_any_ones, foldl_include_all_ones, foldl_include_all_sels, testBit_ffffffff,
    Nat.zero_testBit]
  by_cases hi : i < 32 <;> simp [hi]
  cases (selected table merge).all (fun e => e.keymask.mask.testBit i) <;>
  cases (selected table merge).any (fun e => e.keymask.key.testBit i) <;>
  cases (selected table merge).all (fun e => e.keymask.key.testBit i) <;> simp

theorem merge_entries_key_testBit (table : Table) (merge : Merge) (i : Nat) :
    (merge_entries table merge).keymask.key.testBit i =
      ((selected table merge).all (fun e => e.keymask.key.testBit i) &&
        (merge_entries table merge).keymask.mask.testBit i) := by
  rw [merge_entries_mask_testBit]
  simp only [merge_entries, merge_entries_acc_eq, Nat.testBit_and, Nat.testBit_xor, testBit_not32,
    foldl_include_any_ones, foldl_include_all_ones, foldl_include_all_sels, testBit_ffffffff,
    Nat.zero_testBit]
  by_cases hi : i < 32 <;> simp [hi]
  cases (selected table merge).all (fun e => e.keymask.mask.testBit i) <;>
  cases (selected table merge).any (fun e => e.keymask.key.testBit i) <;>
  cases (selected table merge).all (fun e => e.keymask.key.testBit i) <;> simp

theorem generality_sorted_get {table : Table} (hs : generality_sorted table) {i j : Nat}
    {a b : Entry} (hij : i ≤ j) (ha : table[i]? = some a) (hb : table[j]? = some b) :
    a.keymask.count_xs ≤ b.keymask.count_xs := by
  rcases Nat.lt_or_eq_of_le hij with hlt | heq
  · have hi : i < table.length := (List.getElem?_eq_some.mp ha).1
    have hj : j < table.length := (List.getElem?_eq_some.mp hb).1
    have h := (List.pairwise_iff_getElem.mp hs) i j hi hj hlt
    rw [List.getElem?_eq_getElem hi] at ha
    rw [List.getElem?_eq_getElem hj] at hb
    cases ha; cases hb
    exact h
  · subst heq
    rw [ha] at hb
    cases hb
    exact Nat.le_refl _

theorem get_insertion_index_search_spec {table : Table} (hs : generality_sorted table)
    (g : Nat) : ∀ (fuel bottom top : Nat), bottom < top → top ≤ table.length →
      top - bottom ≤ fuel →
      (∀ j a, j < bottom → table[j]? = some a → a.keymask.count_xs ≤ g) →
      ∃ p, get_insertion_index_search table g fuel bottom top (bottom + (top - bottom) / 2)
            = some p ∧ p < table.length ∧
          ∀ j a, j < p → table[j]? = some a → a.keymask.count_xs ≤ g := by
  intro fuel
  induction fuel with
  | zero => intro bottom top h1 _ h3; omega
  | succ fuel ih =>
    intro bottom top hbt htl hfuel hinv
    have hpos_lt : bottom + (top - bottom) / 2 < top := by omega
    have hpos_ge : bottom ≤ bottom + (top - bottom) / 2 := by omega
    obtain ⟨e, he⟩ : ∃ e, table[bottom + (top - bottom) / 2]? = some e :=
      ⟨_, List.getElem?_eq_getElem (by omega)⟩
    unfold get_insertion_index_search
    simp only [List.get?_eq_getElem?, he]
    split
    · rename_i hcond
      simp only [Bool.and_eq_true, bne_iff_ne, ne_eq, decide_eq_true_eq] at hcond
      obtain ⟨⟨hne, hlt1⟩, hlt2⟩ := hcond
      split
      · rename_i hlt
        apply ih _ _ hlt2 htl (by omega)
        intro j a hj ha
        have := generality_sorted_get hs (Nat.le_of_lt hj) ha he
        omega
      · apply ih _ _ hlt1 (by omega) (by omega) hinv
    · rename_i hcond
      simp only [Bool.and_eq_true, bne_iff_ne, ne_eq, decide_eq_true_eq, not_and] at hcond
      refine ⟨_, rfl, by omega, ?_⟩
      intro j a hj ha
      by_cases hg : e.keymask.count_xs = g
      · have := generality_sorted_get hs (Nat.le_of_lt hj) ha he
        omega
      · by_cases hb : bottom < bottom + (top - bottom) / 2
        · exact absurd hpos_lt (hcond ⟨hg, hb⟩)
        · exact hinv j a (by omega) ha

theorem get_insertion_index_scan_spec (table : Table) (g : Nat) :
    ∀ (fuel pos : Nat), pos ≤ table.length → table.length - pos ≤ fuel →
      (∀ j a, j < pos → table[j]? = some a → a.keymask.count_xs ≤ g) →
      pos ≤ get_insertion_index_scan table g fuel pos ∧
      get_insertion_index_scan table g fuel pos ≤ table.length ∧
      (∀ j a, j < get_insertion_index_scan table g fuel pos → table[j]? = some a →
        a.keymask.count_xs ≤ g) ∧
      (∀ a, table[get_insertion_index_scan table g fuel pos]? = some a →
        g < a.keymask.count_xs) := by
  intro fuel
  induction fuel with
  | zero =>
    intro pos hpos hfuel hinv
    have : pos = table.length := by omega
    subst this
    simp [get_insertion_index_scan]
    exact hinv
  | succ fuel ih =>
    intro pos hpos hfuel hinv
    unfold get_insertion_index_scan
    simp only [List.get?_eq_getElem?]
    cases he : table[pos]? with
    | none =>
      simp only
      refine ⟨Nat.le_refl _, hpos, hinv, ?_⟩
      intro a ha
      rw [he] at ha
      cases ha
    | some e =>
      simp only
      have hlt : pos < table.length := (List.getElem?_eq_some.mp he).1
      split
      · rename_i hle
        have hinv' : ∀ j a, j < pos + 1 → table[j]? = some a → a.keymask.count_xs ≤ g := by
          intro j a hj ha
          by_cases hjp : j < pos
          · exact hinv j a hjp ha
          · have : j = pos := by omega
            subst this
            rw [he] at ha
            cases ha
            exact hle
        have := ih (pos + 1) (by omega) (by omega) hinv'
        exact ⟨by omega, this.2.1, this.2.2.1, this.2.2.2⟩
      · rename_i hnle
        refine ⟨Nat.le_refl _, hpos, hinv, ?_⟩
        intro a ha
        rw [he] at ha
        cases ha
        omega

theorem get_insertion_index_spec {table : Table} (hs : generality_sorted table)
    (hne : table ≠ []) (g : Nat) :
    ∃ i, get_insertion_index table g = some i ∧ i ≤ table.length ∧
      (∀ j a, j < i → table[j]? = some a → a.keymask.count_xs ≤ g) ∧
      (∀ j a, i ≤ j → table[j]? = some a → g < a.keymask.count_xs) := by
  have hlen : 0 < table.length := List.length_pos.mpr hne
  obtain ⟨p, hp, hplt, hpinv⟩ :=
    get_insertion_index_search_spec hs g (table.length + 1) 0 table.length hlen
      (Nat.le_refl _) (by omega) (by intro j a hj; omega)
  have hscan := get_insertion_index_scan_spec table g (table.length - p) p (by omega)
    (Nat.le_refl _) hpinv
  refine ⟨get_insertion_index_scan table g (table.length - p) p, ?_, hscan.2.1, hscan.2.2.1, ?_⟩
  · unfold get_insertion_index
    rw [hp]
  · intro j a hij ha
    have hj : j < table.length := (List.getElem?_eq_some.mp ha).1
    have hi : get_insertion_index_scan table g (table.length - p) p < table.length := by omega
    have h1 := hscan.2.2.2 _ (List.getElem?_eq_getElem hi)
    have h2 := generality_sorted_get hs hij (List.getElem?_eq_getElem hi) ha
    omega

theorem write_frontier (orig out : List Entry) (x : Entry) (h : out.length < orig.length) :
    write (out ++ orig.drop out.length) out.length x =
      some ((out ++ [x]) ++ orig.drop (out ++ [x]).length) := by
  unfold write
  have hlen : (out ++ orig.drop out.length).length = orig.length := by
    simp [List.length_append, List.length_drop]; omega
  have hd : orig.drop out.length = orig[out.length] :: orig.drop (out.length + 1) :=
    List.drop_eq_getElem_cons h
  rw [if_pos (by rw [hlen]; exact h), List.set_append_right _ _ (Nat.le_refl _), Nat.sub_self, hd,
    List.set_cons_zero]
  simp

theorem read_frontier (orig out : List Entry) (s : Nat) (h : out.length ≤ s) :
    (out ++ orig.drop out.length)[s]? = orig[s]? := by
  rw [List.getElem?_append_right h, List.getElem?_drop]
  congr 1
  omega

theorem merge_apply_step_spec (orig : Table) (M : Entry) (ip : Nat) (merge : Merge)
    (st : ApplyState) (out : List Entry) (s : Nat) (e : Entry)
    (he : orig[s]? = some e)
    (htab : st.table = out ++ orig.drop out.length) (hins : st.insert = out.length)
    (hle : out.length ≤ s) (hroom : s = ip → out.length < s) :
    merge_apply_step M ip merge st s = some
      { table := (out ++ emit M ip merge (s, e)) ++ orig.drop (out ++ emit M ip merge (s, e)).length
        insert := (out ++ emit M ip merge (s, e)).length
        aliases := alias_step M.keymask merge st.aliases (s, e)
        final_size := if merge.test s then st.final_size - 1 else st.final_size } := by
  have hs : s < orig.length := (List.getElem?_eq_some.mp he).1
  unfold merge_apply_step
  by_cases hip : s = ip
  · have hlt := hroom hip
    subst hip
    have hl1 : (out ++ [M]).length = out.length + 1 := by simp
    simp only [if_true]
    rw [htab, hins, write_frontier orig out M (by omega)]
    simp only
    rw [List.get?_eq_getElem?, read_frontier orig (out ++ [M]) s (by omega), he]
    by_cases hm : merge.test s
    · simp [hm, emit, alias_step]
    · simp only [hm, Bool.not_false, if_true]
      rw [← hl1, write_frontier orig (out ++ [M]) e (by omega)]
      simp [emit, alias_step, hm]
  · simp only [hip, if_false]
    rw [htab, List.get?_eq_getElem?, read_frontier orig out s hle, he]
    by_cases hm : merge.test s
    · simp [hm, emit, alias_step, hip, hins]
    · simp only [hm, Bool.not_false, if_true]
      rw [hins, write_frontier orig out e (by omega)]
      simp [emit, alias_step, hm, hip]

theorem emit_length_le (M : Entry) (ip : Nat) (merge : Merge) (ie : Nat × Entry) :
    (emit M ip merge ie).length ≤ (if ie.1 = ip then 1 else 0) + (if merge.test ie.1 then 0 else 1) := by
  unfold emit
  obtain ⟨i, e⟩ := ie
  by_cases h1 : i = ip
  · subst h1
    by_cases h2 : merge.test i <;> simp [h2]
  · by_cases h2 : merge.test i <;> simp [h1, h2]

theorem merge_apply_loop_spec (orig : Table) (M : Entry) (ip : Nat) (merge : Merge) (j0 : Nat)
    (hj0 : merge.test j0 = true) (hj0ip : j0 < ip) :
    ∀ (rest : List Entry) (s : Nat) (st : ApplyState) (out : List Entry),
      orig.drop s = rest → s ≤ orig.length →
      st.table = out ++ orig.drop out.length → st.insert = out.length →
      out.length ≤ s → (j0 < s → s ≤ ip → out.length < s) →
      ∃ st', merge_apply_loop M ip merge (List.range' s rest.length) st = some st' ∧
        st'.table = (out ++ (rest.enumFrom s).flatMap (emit M ip merge)) ++
          orig.drop (out ++ (rest.enumFrom s).flatMap (emit M ip merge)).length ∧
        st'.insert = (out ++ (rest.enumFrom s).flatMap (emit M ip merge)).length ∧
        (out ++ (rest.enumFrom s).flatMap (emit M ip merge)).length ≤ orig.length ∧
        (ip = orig.length →
          (out ++ (rest.enumFrom s).flatMap (emit M ip merge)).length < orig.length) ∧
        st'.aliases = (rest.enumFrom s).foldl (alias_step M.keymask merge) st.aliases ∧
        st'.final_size =
          st.final_size - ((rest.enumFrom s).filter (fun ie => merge.test ie.1)).length := by
  intro rest
  induction rest with
  | nil =>
    intro s st out hdrop hs htab hins hle hroom
    have hlen : s = orig.length := by
      have := List.drop_eq_nil_iff.mp hdrop
      omega
    refine ⟨st, rfl, ?_, ?_, ?_, ?_, rfl, ?_⟩
    · simpa using htab
    · simpa using hins
    · simp; omega
    · intro hip; simp; exact hlen ▸ hroom (by omega) (by omega)
    · simp
  | cons e rest ih =>
    intro s st out hdrop hs htab hins hle hroom
    have hslt : s < orig.length := by
      by_contra hcon
      have : orig.drop s = [] := List.drop_eq_nil_iff.mpr (by omega)
      rw [this] at hdrop
      cases hdrop
    have hd := List.drop_eq_getElem_cons hslt
    rw [hd] at hdrop
    have he : orig[s]? = some e := by
      rw [List.getElem?_eq_getElem hslt]
      congr 1
      exact (List.cons.inj hdrop).1
    have hdrop' : orig.drop (s + 1) = rest := (List.cons.inj hdrop).2
    have hstep := merge_apply_step_spec orig M ip merge st out s e he htab hins hle
      (fun h => hroom (by omega) (by omega))
    have hemit := emit_length_le M ip merge (s, e)
    simp only at hemit
    obtain ⟨st', hloop, h1, h2, h3, h4, h5, h6⟩ := ih (s + 1)
      { table := (out ++ emit M ip merge (s, e)) ++
          orig.drop (out ++ emit M ip merge (s, e)).length
        insert := (out ++ emit M ip merge (s, e)).length
        aliases := alias_step M.keymask merge st.aliases (s, e)
        final_size := if merge.test s then st.final_size - 1 else st.final_size }
      (out ++ emit M ip merge (s, e))
      hdrop' (by omega) rfl rfl
      (by
        simp only [List.length_append]
        by_cases hip : s = ip
        · have := hroom (by omega) (by omega)
          split_ifs at hemit <;> omega
        · split_ifs at hemit <;> omega)
      (by
        intro hj hsip
        simp only [List.length_append]
        have hne : ¬ s = ip := by omega
        by_cases hjs : j0 = s
        · subst hjs
          simp only [hj0, hne, if_true, if_false] at hemit
          omega
        · have := hroom (by omega) (by omega)
          split_ifs at hemit <;> omega)
    refine ⟨st', ?_, ?_, ?_, ?_, ?_, ?_, ?_⟩
    · simp only [List.length_cons, List.range'_succ, merge_apply_loop, hstep]
      exact hloop
    · simpa [List.enumFrom_cons, List.flatMap_cons, List.append_assoc] using h1
    · simpa [List.enumFrom_cons, List.flatMap_cons, List.append_assoc] using h2
    · simpa [List.enumFrom_cons, List.flatMap_cons, List.append_assoc] using h3
    · simpa [List.enumFrom_cons, List.flatMap_cons, List.append_assoc] using h4
    · simpa [List.enumFrom_cons, List.foldl_cons] using h5
    · rw [h6]
      simp only [List.enumFrom_cons, List.filter_cons]
      by_cases hm : merge.test s <;> simp [hm]
      omega

theorem flatMap_emit_of_ne (M : Entry) (ip : Nat) (merge : Merge) (l : List (Nat × Entry))
    (h : ∀ ie ∈ l, ie.1 ≠ ip) : l.flatMap (emit M ip merge) = kept merge l := by
  induction l with
  | nil => rfl
  | cons a l ih =>
    have ha : a.1 ≠ ip := h a (List.mem_cons_self _ _)
    have hl := ih (fun ie hie => h ie (List.mem_cons_of_mem _ hie))
    simp only [List.flatMap_cons, hl, kept, emit, ha, if_false, List.nil_append, List.filter_cons]
    by_cases hm : merge.test a.1 <;> simp [hm]

theorem flatMap_emit_enum (table : Table) (M : Entry) (ip : Nat) (merge : Merge)
    (hle : ip ≤ table.length) :
    table.enum.flatMap (emit M ip merge) =
      kept merge ((table.take ip).enumFrom 0) ++
        (if ip < table.length then M :: kept merge ((table.drop ip).enumFrom ip) else []) := by
  have hsplit : table.enum = (table.take ip).enumFrom 0 ++ (table.drop ip).enumFrom ip := by
    have := List.enumFrom_append (table.take ip) (table.drop ip) 0
    rw [List.take_append_drop] at this
    rw [List.enum_eq_enumFrom, this]
    simp [List.length_take, Nat.min_eq_left hle]
  rw [hsplit, List.flatMap_append]
  have h1 : ((table.take ip).enumFrom 0).flatMap (emit M ip merge) =
      kept merge ((table.take ip).enumFrom 0) := by
    apply flatMap_emit_of_ne
    intro ie hie
    have := List.fst_lt_add_of_mem_enumFrom hie
    simp [List.length_take] at this
    omega
  rw [h1]
  congr 1
  by_cases hlt : ip < table.length
  · rw [if_pos hlt, List.drop_eq_getElem_cons hlt, List.enumFrom_cons, List.flatMap_cons]
    have h2 : ((table.drop (ip + 1)).enumFrom (ip + 1)).flatMap (emit M ip merge) =
        kept merge ((table.drop (ip + 1)).enumFrom (ip + 1)) := by
      apply flatMap_emit_of_ne
      intro ie hie
      have := List.le_fst_of_mem_enumFrom hie
      omega
    rw [h2]
    simp only [emit, kept, if_true, List.filter_cons]
    by_cases hm : merge.test ip <;> simp [hm]
  · rw [if_neg hlt]
    have : table.drop ip = [] := List.drop_eq_nil_iff.mpr (by omega)
    simp [this]

theorem kept_length_add (merge : Merge) (l : List (Nat × Entry)) :
    (kept merge l).length + (l.filter (fun ie => merge.test ie.1)).length = l.length := by
  induction l with
  | nil => rfl
  | cons a l ih =>
    simp only [kept, List.filter_cons, List.length_map] at ih ⊢
    by_cases hm : merge.test a.1 <;> simp [hm] <;> omega

theorem kept_split_length (table : Table) (merge : Merge) (ip : Nat) (hle : ip ≤ table.length) :
    (kept merge ((table.take ip).enumFrom 0)).length +
      (kept merge ((table.drop ip).enumFrom ip)).length +
      (table.enum.filter (fun ie => merge.test ie.1)).length = table.length := by
  have hsplit : table.enum = (table.take ip).enumFrom 0 ++ (table.drop ip).enumFrom ip := by
    have := List.enumFrom_append (table.take ip) (table.drop ip) 0
    rw [List.take_append_drop] at this
    rw [List.enum_eq_enumFrom, this]
    simp [List.length_take, Nat.min_eq_left hle]
  have h1 := kept_length_add merge ((table.take ip).enumFrom 0)
  have h2 := kept_length_add merge ((table.drop ip).enumFrom ip)
  rw [hsplit, List.filter_append, List.length_append]
  simp only [List.enumFrom_length, List.length_take, List.length_drop] at h1 h2
  omega

theorem resize_append_left (a b : List Entry) : resize (a ++ b) a.length = a := by
  unfold resize
  simp

theorem merge_apply_eq (table : Table) (aliases : Aliases) (merge : Merge) (ip j0 : Nat)
    (hip : get_insertion_index_entry table (merge_entries table merge) = some ip)
    (hle : ip ≤ table.length) (hj0 : merge.test j0 = true) (hj0ip : j0 < ip) :
    merge_apply table aliases merge = some
      (kept merge ((table.take ip).enumFrom 0) ++
          merge_entries table merge :: kept merge ((table.drop ip).enumFrom ip),
        table.enum.foldl (alias_step (merge_entries table merge).keymask merge) aliases) := by
  obtain ⟨st, hloop, h1, h2, h3, h4, h5, h6⟩ :=
    merge_apply_loop_spec table (merge_entries table merge) ip merge j0 hj0 hj0ip table 0
      { table := table, insert := 0, aliases := aliases, final_size := table.length + 1 } []
      rfl (Nat.zero_le _) rfl rfl (Nat.le_refl _) (by intro h; omega)
  have hcount := kept_split_length table merge ip hle
  have hflat := flatMap_emit_enum table (merge_entries table merge) ip merge hle
  rw [← List.enum_eq_enumFrom] at h1 h2 h3 h4 h5 h6
  rw [← List.range_eq_range'] at hloop
  simp only [List.nil_append] at h1 h2 h3 h4 h5 h6
  unfold merge_apply
  simp only [hip, hloop]
  by_cases hlt : ip < table.length
  · rw [if_pos hlt] at hflat
    have hne : ¬ table.length = ip := by omega
    simp only [hne, if_false]
    rw [h5, h6, h1, hflat]
    have hfs : table.length + 1 - (table.enum.filter (fun ie => merge.test ie.1)).length =
        (kept merge ((table.take ip).enumFrom 0) ++
          merge_entries table merge :: kept merge ((table.drop ip).enumFrom ip)).length := by
      simp only [List.length_append, List.length_cons]
      omega
    rw [hfs, resize_append_left]
  · have heq : table.length = ip := by omega
    rw [if_neg hlt] at hflat
    simp only [List.append_nil] at hflat
    simp only [heq, if_true]
    have hlt' := h4 heq.symm
    rw [h1, h2, write_frontier table _ _ hlt', h5, h6, hflat]
    have hd : table.drop ip = [] := List.drop_eq_nil_iff.mpr (by omega)
    have hk : kept merge ((table.drop ip).enumFrom ip) = [] := by rw [hd]; rfl
    rw [hk] at hcount ⊢
    have hfs : table.length + 1 - (table.enum.filter (fun ie => merge.test ie.1)).length =
        (kept merge ((table.take ip).enumFrom 0) ++ [merge_entries table merge]).length := by
      simp only [List.length_append, List.length_singleton, List.length_nil] at hcount ⊢
      omega
    simp only
    rw [hfs, resize_append_left]

theorem mem_selected {table : Table} {merge : Merge} {e : Entry} :
    e ∈ selected table merge ↔ ∃ j, table[j]? = some e ∧ merge.test j = true := by
  unfold selected
  simp only [List.mem_map, List.mem_filter, Prod.exists]
  constructor
  · rintro ⟨j, e', ⟨hmem, hm⟩, rfl⟩
    exact ⟨j, List.mk_mem_enum_iff_getElem?.mp hmem, hm⟩
  · rintro ⟨j, hj, hm⟩
    exact ⟨j, e, ⟨List.mk_mem_enum_iff_getElem?.mpr hj, hm⟩, rfl⟩

theorem popcount_mono {x y : Nat} (h : ∀ i, i < 32 → x.testBit i = true → y.testBit i = true) :
    popcount x ≤ popcount y := by
  unfold popcount
  apply List.countP_mono_left
  intro i hi hx
  exact h i (List.mem_range.mp hi) hx

theorem merge_entries_mask_bit {table : Table} {merge : Merge} {i : Nat}
    (h : (merge_entries table merge).keymask.mask.testBit i = true) :
    i < 32 ∧ (∀ e ∈ selected table merge, e.keymask.mask.testBit i = true) ∧
      (∀ e ∈ selected table merge,
        e.keymask.key.testBit i = (merge_entries table merge).keymask.key.testBit i) := by
  have hk := merge_entries_key_testBit table merge i
  rw [h, Bool.and_true] at hk
  rw [merge_entries_mask_testBit] at h
  simp only [Bool.and_eq_true, decide_eq_true_eq, List.all_eq_true, beq_iff_eq] at h
  obtain ⟨⟨h32, hmask⟩, heq⟩ := h
  refine ⟨h32, hmask, ?_⟩
  intro e he
  rw [hk]
  cases hall : (selected table merge).all (fun e => e.keymask.key.testBit i) with
  | true => exact (List.all_eq_true.mp hall) e he
  | false =>
    rw [hall] at heq
    cases hb : e.keymask.key.testBit i with
    | false => rfl
    | true =>
      have : (selected table merge).any (fun e => e.keymask.key.testBit i) = true :=
        List.any_eq_true.mpr ⟨e, he, hb⟩
      rw [this] at heq
      cases heq

theorem merge_entries_get_xs_testBit (table : Table) (merge : Merge) (i : Nat) :
    (merge_entries table merge).keymask.get_xs.testBit i =
      (decide (i < 32) && !(merge_entries table merge).keymask.mask.testBit i) := by
  unfold KeyMask.get_xs
  rw [Nat.testBit_and, testBit_not32, testBit_not32, merge_entries_key_testBit]
  cases (merge_entries table merge).keymask.mask.testBit i <;> simp

theorem count_xs_le_merge_entries {table : Table} {merge : Merge} {e : Entry}
    (he : e ∈ selected table merge) :
    e.keymask.count_xs ≤ (merge_entries table merge).keymask.count_xs := by
  unfold KeyMask.count_xs
  apply popcount_mono
  intro i hi hx
  rw [merge_entries_get_xs_testBit]
  unfold KeyMask.get_xs at hx
  rw [Nat.testBit_and, testBit_not32, testBit_not32] at hx
  simp only [Bool.and_eq_true, decide_eq_true_eq, Bool.not_eq_true'] at hx
  simp only [Bool.and_eq_true, decide_eq_true_eq, Bool.not_eq_true', hi, true_and]
  cases hM : (merge_entries table merge).keymask.mask.testBit i with
  | false => rfl
  | true =>
    have := (merge_entries_mask_bit hM).2.1 e he
    rw [hx.1.2] at this
    cases this

theorem selected_ne_nil_iff {table : Table} {merge : Merge} :
    selected table merge ≠ [] ↔ ∃ j e, table[j]? = some e ∧ merge.test j = true := by
  constructor
  · intro h
    obtain ⟨e, he⟩ := List.exists_mem_of_ne_nil _ h
    obtain ⟨j, hj, hm⟩ := mem_selected.mp he
    exact ⟨j, e, hj, hm⟩
  · rintro ⟨j, e, hj, hm⟩ h
    have : e ∈ selected table merge := mem_selected.mpr ⟨j, hj, hm⟩
    rw [h] at this
    cases this

/-- on a sorted table with a non-empty selection the insertion point exists and
lies below every selected entry -/
theorem insertion_point_below_selected {table : Table} (hs : generality_sorted table)
    {merge : Merge} (hsel : selected table merge ≠ []) :
    ∃ ip, get_insertion_index_entry table (merge_entries table merge) = some ip ∧
      ip ≤ table.length ∧
      (∀ j a, j < ip → table[j]? = some a →
        a.keymask.count_xs ≤ (merge_entries table merge).keymask.count_xs) ∧
      (∀ j a, ip ≤ j → table[j]? = some a →
        (merge_entries table merge).keymask.count_xs < a.keymask.count_xs) ∧
      (∀ j e, table[j]? = some e → merge.test j = true → j < ip) := by
  obtain ⟨j0, e0, hj0, hm0⟩ := selected_ne_nil_iff.mp hsel
  have hne : table ≠ [] := by
    intro h
    rw [h] at hj0
    simp at hj0
  obtain ⟨ip, hip, hle, hbelow, habove⟩ :=
    get_insertion_index_spec hs hne (merge_entries table merge).keymask.count_xs
  refine ⟨ip, hip, hle, hbelow, habove, ?_⟩
  intro j e hj hm
  by_contra hcon
  have h1 := habove j e (by omega) hj
  have h2 := count_xs_le_merge_entries (mem_selected.mpr ⟨j, hj, hm⟩)
  omega

theorem kept_eq_of_not_selected (merge : Merge) (l : List (Nat × Entry))
    (h : ∀ ie ∈ l, merge.test ie.1 = false) : kept merge l = l.map (fun ie => ie.2) := by
  unfold kept
  rw [List.filter_eq_self.mpr]
  intro ie hie
  simp [h ie hie]

/-- the table and alias map left by `merge_apply` on a sorted table -/
theorem merge_apply_sorted {table : Table} (hs : generality_sorted table) (aliases : Aliases)
    {merge : Merge} (hsel : selected table merge ≠ []) :
    ∃ ip, get_insertion_index_entry table (merge_entries table merge) = some ip ∧
      ip ≤ table.length ∧
      (∀ j a, j < ip → table[j]? = some a →
        a.keymask.count_xs ≤ (merge_entries table merge).keymask.count_xs) ∧
      (∀ j a, ip ≤ j → table[j]? = some a →
        (merge_entries table merge).keymask.count_xs < a.keymask.count_xs) ∧
      (∀ j e, table[j]? = some e → merge.test j = true → j < ip) ∧
      merge_apply table aliases merge = some
        (kept merge (table.take ip).enum ++ merge_entries table merge :: table.drop ip,
          table.enum.foldl (alias_step (merge_entries table merge).keymask merge) aliases) := by
  obtain ⟨ip, hip, hle, hbelow, habove, hsellt⟩ := insertion_point_below_selected hs hsel
  obtain ⟨j0, e0, hj0, hm0⟩ := selected_ne_nil_iff.mp hsel
  refine ⟨ip, hip, hle, hbelow, habove, hsellt, ?_⟩
  rw [merge_apply_eq table aliases merge ip j0 hip hle hm0 (hsellt j0 e0 hj0 hm0)]
  have hk : kept merge ((table.drop ip).enumFrom ip) = table.drop ip := by
    rw [kept_eq_of_not_selected]
    · exact List.enumFrom_map_snd ip _
    · intro ie hie
      have hge := List.le_fst_of_mem_enumFrom hie
      obtain ⟨i, e⟩ := ie
      have hmem := List.mk_mem_enumFrom_iff_le_and_getElem?_sub.mp hie
      rw [List.getElem?_drop] at hmem
      have hi : table[i]? = some e := by
        have := hmem.2
        rwa [show ip + (i - ip) = i by omega] at this
      cases hm : merge.test i with
      | false => rfl
      | true =>
        have := hsellt i e hi hm
        simp at hge
        omega
  rw [hk]
  rfl

/-! ### Insertion index (claim C8) -/

theorem mem_take_getElem? {l : List Entry} {n : Nat} {a : Entry} (h : a ∈ l.take n) :
    ∃ j, j < n ∧ l[j]? = some a := by
  obtain ⟨j, hj⟩ := List.mem_iff_getElem?.mp h
  rw [List.getElem?_take] at hj
  by_cases hlt : j < n
  · rw [if_pos hlt] at hj
    exact ⟨j, hlt, hj⟩
  · rw [if_neg hlt] at hj
    cases hj

theorem mem_drop_getElem? {l : List Entry} {n : Nat} {a : Entry} (h : a ∈ l.drop n) :
    ∃ j, n ≤ j ∧ l[j]? = some a := by
  obtain ⟨j, hj⟩ := List.mem_iff_getElem?.mp h
  rw [List.getElem?_drop] at hj
  exact ⟨n + j, Nat.le_add_right _ _, hj⟩

theorem generality_sorted_insert {table : Table} (hs : generality_sorted table) {g i : Nat}
    (hbelow : ∀ j a, j < i → table[j]? = some a → a.keymask.count_xs ≤ g)
    (habove : ∀ j a, i ≤ j → table[j]? = some a → g < a.keymask.count_xs)
    {front : List Entry} (hfront : front.Sublist (table.take i))
    {e : Entry} (he : e.keymask.count_xs = g) :
    generality_sorted (front ++ e :: table.drop i) := by
  unfold generality_sorted at hs ⊢
  rw [List.pairwise_append]
  refine ⟨?_, ?_, ?_⟩
  · exact List.Pairwise.sublist (hfront.trans (List.take_sublist _ _)) hs
  · rw [List.pairwise_cons]
    refine ⟨?_, List.Pairwise.sublist (List.drop_sublist _ _) hs⟩
    intro b hb
    obtain ⟨j, hj, hjb⟩ := mem_drop_getElem? hb
    have := habove j b hj hjb
    omega
  · intro a ha b hb
    obtain ⟨j, hj, hja⟩ := mem_take_getElem? (hfront.subset ha)
    have h1 := hbelow j a hj hja
    rcases List.mem_cons.mp hb with rfl | hb
    · omega
    · obtain ⟨j2, hj2, hjb⟩ := mem_drop_getElem? hb
      have := habove j2 b hj2 hjb
      omega

theorem get_insertion_index_is_insertion_index {table : Table} (hs : generality_sorted table)
    (hne : table ≠ []) (g : Nat) :
    ∃ i, get_insertion_index table g = some i ∧ IsInsertionIndex table g i := by
  obtain ⟨i, hi, hle, hbelow, habove⟩ := get_insertion_index_spec hs hne g
  refine ⟨i, hi, hle, hbelow, fun a ha => habove i a (Nat.le_refl _) ha, ?_⟩
  intro e he
  exact generality_sorted_insert hs hbelow habove (List.Sublist.refl _) he

/-- Claim C8: on a non-empty table sorted non-decreasing by `count_xs`,
`get_insertion_index table g` returns the first index that is past the end or
holds an entry of generality greater than `g`; every entry before it has
generality at most `g`, and an entry of generality `g` inserted there keeps
the table sorted. -/
theorem get_insertion_index_first_greater (table : Table) (g : Nat) (hne : table ≠ [])
    (hs : generality_sorted table) :
    ∃ i, get_insertion_index table g = some i ∧ IsInsertionIndex table g i :=
  get_insertion_index_is_insertion_index hs hne g

/-- Witness of C8 on the table of the insertion index test: a generality 30
entry goes to index 1. -/
theorem get_insertion_index_first_greater_witness :
    insertion_table ≠ [] ∧ generality_sorted insertion_table ∧
      ∃ i, get_insertion_index insertion_table 30 = some i ∧
        IsInsertionIndex insertion_table 30 i :=
  ⟨by decide, by decide,
    get_insertion_index_first_greater insertion_table 30 (by decide) (by decide)⟩

/-! ### Merge synthesis (claims C9, C10) -/

theorem any_beq_all_iff {α : Type} (p : α → Bool) (l : List α) (hne : l ≠ []) :
    (l.any p == l.all p) = true ↔ ∀ a ∈ l, ∀ b ∈ l, p a = p b := by
  obtain ⟨x, hx⟩ := List.exists_mem_of_ne_nil l hne
  constructor
  · intro h a ha b hb
    rw [beq_iff_eq] at h
    cases hall : l.all p with
    | true =>
      rw [List.all_eq_true] at hall
      rw [hall a ha, hall b hb]
    | false =>
      rw [hall] at h
      have hnone : ∀ c ∈ l, p c = false := by
        intro c hc
        cases hpc : p c with
        | false => rfl
        | true =>
          have : l.any p = true := List.any_eq_true.mpr ⟨c, hc, hpc⟩
          rw [this] at h
          cases h
      rw [hnone a ha, hnone b hb]
  · intro h
    rw [beq_iff_eq]
    cases hpx : p x with
    | true =>
      have h1 : l.any p = true := List.any_eq_true.mpr ⟨x, hx, hpx⟩
      have h2 : l.all p = true := by
        rw [List.all_eq_true]
        intro c hc
        rw [h c hc x hx, hpx]
      rw [h1, h2]
    | false =>
      have h1 : l.any p = false := by
        rw [List.any_eq_false]
        intro c hc
        rw [h c hc x hx, hpx]
        simp
      have h2 : l.all p = false := by
        rw [List.all_eq_false]
        exact ⟨x, hx, by simp [hpx]⟩
      rw [h1, h2]

theorem foldl_include_all_ones_eq (l : List Entry) (acc : MergeAcc) :
    (l.foldl include_entry acc).all_ones =
      l.foldl (fun a e => a &&& e.keymask.key) acc.all_ones := by
  induction l generalizing acc with
  | nil => rfl
  | cons a l ih => simp [ih, include_entry]

theorem merge_entries_mask_lt (table : Table) (merge : Merge) :
    (merge_entries table merge).keymask.mask < 2 ^ 32 := by
  apply Nat.lt_pow_two_of_testBit
  intro i hi
  rw [merge_entries_mask_testBit]
  have : ¬ i < 32 := by omega
  simp [this]

theorem merge_entries_matches_reference {table : Table} {merge : Merge}
    (hsel : selected table merge ≠ []) :
    MergeEntriesReference table merge (merge_entries table merge) := by
  refine ⟨?_, ?_, merge_entries_mask_lt table merge, ?_, ?_⟩
  · simp only [merge_entries, merge_entries_acc_eq, foldl_include_sources]
  · simp only [merge_entries, merge_entries_acc_eq, foldl_include_routes]
  · intro i hi
    rw [merge_entries_mask_testBit]
    have hiff := any_beq_all_iff (fun e : Entry => e.keymask.key.testBit i) _ hsel
    constructor
    · intro h
      by_cases hmask : ∀ e ∈ selected table merge, e.keymask.mask.testBit i = true
      · right
        have hall : (selected table merge).all (fun e => e.keymask.mask.testBit i) = true :=
          List.all_eq_true.mpr hmask
        rw [hall] at h
        simp only [hi, decide_True, Bool.and_self, Bool.true_and] at h
        by_contra hcon
        have hagree : ∀ a ∈ selected table merge, ∀ b ∈ selected table merge,
            a.keymask.key.testBit i = b.keymask.key.testBit i := by
          intro a ha b hb
          by_contra hne
          exact hcon ⟨a, ha, b, hb, hne⟩
        rw [hiff.mpr hagree] at h
        cases h
      · left
        push_neg at hmask
        obtain ⟨e, he, hb⟩ := hmask
        exact ⟨e, he, by simpa using hb⟩
    · rintro (⟨e, he, hb⟩ | ⟨e1, he1, e2, he2, hne⟩)
      · have hall : (selected table merge).all (fun e => e.keymask.mask.testBit i) = false := by
          rw [List.all_eq_false]
          exact ⟨e, he, by simp [hb]⟩
        rw [hall]
        simp
      · cases hbeq : ((selected table merge).any (fun e => e.keymask.key.testBit i) ==
            (selected table merge).all (fun e => e.keymask.key.testBit i)) with
        | false => simp
        | true => exact absurd (hiff.mp hbeq e1 he1 e2 he2) hne
  · simp only [merge_entries, merge_entries_acc_eq, foldl_include_all_ones_eq]

theorem merge_entries_covers_selected {table : Table} {merge : Merge} {e : Entry}
    (he : e ∈ selected table merge) {k : Nat} (hk : e.keymask.matches_key k = true) :
    (merge_entries table merge).keymask.matches_key k = true := by
  unfold KeyMask.matches_key at hk ⊢
  rw [beq_iff_eq] at hk ⊢
  apply Nat.eq_of_testBit_eq
  intro i
  rw [Nat.testBit_and, Nat.testBit_and]
  cases hM : (merge_entries table merge).keymask.mask.testBit i with
  | false => simp
  | true =>
    obtain ⟨_, hmask, hkey⟩ := merge_entries_mask_bit hM
    have hbit := congrArg (fun n => n.testBit i) hk
    simp only [Nat.testBit_and, hmask e he, Bool.and_true] at hbit
    rw [Bool.and_true, Bool.and_true, hbit, hkey e he]

/-- Claim C9, as amended: for every table and every merge that selects at least
one entry, `merge_entries` has source and route equal to the OR of the selected
sources and routes, a 32-bit mask whose zero bits are exactly the bits that are
zero in some selected mask together with the bits on which selected keys
disagree, and key equal to the AND of the selected keys under that mask. -/
theorem merge_entries_reference (table : Table) (merge : Merge)
    (hsel : selected table merge ≠ []) :
    MergeEntriesReference table merge (merge_entries table merge) :=
  merge_entries_matches_reference hsel

/-- Witness of C9 on the table of the merge synthesis test with all three
entries selected: the merged entry is `000...0XX` with source 7 and route 3. -/
theorem merge_entries_reference_witness :
    selected synthesis_table [true, true, true] ≠ [] ∧
      merge_entries synthesis_table [true, true, true] =
        { keymask := { key := 0, mask := 0xfffffffc }, source := 7, route := 3 } ∧
      MergeEntriesReference synthesis_table [true, true, true]
        (merge_entries synthesis_table [true, true, true]) :=
  ⟨by decide, by decide,
    merge_entries_reference synthesis_table [true, true, true] (by decide)⟩

/-- Counterexample to C9 as stated for every merge: with no entry selected no
mask bit is zero in a selected mask and no two selected keys disagree, yet the
merged mask is 0, so bit 0 of the mask is zero. -/
theorem merge_entries_reference_fails_on_empty_merge :
    ¬ MergeEntriesReference synthesis_table [false, false, false]
        (merge_entries synthesis_table [false, false, false]) := by
  intro h
  have h0 := (h.2.2.2.1 0 (by decide)).mp (by decide)
  have hnil : selected synthesis_table [false, false, false] = [] := by decide
  rw [hnil] at h0
  simp at h0

/-- Claim C10: for every table and merge, every key that matches a selected
entry (`k & mask_i == key_i & mask_i`) also matches the keymask of
`merge_entries table merge`. -/
theorem merge_entries_covers (table : Table) (merge : Merge) (e : Entry)
    (he : e ∈ selected table merge) (k : Nat) (hk : e.keymask.matches_key k = true) :
    (merge_entries table merge).keymask.matches_key k = true :=
  merge_entries_covers_selected he hk

/-- Witness of C10: key 3 matches the third entry of the merge synthesis test
table, and matches the merged entry. -/
theorem merge_entries_covers_witness :
    ({ keymask := { key := 3, mask := 0xffffffff }, source := 4, route := 1 } : Entry) ∈
        selected synthesis_table [true, true, true] ∧
      (merge_entries synthesis_table [true, true, true]).keymask.matches_key 3 = true :=
  ⟨by decide,
    merge_entries_covers synthesis_table [true, true, true]
      { keymask := { key := 3, mask := 0xffffffff }, source := 4, route := 1 }
      (by decide) 3 (by decide)⟩

/-! ### Merge application: the table (claims C3, C4, C5) -/

theorem kept_sublist (merge : Merge) (l : List Entry) (n : Nat) :
    (kept merge (l.enumFrom n)).Sublist l := by
  unfold kept
  have h0 : ((l.enumFrom n).filter (fun ie : Nat × Entry => !merge.test ie.1)).Sublist
      (l.enumFrom n) := List.filter_sublist _
  have h := h0.map (fun ie => ie.2)
  have hmap : (l.enumFrom n).map (fun ie => ie.2) = l := List.enumFrom_map_snd n l
  rw [hmap] at h
  exact h

theorem selected_length (table : Table) (merge : Merge) :
    (selected table merge).length = (table.enum.filter (fun ie => merge.test ie.1)).length := by
  unfold selected
  rw [List.length_map]

theorem merge_goodness_foldl (merge : Merge) (init : Int) :
    merge.foldl (fun count b => if b then count + 1 else count) init =
      init + (merge.countP (fun b => b) : Nat) := by
  induction merge generalizing init with
  | nil => simp
  | cons b merge ih =>
    rw [List.foldl_cons, ih]
    cases b <;> simp [List.countP_cons]
    omega

theorem merge_goodness_eq (merge : Merge) :
    merge_goodness merge = (merge.countP (fun b => b) : Nat) - 1 := by
  unfold merge_goodness
  rw [merge_goodness_foldl]
  omega

theorem filter_test_length (full : Merge) :
    ∀ (t : List Entry) (m : List Bool) (n : Nat), full.drop n = m → t.length = m.length →
      ((t.enumFrom n).filter (fun ie => full.test ie.1)).length = m.countP (fun b => b) := by
  intro t
  induction t with
  | nil =>
    intro m n _ hlen
    have : m = [] := List.length_eq_zero.mp hlen.symm
    subst this
    rfl
  | cons e t ih =>
    intro m n hdrop hlen
    cases m with
    | nil => simp at hlen
    | cons b m =>
      have hn : n < full.length := by
        by_contra hcon
        have : full.drop n = [] := List.drop_eq_nil_iff.mpr (by omega)
        rw [this] at hdrop
        cases hdrop
      rw [List.drop_eq_getElem_cons hn] at hdrop
      have hb : full.test n = b := by
        unfold Merge.test
        rw [List.getD_eq_getElem?_getD, List.getElem?_eq_getElem hn]
        exact (List.cons.inj hdrop).1
      have htail := ih m (n + 1) (List.cons.inj hdrop).2 (by simpa using hlen)
      rw [List.enumFrom_cons, List.filter_cons, List.countP_cons]
      simp only [hb]
      cases b <;> simp [htail]

theorem selected_length_eq_count {table : Table} {merge : Merge}
    (hlen : merge.length = table.length) :
    (selected table merge).length = merge.countP (fun b => b) := by
  rw [selected_length]
  exact filter_test_length merge table merge 0 rfl hlen.symm

theorem selected_length_le (table : Table) (merge : Merge) :
    (selected table merge).length ≤ table.length := by
  rw [selected_length]
  have := List.length_filter_le (fun ie : Nat × Entry => merge.test ie.1) table.enum
  simpa using this

theorem merge_apply_reference_length {table : Table} {merge : Merge} {ip : Nat}
    (hle : ip ≤ table.length)
    (hsel : ∀ j e, table[j]? = some e → merge.test j = true → j < ip) :
    (merge_apply_reference table merge ip).length + (selected table merge).length =
      table.length + 1 := by
  have hcount := kept_split_length table merge ip hle
  have hk : kept merge ((table.drop ip).enumFrom ip) = table.drop ip := by
    rw [kept_eq_of_not_selected]
    · exact List.enumFrom_map_snd ip _
    · intro ie hie
      have hge := List.le_fst_of_mem_enumFrom hie
      obtain ⟨i, e⟩ := ie
      have hmem := List.mk_mem_enumFrom_iff_le_and_getElem?_sub.mp hie
      rw [List.getElem?_drop] at hmem
      have hi : table[i]? = some e := by
        have := hmem.2
        rwa [show ip + (i - ip) = i by omega] at this
      cases hm : merge.test i with
      | false => rfl
      | true =>
        have := hsel i e hi hm
        simp at hge
        omega
  rw [hk] at hcount
  rw [selected_length]
  unfold merge_apply_reference
  simp only [List.length_append, List.length_singleton, List.length_drop]
  simp only [List.length_drop] at hcount
  have : (kept merge (table.take ip).enum) = kept merge ((table.take ip).enumFrom 0) := rfl
  rw [this]
  omega

theorem merge_apply_eq_reference {table : Table} (hs : generality_sorted table)
    (aliases : Aliases) {merge : Merge} (hsel : selected table merge ≠ []) :
    ∃ ip, get_insertion_index_entry table (merge_entries table merge) = some ip ∧
      merge_apply table aliases merge = some
        (merge_apply_reference table merge ip,
          table.enum.foldl (alias_step (merge_entries table merge).keymask merge) aliases) ∧
      (merge_apply_reference table merge ip).length + (selected table merge).length =
        table.length + 1 ∧
      generality_sorted (merge_apply_reference table merge ip) := by
  obtain ⟨ip, hip, hle, hbelow, habove, hsellt, happly⟩ := merge_apply_sorted hs aliases hsel
  refine ⟨ip, hip, ?_, merge_apply_reference_length hle hsellt, ?_⟩
  · rw [happly]
    unfold merge_apply_reference
    simp
  · unfold merge_apply_reference
    rw [List.append_assoc, List.singleton_append]
    exact generality_sorted_insert hs hbelow habove (kept_sublist merge _ 0) rfl

/-- Claim C3: for every table sorted non-decreasing by `count_xs` and every merge
selecting at least one entry, the insertion index `ip` of the merged entry
exists and the in-place two-cursor rewrite of `merge_apply` leaves exactly the
unselected entries at indices below `ip`, then the merged entry, then the
entries at indices from `ip` on.  The rewrite reads from the table it is
writing to and a write outside the table yields `none`, so the equality also
says that no entry is overwritten before it is read and no write falls outside
the original table. -/
theorem merge_apply_refines_reference (table : Table) (aliases : Aliases) (merge : Merge)
    (hs : generality_sorted table) (hsel : selected table merge ≠ []) :
    ∃ ip aliases1, get_insertion_index_entry table (merge_entries table merge) = some ip ∧
      merge_apply table aliases merge = some (merge_apply_reference table merge ip, aliases1) := by
  obtain ⟨ip, hip, happly, _, _⟩ := merge_apply_eq_reference hs aliases hsel
  exact ⟨ip, _, hip, happly⟩

/-- Witness of C3 on the mid-table test: merging `0000` and `0001` puts `000X`
between `1111` and `XXXX`. -/
theorem merge_apply_refines_reference_witness :
    generality_sorted mid_table ∧ selected mid_table [true, true, false, false] ≠ [] ∧
      merge_apply_reference mid_table [true, true, false, false] 3 =
        [ { keymask := { key := 0xf, mask := 0xf }, source := 4, route := 32 },
          { keymask := { key := 0, mask := 0xe }, source := 9, route := 4 },
          { keymask := { key := 0, mask := 0 }, source := 4, route := 1 } ] ∧
      ∃ ip aliases1,
        get_insertion_index_entry mid_table
          (merge_entries mid_table [true, true, false, false]) = some ip ∧
        merge_apply mid_table [] [true, true, false, false] =
          some (merge_apply_reference mid_table [true, true, false, false] ip, aliases1) :=
  ⟨by decide, by decide, by decide,
    merge_apply_refines_reference mid_table [] [true, true, false, false]
      (by decide) (by decide)⟩

/-- Claim C4 (P1 size-correct): for every generality-sorted table and every merge
selecting `n ≥ 1` entries, `merge_apply` leaves a table of length
`old length - n + 1`; when the merge has one flag per table entry this is a
shrink by exactly `merge_goodness merge`. -/
theorem merge_apply_length (table : Table) (aliases : Aliases) (merge : Merge)
    (hs : generality_sorted table) (hsel : selected table merge ≠ []) :
    ∃ table1 aliases1, merge_apply table aliases merge = some (table1, aliases1) ∧
      table1.length = table.length - (selected table merge).length + 1 ∧
      (merge.length = table.length →
        (table1.length : Int) = (table.length : Int) - merge_goodness merge) := by
  obtain ⟨ip, _, happly, hlen, _⟩ := merge_apply_eq_reference hs aliases hsel
  have hle := selected_length_le table merge
  refine ⟨_, _, happly, by omega, ?_⟩
  intro hml
  rw [merge_goodness_eq, ← selected_length_eq_count hml]
  omega

/-- Witness of C4 on the mid-table test: merging two of four entries leaves
three. -/
theorem merge_apply_length_witness :
    generality_sorted mid_table ∧ selected mid_table [true, true, false, false] ≠ [] ∧
      ∃ table1 aliases1,
        merge_apply mid_table [] [true, true, false, false] = some (table1, aliases1) ∧
        table1.length = mid_table.length -
          (selected mid_table [true, true, false, false]).length + 1 ∧
        (([true, true, false, false] : Merge).length = mid_table.length →
          (table1.length : Int) =
            (mid_table.length : Int) - merge_goodness [true, true, false, false]) :=
  ⟨by decide, by decide,
    merge_apply_length mid_table [] [true, true, false, false] (by decide) (by decide)⟩

/-! ### Merge application: the alias map (claims C6, C7) -/

theorem equiv_iff_as64 (a b : KeyMask) : a.equiv b = true ↔ a.as64 = b.as64 := by
  unfold KeyMask.equiv KeyMask.lt
  simp only [Bool.and_eq_true, Bool.not_eq_true', decide_eq_false_iff_not, Nat.not_lt]
  omega

theorem equiv_refl (a : KeyMask) : a.equiv a = true := (equiv_iff_as64 a a).mpr rfl

theorem equiv_false_iff (a b : KeyMask) : a.equiv b = false ↔ a.as64 ≠ b.as64 := by
  have h := equiv_iff_as64 a b
  cases hab : a.equiv b with
  | true =>
    rw [hab] at h
    simp [h.mp rfl]
  | false =>
    rw [hab] at h
    simp only [true_iff]
    intro hcon
    exact absurd (h.mpr hcon) (by simp)

theorem lt_iff_as64 (a b : KeyMask) : a.lt b = true ↔ a.as64 < b.as64 := by
  unfold KeyMask.lt
  simp

theorem as64_eq_of_is32 {a : KeyMask} (ha : a.is32) : a.as64 = 2 ^ 32 * a.key + a.mask := by
  unfold KeyMask.as64
  have hk : a.key <<< 32 = 2 ^ 32 * a.key := by
    rw [Nat.shiftLeft_eq, Nat.mul_comm]
  have hlt : 2 ^ 32 * a.key < 2 ^ 64 := by
    have := ha.1
    omega
  rw [hk, Nat.mod_eq_of_lt hlt]
  exact (Nat.mul_add_lt_is_or ha.2 a.key).symm

theorem eq_of_as64_eq {a b : KeyMask} (ha : a.is32) (hb : b.is32) (h : a.as64 = b.as64) :
    a = b := by
  rw [as64_eq_of_is32 ha, as64_eq_of_is32 hb] at h
  have h1 := ha.2
  have h2 := hb.2
  obtain ⟨ak, am⟩ := a
  obtain ⟨bk, bm⟩ := b
  simp only at h h1 h2
  have : ak = bk ∧ am = bm := by omega
  rw [this.1, this.2]

theorem mem_set_insert_of_mem {x y : KeyMask} {s : KeyMaskSet} (h : y ∈ s) :
    y ∈ set_insert x s := by
  induction s with
  | nil => cases h
  | cons z s ih =>
    unfold set_insert
    split
    · exact List.mem_cons_of_mem _ h
    · split
      · rcases List.mem_cons.mp h with rfl | h
        · exact List.mem_cons_self _ _
        · exact List.mem_cons_of_mem _ (ih h)
      · exact h

theorem mem_set_insert_self {x : KeyMask} {s : KeyMaskSet} (hx : x.is32)
    (hs : ∀ y ∈ s, y.is32) : x ∈ set_insert x s := by
  induction s with
  | nil => simp [set_insert]
  | cons z s ih =>
    unfold set_insert
    split
    · exact List.mem_cons_self _ _
    · rename_i h1
      split
      · exact List.mem_cons_of_mem _ (ih (fun y hy => hs y (List.mem_cons_of_mem _ hy)))
      · rename_i h2
        have hz : z.is32 := hs z (List.mem_cons_self _ _)
        have : x = z := by
          apply eq_of_as64_eq hx hz
          rw [lt_iff_as64] at h1 h2
          omega
        rw [this]
        exact List.mem_cons_self _ _

theorem mem_of_mem_set_insert {x y : KeyMask} {s : KeyMaskSet} (h : y ∈ set_insert x s) :
    y = x ∨ y ∈ s := by
  induction s with
  | nil =>
    simp only [set_insert, List.mem_singleton] at h
    exact Or.inl h
  | cons z s ih =>
    unfold set_insert at h
    split at h
    · rcases List.mem_cons.mp h with rfl | h
      · exact Or.inl rfl
      · exact Or.inr h
    · split at h
      · rcases List.mem_cons.mp h with rfl | h
        · exact Or.inr (List.mem_cons_self _ _)
        · rcases ih h with h | h
          · exact Or.inl h
          · exact Or.inr (List.mem_cons_of_mem _ h)
      · exact Or.inr h

theorem mem_set_insert_all_of_mem {xs : List KeyMask} {y : KeyMask} {s : KeyMaskSet}
    (h : y ∈ s) : y ∈ set_insert_all xs s := by
  unfold set_insert_all
  induction xs generalizing s with
  | nil => exact h
  | cons x xs ih => exact ih (mem_set_insert_of_mem h)

theorem mem_of_mem_set_insert_all {xs : List KeyMask} {y : KeyMask} {s : KeyMaskSet}
    (h : y ∈ set_insert_all xs s) : y ∈ xs ∨ y ∈ s := by
  unfold set_insert_all at h
  induction xs generalizing s with
  | nil => exact Or.inr h
  | cons x xs ih =>
    rcases ih h with h | h
    · exact Or.inl (List.mem_cons_of_mem _ h)
    · rcases mem_of_mem_set_insert h with rfl | h
      · exact Or.inl (List.mem_cons_self _ _)
      · exact Or.inr h

theorem mem_set_insert_all_self {xs : List KeyMask} {s : KeyMaskSet}
    (hxs : ∀ x ∈ xs, x.is32) (hs : ∀ y ∈ s, y.is32) : ∀ x ∈ xs, x ∈ set_insert_all xs s := by
  unfold set_insert_all
  induction xs generalizing s with
  | nil => intro x hx; cases hx
  | cons a xs ih =>
    intro x hx
    have ha : a.is32 := hxs a (List.mem_cons_self _ _)
    have hs1 : ∀ y ∈ set_insert a s, y.is32 := by
      intro y hy
      rcases mem_of_mem_set_insert hy with rfl | hy
      · exact ha
      · exact hs y hy
    rcases List.mem_cons.mp hx with rfl | hx
    · have hmem : x ∈ set_insert x s := mem_set_insert_self ha hs
      have := @mem_set_insert_all_of_mem xs x (set_insert x s) hmem
      unfold set_insert_all at this
      exact this
    · exact ih (fun x hx => hxs x (List.mem_cons_of_mem _ hx)) hs1 x hx

theorem set_insert_ne_nil (x : KeyMask) (s : KeyMaskSet) : set_insert x s ≠ [] := by
  cases s with
  | nil => simp [set_insert]
  | cons z s =>
    unfold set_insert
    split
    · simp
    · split <;> simp

theorem set_insert_all_ne_nil {xs : List KeyMask} {s : KeyMaskSet} (h : xs ≠ [] ∨ s ≠ []) :
    set_insert_all xs s ≠ [] := by
  unfold set_insert_all
  induction xs generalizing s with
  | nil =>
    rcases h with h | h
    · exact absurd rfl h
    · exact h
  | cons x xs ih => exact ih (Or.inr (set_insert_ne_nil x s))

theorem aliases_find_insert_self (k : KeyMask) (xs : List KeyMask) (al : Aliases) :
    aliases_find k (aliases_insert k xs al) =
        some (set_insert_all xs ((aliases_slot k al).getD [])) ∧
      aliases_slot k (aliases_insert k xs al) =
        some (set_insert_all xs ((aliases_slot k al).getD [])) := by
  have hkk : k.lt k = false := by
    cases h : k.lt k with
    | false => rfl
    | true => rw [lt_iff_as64] at h; omega
  induction al with
  | nil => simp [aliases_insert, aliases_find, aliases_slot, equiv_refl, hkk]
  | cons p al ih =>
    obtain ⟨k1, s⟩ := p
    unfold aliases_insert
    by_cases h1 : k.lt k1 = true
    · simp [h1, aliases_find, aliases_slot, equiv_refl, hkk]
    · by_cases h2 : k1.lt k = true
      · have hne : k.equiv k1 = false := by
          rw [equiv_false_iff]
          rw [lt_iff_as64] at h2
          omega
        simp [h1, h2, aliases_find, aliases_slot, hne, ih]
      · have heq : k.equiv k1 = true := by
          rw [equiv_iff_as64]
          rw [lt_iff_as64] at h1 h2
          omega
        simp [h1, h2, aliases_find, aliases_slot, heq]

theorem aliases_find_insert_other {K k : KeyMask} (h : K.equiv k = false) (xs : List KeyMask)
    (al : Aliases) : aliases_find K (aliases_insert k xs al) = aliases_find K al := by
  rw [equiv_false_iff] at h
  induction al with
  | nil =>
    have : K.equiv k = false := (equiv_false_iff _ _).mpr h
    simp [aliases_insert, aliases_find, this]
  | cons p al ih =>
    obtain ⟨k1, s⟩ := p
    unfold aliases_insert
    by_cases h1 : k.lt k1 = true
    · have : K.equiv k = false := (equiv_false_iff _ _).mpr h
      simp [h1, aliases_find, this]
    · by_cases h2 : k1.lt k = true
      · simp only [h1, h2, if_true, if_false, aliases_find]
        rw [ih]
      · have hne : K.equiv k1 = false := by
          rw [equiv_false_iff]
          rw [lt_iff_as64] at h1 h2
          omega
        simp [h1, h2, aliases_find, hne]

theorem aliases_find_erase_other {K k : KeyMask} (h : K.equiv k = false) (al : Aliases) :
    aliases_find K (aliases_erase k al) = aliases_find K al := by
  rw [equiv_false_iff] at h
  unfold aliases_erase
  induction al with
  | nil => rfl
  | cons p al ih =>
    obtain ⟨k1, s⟩ := p
    by_cases h1 : k.equiv k1 = true
    · have hne : K.equiv k1 = false := by
        rw [equiv_false_iff]
        rw [equiv_iff_as64] at h1
        omega
      simp only [List.filter_cons, h1, Bool.not_true, if_false, aliases_find, hne]
      exact ih
    · simp only [Bool.not_eq_true] at h1
      simp only [List.filter_cons, h1, Bool.not_false, if_true, aliases_find]
      rw [ih]

theorem aliases_find_erase_equiv {K k : KeyMask} (h : K.equiv k = true) (al : Aliases) :
    aliases_find K (aliases_erase k al) = none := by
  rw [equiv_iff_as64] at h
  unfold aliases_erase
  induction al with
  | nil => rfl
  | cons p al ih =>
    obtain ⟨k1, s⟩ := p
    by_cases h1 : k.equiv k1 = true
    · simp only [List.filter_cons, h1, Bool.not_true, if_false]
      exact ih
    · simp only [Bool.not_eq_true] at h1
      have hne : K.equiv k1 = false := by
        rw [equiv_false_iff] at h1 ⊢
        omega
      simp only [List.filter_cons, h1, Bool.not_false, if_true, aliases_find, hne]
      exact ih

theorem aliases_slot_erase_other {K k : KeyMask} (h : K.equiv k = false) {al : Aliases}
    {s : KeyMaskSet} (hs : aliases_slot k al = some s) :
    aliases_slot k (aliases_erase K al) = some s := by
  rw [equiv_false_iff] at h
  unfold aliases_erase
  induction al with
  | nil => cases hs
  | cons p al ih =>
    obtain ⟨k1, s1⟩ := p
    unfold aliases_slot at hs
    by_cases h1 : k.lt k1 = true
    · simp [h1] at hs
    · by_cases h2 : k1.lt k = true
      · simp only [h1, h2, if_true, if_false] at hs
        by_cases h3 : K.equiv k1 = true
        · simp only [List.filter_cons, h3, Bool.not_true, if_false]
          exact ih hs
        · simp only [Bool.not_eq_true] at h3
          simp only [List.filter_cons, h3, Bool.not_false, if_true, aliases_slot, h1, h2,
            if_false]
          exact ih hs
      · simp only [h1, h2, if_false] at hs
        have h3 : K.equiv k1 = false := by
          rw [equiv_false_iff]
          rw [lt_iff_as64] at h1 h2
          omega
        simp only [List.filter_cons, h3, Bool.not_false, if_true, aliases_slot, h1, h2, if_false]
        exact hs

theorem aliases_find_congr {K K2 : KeyMask} (h : K.equiv K2 = true) (al : Aliases) :
    aliases_find K al = aliases_find K2 al := by
  rw [equiv_iff_as64] at h
  induction al with
  | nil => rfl
  | cons p al ih =>
    obtain ⟨k1, s⟩ := p
    unfold aliases_find
    have : K.equiv k1 = K2.equiv k1 := by
      cases h2 : K2.equiv k1 with
      | true =>
        rw [equiv_iff_as64] at h2 ⊢
        omega
      | false =>
        rw [equiv_false_iff] at h2 ⊢
        omega
    rw [this, ih]

theorem aliases_find_mem {K : KeyMask} {al : Aliases} {s : KeyMaskSet}
    (h : aliases_find K al = some s) : ∃ p ∈ al, p.2 = s ∧ K.equiv p.1 = true := by
  induction al with
  | nil => cases h
  | cons p al ih =>
    obtain ⟨k1, s1⟩ := p
    unfold aliases_find at h
    by_cases h1 : K.equiv k1 = true
    · simp only [h1, if_true, Option.some.injEq] at h
      exact ⟨(k1, s1), List.mem_cons_self _ _, h, h1⟩
    · simp only [h1, if_false] at h
      obtain ⟨p, hp, hps⟩ := ih h
      exact ⟨p, List.mem_cons_of_mem _ hp, hps⟩

theorem aliases_slot_mem {K : KeyMask} {al : Aliases} {s : KeyMaskSet}
    (h : aliases_slot K al = some s) : ∃ p ∈ al, p.2 = s := by
  induction al with
  | nil => cases h
  | cons p al ih =>
    obtain ⟨k1, s1⟩ := p
    unfold aliases_slot at h
    by_cases h1 : K.lt k1 = true
    · simp [h1] at h
    · by_cases h2 : k1.lt K = true
      · simp only [h1, h2, if_true, if_false] at h
        obtain ⟨p, hp, hps⟩ := ih h
        exact ⟨p, List.mem_cons_of_mem _ hp, hps⟩
      · simp only [Bool.not_eq_true] at h1 h2
        simp only [h1, h2, Bool.false_eq_true, if_false, Option.some.injEq] at h
        exact ⟨(k1, s1), List.mem_cons_self _ _, h⟩

theorem mem_aliases_insert {k : KeyMask} {xs : List KeyMask} {al : Aliases}
    {p : KeyMask × KeyMaskSet} (h : p ∈ aliases_insert k xs al) :
    p ∈ al ∨ (p.1 = k ∧ p.2 = set_insert_all xs []) ∨
      ∃ s, (p.1, s) ∈ al ∧ p.2 = set_insert_all xs s := by
  induction al with
  | nil =>
    simp only [aliases_insert, List.mem_singleton] at h
    right; left
    rw [h]
    exact ⟨rfl, rfl⟩
  | cons q al ih =>
    obtain ⟨k1, s1⟩ := q
    unfold aliases_insert at h
    by_cases h1 : k.lt k1 = true
    · simp only [h1, if_true] at h
      rcases List.mem_cons.mp h with rfl | h
      · right; left; exact ⟨rfl, rfl⟩
      · left; exact h
    · by_cases h2 : k1.lt k = true
      · simp only [h1, h2, if_true, if_false] at h
        rcases List.mem_cons.mp h with rfl | h
        · left; exact List.mem_cons_self _ _
        · rcases ih h with h | h | ⟨s, hs, hps⟩
          · left; exact List.mem_cons_of_mem _ h
          · right; left; exact h
          · right; right; exact ⟨s, List.mem_cons_of_mem _ hs, hps⟩
      · simp only [h1, h2, if_false] at h
        rcases List.mem_cons.mp h with rfl | h
        · right; right; exact ⟨s1, List.mem_cons_self _ _, rfl⟩
        · left; exact List.mem_cons_of_mem _ h

theorem equiv_comm (a b : KeyMask) : a.equiv b = b.equiv a := by
  unfold KeyMask.equiv
  exact Bool.and_comm _ _

theorem alias_contribution_mono {aliases : Aliases} {p : KeyMask} {s t : KeyMaskSet}
    (hst : ∀ a ∈ s, a ∈ t) (h : alias_contribution aliases p s) :
    alias_contribution aliases p t := by
  unfold alias_contribution at h ⊢
  cases hf : aliases_find p aliases with
  | none =>
    rw [hf] at h
    exact hst p h
  | some old =>
    rw [hf] at h
    exact fun a ha => hst a (h a ha)

theorem migration_step {aliases : Aliases} {m : KeyMask} {ps : List KeyMask} {al : Aliases}
    (hinv : MigrationInv aliases m ps al) {k : KeyMask} (hkm : k.equiv m = false)
    (hk32 : k.is32) (hps32 : ∀ p ∈ ps, p.is32) :
    MigrationInv aliases m (ps ++ [k]) (merge_apply_aliases al m k) := by
  obtain ⟨ha, hb, hc⟩ := hinv
  have hmk : m.equiv k = false := by rw [equiv_comm]; exact hkm
  have hslot32 : ∀ a ∈ (aliases_slot m al).getD [], a.is32 := by
    intro a hmem
    cases hs : aliases_slot m al with
    | none => rw [hs] at hmem; cases hmem
    | some s =>
      rw [hs] at hmem
      obtain ⟨q, hq, hqs⟩ := aliases_slot_mem hs
      exact hc q hq a (hqs ▸ hmem)
  have hprev : ∀ p ∈ ps, ∀ xs, alias_contribution aliases p
      (set_insert_all xs ((aliases_slot m al).getD [])) := by
    intro p hp xs
    have hne : ps ≠ [] := List.ne_nil_of_mem hp
    obtain ⟨s, _, hs, hcon⟩ := hb hne
    rw [hs]
    exact alias_contribution_mono (fun a ha => mem_set_insert_all_of_mem ha) (hcon p hp)
  have hkfind := ha k hkm
  unfold merge_apply_aliases
  cases hfind : aliases_find k al with
  | some old =>
    simp only
    rw [hfind] at hkfind
    have hany : ps.any (fun p => p.equiv k) = false := by
      cases h : ps.any (fun p => p.equiv k) with
      | false => rfl
      | true => rw [h] at hkfind; simp at hkfind
    rw [hany] at hkfind
    simp only [Bool.false_eq_true, if_false] at hkfind
    have hold32 : ∀ a ∈ old, a.is32 := by
      obtain ⟨q, hq, hqs, _⟩ := aliases_find_mem hfind
      exact fun a hmem => hc q hq a (hqs ▸ hmem)
    refine ⟨?_, ?_, ?_⟩
    · intro k2 hk2m
      by_cases hk2 : k2.equiv k = true
      · rw [aliases_find_erase_equiv hk2]
        have : (ps ++ [k]).any (fun p => p.equiv k2) = true := by
          rw [List.any_append]
          simp [equiv_comm k k2, hk2]
        rw [this]
        simp
      · simp only [Bool.not_eq_true] at hk2
        rw [aliases_find_erase_other hk2, aliases_find_insert_other hk2m, ha k2 hk2m]
        have : (ps ++ [k]).any (fun p => p.equiv k2) = ps.any (fun p => p.equiv k2) := by
          rw [List.any_append]
          simp [equiv_comm k k2, hk2]
        rw [this]
    · intro _
      obtain ⟨h1, h2⟩ := aliases_find_insert_self m old al
      refine ⟨_, ?_, aliases_slot_erase_other hkm h2, ?_⟩
      · rw [aliases_find_erase_other hmk, h1]
      · intro p hp
        rcases List.mem_append.mp hp with hp | hp
        · exact hprev p hp old
        · rw [List.mem_singleton] at hp
          subst hp
          unfold alias_contribution
          rw [← hkfind]
          exact mem_set_insert_all_self hold32 hslot32
    · intro q hq a hmem
      have hq1 : q ∈ aliases_insert m old al := by
        unfold aliases_erase at hq
        exact (List.mem_filter.mp hq).1
      rcases mem_aliases_insert hq1 with h | ⟨_, h⟩ | ⟨s, hs, h⟩
      · exact hc q h a hmem
      · rw [h] at hmem
        rcases mem_of_mem_set_insert_all hmem with h | h
        · exact hold32 a h
        · cases h
      · rw [h] at hmem
        rcases mem_of_mem_set_insert_all hmem with h | h
        · exact hold32 a h
        · exact hc _ hs a h
  | none =>
    simp only
    rw [hfind] at hkfind
    have hk32' : ∀ a ∈ [k], a.is32 := by
      intro a hmem
      rw [List.mem_singleton] at hmem
      rw [hmem]
      exact hk32
    refine ⟨?_, ?_, ?_⟩
    · intro k2 hk2m
      rw [aliases_find_insert_other hk2m, List.any_append]
      by_cases hk2 : k.equiv k2 = true
      · have : aliases_find k2 al = none := by
          rw [← aliases_find_congr hk2]
          exact hfind
        simp [hk2, this]
      · simp only [Bool.not_eq_true] at hk2
        rw [ha k2 hk2m]
        simp [hk2]
    · intro _
      obtain ⟨h1, h2⟩ := aliases_find_insert_self m [k] al
      refine ⟨_, h1, h2, ?_⟩
      intro p hp
      rcases List.mem_append.mp hp with hp | hp
      · exact hprev p hp [k]
      · rw [List.mem_singleton] at hp
        subst hp
        cases hold : aliases_find p aliases with
        | none =>
          unfold alias_contribution
          rw [hold]
          exact mem_set_insert_all_self hk32' hslot32 p (List.mem_singleton.mpr rfl)
        | some old =>
          rw [hold] at hkfind
          have hany : ps.any (fun q => q.equiv p) = true := by
            cases h : ps.any (fun q => q.equiv p) with
            | true => rfl
            | false => rw [h] at hkfind; simp at hkfind
          obtain ⟨q, hq, hqp⟩ := List.any_eq_true.mp hany
          have : q = p := eq_of_as64_eq (hps32 q hq) hk32 ((equiv_iff_as64 q p).mp hqp)
          subst this
          exact hprev q hq [q]
    · intro q hq a hmem
      rcases mem_aliases_insert hq with h | ⟨_, h⟩ | ⟨s, hs, h⟩
      · exact hc q h a hmem
      · rw [h] at hmem
        rcases mem_of_mem_set_insert_all hmem with h | h
        · exact hk32' a h
        · cases h
      · rw [h] at hmem
        rcases mem_of_mem_set_insert_all hmem with h | h
        · exact hk32' a h
        · exact hc _ hs a h

theorem migration_fold {aliases : Aliases} {m : KeyMask} :
    ∀ (l ps : List KeyMask) (al : Aliases), MigrationInv aliases m ps al →
      (∀ k ∈ l, k.equiv m = false ∧ k.is32) → (∀ p ∈ ps, p.is32) →
      MigrationInv aliases m (ps ++ l) (migrate m l al) := by
  intro l
  induction l with
  | nil =>
    intro ps al hinv _ _
    simpa [migrate] using hinv
  | cons k l ih =>
    intro ps al hinv hl hps
    have hk := hl k (List.mem_cons_self _ _)
    have hstep := migration_step hinv hk.1 hk.2 hps
    have := ih (ps ++ [k]) _ hstep (fun x hx => hl x (List.mem_cons_of_mem _ hx))
      (by
        intro p hp
        rcases List.mem_append.mp hp with hp | hp
        · exact hps p hp
        · rw [List.mem_singleton] at hp
          rw [hp]
          exact hk.2)
    simpa [migrate, List.append_assoc] using this

theorem migration_init {aliases : Aliases} (h32 : ∀ q ∈ aliases, ∀ a ∈ q.2, a.is32)
    (m : KeyMask) : MigrationInv aliases m [] aliases := by
  refine ⟨?_, ?_, ?_⟩
  · intro k _
    simp
  · intro h
    exact absurd rfl h
  · intro q hq a ha
    exact h32 q hq a ha

theorem alias_fold_eq_migrate (table : Table) (merge : Merge) (m : KeyMask) (aliases : Aliases) :
    table.enum.foldl (alias_step m merge) aliases =
      migrate m ((selected table merge).map (fun e => e.keymask)) aliases := by
  unfold migrate selected
  rw [List.foldl_map, List.foldl_map, ← foldl_filter_step]
  rfl

theorem merge_entries_is32 (table : Table) (merge : Merge) :
    (merge_entries table merge).keymask.is32 := by
  have hm := merge_entries_mask_lt table merge
  refine ⟨?_, hm⟩
  have hle : (merge_entries table merge).keymask.key ≤ (merge_entries table merge).keymask.mask :=
    Nat.and_le_right
  omega

theorem mem_of_getElem? {l : List Entry} {j : Nat} {e : Entry} (h : l[j]? = some e) : e ∈ l :=
  List.mem_iff_getElem?.mpr ⟨j, h⟩

theorem migration_first_self {aliases : Aliases}
    (h32 : ∀ q ∈ aliases, ∀ a ∈ q.2, a.is32) {m k : KeyMask} (hkm : k.equiv m = true)
    (hk32 : k.is32) (hnone : aliases_find m aliases = none) :
    MigrationInv aliases m [k] (merge_apply_aliases aliases m k) := by
  have hk : aliases_find k aliases = none := by
    rw [aliases_find_congr hkm]
    exact hnone
  unfold merge_apply_aliases
  rw [hk]
  simp only
  refine ⟨?_, ?_, ?_⟩
  · intro K hK
    rw [aliases_find_insert_other hK]
    have hkK : k.equiv K = false := by
      rw [equiv_false_iff] at hK ⊢
      rw [equiv_iff_as64] at hkm
      omega
    simp [hkK]
  · intro _
    obtain ⟨hf, hsl⟩ := aliases_find_insert_self m [k] aliases
    refine ⟨_, hf, hsl, ?_⟩
    intro p hp
    rw [List.mem_singleton] at hp
    subst hp
    unfold alias_contribution
    rw [hk]
    simp only
    refine mem_set_insert_all_self (fun x hx => ?_) (fun y hy => ?_) p (List.mem_singleton.mpr rfl)
    · rw [List.mem_singleton] at hx
      rw [hx]
      exact hk32
    · cases hs : aliases_slot m aliases with
      | none => rw [hs] at hy; cases hy
      | some s0 =>
        rw [hs] at hy
        obtain ⟨q, hq, hqs⟩ := aliases_slot_mem hs
        exact h32 q hq y (hqs ▸ hy)
  · intro q hq a ha
    rcases mem_aliases_insert hq with h | ⟨_, h2⟩ | ⟨s0, hs0, h2⟩
    · exact h32 q h a ha
    · rw [h2] at ha
      rcases mem_of_mem_set_insert_all ha with h | h
      · rw [List.mem_singleton] at h
        rw [h]
        exact hk32
      · cases h
    · rw [h2] at ha
      rcases mem_of_mem_set_insert_all ha with h | h
      · rw [List.mem_singleton] at h
        rw [h]
        exact hk32
      · exact h32 _ hs0 a h

/-- What the invariant of the alias updates gives once every selected keymask has
been handled. -/
theorem migration_conclude {aliases al1 : Aliases} {m : KeyMask} {ps : List KeyMask}
    (hinv : MigrationInv aliases m ps al1) {k : KeyMask} (hk : k ∈ ps) :
    (∃ s, aliases_find m al1 = some s ∧ alias_contribution aliases k s) ∧
      (k.equiv m = false → aliases_count aliases k = true → aliases_count al1 k = false) := by
  obtain ⟨ha, hb, _⟩ := hinv
  constructor
  · obtain ⟨s, hfind, _, hcon⟩ := hb (List.ne_nil_of_mem hk)
    exact ⟨s, hfind, hcon _ hk⟩
  · intro hkm _
    unfold aliases_count
    rw [ha k hkm]
    have : ps.any (fun p => p.equiv k) = true := List.any_eq_true.mpr ⟨_, hk, equiv_refl _⟩
    rw [this]
    rfl

theorem merge_apply_alias_migration_holds {table : Table} (hs : generality_sorted table)
    {aliases : Aliases} {merge : Merge} (hsel : selected table merge ≠ [])
    (ht32 : table_is32 table) (ha32 : aliases_is32 aliases)
    (hfirst : ∀ e ∈ (selected table merge).head?,
      e.keymask = (merge_entries table merge).keymask →
        aliases_count aliases (merge_entries table merge).keymask = false)
    (hrest : ∀ e ∈ (selected table merge).tail,
      e.keymask ≠ (merge_entries table merge).keymask) :
    ∃ table1 aliases1, merge_apply table aliases merge = some (table1, aliases1) ∧
      AliasMigration table aliases merge aliases1 := by
  obtain ⟨ip, _, happly, _, _⟩ := merge_apply_eq_reference hs aliases hsel
  refine ⟨_, _, happly, ?_⟩
  rw [alias_fold_eq_migrate]
  have hsel32 : ∀ e ∈ selected table merge, e.keymask.is32 := by
    intro e he
    obtain ⟨j, hj, _⟩ := mem_selected.mp he
    exact ht32 e (mem_of_getElem? hj)
  have hne_equiv : ∀ e ∈ selected table merge,
      e.keymask ≠ (merge_entries table merge).keymask →
      e.keymask.equiv (merge_entries table merge).keymask = false := by
    intro e he hne
    rw [equiv_false_iff]
    intro hcon
    exact hne (eq_of_as64_eq (hsel32 e he) (merge_entries_is32 table merge) hcon)
  have ha32s : ∀ q ∈ aliases, ∀ a ∈ q.2, a.is32 := fun q hq => (ha32 q hq).2
  have hinv : MigrationInv aliases (merge_entries table merge).keymask
      ((selected table merge).map (fun e => e.keymask))
      (migrate (merge_entries table merge).keymask
        ((selected table merge).map (fun e => e.keymask)) aliases) := by
    cases hL : selected table merge with
    | nil => exact absurd hL hsel
    | cons e0 rest =>
      rw [hL] at hfirst hrest hsel32 hne_equiv
      have hrest32 : ∀ k ∈ rest.map (fun e => e.keymask),
          k.equiv (merge_entries table merge).keymask = false ∧ k.is32 := by
        intro k hk
        obtain ⟨e, he, rfl⟩ := List.mem_map.mp hk
        exact ⟨hne_equiv e (List.mem_cons_of_mem _ he) (hrest e he),
          hsel32 e (List.mem_cons_of_mem _ he)⟩
      have h032 : e0.keymask.is32 := hsel32 e0 (List.mem_cons_self _ _)
      by_cases h0 : e0.keymask = (merge_entries table merge).keymask
      · have hcount := hfirst e0 rfl h0
        have hnone : aliases_find (merge_entries table merge).keymask aliases = none := by
          unfold aliases_count at hcount
          cases hf : aliases_find (merge_entries table merge).keymask aliases with
          | none => rfl
          | some s0 =>
            rw [hf] at hcount
            cases hcount
        have hstart := migration_first_self ha32s
          (by rw [h0]; exact equiv_refl _) h032 hnone
        have hfold := migration_fold (rest.map (fun e => e.keymask)) [e0.keymask] _ hstart
          hrest32 (by
            intro p hp
            rw [List.mem_singleton] at hp
            rw [hp]
            exact h032)
        simpa [migrate] using hfold
      · have hall : ∀ k ∈ (e0 :: rest).map (fun e => e.keymask),
            k.equiv (merge_entries table merge).keymask = false ∧ k.is32 := by
          intro k hk
          rw [List.map_cons, List.mem_cons] at hk
          rcases hk with rfl | hk
          · exact ⟨hne_equiv e0 (List.mem_cons_self _ _) h0, h032⟩
          · exact hrest32 k hk
        have hfold := migration_fold _ [] aliases (migration_init ha32s _) hall
          (by intro p hp; cases hp)
        rw [List.nil_append] at hfold
        exact hfold
  intro e he
  have hmem : e.keymask ∈ (selected table merge).map (fun e => e.keymask) :=
    List.mem_map.mpr ⟨e, he, rfl⟩
  obtain ⟨h1, h2⟩ := migration_conclude hinv hmem
  refine ⟨h1, ?_⟩
  intro hkey
  by_cases hk : e.keymask = (merge_entries table merge).keymask
  · exfalso
    cases hL : selected table merge with
    | nil => exact absurd hL hsel
    | cons e0 rest =>
      rw [hL] at hfirst hrest he
      rcases List.mem_cons.mp he with rfl | hr
      · have := hfirst e rfl hk
        rw [hk] at hkey
        rw [this] at hkey
        cases hkey
      · exact hrest e hr hk
  · exact h2 (hne_equiv e he hk) hkey

/-- Claim C6, as amended: for every generality-sorted table of 32-bit keymasks,
every alias map of 32-bit keymasks and every merge that selects at least one
entry, where the first selected entry has the merged keymask only if that
keymask is not a key of the alias map and no later selected entry has it,
`merge_apply` returns, and afterwards the set of the merged keymask contains,
for every selected entry with keymask `K`, every member of the old set of `K`
when `K` was a key of the alias map and `K` itself otherwise, and no selected
`K` that was a key is a key afterwards. -/
theorem merge_apply_alias_migration (table : Table) (aliases : Aliases) (merge : Merge)
    (hs : generality_sorted table) (hsel : selected table merge ≠ [])
    (ht32 : table_is32 table) (ha32 : aliases_is32 aliases)
    (hfirst : ∀ e ∈ (selected table merge).head?,
      e.keymask = (merge_entries table merge).keymask →
        aliases_count aliases (merge_entries table merge).keymask = false)
    (hrest : ∀ e ∈ (selected table merge).tail,
      e.keymask ≠ (merge_entries table merge).keymask) :
    ∃ table1 aliases1, merge_apply table aliases merge = some (table1, aliases1) ∧
      AliasMigration table aliases merge aliases1 :=
  merge_apply_alias_migration_holds hs hsel ht32 ha32 hfirst hrest

set_option maxRecDepth 100000 in
/-- Witness of C6 on the alias update test, where merging `000X` and `001X` moves
both alias sets to `00XX`, and on the merge of the single entry `1111` of that
table, whose keymask is the merged keymask and is not a key of the alias map. -/
theorem merge_apply_alias_migration_witness :
    (generality_sorted alias_table ∧ selected alias_table [false, true, true] ≠ [] ∧
      table_is32 alias_table ∧ aliases_is32 alias_table_aliases ∧
      (∀ e ∈ (selected alias_table [false, true, true]).tail,
        e.keymask ≠ (merge_entries alias_table [false, true, true]).keymask)) ∧
      (∃ table1 aliases1,
        merge_apply alias_table alias_table_aliases [false, true, true] =
          some (table1, aliases1) ∧
        AliasMigration alias_table alias_table_aliases [false, true, true] aliases1) ∧
      (selected alias_table [true, false, false]).map (fun e => e.keymask) =
        [(merge_entries alias_table [true, false, false]).keymask] ∧
      ∃ table1 aliases1,
        merge_apply alias_table alias_table_aliases [true, false, false] =
          some (table1, aliases1) ∧
        AliasMigration alias_table alias_table_aliases [true, false, false] aliases1 :=
  ⟨⟨by decide, by decide, by decide, by decide, by decide⟩,
    merge_apply_alias_migration alias_table alias_table_aliases [false, true, true]
      (by decide) (by decide) (by decide) (by decide) (by decide) (by decide),
    by decide,
    merge_apply_alias_migration alias_table alias_table_aliases [true, false, false]
      (by decide) (by decide) (by decide) (by decide) (by decide) (by decide)⟩

/-- The erase of the old key in `merge_apply` when a selected entry has the merged
keymask: merging `000...00` with `000...0X`, whose keymask is the merged keymask,
on a sorted table with an empty alias map leaves an empty alias map, so the set
of the merged keymask does not contain the keymask of the first entry. -/
theorem merge_apply_alias_migration_fails_on_covering_entry :
    merge_apply covering_table [] [true, true] =
        some ([{ keymask := { key := 0, mask := 0xfffffffe }, source := 3, route := 1 }], []) ∧
      ¬ AliasMigration covering_table [] [true, true] [] := by
  refine ⟨by decide, ?_⟩
  intro h
  obtain ⟨⟨s, hs, _⟩, _⟩ := h ⟨⟨0, 0xffffffff⟩, 1, 1⟩ (by decide)
  simp [aliases_find] at hs

theorem aliases_find_none {k : KeyMask} {al : Aliases} (h : aliases_find k al = none) :
    ∀ q ∈ al, k.equiv q.1 = false := by
  induction al with
  | nil => intro q hq; cases hq
  | cons p al ih =>
    obtain ⟨k1, s⟩ := p
    unfold aliases_find at h
    by_cases h1 : k.equiv k1 = true
    · simp [h1] at h
    · simp only [h1, if_false] at h
      intro q hq
      rcases List.mem_cons.mp hq with rfl | hq
      · simpa using h1
      · exact ih h q hq

theorem wellformed_step {aliases : Aliases} {m : KeyMask} {ps : List KeyMask} {al : Aliases}
    (hinv : WellFormedInv aliases m ps al) (k : KeyMask) :
    WellFormedInv aliases m (ps ++ [k]) (merge_apply_aliases al m k) := by
  have hext : ∀ (q : KeyMask × KeyMaskSet), k.equiv q.1 = false →
      (q.1 = m ∨ ((∃ q0 ∈ aliases, q0.1 = q.1) ∧ ∀ p ∈ ps, p.equiv q.1 = false)) →
      (q.1 = m ∨ ((∃ q0 ∈ aliases, q0.1 = q.1) ∧ ∀ p ∈ ps ++ [k], p.equiv q.1 = false)) := by
    intro q hkq h
    rcases h with h | ⟨h1, h2⟩
    · exact Or.inl h
    · refine Or.inr ⟨h1, ?_⟩
      intro p hp
      rcases List.mem_append.mp hp with hp | hp
      · exact h2 p hp
      · rw [List.mem_singleton] at hp
        rw [hp]
        exact hkq
  have hins : ∀ (xs : List KeyMask), xs ≠ [] → ∀ q ∈ aliases_insert m xs al,
      k.equiv q.1 = false → q.2 ≠ [] ∧
        (q.1 = m ∨ ((∃ q0 ∈ aliases, q0.1 = q.1) ∧ ∀ p ∈ ps ++ [k], p.equiv q.1 = false)) := by
    intro xs hxs q hq hkq
    rcases mem_aliases_insert hq with h | ⟨h1, h2⟩ | ⟨s, hs, h⟩
    · exact ⟨(hinv q h).1, hext q hkq (hinv q h).2⟩
    · exact ⟨h2 ▸ set_insert_all_ne_nil (Or.inl hxs), Or.inl h1⟩
    · exact ⟨h ▸ set_insert_all_ne_nil (Or.inl hxs), hext q hkq (hinv _ hs).2⟩
  unfold merge_apply_aliases
  cases hfind : aliases_find k al with
  | some old =>
    simp only
    obtain ⟨q0, hq0, hq0s, _⟩ := aliases_find_mem hfind
    have hold : old ≠ [] := hq0s ▸ (hinv q0 hq0).1
    intro q hq
    unfold aliases_erase at hq
    obtain ⟨hq1, hq2⟩ := List.mem_filter.mp hq
    exact hins old hold q hq1 (by simpa using hq2)
  | none =>
    simp only
    intro q hq
    by_cases hkq : k.equiv q.1 = true
    · rcases mem_aliases_insert hq with h | ⟨h1, h2⟩ | ⟨s, hs, h⟩
      · have := aliases_find_none hfind q h
        rw [hkq] at this
        cases this
      · exact ⟨h2 ▸ set_insert_all_ne_nil (Or.inl (by simp)), Or.inl h1⟩
      · have := aliases_find_none hfind _ hs
        rw [hkq] at this
        cases this
    · exact hins [k] (by simp) q hq (by simpa using hkq)

theorem wellformed_fold {aliases : Aliases} {m : KeyMask} :
    ∀ (l ps : List KeyMask) (al : Aliases), WellFormedInv aliases m ps al →
      WellFormedInv aliases m (ps ++ l) (migrate m l al) := by
  intro l
  induction l with
  | nil =>
    intro ps al hinv
    simpa [migrate] using hinv
  | cons k l ih =>
    intro ps al hinv
    have := ih (ps ++ [k]) _ (wellformed_step hinv k)
    simpa [migrate, List.append_assoc] using this

theorem mem_merge_apply_reference_of_unselected {table : Table} {merge : Merge} {ip j : Nat}
    {e : Entry} (hj : table[j]? = some e) (hm : merge.test j = false) :
    e ∈ merge_apply_reference table merge ip := by
  unfold merge_apply_reference
  by_cases hlt : j < ip
  · apply List.mem_append_left
    apply List.mem_append_left
    unfold kept
    rw [List.mem_map]
    refine ⟨(j, e), ?_, rfl⟩
    rw [List.mem_filter]
    refine ⟨?_, by simp [hm]⟩
    rw [List.mk_mem_enum_iff_getElem?, List.getElem?_take, if_pos hlt]
    exact hj
  · apply List.mem_append_right
    rw [List.mem_iff_getElem?]
    refine ⟨j - ip, ?_⟩
    rw [List.getElem?_drop, show ip + (j - ip) = j by omega]
    exact hj

theorem merge_apply_keeps_wellformed {table : Table} (hs : generality_sorted table)
    {aliases : Aliases} {merge : Merge} (hsel : selected table merge ≠ [])
    (hwf : AliasesWellFormed table aliases) :
    ∃ table1 aliases1, merge_apply table aliases merge = some (table1, aliases1) ∧
      AliasesWellFormed table1 aliases1 := by
  obtain ⟨ip, _, happly, _, _⟩ := merge_apply_eq_reference hs aliases hsel
  refine ⟨_, _, happly, ?_⟩
  rw [alias_fold_eq_migrate]
  have hinit : WellFormedInv aliases (merge_entries table merge).keymask [] aliases := by
    intro q hq
    exact ⟨hwf.2 q hq, Or.inr ⟨⟨q, hq, rfl⟩, by intro p hp; cases hp⟩⟩
  have hinv := wellformed_fold ((selected table merge).map (fun e => e.keymask)) [] aliases hinit
  rw [List.nil_append] at hinv
  constructor
  · intro q hq
    rcases (hinv q hq).2 with h | ⟨⟨q0, hq0, hq0q⟩, hps⟩
    · refine ⟨merge_entries table merge, ?_, h.symm⟩
      unfold merge_apply_reference
      simp
    · obtain ⟨e, he, hek⟩ := hwf.1 q0 hq0
      obtain ⟨j, hj⟩ := List.mem_iff_getElem?.mp he
      refine ⟨e, ?_, hek.trans hq0q⟩
      apply mem_merge_apply_reference_of_unselected hj
      cases hm : merge.test j with
      | false => rfl
      | true =>
        have hsel : e ∈ selected table merge := mem_selected.mpr ⟨j, hj, hm⟩
        have := hps e.keymask (List.mem_map.mpr ⟨e, hsel, rfl⟩)
        rw [hek, hq0q, equiv_refl] at this
        cases this
  · intro q hq
    exact (hinv q hq).1

/-- Claim C7 (P3 alias well-formedness): if every key of the alias map is the
keymask of some table entry and every value-set is non-empty, then for every
generality-sorted table and every merge selecting at least one entry
`merge_apply` returns and the same two facts hold for the table and alias map
it leaves. -/
theorem merge_apply_alias_wellformed (table : Table) (aliases : Aliases) (merge : Merge)
    (hs : generality_sorted table) (hsel : selected table merge ≠ [])
    (hwf : AliasesWellFormed table aliases) :
    ∃ table1 aliases1, merge_apply table aliases merge = some (table1, aliases1) ∧
      AliasesWellFormed table1 aliases1 :=
  merge_apply_keeps_wellformed hs hsel hwf

/-- Witness of C7 on the alias update test. -/
theorem merge_apply_alias_wellformed_witness :
    generality_sorted alias_table ∧ selected alias_table [false, true, true] ≠ [] ∧
      AliasesWellFormed alias_table alias_table_aliases ∧
      ∃ table1 aliases1,
        merge_apply alias_table alias_table_aliases [false, true, true] =
          some (table1, aliases1) ∧
        AliasesWellFormed table1 aliases1 :=
  ⟨by decide, by decide, by decide,
    merge_apply_alias_wellformed alias_table alias_table_aliases [false, true, true]
      (by decide) (by decide) (by decide)⟩

/-! ### Refinements only shrink a merge -/

theorem test_set_false (m : Merge) (i j : Nat) :
    Merge.test (m.set i false) j = if i = j then false else m.test j := by
  unfold Merge.test
  rw [List.getD_eq_getElem?_getD, List.getD_eq_getElem?_getD, List.getElem?_set]
  by_cases hij : i = j
  · simp only [hij, if_true]
    by_cases hlt : j < m.length <;> simp [hlt]
  · simp [hij]

theorem test_set_true (m : Merge) (i j : Nat) (hi : i < m.length) :
    Merge.test (m.set i true) j = if i = j then true else m.test j := by
  unfold Merge.test
  rw [List.getD_eq_getElem?_getD, List.getD_eq_getElem?_getD, List.getElem?_set]
  by_cases hij : i = j
  · subst hij
    simp [hi]
  · simp [hij]

theorem test_merge_clear (m : Merge) (j : Nat) : Merge.test (merge_clear m) j = false := by
  unfold Merge.test merge_clear
  rw [List.getD_eq_getElem?_getD, List.getElem?_map]
  cases m[j]? <;> rfl

theorem merge_subset_refl (m : Merge) : merge_subset m m := ⟨rfl, fun _ h => h⟩

theorem merge_subset_trans {a b c : Merge} (h1 : merge_subset a b) (h2 : merge_subset b c) :
    merge_subset a c := ⟨h1.1.trans h2.1, fun i h => h2.2 i (h1.2 i h)⟩

theorem merge_subset_clear (m : Merge) : merge_subset (merge_clear m) m := by
  refine ⟨by simp [merge_clear], ?_⟩
  intro i h
  rw [test_merge_clear] at h
  cases h

theorem merge_subset_set_false (m : Merge) (i : Nat) : merge_subset (m.set i false) m := by
  refine ⟨by simp, ?_⟩
  intro j h
  rw [test_set_false] at h
  by_cases hij : i = j
  · simp [hij] at h
  · simpa [hij] using h

theorem merge_subset_remove (m : Merge) (l : List Nat) : merge_subset (merge_remove m l) m := by
  unfold merge_remove
  induction l generalizing m with
  | nil => exact merge_subset_refl m
  | cons i l ih => exact merge_subset_trans (ih (m.set i false)) (merge_subset_set_false m i)

theorem refine_merge_downcheck_loop_subset (table : Table) (aliases : Aliases)
    (min_goodness : Int) :
    ∀ (fuel : Nat) (merge : Merge) (removed goodness : Int) (r : Merge × Int),
      refine_merge_downcheck_loop table aliases min_goodness fuel merge removed goodness =
        some r → merge_subset r.1 merge := by
  intro fuel
  induction fuel with
  | zero =>
    intro merge removed goodness r h
    simp [refine_merge_downcheck_loop] at h
  | succ fuel ih =>
    intro merge removed goodness r h
    unfold refine_merge_downcheck_loop at h
    split at h
    · split at h
      · cases h
      · rename_i info _
        split at h
        · cases h
          exact merge_subset_refl _
        · split at h
          · exact merge_subset_trans (ih _ _ _ _ h) (merge_subset_clear _)
          · simp only at h
            split at h
            · exact merge_subset_trans (ih _ _ _ _ h)
                (merge_subset_trans (merge_subset_clear _) (merge_subset_remove _ _))
            · exact merge_subset_trans (ih _ _ _ _ h) (merge_subset_remove _ _)
    · cases h
      exact merge_subset_refl _

theorem refine_merge_downcheck_subset {fuel : Nat} {table : Table} {aliases : Aliases}
    {merge : Merge} {min_goodness : Int} {r : Merge × Int}
    (h : refine_merge_downcheck fuel table aliases merge min_goodness = some r) :
    merge_subset r.1 merge :=
  refine_merge_downcheck_loop_subset table aliases min_goodness fuel merge 0 _ r h

theorem refine_merge_upcheck_step_subset {table : Table} {min_goodness : Int} {st st1 : UpState}
    {index : Nat} (h : refine_merge_upcheck_step table min_goodness st index = some st1) :
    merge_subset st1.merge st.merge := by
  unfold refine_merge_upcheck_step at h
  split at h
  · split at h
    · split at h
      · cases h
      · split at h
        · simp only at h
          split at h
          · cases h
          · cases h
            exact merge_subset_set_false _ _
        · cases h
          exact merge_subset_refl _
    · cases h
      exact merge_subset_refl _
  · cases h
    exact merge_subset_refl _

theorem refine_merge_upcheck_loop_subset (table : Table) (min_goodness : Int) :
    ∀ (l : List Nat) (st st1 : UpState),
      refine_merge_upcheck_loop table min_goodness l st = some st1 →
      merge_subset st1.merge st.merge := by
  intro l
  induction l with
  | nil =>
    intro st st1 h
    simp only [refine_merge_upcheck_loop, Option.some.injEq] at h
    rw [← h]
    exact merge_subset_refl _
  | cons i l ih =>
    intro st st1 h
    unfold refine_merge_upcheck_loop at h
    split at h
    · cases h
    · rename_i st2 hstep
      exact merge_subset_trans (ih _ _ h) (refine_merge_upcheck_step_subset hstep)

theorem refine_merge_upcheck_subset {table : Table} {merge : Merge} {min_goodness : Int}
    {r : Merge × Int} (h : refine_merge_upcheck table merge min_goodness = some r) :
    merge_subset r.1 merge := by
  unfold refine_merge_upcheck at h
  split at h
  · cases h
  · split at h
    · cases h
    · rename_i st hloop
      have hsub := refine_merge_upcheck_loop_subset table min_goodness _ _ _ hloop
      split at h
      · cases h
        exact merge_subset_trans (merge_subset_clear _) hsub
      · cases h
        exact hsub

/-! ### The upcheck -/

theorem countP_set_false_of_test {m : Merge} {i : Nat} (h : m.test i = true) :
    (m.set i false).countP (fun b => b) + 1 = m.countP (fun b => b) := by
  induction m generalizing i with
  | nil => simp [Merge.test] at h
  | cons b m ih =>
    cases i with
    | zero =>
      simp only [Merge.test, List.getD_cons_zero] at h
      subst h
      simp [List.countP_cons]
    | succ i =>
      have h1 : Merge.test m i = true := by
        simpa [Merge.test] using h
      have := ih h1
      simp only [List.set_cons_succ, List.countP_cons]
      omega

theorem countP_set_false_ge (m : Merge) (i : Nat) :
    m.countP (fun b => b) ≤ (m.set i false).countP (fun b => b) + 1 := by
  induction m generalizing i with
  | nil => simp
  | cons b m ih =>
    cases i with
    | zero =>
      simp only [List.set_cons_zero, List.countP_cons]
      cases b <;> simp
    | succ i =>
      have := ih i
      simp only [List.set_cons_succ, List.countP_cons]
      omega

theorem merge_goodness_set_false {m : Merge} {i : Nat} (h : m.test i = true) :
    merge_goodness (m.set i false) = merge_goodness m - 1 := by
  rw [merge_goodness_eq, merge_goodness_eq]
  have := countP_set_false_of_test h
  omega

theorem merge_goodness_remove_ge (m : Merge) (l : List Nat) :
    merge_goodness m - l.length ≤ merge_goodness (merge_remove m l) := by
  unfold merge_remove
  induction l generalizing m with
  | nil => simp
  | cons i l ih =>
    have h1 := ih (m.set i false)
    have h2 := countP_set_false_ge m i
    rw [merge_goodness_eq] at h1 ⊢
    simp only [List.foldl_cons, List.length_cons]
    rw [merge_goodness_eq] at h1
    rw [merge_goodness_eq]
    push_cast at h1 ⊢
    omega

theorem selected_subset {table : Table} {m1 m : Merge} (h : merge_subset m1 m) {e : Entry}
    (he : e ∈ selected table m1) : e ∈ selected table m := by
  obtain ⟨j, hj, hm⟩ := mem_selected.mp he
  exact mem_selected.mpr ⟨j, hj, h.2 j hm⟩

theorem merge_entries_count_xs_mono {table : Table} {m1 m : Merge} (h : merge_subset m1 m)
    (hne : selected table m1 ≠ []) :
    (merge_entries table m1).keymask.count_xs ≤ (merge_entries table m).keymask.count_xs := by
  unfold KeyMask.count_xs
  apply popcount_mono
  intro i hi hx
  rw [merge_entries_get_xs_testBit] at hx ⊢
  simp only [Bool.and_eq_true, decide_eq_true_eq, Bool.not_eq_true'] at hx ⊢
  refine ⟨hi, ?_⟩
  cases hM : (merge_entries table m).keymask.mask.testBit i with
  | false => rfl
  | true =>
    obtain ⟨_, hmask, hkey⟩ := merge_entries_mask_bit hM
    have h1 : (merge_entries table m1).keymask.mask.testBit i = true := by
      rw [merge_entries_mask_testBit]
      simp only [Bool.and_eq_true, decide_eq_true_eq, List.all_eq_true]
      refine ⟨⟨hi, fun e he => hmask e (selected_subset h he)⟩, ?_⟩
      rw [any_beq_all_iff _ _ hne]
      intro a ha b hb
      rw [hkey a (selected_subset h ha), hkey b (selected_subset h hb)]
    rw [h1] at hx
    exact absurd hx.2 (by simp)

theorem get_insertion_index_props {table : Table} (hs : generality_sorted table) {g i : Nat}
    (h : get_insertion_index table g = some i) :
    i ≤ table.length ∧
      (∀ j a, j < i → table[j]? = some a → a.keymask.count_xs ≤ g) ∧
      (∀ j a, i ≤ j → table[j]? = some a → g < a.keymask.count_xs) := by
  have hne : table ≠ [] := by
    intro hnil
    rw [hnil] at h
    simp [get_insertion_index, get_insertion_index_search] at h
  obtain ⟨i1, hi1, hprops⟩ := get_insertion_index_spec hs hne g
  rw [h] at hi1
  cases hi1
  exact hprops

theorem get_insertion_index_mono {table : Table} (hs : generality_sorted table) {g1 g i1 i : Nat}
    (h1 : get_insertion_index table g1 = some i1) (h : get_insertion_index table g = some i)
    (hle : g1 ≤ g) : i1 ≤ i := by
  obtain ⟨hb1, hbelow1, _⟩ := get_insertion_index_props hs h1
  obtain ⟨_, _, habove⟩ := get_insertion_index_props hs h
  by_contra hcon
  have hlt : i < table.length := by omega
  have ha := habove i _ (Nat.le_refl _) (List.getElem?_eq_getElem hlt)
  have hb := hbelow1 i _ (by omega) (List.getElem?_eq_getElem hlt)
  omega

theorem upcheck_ok_mono {table : Table} {m1 m : Merge} {ip1 ip : Nat} {done : List Nat}
    (hsub : merge_subset m1 m) (hip : ip1 ≤ ip) (h : upcheck_ok table m ip done) :
    upcheck_ok table m1 ip1 done := by
  intro i hi e he hm j o hij hj ho
  exact h i hi e he (hsub.2 i hm) j o hij (by omega) ho

theorem refine_merge_upcheck_step_inv {table : Table} (hs : generality_sorted table)
    {min_goodness : Int} {m0 : Merge} {g0 : Int} {st st1 : UpState} {done : List Nat}
    {index : Nat} (hinv : UpInv table min_goodness m0 g0 st done)
    (h : refine_merge_upcheck_step table min_goodness st index = some st1) :
    UpInv table min_goodness m0 g0 st1 (index :: done) := by
  obtain ⟨hip, hg, hacc, hrem, hzero, hok⟩ := hinv
  have hkeep : ∀ (hskip : st.goodness > min_goodness → selected table st.merge ≠ [] →
      ∀ e, table[index]? = some e → st.merge.test index = true →
        ∀ j o, index < j → j < st.insertion_point → table[j]? = some o →
          e.keymask.intersect o.keymask = false),
      UpInv table min_goodness m0 g0 st (index :: done) := by
    intro hskip
    refine ⟨hip, hg, hacc, hrem, hzero, ?_⟩
    intro hgood hne i hi
    rcases List.mem_cons.mp hi with rfl | hi
    · exact hskip hgood hne
    · exact hok hgood hne i hi
  unfold refine_merge_upcheck_step at h
  split at h
  · rename_i hgood
    split at h
    · rename_i htest
      split at h
      · cases h
      · rename_i entry hentry
        rw [List.get?_eq_getElem?] at hentry
        split at h
        · rename_i hany
          simp only at h
          split at h
          · cases h
          · rename_i ip1 hip1
            cases h
            have hsub := merge_subset_set_false st.merge index
            refine ⟨hip1, ?_, ?_, ?_, ?_, ?_⟩
            · simp only
              rw [merge_goodness_set_false htest, hg]
            · simp only
              omega
            · simp only
              omega
            · simp only
              intro hcon
              omega
            · simp only
              intro hgood1 hne1
              have hne : selected table st.merge ≠ [] := by
                obtain ⟨x, hx⟩ := List.exists_mem_of_ne_nil _ hne1
                exact List.ne_nil_of_mem (selected_subset hsub hx)
              have hmono : ip1 ≤ st.insertion_point := by
                unfold get_insertion_index_merge get_insertion_index_entry at hip hip1
                exact get_insertion_index_mono hs hip1 hip
                  (merge_entries_count_xs_mono hsub hne1)
              intro i hi e he hm
              rcases List.mem_cons.mp hi with rfl | hi
              · rw [test_set_false] at hm
                simp at hm
              · exact upcheck_ok_mono hsub hmono (hok (by omega) hne) i hi e he hm
        · rename_i hany
          cases h
          apply hkeep
          intro _ _ e he _ j o hij hj ho
          rw [hentry] at he
          cases he
          simp only [Bool.not_eq_true] at hany
          rw [List.any_eq_false] at hany
          have hj' : j ∈ List.range' (index + 1) (st.insertion_point - (index + 1)) := by
            rw [List.mem_range'_1]
            omega
          have := hany j hj'
          rw [List.get?_eq_getElem?, ho] at this
          simpa using this
    · rename_i htest
      cases h
      apply hkeep
      intro _ _ e _ hm
      exact absurd hm htest
  · rename_i hgood
    cases h
    apply hkeep
    intro hg1
    exact absurd hg1 hgood

theorem refine_merge_upcheck_loop_inv {table : Table} (hs : generality_sorted table)
    {min_goodness : Int} {m0 : Merge} {g0 : Int} :
    ∀ (l : List Nat) (st st1 : UpState) (done : List Nat),
      UpInv table min_goodness m0 g0 st done →
      refine_merge_upcheck_loop table min_goodness l st = some st1 →
      UpInv table min_goodness m0 g0 st1 (l.reverse ++ done) := by
  intro l
  induction l with
  | nil =>
    intro st st1 done hinv h
    simp only [refine_merge_upcheck_loop, Option.some.injEq] at h
    rw [← h]
    simpa using hinv
  | cons i l ih =>
    intro st st1 done hinv h
    unfold refine_merge_upcheck_loop at h
    split at h
    · cases h
    · rename_i st2 hstep
      have := ih st2 st1 (i :: done) (refine_merge_upcheck_step_inv hs hinv hstep) h
      simpa using this

theorem refine_merge_upcheck_spec {table : Table} (hs : generality_sorted table)
    {merge : Merge} {min_goodness : Int} (hmin : 0 ≤ min_goodness) {r : Merge × Int}
    (h : refine_merge_upcheck table merge min_goodness = some r)
    (hgood : merge_goodness merge - r.2 > min_goodness) :
    merge_goodness r.1 = merge_goodness merge - r.2 ∧ (r.2 = 0 → r.1 = merge) ∧
      ∃ ip, get_insertion_index_merge table r.1 = some ip ∧
        (selected table r.1 ≠ [] → upcheck_ok table r.1 ip (List.range table.length)) := by
  unfold refine_merge_upcheck at h
  split at h
  · cases h
  · rename_i ip0 hip0
    split at h
    · cases h
    · rename_i st hloop
      have hinit : UpInv table min_goodness merge (merge_goodness merge)
          { merge := merge, removed := 0, goodness := merge_goodness merge,
            insertion_point := ip0 } [] := by
        refine ⟨hip0, rfl, by simp, by simp, fun _ => rfl, ?_⟩
        intro _ _ i hi
        cases hi
      have hinv := refine_merge_upcheck_loop_inv hs _ _ _ _ hinit hloop
      obtain ⟨hip, hg, hacc, hrem, hzero, hok⟩ := hinv
      split at h
      · rename_i hle
        cases h
        simp only at hgood
        omega
      · rename_i hnle
        cases h
        simp only at hgood ⊢
        refine ⟨by omega, hzero, st.insertion_point, hip, ?_⟩
        intro hne
        have := hok (by omega) hne
        intro i hi
        apply this
        simp only [List.append_nil, List.mem_reverse]
        exact hi

/-! ### The downcheck -/

theorem cover_alias_fold_false (merge_km : KeyMask) :
    ∀ (l : List KeyMask) (st : Bool × Settables),
      (l.foldl (fun st1 al =>
          if al.intersect merge_km then (true, get_settables merge_km al st1.2) else st1)
        st).1 = false →
      st.1 = false ∧ ∀ a ∈ l, a.intersect merge_km = false := by
  intro l
  induction l with
  | nil =>
    intro st h
    exact ⟨h, fun a ha => by cases ha⟩
  | cons x l ih =>
    intro st h
    rw [List.foldl_cons] at h
    obtain ⟨h1, h2⟩ := ih _ h
    by_cases hx : x.intersect merge_km = true
    · simp [hx] at h1
    · simp only [hx, if_false] at h1
      refine ⟨h1, ?_⟩
      intro a ha
      rcases List.mem_cons.mp ha with rfl | ha
      · simpa using hx
      · exact h2 a ha

theorem get_cover_info_step_false {aliases : Aliases} {merge_km : KeyMask}
    {st : Bool × Settables} {entry : Entry}
    (h : (get_cover_info_step aliases merge_km st entry).1 = false) :
    st.1 = false ∧ not_covered aliases merge_km entry := by
  unfold get_cover_info_step at h
  simp only at h
  split at h
  · split at h
    · simp at h
    · rename_i s hs
      obtain ⟨h1, h2⟩ := cover_alias_fold_false merge_km s st h
      exact ⟨h1, Or.inr ⟨s, hs, h2⟩⟩
  · rename_i hint
    exact ⟨h, Or.inl (by simpa using hint)⟩

theorem get_cover_info_fold_false {aliases : Aliases} {merge_km : KeyMask} :
    ∀ (l : List Entry) (st : Bool × Settables),
      (l.foldl (get_cover_info_step aliases merge_km) st).1 = false →
      st.1 = false ∧ ∀ e ∈ l, not_covered aliases merge_km e := by
  intro l
  induction l with
  | nil =>
    intro st h
    exact ⟨h, fun e he => by cases he⟩
  | cons x l ih =>
    intro st h
    rw [List.foldl_cons] at h
    obtain ⟨h1, h2⟩ := ih _ h
    obtain ⟨h3, h4⟩ := get_cover_info_step_false h1
    refine ⟨h3, ?_⟩
    intro e he
    rcases List.mem_cons.mp he with rfl | he
    · exact h4
    · exact h2 e he

theorem downcheck_ok_of_cover_free {table : Table} {aliases : Aliases} {merge : Merge}
    (h : cover_free table aliases merge) : downcheck_ok table aliases merge := by
  obtain ⟨info, hinfo, hcov⟩ := h
  unfold get_cover_info at hinfo
  simp only at hinfo
  split at hinfo
  · cases hinfo
  · rename_i ip hip
    cases hinfo
    simp only at hcov
    exact ⟨ip, hip, (get_cover_info_fold_false _ _ hcov).2⟩

theorem refine_merge_downcheck_loop_spec (table : Table) (aliases : Aliases)
    {min_goodness : Int} (hmin : 0 ≤ min_goodness) (g0 : Int) :
    ∀ (fuel : Nat) (merge : Merge) (removed goodness : Int) (r : Merge × Int),
      refine_merge_downcheck_loop table aliases min_goodness fuel merge removed goodness =
        some r →
      ((goodness = g0 - removed ∧ goodness ≤ merge_goodness merge) ∨
        (goodness ≤ min_goodness ∧ g0 - removed ≤ min_goodness)) →
      g0 - r.2 > min_goodness →
      cover_free table aliases r.1 ∧ g0 - r.2 ≤ merge_goodness r.1 := by
  intro fuel
  induction fuel with
  | zero =>
    intro merge removed goodness r h
    simp [refine_merge_downcheck_loop] at h
  | succ fuel ih =>
    intro merge removed goodness r h hstate hgood
    unfold refine_merge_downcheck_loop at h
    split at h
    · rename_i hgt
      rcases hstate with ⟨hacc, hle⟩ | ⟨hle, _⟩
      · split at h
        · cases h
        · rename_i info hinfo
          split at h
          · rename_i hcov
            cases h
            simp only at hgood ⊢
            exact ⟨⟨info, hinfo, by simpa using hcov⟩, by omega⟩
          · split at h
            · exact ih _ _ _ _ h (Or.inr ⟨hmin, by omega⟩) hgood
            · simp only at h
              have hrem := merge_goodness_remove_ge merge (find_best_removes table merge info)
              split at h
              · rename_i hzero
                have hz : goodness - ((find_best_removes table merge info).length : Int) = 0 := by
                  simpa using hzero
                exact ih _ _ _ _ h (Or.inr ⟨by omega, by omega⟩) hgood
              · exact ih _ _ _ _ h (Or.inl ⟨by omega, by omega⟩) hgood
      · omega
    · rename_i hngt
      cases h
      simp only at hgood ⊢
      rcases hstate with ⟨hacc, hle⟩ | ⟨hle, hle2⟩
      · omega
      · omega

theorem refine_merge_downcheck_spec {fuel : Nat} {table : Table} {aliases : Aliases}
    {merge : Merge} {min_goodness : Int} (hmin : 0 ≤ min_goodness) {r : Merge × Int}
    (h : refine_merge_downcheck fuel table aliases merge min_goodness = some r)
    (hgood : merge_goodness merge - r.2 > min_goodness) :
    cover_free table aliases r.1 ∧ merge_goodness merge - r.2 ≤ merge_goodness r.1 :=
  refine_merge_downcheck_loop_spec table aliases hmin (merge_goodness merge) fuel merge 0
    (merge_goodness merge) r h (Or.inl ⟨by omega, by omega⟩) hgood

/-! ### The best merge is valid -/

theorem countP_set_true_of_test {m : Merge} {i : Nat} (h : m.test i = false)
    (hi : i < m.length) :
    (m.set i true).countP (fun b => b) = m.countP (fun b => b) + 1 := by
  induction m generalizing i with
  | nil => simp at hi
  | cons b m ih =>
    cases i with
    | zero =>
      simp only [Merge.test, List.getD_cons_zero] at h
      subst h
      simp [List.countP_cons]
    | succ i =>
      have h1 : Merge.test m i = false := by
        simpa [Merge.test] using h
      have := ih h1 (by simpa using hi)
      simp only [List.set_cons_succ, List.countP_cons]
      omega

theorem merge_goodness_set_true {m : Merge} {i : Nat} (h : m.test i = false)
    (hi : i < m.length) : merge_goodness (m.set i true) = merge_goodness m + 1 := by
  rw [merge_goodness_eq, merge_goodness_eq, countP_set_true_of_test h hi]
  push_cast
  omega

theorem test_replicate_false (n j : Nat) : Merge.test (List.replicate n false) j = false := by
  unfold Merge.test
  rw [List.getD_eq_getElem?_getD, List.getElem?_replicate]
  by_cases h : j < n <;> simp [h]

theorem merge_goodness_replicate_false (n : Nat) :
    merge_goodness (List.replicate n false) = -1 := by
  rw [merge_goodness_eq, List.countP_replicate]
  simp

theorem selected_replicate_false (table : Table) (n : Nat) :
    selected table (List.replicate n false) = [] := by
  by_contra h
  obtain ⟨j, e, _, hm⟩ := selected_ne_nil_iff.mp h
  rw [test_replicate_false] at hm
  cases hm

theorem drop_enumFrom (l : List Entry) : ∀ (n k : Nat),
    (l.enumFrom n).drop k = (l.drop k).enumFrom (n + k) := by
  induction l with
  | nil => intro n k; simp
  | cons a l ih =>
    intro n k
    cases k with
    | zero => simp
    | succ k =>
      simp only [List.enumFrom_cons, List.drop_succ_cons]
      rw [ih (n + 1) k]
      congr 1
      omega

theorem group_step_inv {table : Table} {entry : Entry} {n : Nat} {st : GroupState} {e : Entry}
    (hinv : GroupInv table entry.route n st) (he : table[n]? = some e) :
    GroupInv table entry.route (n + 1) (get_best_merge_group_step entry st (n, e)) := by
  obtain ⟨hlen, hfalse, hg, hroute⟩ := hinv
  have hn : n < table.length := (List.getElem?_eq_some.mp he).1
  unfold get_best_merge_group_step
  by_cases hr : e.route = entry.route
  · simp only [hr, beq_self_eq_true, if_true]
    refine ⟨by simp [hlen], ?_, ?_, ?_⟩
    · intro j hj
      simp only
      rw [test_set_true _ _ _ (by omega)]
      have : ¬ n = j := by omega
      simp only [this, if_false]
      exact hfalse j (by omega)
    · simp only
      rw [merge_goodness_set_true (hfalse n (Nat.le_refl _)) (by omega), hg]
    · intro j hj
      simp only at hj
      rw [test_set_true _ _ _ (by omega)] at hj
      by_cases hnj : n = j
      · subst hnj
        exact ⟨e, he, hr⟩
      · simp only [hnj, if_false] at hj
        exact hroute j hj
  · have : (e.route == entry.route) = false := by simpa using hr
    simp only [this, Bool.false_eq_true, if_false]
    exact ⟨hlen, fun j hj => hfalse j (by omega), hg, hroute⟩

theorem group_fold_inv {table : Table} {entry : Entry} :
    ∀ (rest : List Entry) (n : Nat) (st : GroupState), table.drop n = rest →
      GroupInv table entry.route n st →
      GroupInv table entry.route (n + rest.length)
        ((rest.enumFrom n).foldl (get_best_merge_group_step entry) st) := by
  intro rest
  induction rest with
  | nil =>
    intro n st _ hinv
    simpa using hinv
  | cons e rest ih =>
    intro n st hdrop hinv
    have hn : n < table.length := by
      by_contra hcon
      have : table.drop n = [] := List.drop_eq_nil_iff.mpr (by omega)
      rw [this] at hdrop
      cases hdrop
    rw [List.drop_eq_getElem_cons hn] at hdrop
    have he : table[n]? = some e := by
      rw [List.getElem?_eq_getElem hn]
      congr 1
      exact (List.cons.inj hdrop).1
    have := ih (n + 1) _ (List.cons.inj hdrop).2 (group_step_inv hinv he)
    simp only [List.enumFrom_cons, List.foldl_cons, List.length_cons]
    rw [show n + (rest.length + 1) = n + 1 + rest.length by omega]
    exact this

theorem group_init_inv {table : Table} {i : Nat} {entry : Entry} (hi : table[i]? = some entry)
    (considered : List Bool) :
    GroupInv table entry.route (i + 1)
      { current_merge := (List.replicate table.length false).set i true
        considered := considered
        current_goodness := 0 } := by
  have hlt : i < table.length := (List.getElem?_eq_some.mp hi).1
  refine ⟨by simp, ?_, ?_, ?_⟩
  · intro j hj
    simp only
    rw [test_set_true _ _ _ (by simpa using hlt)]
    have : ¬ i = j := by omega
    simp only [this, if_false]
    exact test_replicate_false _ _
  · simp only
    rw [merge_goodness_set_true (test_replicate_false _ _) (by simpa using hlt),
      merge_goodness_replicate_false]
    rfl
  · intro j hj
    simp only at hj
    rw [test_set_true _ _ _ (by simpa using hlt)] at hj
    by_cases hij : i = j
    · subst hij
      exact ⟨entry, hi, rfl⟩
    · simp only [hij, if_false] at hj
      rw [test_replicate_false] at hj
      cases hj

theorem selected_route_of_group {table : Table} {r : Nat} {m : Merge}
    (h : ∀ j, m.test j = true → ∃ e, table[j]? = some e ∧ e.route = r) :
    ∀ e ∈ selected table m, e.route = r := by
  intro e he
  obtain ⟨j, hj, hm⟩ := mem_selected.mp he
  obtain ⟨e1, he1, hr⟩ := h j hm
  rw [hj] at he1
  cases he1
  exact hr

theorem selected_ne_nil_of_subset {table : Table} {m1 m : Merge} (h : merge_subset m1 m)
    (hne : selected table m1 ≠ []) : selected table m ≠ [] := by
  obtain ⟨x, hx⟩ := List.exists_mem_of_ne_nil _ hne
  exact List.ne_nil_of_mem (selected_subset h hx)

theorem get_best_merge_refine_valid {table : Table} (hs : generality_sorted table)
    {aliases : Aliases} {fuel : Nat} {m0 : Merge} {c0 best : Int} (hbest : 0 ≤ best)
    (hlen : m0.length = table.length) (hroute : ∃ r, ∀ e ∈ selected table m0, e.route = r)
    (hc0 : c0 ≤ merge_goodness m0) {m : Merge} {g : Int}
    (h : get_best_merge_refine fuel table aliases m0 c0 best = some (some (m, g))) :
    valid_merge table aliases m ∧ g > best := by
  obtain ⟨r, hr⟩ := hroute
  unfold get_best_merge_refine at h
  split at h
  · cases h
  · rename_i merge1 removed1 hd1
    have hsub1 := refine_merge_downcheck_subset hd1
    simp only at h hsub1
    split at h
    · rename_i hg1
      obtain ⟨hcf1, hmg1⟩ := refine_merge_downcheck_spec hbest hd1 (by simp only; omega)
      simp only at hcf1 hmg1
      split at h
      · cases h
      · rename_i merge2 removed hup
        have hsub2 := refine_merge_upcheck_subset hup
        simp only at h hsub2
        split at h
        · rename_i hcond
          simp only [Bool.and_eq_true, bne_iff_ne, ne_eq, decide_eq_true_eq] at hcond
          obtain ⟨hmg2, _, ip2, hip2, hok2⟩ :=
            refine_merge_upcheck_spec hs hbest hup (by simp only; omega)
          simp only at hmg2 hip2 hok2
          split at h
          · cases h
          · rename_i merge3 removed3 hd3
            have hsub3 := refine_merge_downcheck_subset hd3
            simp only at h hsub3
            split at h
            · rename_i hg3
              simp only [Option.some.injEq, Prod.mk.injEq] at h
              obtain ⟨rfl, rfl⟩ := h
              obtain ⟨hcf3, _⟩ := refine_merge_downcheck_spec hbest hd3 (by simp only; omega)
              simp only at hcf3
              have hsub : merge_subset merge3 m0 :=
                merge_subset_trans hsub3 (merge_subset_trans hsub2 hsub1)
              have hdown := downcheck_ok_of_cover_free hcf3
              refine ⟨⟨hsub.1.trans hlen, ⟨r, fun e he => hr e (selected_subset hsub he)⟩,
                hdown, ?_⟩, hg3⟩
              obtain ⟨ip3, hip3, _⟩ := hdown
              refine ⟨ip3, hip3, ?_⟩
              intro hne3
              have hne2 := selected_ne_nil_of_subset hsub3 hne3
              have hmono : ip3 ≤ ip2 := by
                unfold get_insertion_index_merge get_insertion_index_entry at hip2
                unfold get_insertion_index_entry at hip3
                exact get_insertion_index_mono hs hip3 hip2
                  (merge_entries_count_xs_mono hsub3 hne3)
              exact upcheck_ok_mono hsub3 hmono (hok2 hne2)
            · cases h
        · rename_i hcond
          split at h
          · rename_i hg2
            simp only [Option.some.injEq, Prod.mk.injEq] at h
            obtain ⟨rfl, rfl⟩ := h
            obtain ⟨_, hzero, ip2, hip2, hok2⟩ :=
              refine_merge_upcheck_spec hs hbest hup (by simp only; omega)
            simp only at hzero hip2 hok2
            have hrem : removed = 0 := by
              by_contra hne
              apply hcond
              simp only [Bool.and_eq_true, bne_iff_ne, ne_eq, decide_eq_true_eq]
              exact ⟨hne, hg2⟩
            have heq : merge2 = merge1 := hzero hrem
            subst heq
            refine ⟨⟨hsub1.1.trans hlen, ⟨r, fun e he => hr e (selected_subset hsub1 he)⟩,
              downcheck_ok_of_cover_free hcf1, ip2, hip2, hok2⟩, hg2⟩
          · cases h
    · cases h

theorem get_best_merge_step_inv {table : Table} (hs : generality_sorted table)
    {aliases : Aliases} {fuel : Nat} {st st1 : BestState} {ie : Nat × Entry}
    (hie : table[ie.1]? = some ie.2) (hinv : BestInv table aliases st)
    (h : get_best_merge_step fuel table aliases st ie = some st1) :
    BestInv table aliases st1 := by
  unfold get_best_merge_step at h
  split at h
  · cases h
    exact hinv
  · simp only at h
    split at h
    · rename_i hgt
      have hgroup := group_fold_inv (table.drop (ie.1 + 1)) (ie.1 + 1) _ rfl
        (group_init_inv hie (st.considered.set ie.1 true))
      have hdrop : table.enum.drop (ie.1 + 1) =
          (table.drop (ie.1 + 1)).enumFrom (ie.1 + 1) := by
        rw [List.enum_eq_enumFrom, drop_enumFrom]
        simp
      rw [← hdrop] at hgroup
      obtain ⟨hlen, _, hg, hroute⟩ := hgroup
      split at h
      · cases h
      · cases h
        exact hinv
      · rename_i merge goodness href
        cases h
        have := get_best_merge_refine_valid hs hinv.1 hlen
          ⟨ie.2.route, selected_route_of_group hroute⟩ (Int.le_of_eq hg.symm) href
        have h1 := this.2
        have h2 := hinv.1
        exact ⟨by simp only; omega, Or.inr this.1⟩
    · cases h
      exact hinv

theorem get_best_merge_loop_inv {table : Table} (hs : generality_sorted table)
    {aliases : Aliases} {fuel : Nat} :
    ∀ (l : List (Nat × Entry)) (st st1 : BestState),
      (∀ ie ∈ l, table[ie.1]? = some ie.2) → BestInv table aliases st →
      get_best_merge_loop fuel table aliases l st = some st1 → BestInv table aliases st1 := by
  intro l
  induction l with
  | nil =>
    intro st st1 _ hinv h
    simp only [get_best_merge_loop, Option.some.injEq] at h
    rw [← h]
    exact hinv
  | cons ie l ih =>
    intro st st1 hl hinv h
    unfold get_best_merge_loop at h
    split at h
    · cases h
    · rename_i st2 hstep
      exact ih st2 st1 (fun x hx => hl x (List.mem_cons_of_mem _ hx))
        (get_best_merge_step_inv hs (hl ie (List.mem_cons_self _ _)) hinv hstep) h

theorem get_best_merge_valid {table : Table} (hs : generality_sorted table)
    {aliases : Aliases} {fuel : Nat} {m : Merge}
    (h : get_best_merge fuel table aliases = some m) :
    m = List.replicate table.length false ∨ valid_merge table aliases m := by
  unfold get_best_merge at h
  split at h
  · cases h
  · rename_i st hloop
    cases h
    have hinit : BestInv table aliases
        { best_merge := List.replicate table.length false
          best_goodness := 0
          considered := List.replicate table.length false } :=
      ⟨Int.le_refl _, Or.inl rfl⟩
    exact (get_best_merge_loop_inv hs table.enum _ _
      (fun ie hie => List.mk_mem_enum_iff_getElem?.mp hie) hinit hloop).2

/-! ### The driver keeps the table sorted -/

theorem selected_ne_nil_of_goodness {table : Table} {merge : Merge}
    (hlen : merge.length = table.length) (hg : ¬ merge_goodness merge < 1) :
    selected table merge ≠ [] ∧ 2 ≤ (selected table merge).length := by
  have hcount := selected_length_eq_count hlen
  rw [merge_goodness_eq] at hg
  have h2 : 2 ≤ (selected table merge).length := by omega
  refine ⟨?_, h2⟩
  intro hnil
  rw [hnil] at h2
  simp at h2

theorem best_merge_applicable {table : Table} (hs : generality_sorted table)
    {aliases : Aliases} {fuel : Nat} {merge : Merge}
    (h : get_best_merge fuel table aliases = some merge) (hg : ¬ merge_goodness merge < 1) :
    valid_merge table aliases merge ∧ selected table merge ≠ [] ∧
      2 ≤ (selected table merge).length := by
  rcases get_best_merge_valid hs h with hrep | hvalid
  · rw [hrep, merge_goodness_replicate_false] at hg
    exact absurd (by decide) hg
  · exact ⟨hvalid, selected_ne_nil_of_goodness hvalid.1 hg⟩

theorem minimise_loop_sorted (fuel target_length : Nat) :
    ∀ (steps : Nat) (table : Table) (aliases : Aliases) (r : Table × Aliases),
      generality_sorted table →
      minimise_loop fuel target_length steps table aliases = some r →
      generality_sorted r.1 := by
  intro steps
  induction steps with
  | zero =>
    intro table aliases r _ h
    simp [minimise_loop] at h
  | succ steps ih =>
    intro table aliases r hs h
    unfold minimise_loop at h
    split at h
    · split at h
      · cases h
      · rename_i merge hbest
        split at h
        · cases h
          exact hs
        · rename_i hg
          obtain ⟨_, hsel, _⟩ := best_merge_applicable hs hbest hg
          obtain ⟨ip, _, happly, _, hsorted⟩ := merge_apply_eq_reference hs aliases hsel
          rw [happly] at h
          exact ih _ _ r hsorted h
    · cases h
      exact hs

theorem minimise_sorted {fuel : Nat} {table : Table} {target_length : Nat} {table1 : Table}
    (hs : generality_sorted table) (h : minimise fuel table target_length = some table1) :
    generality_sorted table1 := by
  unfold minimise minimise_aliases at h
  cases hloop : minimise_loop fuel target_length fuel table [] with
  | none =>
    rw [hloop] at h
    cases h
  | some r =>
    rw [hloop] at h
    obtain ⟨t, a⟩ := r
    simp only [Option.some.injEq] at h
    rw [← h]
    exact minimise_loop_sorted fuel target_length fuel table [] (t, a) hs hloop

/-! ### Goodness accounting of the upcheck and shape of the best merge -/

theorem merge_goodness_clear (merge : Merge) : merge_goodness (merge_clear merge) = -1 := by
  rw [merge_goodness_eq]
  have : (merge_clear merge).countP (fun b => b) = 0 := by
    rw [List.countP_eq_zero]
    intro b hb
    unfold merge_clear at hb
    obtain ⟨_, _, rfl⟩ := List.mem_map.mp hb
    simp
  rw [this]
  rfl

theorem refine_merge_upcheck_step_goodness {table : Table} {min_goodness g0 : Int}
    {st st1 : UpState} {index : Nat}
    (h : refine_merge_upcheck_step table min_goodness st index = some st1)
    (hinv : merge_goodness st.merge = st.goodness ∧ st.goodness = g0 - st.removed) :
    merge_goodness st1.merge = st1.goodness ∧ st1.goodness = g0 - st1.removed := by
  unfold refine_merge_upcheck_step at h
  split at h
  · split at h
    · rename_i htest
      split at h
      · cases h
      · split at h
        · simp only at h
          split at h
          · cases h
          · cases h
            simp only
            rw [merge_goodness_set_false htest]
            constructor
            · omega
            · omega
        · cases h
          exact hinv
    · cases h
      exact hinv
  · cases h
    exact hinv

theorem refine_merge_upcheck_loop_goodness {table : Table} {min_goodness g0 : Int} :
    ∀ (l : List Nat) (st st1 : UpState),
      refine_merge_upcheck_loop table min_goodness l st = some st1 →
      (merge_goodness st.merge = st.goodness ∧ st.goodness = g0 - st.removed) →
      merge_goodness st1.merge = st1.goodness ∧ st1.goodness = g0 - st1.removed := by
  intro l
  induction l with
  | nil =>
    intro st st1 h hinv
    simp only [refine_merge_upcheck_loop, Option.some.injEq] at h
    rw [← h]
    exact hinv
  | cons i l ih =>
    intro st st1 h hinv
    unfold refine_merge_upcheck_loop at h
    split at h
    · cases h
    · rename_i st2 hstep
      exact ih st2 st1 h (refine_merge_upcheck_step_goodness hstep hinv)

/-- The upcheck leaves a merge of goodness above `min_goodness` and reports what
it removed, or it leaves the empty merge and reports the whole goodness. -/
theorem refine_merge_upcheck_goodness {table : Table} {merge : Merge} {min_goodness : Int}
    {r : Merge × Int} (h : refine_merge_upcheck table merge min_goodness = some r) :
    (min_goodness < merge_goodness r.1 ∧ merge_goodness r.1 = merge_goodness merge - r.2) ∨
      (merge_goodness r.1 = -1 ∧ r.2 = merge_goodness merge) := by
  unfold refine_merge_upcheck at h
  split at h
  · cases h
  · split at h
    · cases h
    · rename_i st hloop
      have hinv := @refine_merge_upcheck_loop_goodness table min_goodness (merge_goodness merge)
        _ _ _ hloop ⟨rfl, by simp⟩
      split at h
      · cases h
        exact Or.inr ⟨merge_goodness_clear _, by simp only; omega⟩
      · cases h
        exact Or.inl ⟨by simp only; omega, by simp only; omega⟩

theorem get_best_merge_refine_shape {table : Table} {aliases : Aliases} {fuel : Nat}
    {m0 : Merge} {c0 best : Int} (hbest : 0 ≤ best) (hc0 : c0 ≤ merge_goodness m0)
    {m : Merge} {g : Int}
    (h : get_best_merge_refine fuel table aliases m0 c0 best = some (some (m, g))) :
    merge_subset m m0 ∧ g ≤ merge_goodness m ∧ g > best := by
  unfold get_best_merge_refine at h
  split at h
  · cases h
  · rename_i merge1 removed1 hd1
    have hsub1 := refine_merge_downcheck_subset hd1
    simp only at h hsub1
    split at h
    · rename_i hg1
      obtain ⟨_, hmg1⟩ := refine_merge_downcheck_spec hbest hd1 (by simp only; omega)
      simp only at hmg1
      split at h
      · cases h
      · rename_i merge2 removed hup
        have hsub2 := refine_merge_upcheck_subset hup
        have hup2 := refine_merge_upcheck_goodness hup
        simp only at h hsub2 hup2
        split at h
        · rename_i hcond
          simp only [Bool.and_eq_true, bne_iff_ne, ne_eq, decide_eq_true_eq] at hcond
          have hmg2 : merge_goodness merge2 = merge_goodness merge1 - removed := by
            rcases hup2 with ⟨_, heq⟩ | ⟨_, hrem⟩
            · exact heq
            · omega
          split at h
          · cases h
          · rename_i merge3 removed3 hd3
            have hsub3 := refine_merge_downcheck_subset hd3
            simp only at h hsub3
            split at h
            · rename_i hg3
              simp only [Option.some.injEq, Prod.mk.injEq] at h
              obtain ⟨rfl, rfl⟩ := h
              obtain ⟨_, hmg3⟩ := refine_merge_downcheck_spec hbest hd3 (by simp only; omega)
              simp only at hmg3
              exact ⟨merge_subset_trans hsub3 (merge_subset_trans hsub2 hsub1), by omega, hg3⟩
            · cases h
        · split at h
          · rename_i hg2
            simp only [Option.some.injEq, Prod.mk.injEq] at h
            obtain ⟨rfl, rfl⟩ := h
            have hmg2 : merge_goodness merge2 = merge_goodness merge1 - removed := by
              rcases hup2 with ⟨_, heq⟩ | ⟨_, hrem⟩
              · exact heq
              · omega
            exact ⟨merge_subset_trans hsub2 hsub1, by omega, hg2⟩
          · cases h
    · cases h

theorem get_best_merge_step_shape {table : Table} {aliases : Aliases} {fuel : Nat}
    {st st1 : BestState} {ie : Nat × Entry} (hie : table[ie.1]? = some ie.2)
    (hinv : 0 ≤ st.best_goodness ∧ merge_shape table st.best_merge)
    (h : get_best_merge_step fuel table aliases st ie = some st1) :
    0 ≤ st1.best_goodness ∧ merge_shape table st1.best_merge := by
  unfold get_best_merge_step at h
  split at h
  · cases h
    exact hinv
  · simp only at h
    split at h
    · have hgroup := group_fold_inv (table.drop (ie.1 + 1)) (ie.1 + 1) _ rfl
        (group_init_inv hie (st.considered.set ie.1 true))
      have hdrop : table.enum.drop (ie.1 + 1) =
          (table.drop (ie.1 + 1)).enumFrom (ie.1 + 1) := by
        rw [List.enum_eq_enumFrom, drop_enumFrom]
        simp
      rw [← hdrop] at hgroup
      obtain ⟨hlen, _, hg, hroute⟩ := hgroup
      split at h
      · cases h
      · cases h
        exact hinv
      · rename_i merge goodness href
        cases h
        obtain ⟨hsub, hle, hgt⟩ :=
          get_best_merge_refine_shape hinv.1 (Int.le_of_eq hg.symm) href
        have h0 := hinv.1
        refine ⟨by simp only; omega, Or.inr ⟨hsub.1.trans hlen, ⟨ie.2.route, ?_⟩,
          by simp only; omega⟩⟩
        intro e he
        exact selected_route_of_group hroute e (selected_subset hsub he)
    · cases h
      exact hinv

theorem get_best_merge_loop_shape {table : Table} {aliases : Aliases} {fuel : Nat} :
    ∀ (l : List (Nat × Entry)) (st st1 : BestState),
      (∀ ie ∈ l, table[ie.1]? = some ie.2) →
      (0 ≤ st.best_goodness ∧ merge_shape table st.best_merge) →
      get_best_merge_loop fuel table aliases l st = some st1 →
      0 ≤ st1.best_goodness ∧ merge_shape table st1.best_merge := by
  intro l
  induction l with
  | nil =>
    intro st st1 _ hinv h
    simp only [get_best_merge_loop, Option.some.injEq] at h
    rw [← h]
    exact hinv
  | cons ie l ih =>
    intro st st1 hl hinv h
    unfold get_best_merge_loop at h
    split at h
    · cases h
    · rename_i st2 hstep
      exact ih st2 st1 (fun x hx => hl x (List.mem_cons_of_mem _ hx))
        (get_best_merge_step_shape (hl ie (List.mem_cons_self _ _)) hinv hstep) h

theorem get_best_merge_has_shape {table : Table} {aliases : Aliases} {fuel : Nat} {m : Merge}
    (h : get_best_merge fuel table aliases = some m) : merge_shape table m := by
  unfold get_best_merge at h
  split at h
  · cases h
  · rename_i st hloop
    cases h
    exact (get_best_merge_loop_shape table.enum _ _
      (fun ie hie => List.mk_mem_enum_iff_getElem?.mp hie)
      ⟨Int.le_refl _, Or.inl rfl⟩ hloop).2

/-! ### Keymask algebra for the semantic argument -/

theorem key_bit_imp_mask_bit {km : KeyMask} (h32 : km.is32) (hn : km.normalised) (i : Nat)
    (hk : km.key.testBit i = true) : km.mask.testBit i = true := by
  have hi : i < 32 := by
    by_contra hcon
    have hlt : km.key < 2 ^ i :=
      Nat.lt_of_lt_of_le h32.1 (Nat.pow_le_pow_right (by decide) (by omega))
    rw [Nat.testBit_lt_two_pow hlt] at hk
    cases hk
  have hbit := congrArg (fun n => n.testBit i) hn
  simp only [Nat.testBit_and, testBit_not32, Nat.zero_testBit, hk, hi, decide_True,
    Bool.true_and] at hbit
  simpa using hbit

theorem intersect_of_shared_key {a b : KeyMask} (ha32 : a.is32) (han : a.normalised)
    (hb32 : b.is32) (hbn : b.normalised) {k : Nat} (hka : a.matches_key k = true)
    (hkb : b.matches_key k = true) : a.intersect b = true := by
  unfold KeyMask.matches_key at hka hkb
  unfold KeyMask.intersect
  rw [beq_iff_eq] at hka hkb ⊢
  apply Nat.eq_of_testBit_eq
  intro i
  have h1 := congrArg (fun n => n.testBit i) hka
  have h2 := congrArg (fun n => n.testBit i) hkb
  have h3 := key_bit_imp_mask_bit ha32 han i
  have h4 := key_bit_imp_mask_bit hb32 hbn i
  simp only [Nat.testBit_and] at h1 h2 ⊢
  cases hak : a.key.testBit i <;> cases ham : a.mask.testBit i <;>
    cases hbk : b.key.testBit i <;> cases hbm : b.mask.testBit i <;>
    cases hkk : k.testBit i <;> simp_all

theorem intersect_symm (a b : KeyMask) : a.intersect b = b.intersect a := by
  unfold KeyMask.intersect
  cases h : (a.key &&& b.mask == b.key &&& a.mask) with
  | true =>
    rw [beq_iff_eq] at h
    symm
    rw [beq_iff_eq]
    exact h.symm
  | false =>
    symm
    cases h2 : (b.key &&& a.mask == a.key &&& b.mask) with
    | false => rfl
    | true =>
      rw [beq_iff_eq] at h2
      rw [h2.symm] at h
      simp at h

theorem matches_key_self (km : KeyMask) : km.matches_key km.key = true := by
  unfold KeyMask.matches_key
  simp

theorem merge_entries_normalised (table : Table) (merge : Merge) :
    (merge_entries table merge).keymask.normalised := by
  unfold KeyMask.normalised
  apply Nat.eq_of_testBit_eq
  intro i
  rw [Nat.testBit_and, testBit_not32, merge_entries_key_testBit, Nat.zero_testBit]
  cases (merge_entries table merge).keymask.mask.testBit i <;> simp

theorem countP_eq_of_imp {α : Type} (p q : α → Bool) :
    ∀ (l : List α), (∀ a ∈ l, p a = true → q a = true) → l.countP p = l.countP q →
      ∀ a ∈ l, q a = true → p a = true := by
  intro l
  induction l with
  | nil => intro _ _ a ha; cases ha
  | cons x l ih =>
    intro himp hcount a ha hq
    have himp1 : ∀ a ∈ l, p a = true → q a = true :=
      fun a ha => himp a (List.mem_cons_of_mem _ ha)
    have hmono : l.countP p ≤ l.countP q := List.countP_mono_left himp1
    rw [List.countP_cons, List.countP_cons] at hcount
    cases hpx : p x with
    | true =>
      have hqx := himp x (List.mem_cons_self _ _) hpx
      rw [hpx, hqx] at hcount
      rcases List.mem_cons.mp ha with rfl | ha
      · exact hpx
      · exact ih himp1 (by simpa using hcount) a ha hq
    | false =>
      cases hqx : q x with
      | true =>
        rw [hpx, hqx] at hcount
        simp at hcount
        omega
      | false =>
        rw [hpx, hqx] at hcount
        rcases List.mem_cons.mp ha with rfl | ha
        · rw [hqx] at hq
          cases hq
        · exact ih himp1 (by simpa using hcount) a ha hq

theorem get_xs_testBit_of_normalised {km : KeyMask} (h32 : km.is32) (hn : km.normalised)
    (i : Nat) : km.get_xs.testBit i = (decide (i < 32) && !km.mask.testBit i) := by
  unfold KeyMask.get_xs
  rw [Nat.testBit_and, testBit_not32, testBit_not32]
  have := key_bit_imp_mask_bit h32 hn i
  cases hk : km.key.testBit i <;> cases hm : km.mask.testBit i <;> simp_all

theorem keymask_eq_of_count_xs_eq {table : Table} {merge : Merge} {e : Entry}
    (he : e ∈ selected table merge) (h32 : e.keymask.is32) (hn : e.keymask.normalised)
    (hcount : e.keymask.count_xs = (merge_entries table merge).keymask.count_xs) :
    e.keymask = (merge_entries table merge).keymask := by
  have hM32 := merge_entries_is32 table merge
  have hsub : ∀ i ∈ List.range 32, e.keymask.get_xs.testBit i = true →
      (merge_entries table merge).keymask.get_xs.testBit i = true := by
    intro i hi hx
    rw [merge_entries_get_xs_testBit]
    rw [get_xs_testBit_of_normalised h32 hn] at hx
    simp only [Bool.and_eq_true, decide_eq_true_eq, Bool.not_eq_true'] at hx ⊢
    refine ⟨hx.1, ?_⟩
    cases hM : (merge_entries table merge).keymask.mask.testBit i with
    | false => rfl
    | true =>
      have := (merge_entries_mask_bit hM).2.1 e he
      rw [hx.2] at this
      cases this
  unfold KeyMask.count_xs popcount at hcount
  have hback := countP_eq_of_imp _ _ (List.range 32) hsub hcount
  have hmask : e.keymask.mask = (merge_entries table merge).keymask.mask := by
    apply Nat.eq_of_testBit_eq
    intro i
    by_cases hi : i < 32
    · cases hM : (merge_entries table merge).keymask.mask.testBit i with
      | true => exact (merge_entries_mask_bit hM).2.1 e he
      | false =>
        have hx : (merge_entries table merge).keymask.get_xs.testBit i = true := by
          rw [merge_entries_get_xs_testBit, hM]
          simp [hi]
        have := hback i (List.mem_range.mpr hi) hx
        rw [get_xs_testBit_of_normalised h32 hn] at this
        simp only [Bool.and_eq_true, decide_eq_true_eq, Bool.not_eq_true'] at this
        exact this.2
    · have h1 : e.keymask.mask < 2 ^ i :=
        Nat.lt_of_lt_of_le h32.2 (Nat.pow_le_pow_right (by decide) (by omega))
      have h2 : (merge_entries table merge).keymask.mask < 2 ^ i :=
        Nat.lt_of_lt_of_le hM32.2 (Nat.pow_le_pow_right (by decide) (by omega))
      rw [Nat.testBit_lt_two_pow h1, Nat.testBit_lt_two_pow h2]
  have hkey : e.keymask.key = (merge_entries table merge).keymask.key := by
    apply Nat.eq_of_testBit_eq
    intro i
    cases hM : (merge_entries table merge).keymask.mask.testBit i with
    | true => exact (merge_entries_mask_bit hM).2.2 e he
    | false =>
      have h1 : (merge_entries table merge).keymask.key.testBit i = false := by
        rw [merge_entries_key_testBit, hM]
        simp
      have h2 : e.keymask.key.testBit i = false := by
        cases hk : e.keymask.key.testBit i with
        | false => rfl
        | true =>
          have := key_bit_imp_mask_bit h32 hn i hk
          rw [hmask, hM] at this
          cases this
      rw [h1, h2]
  obtain ⟨⟨ek, em⟩, _, _⟩ := e
  simp only at hmask hkey
  rw [hmask, hkey]

theorem foldl_or_testBit (f : Entry → Nat) (l : List Entry) (acc i : Nat) :
    (l.foldl (fun s e => s ||| f e) acc).testBit i =
      (acc.testBit i || l.any (fun e => (f e).testBit i)) := by
  induction l generalizing acc with
  | nil => simp
  | cons a l ih => simp [ih, Nat.testBit_or, Bool.or_assoc]

theorem foldl_or_const (f : Entry → Nat) (r : Nat) (l : List Entry) (hne : l ≠ [])
    (h : ∀ e ∈ l, f e = r) : l.foldl (fun s e => s ||| f e) 0 = r := by
  apply Nat.eq_of_testBit_eq
  intro i
  rw [foldl_or_testBit, Nat.zero_testBit, Bool.false_or]
  obtain ⟨x, hx⟩ := List.exists_mem_of_ne_nil l hne
  cases hr : r.testBit i with
  | true =>
    rw [List.any_eq_true]
    exact ⟨x, hx, by rw [h x hx]; exact hr⟩
  | false =>
    rw [List.any_eq_false]
    intro e he
    rw [h e he, hr]
    simp

theorem merge_entries_route_eq {table : Table} {merge : Merge} {r : Nat}
    (hne : selected table merge ≠ []) (h : ∀ e ∈ selected table merge, e.route = r) :
    (merge_entries table merge).route = r := by
  have : (merge_entries table merge).route =
      (selected table merge).foldl (fun s e => s ||| e.route) 0 := by
    simp only [merge_entries, merge_entries_acc_eq, foldl_include_routes]
  rw [this]
  exact foldl_or_const (fun e => e.route) r _ hne h

theorem merge_entries_route_covers {table : Table} {merge : Merge} {e : Entry}
    (he : e ∈ selected table merge) {x : Nat} (hx : e.route &&& x = x) :
    (merge_entries table merge).route &&& x = x := by
  have hM : (merge_entries table merge).route =
      (selected table merge).foldl (fun s e => s ||| e.route) 0 := by
    simp only [merge_entries, merge_entries_acc_eq, foldl_include_routes]
  rw [hM]
  apply Nat.eq_of_testBit_eq
  intro i
  have hbit := congrArg (fun n => n.testBit i) hx
  simp only [Nat.testBit_and] at hbit
  rw [Nat.testBit_and, foldl_or_testBit, Nat.zero_testBit, Bool.false_or]
  cases hxi : x.testBit i with
  | false => simp
  | true =>
    rw [hxi, Bool.and_true] at hbit
    have : (selected table merge).any (fun e => e.route.testBit i) = true :=
      List.any_eq_true.mpr ⟨e, he, hbit⟩
    rw [this]
    rfl

theorem merge_entries_source_covers {table : Table} {merge : Merge} {e : Entry}
    (he : e ∈ selected table merge) {x : Nat} (hx : e.source &&& x = x) :
    (merge_entries table merge).source &&& x = x := by
  have hM : (merge_entries table merge).source =
      (selected table merge).foldl (fun s e => s ||| e.source) 0 := by
    simp only [merge_entries, merge_entries_acc_eq, foldl_include_sources]
  rw [hM]
  apply Nat.eq_of_testBit_eq
  intro i
  have hbit := congrArg (fun n => n.testBit i) hx
  simp only [Nat.testBit_and] at hbit
  rw [Nat.testBit_and, foldl_or_testBit, Nat.zero_testBit, Bool.false_or]
  cases hxi : x.testBit i with
  | false => simp
  | true =>
    rw [hxi, Bool.and_true] at hbit
    have : (selected table merge).any (fun e => e.source.testBit i) = true :=
      List.any_eq_true.mpr ⟨e, he, hbit⟩
    rw [this]
    rfl

/-! ### The merged keymask is new in the table -/

theorem enumFrom_pairwise_lt (l : List Entry) : ∀ (n : Nat),
    (l.enumFrom n).Pairwise (fun x y => x.1 < y.1) := by
  induction l with
  | nil => intro n; simp
  | cons a l ih =>
    intro n
    rw [List.enumFrom_cons, List.pairwise_cons]
    refine ⟨?_, ih (n + 1)⟩
    intro b hb
    have := List.le_fst_of_mem_enumFrom hb
    simp only
    omega

theorem two_selected {table : Table} {merge : Merge}
    (h : 2 ≤ (selected table merge).length) (i : Nat) :
    ∃ i2 e2, i2 ≠ i ∧ table[i2]? = some e2 ∧ merge.test i2 = true := by
  rw [selected_length] at h
  have hpw : (table.enum.filter (fun ie => merge.test ie.1)).Pairwise (fun x y => x.1 < y.1) :=
    List.Pairwise.sublist (List.filter_sublist _) (enumFrom_pairwise_lt table 0)
  cases hl : table.enum.filter (fun ie => merge.test ie.1) with
  | nil => rw [hl] at h; simp at h
  | cons a rest =>
    cases rest with
    | nil => rw [hl] at h; simp at h
    | cons b rest =>
      rw [hl] at hpw
      have hab : a.1 < b.1 := (List.pairwise_cons.mp hpw).1 b (List.mem_cons_self _ _)
      have ha : a ∈ table.enum.filter (fun ie => merge.test ie.1) := by
        rw [hl]; exact List.mem_cons_self _ _
      have hb : b ∈ table.enum.filter (fun ie => merge.test ie.1) := by
        rw [hl]; exact List.mem_cons_of_mem _ (List.mem_cons_self _ _)
      obtain ⟨ha1, ha2⟩ := List.mem_filter.mp ha
      obtain ⟨hb1, hb2⟩ := List.mem_filter.mp hb
      by_cases hia : a.1 = i
      · exact ⟨b.1, b.2, by omega, List.mk_mem_enum_iff_getElem?.mp hb1, hb2⟩
      · exact ⟨a.1, a.2, hia, List.mk_mem_enum_iff_getElem?.mp ha1, ha2⟩

theorem selected_intersects_of_keymask_eq {table : Table}
    (h32n : ∀ e ∈ table, e.keymask.is32 ∧ e.keymask.normalised) {merge : Merge}
    {i i2 : Nat} {e e2 : Entry} (hi : table[i]? = some e)
    (hkm : e.keymask = (merge_entries table merge).keymask)
    (hi2 : table[i2]? = some e2) (hm2 : merge.test i2 = true) :
    e.keymask.intersect e2.keymask = true ∧ e2.keymask.intersect e.keymask = true := by
  have he := h32n e (mem_of_getElem? hi)
  have he2 := h32n e2 (mem_of_getElem? hi2)
  have hk2 := matches_key_self e2.keymask
  have hkM := merge_entries_covers_selected (mem_selected.mpr ⟨i2, hi2, hm2⟩) hk2
  rw [← hkm] at hkM
  have := intersect_of_shared_key he.1 he.2 he2.1 he2.2 hkM hk2
  exact ⟨this, by rw [intersect_symm]; exact this⟩

theorem selected_keymask_ne_merged {table : Table} (hs : generality_sorted table)
    (h32n : ∀ e ∈ table, e.keymask.is32 ∧ e.keymask.normalised) {merge : Merge} {ip : Nat}
    (hip : get_insertion_index_entry table (merge_entries table merge) = some ip)
    (hup : upcheck_ok table merge ip (List.range table.length))
    (h2 : 2 ≤ (selected table merge).length) {i : Nat} {e : Entry}
    (hi : table[i]? = some e) (hm : merge.test i = true) :
    e.keymask ≠ (merge_entries table merge).keymask := by
  intro hkm
  have hsel : selected table merge ≠ [] := by
    intro hnil
    rw [hnil] at h2
    simp at h2
  obtain ⟨ip1, hip1, _, _, _, hlt⟩ := insertion_point_below_selected hs hsel
  rw [hip] at hip1
  cases hip1
  obtain ⟨i2, e2, hne, hi2, hm2⟩ := two_selected h2 i
  obtain ⟨h1, h2'⟩ := selected_intersects_of_keymask_eq h32n hi hkm hi2 hm2
  have hilen : i < table.length := (List.getElem?_eq_some.mp hi).1
  have hi2len : i2 < table.length := (List.getElem?_eq_some.mp hi2).1
  rcases Nat.lt_or_gt_of_ne hne with hlt2 | hgt2
  · have := hup i2 (List.mem_range.mpr hi2len) e2 hi2 hm2 i e hlt2 (hlt i e hi hm) hi
    rw [h2'] at this
    cases this
  · have := hup i (List.mem_range.mpr hilen) e hi hm i2 e2 hgt2 (hlt i2 e2 hi2 hm2) hi2
    rw [h1] at this
    cases this

theorem keymask_ne_merged {table : Table} (hs : generality_sorted table)
    (h32n : ∀ e ∈ table, e.keymask.is32 ∧ e.keymask.normalised) {merge : Merge} {ip : Nat}
    (hip : get_insertion_index_entry table (merge_entries table merge) = some ip)
    (hup : upcheck_ok table merge ip (List.range table.length))
    (h2 : 2 ≤ (selected table merge).length) {e : Entry} (he : e ∈ table) :
    e.keymask ≠ (merge_entries table merge).keymask := by
  obtain ⟨p, hp⟩ := List.mem_iff_getElem?.mp he
  cases hm : merge.test p with
  | true => exact selected_keymask_ne_merged hs h32n hip hup h2 hp hm
  | false =>
    intro hkm
    have hsel : selected table merge ≠ [] := by
      intro hnil
      rw [hnil] at h2
      simp at h2
    obtain ⟨ip1, hip1, _, _, habove, hlt⟩ := insertion_point_below_selected hs hsel
    rw [hip] at hip1
    cases hip1
    have hpip : p < ip := by
      by_contra hcon
      have := habove p e (by omega) hp
      rw [hkm] at this
      omega
    obtain ⟨i0, e0, hi0, hm0⟩ := selected_ne_nil_iff.mp hsel
    have hne : i0 ≠ p := by
      intro heq
      rw [heq, hm] at hm0
      cases hm0
    obtain ⟨_, hint⟩ := selected_intersects_of_keymask_eq h32n hp hkm hi0 hm0
    have hi0len : i0 < table.length := (List.getElem?_eq_some.mp hi0).1
    rcases Nat.lt_or_gt_of_ne hne with hlt0 | hgt0
    · have := hup i0 (List.mem_range.mpr hi0len) e0 hi0 hm0 p e hlt0 hpip hp
      rw [hint] at this
      cases this
    · have h1 := generality_sorted_get hs (Nat.le_of_lt hgt0) hp hi0
      have hsel0 : e0 ∈ selected table merge := mem_selected.mpr ⟨i0, hi0, hm0⟩
      have h3 := count_xs_le_merge_entries hsel0
      have he0 := h32n e0 (mem_of_getElem? hi0)
      have hcount : e0.keymask.count_xs = (merge_entries table merge).keymask.count_xs := by
        rw [hkm] at h1
        omega
      exact selected_keymask_ne_merged hs h32n hip hup h2 hi0 hm0
        (keymask_eq_of_count_xs_eq hsel0 he0.1 he0.2 hcount)

/-! ### First match after a merge -/

theorem first_match_index {table : Table} {k : Nat} {E : Entry}
    (h : first_match table k = some E) :
    ∃ p, table[p]? = some E ∧ E.keymask.matches_key k = true ∧
      ∀ (j : Nat) (e : Entry), j < p → table[j]? = some e →
        e.keymask.matches_key k = false := by
  unfold first_match at h
  obtain ⟨hE, front, back, hsplit, hfront⟩ := List.find?_eq_some.mp h
  refine ⟨front.length, ?_, hE, ?_⟩
  · rw [hsplit, List.getElem?_append_right (Nat.le_refl _)]
    simp
  · intro j e hj he
    rw [hsplit, List.getElem?_append_left hj] at he
    have := hfront e (mem_of_getElem? he)
    simpa using this

theorem first_match_eq_none {l : List Entry} {k : Nat} :
    first_match l k = none ↔ ∀ e ∈ l, e.keymask.matches_key k = false := by
  unfold first_match
  rw [List.find?_eq_none]
  constructor
  · intro h e he
    simpa using h e he
  · intro h e he
    simp [h e he]

theorem first_match_append (l1 l2 : List Entry) (k : Nat) :
    first_match (l1 ++ l2) k = (first_match l1 k).or (first_match l2 k) := by
  unfold first_match
  exact List.find?_append

theorem first_match_cons (e : Entry) (l : List Entry) (k : Nat) :
    first_match (e :: l) k = if e.keymask.matches_key k then some e else first_match l k := by
  unfold first_match
  rw [List.find?_cons]
  cases e.keymask.matches_key k <;> rfl

theorem mem_kept {merge : Merge} {l : List Entry} {n : Nat} {e : Entry}
    (h : e ∈ kept merge (l.enumFrom n)) :
    ∃ j, n ≤ j ∧ l[j - n]? = some e ∧ merge.test j = false := by
  unfold kept at h
  obtain ⟨ie, hie, rfl⟩ := List.mem_map.mp h
  obtain ⟨hmem, htest⟩ := List.mem_filter.mp hie
  obtain ⟨j, x⟩ := ie
  have := List.mk_mem_enumFrom_iff_le_and_getElem?_sub.mp hmem
  exact ⟨j, this.1, this.2, by simpa using htest⟩

theorem mem_kept_take {merge : Merge} {table : Table} {ip : Nat} {e : Entry}
    (h : e ∈ kept merge (table.take ip).enum) :
    ∃ j, j < ip ∧ table[j]? = some e ∧ merge.test j = false := by
  obtain ⟨j, _, hj, hm⟩ := mem_kept h
  rw [Nat.sub_zero, List.getElem?_take] at hj
  by_cases hlt : j < ip
  · rw [if_pos hlt] at hj
    exact ⟨j, hlt, hj, hm⟩
  · rw [if_neg hlt] at hj
    cases hj

theorem kept_append (merge : Merge) (l1 l2 : List Entry) (n : Nat) :
    kept merge ((l1 ++ l2).enumFrom n) =
      kept merge (l1.enumFrom n) ++ kept merge (l2.enumFrom (n + l1.length)) := by
  unfold kept
  rw [List.enumFrom_append, List.filter_append, List.map_append]

theorem first_match_kept_none {merge : Merge} {table : Table} {ip : Nat} {k : Nat}
    (h : ∀ j e, j < ip → table[j]? = some e → merge.test j = false →
      e.keymask.matches_key k = false) :
    first_match (kept merge (table.take ip).enum) k = none := by
  rw [first_match_eq_none]
  intro e he
  obtain ⟨j, hj, hje, hm⟩ := mem_kept_take he
  exact h j e hj hje hm

theorem first_match_kept_some {merge : Merge} {table : Table} {ip p : Nat} {k : Nat}
    {E : Entry} (hp : p < ip) (hE : table[p]? = some E) (hm : merge.test p = false)
    (hk : E.keymask.matches_key k = true)
    (hfirst : ∀ j e, j < p → table[j]? = some e → e.keymask.matches_key k = false) :
    first_match (kept merge (table.take ip).enum) k = some E := by
  have hplen : p < table.length := (List.getElem?_eq_some.mp hE).1
  have hpL : p < (table.take ip).length := by
    rw [List.length_take]
    omega
  have hLp : (table.take ip)[p] = E := by
    have h1 : (table.take ip)[p]? = some E := by
      rw [List.getElem?_take, if_pos hp]
      exact hE
    rw [List.getElem?_eq_getElem hpL] at h1
    exact Option.some.inj h1
  have hsplit : table.take ip =
      (table.take ip).take p ++ E :: (table.take ip).drop (p + 1) := by
    have := List.take_append_drop p (table.take ip)
    rw [List.drop_eq_getElem_cons hpL, hLp] at this
    exact this.symm
  have hlen : ((table.take ip).take p).length = p := by
    rw [List.length_take]
    omega
  rw [List.enum_eq_enumFrom, hsplit, kept_append, hlen]
  rw [List.enumFrom_cons, first_match_append]
  have hnone : first_match (kept merge (((table.take ip).take p).enumFrom 0)) k = none := by
    rw [first_match_eq_none]
    intro e he
    obtain ⟨j, _, hje, _⟩ := mem_kept he
    rw [Nat.sub_zero, List.getElem?_take] at hje
    by_cases hjp : j < p
    · rw [if_pos hjp, List.getElem?_take, if_pos (by omega)] at hje
      exact hfirst j e hjp hje
    · rw [if_neg hjp] at hje
      cases hje
  rw [hnone]
  have hhead : kept merge ((0 + p, E) :: ((table.take ip).drop (p + 1)).enumFrom (0 + p + 1)) =
      E :: kept merge (((table.take ip).drop (p + 1)).enumFrom (0 + p + 1)) := by
    unfold kept
    rw [List.filter_cons]
    simp [hm]
  rw [hhead, first_match_cons, hk]
  rfl

theorem first_match_reference_kept {table : Table} {merge : Merge} {ip : Nat} {k : Nat}
    {E : Entry} (h : first_match (kept merge (table.take ip).enum) k = some E) :
    first_match (merge_apply_reference table merge ip) k = some E := by
  unfold merge_apply_reference
  rw [first_match_append, first_match_append, h]
  rfl

theorem first_match_reference_merged {table : Table} {merge : Merge} {ip : Nat} {k : Nat}
    (h : first_match (kept merge (table.take ip).enum) k = none)
    (hM : (merge_entries table merge).keymask.matches_key k = true) :
    first_match (merge_apply_reference table merge ip) k = some (merge_entries table merge) := by
  unfold merge_apply_reference
  rw [first_match_append, first_match_append, h, first_match_cons, hM]
  rfl

theorem first_match_reference_below {table : Table} {merge : Merge} {ip : Nat} {k : Nat}
    {E : Entry} (hT : first_match table k = some E)
    (hfront : ∀ j e, j < ip → table[j]? = some e → e.keymask.matches_key k = false)
    (hM : (merge_entries table merge).keymask.matches_key k = false) :
    first_match (merge_apply_reference table merge ip) k = some E := by
  have hK : first_match (kept merge (table.take ip).enum) k = none :=
    first_match_kept_none (fun j e hj he _ => hfront j e hj he)
  have htake : first_match (table.take ip) k = none := by
    rw [first_match_eq_none]
    intro e he
    obtain ⟨j, hj, hje⟩ := mem_take_getElem? he
    exact hfront j e hj hje
  have hD : first_match (table.drop ip) k = some E := by
    have := first_match_append (table.take ip) (table.drop ip) k
    rw [List.take_append_drop, hT, htake] at this
    simpa using this.symm
  unfold merge_apply_reference
  rw [first_match_append, first_match_append, hK, first_match_cons, hM, hD]
  rfl

/-! ### One merge keeps the semantic invariant -/

theorem migrate_step_mem {al : Aliases} {m k : KeyMask} {q : KeyMask × KeyMaskSet}
    (hq : q ∈ merge_apply_aliases al m k) {a : KeyMask} (ha : a ∈ q.2) :
    (∃ q0 ∈ al, a ∈ q0.2) ∨ a = k := by
  unfold merge_apply_aliases at hq
  cases hfind : aliases_find k al with
  | some old =>
    rw [hfind] at hq
    simp only at hq
    obtain ⟨q1, hq1, hq1s, _⟩ := aliases_find_mem hfind
    unfold aliases_erase at hq
    rcases mem_aliases_insert (List.mem_filter.mp hq).1 with h | ⟨_, h⟩ | ⟨s, hs, h⟩
    · exact Or.inl ⟨q, h, ha⟩
    · rw [h] at ha
      rcases mem_of_mem_set_insert_all ha with h | h
      · exact Or.inl ⟨q1, hq1, hq1s ▸ h⟩
      · cases h
    · rw [h] at ha
      rcases mem_of_mem_set_insert_all ha with h | h
      · exact Or.inl ⟨q1, hq1, hq1s ▸ h⟩
      · exact Or.inl ⟨_, hs, h⟩
  | none =>
    rw [hfind] at hq
    simp only at hq
    rcases mem_aliases_insert hq with h | ⟨_, h⟩ | ⟨s, hs, h⟩
    · exact Or.inl ⟨q, h, ha⟩
    · rw [h] at ha
      rcases mem_of_mem_set_insert_all ha with h | h
      · exact Or.inr (List.mem_singleton.mp h)
      · cases h
    · rw [h] at ha
      rcases mem_of_mem_set_insert_all ha with h | h
      · exact Or.inr (List.mem_singleton.mp h)
      · exact Or.inl ⟨_, hs, h⟩

theorem migrate_mem {m : KeyMask} : ∀ (l : List KeyMask) (al : Aliases),
    ∀ q ∈ migrate m l al, ∀ a ∈ q.2, (∃ q0 ∈ al, a ∈ q0.2) ∨ a ∈ l := by
  intro l
  induction l with
  | nil =>
    intro al q hq a ha
    exact Or.inl ⟨q, by simpa [migrate] using hq, ha⟩
  | cons k l ih =>
    intro al q hq a ha
    have hq1 : q ∈ migrate m l (merge_apply_aliases al m k) := by
      simpa [migrate] using hq
    rcases ih _ q hq1 a ha with ⟨q0, hq0, ha0⟩ | h
    · rcases migrate_step_mem hq0 ha0 with h | h
      · exact Or.inl h
      · exact Or.inr (h ▸ List.mem_cons_self _ _)
    · exact Or.inr (List.mem_cons_of_mem _ h)

theorem mem_merge_apply_reference {table : Table} {merge : Merge} {ip : Nat} {e : Entry}
    (h : e ∈ merge_apply_reference table merge ip) :
    e = merge_entries table merge ∨ e ∈ table := by
  unfold merge_apply_reference at h
  rcases List.mem_append.mp h with h | h
  · rcases List.mem_append.mp h with h | h
    · obtain ⟨j, _, hj, _⟩ := mem_kept_take h
      exact Or.inr (mem_of_getElem? hj)
    · exact Or.inl (List.mem_singleton.mp h)
  · exact Or.inr (List.mem_of_mem_drop h)

theorem two_le_countP {l : List Entry} (p : Entry → Bool) {i j : Nat} {a b : Entry}
    (hij : i < j) (ha : l[i]? = some a) (hb : l[j]? = some b) (hpa : p a = true)
    (hpb : p b = true) : 2 ≤ l.countP p := by
  have hsplit := List.take_append_drop j l
  have h1 : 0 < (l.take j).countP p := by
    rw [List.countP_pos_iff]
    refine ⟨a, ?_, hpa⟩
    rw [List.mem_iff_getElem?]
    exact ⟨i, by rw [List.getElem?_take, if_pos hij]; exact ha⟩
  have h2 : 0 < (l.drop j).countP p := by
    rw [List.countP_pos_iff]
    refine ⟨b, ?_, hpb⟩
    rw [List.mem_iff_getElem?]
    exact ⟨0, by rw [List.getElem?_drop]; simpa using hb⟩
  rw [← hsplit, List.countP_append]
  omega

theorem countP_reference_le {table : Table} {merge : Merge} {ip : Nat} (p : Entry → Bool)
    (hM : p (merge_entries table merge) = false) :
    (merge_apply_reference table merge ip).countP p ≤ table.countP p := by
  unfold merge_apply_reference
  rw [List.countP_append, List.countP_append, List.countP_singleton, hM]
  have h1 : (kept merge (table.take ip).enum).countP p ≤ (table.take ip).countP p :=
    List.Sublist.countP_le _ (kept_sublist merge _ 0)
  have h2 : table.countP p = (table.take ip).countP p + (table.drop ip).countP p := by
    rw [← List.countP_append, List.take_append_drop]
  simp only [Bool.false_eq_true, if_false]
  omega

theorem countP_reference_merged {table : Table} {merge : Merge} {ip : Nat} (p : Entry → Bool)
    (hT : ∀ e ∈ table, p e = false) :
    (merge_apply_reference table merge ip).countP p ≤ 1 := by
  unfold merge_apply_reference
  rw [List.countP_append, List.countP_append, List.countP_singleton]
  have h1 : (kept merge (table.take ip).enum).countP p = 0 := by
    rw [List.countP_eq_zero]
    intro e he
    obtain ⟨j, _, hj, _⟩ := mem_kept_take he
    simp [hT e (mem_of_getElem? hj)]
  have h2 : (table.drop ip).countP p = 0 := by
    rw [List.countP_eq_zero]
    intro e he
    simp [hT e (List.mem_of_mem_drop he)]
  rw [h1, h2]
  split <;> omega

theorem sem_inv_step {orig table : Table} {aliases : Aliases} {merge : Merge}
    (hinv : SemInv orig table aliases) (hvalid : valid_merge table aliases merge)
    (h2 : 2 ≤ (selected table merge).length) :
    ∃ table1 aliases1, merge_apply table aliases merge = some (table1, aliases1) ∧
      SemInv orig table1 aliases1 := by
  obtain ⟨hs, h32n, hal, hrep, hroute, huniq⟩ := hinv
  obtain ⟨_, ⟨r, hr⟩, hdown0, hup0⟩ := hvalid
  have hsel : selected table merge ≠ [] := by
    intro hnil
    rw [hnil] at h2
    simp at h2
  obtain ⟨ip, hip, hle, hbelow, habove, hsellt, _⟩ := merge_apply_sorted hs aliases hsel
  have happly0 : merge_apply table aliases merge = some
      (merge_apply_reference table merge ip,
        table.enum.foldl (alias_step (merge_entries table merge).keymask merge) aliases) ∧
      generality_sorted (merge_apply_reference table merge ip) := by
    obtain ⟨ip1, hip1, happly, _, hsorted⟩ := merge_apply_eq_reference hs aliases hsel
    rw [hip] at hip1
    cases hip1
    exact ⟨happly, hsorted⟩
  obtain ⟨happly, hsorted⟩ := happly0
  have hdown : ∀ e ∈ table.drop ip,
      not_covered aliases (merge_entries table merge).keymask e := by
    obtain ⟨ipd, hipd, hd⟩ := hdown0
    rw [hip] at hipd
    cases hipd
    exact hd
  have hupok : upcheck_ok table merge ip (List.range table.length) := by
    obtain ⟨ipu, hipu, hup⟩ := hup0
    unfold get_insertion_index_merge at hipu
    rw [hip] at hipu
    cases hipu
    exact hup hsel
  have hM32 := merge_entries_is32 table merge
  have hMn := merge_entries_normalised table merge
  have hnew : ∀ e ∈ table, e.keymask ≠ (merge_entries table merge).keymask :=
    fun e he => keymask_ne_merged hs h32n hip hupok h2 he
  have hnequiv : ∀ e ∈ table, e.keymask.equiv (merge_entries table merge).keymask = false := by
    intro e he
    rw [equiv_false_iff]
    intro hcon
    exact hnew e he (eq_of_as64_eq (h32n e he).1 hM32 hcon)
  have hselT : ∀ e ∈ selected table merge, e ∈ table := by
    intro e he
    obtain ⟨j, hj, _⟩ := mem_selected.mp he
    exact mem_of_getElem? hj
  have hkms : ∀ k ∈ (selected table merge).map (fun e => e.keymask),
      k.equiv (merge_entries table merge).keymask = false ∧ k.is32 := by
    intro k hk
    obtain ⟨e, he, rfl⟩ := List.mem_map.mp hk
    exact ⟨hnequiv e (hselT e he), (h32n e (hselT e he)).1⟩
  have hmig := migration_fold ((selected table merge).map (fun e => e.keymask)) [] aliases
    (migration_init (fun q hq a ha => (hal q hq a ha).1) (merge_entries table merge).keymask)
    hkms (by intro p hp; cases hp)
  rw [List.nil_append] at hmig
  obtain ⟨hfo, hfM, _⟩ := hmig
  have hkmsne : (selected table merge).map (fun e => e.keymask) ≠ [] := by
    simpa using hsel
  obtain ⟨S, hS, _, hcon⟩ := hfM hkmsne
  rw [alias_fold_eq_migrate] at happly
  have hany : ∀ j e, table[j]? = some e → merge.test j = false →
      (aliases_find e.keymask aliases).isSome = true →
      ((selected table merge).map (fun e => e.keymask)).any (fun p => p.equiv e.keymask) =
        false := by
    intro j e hj hm hsome
    cases hany1 : ((selected table merge).map (fun e => e.keymask)).any
        (fun p => p.equiv e.keymask) with
    | false => rfl
    | true =>
      exfalso
      obtain ⟨k2, hk2, hequiv⟩ := List.any_eq_true.mp hany1
      obtain ⟨e2, he2, rfl⟩ := List.mem_map.mp hk2
      obtain ⟨i2, hi2, hm2⟩ := mem_selected.mp he2
      have heq : e2.keymask = e.keymask :=
        eq_of_as64_eq (h32n e2 (hselT e2 he2)).1 (h32n e (mem_of_getElem? hj)).1
          ((equiv_iff_as64 _ _).mp hequiv)
      have hne : i2 ≠ j := by
        intro h
        rw [h, hm] at hm2
        cases hm2
      have hle1 := huniq e (mem_of_getElem? hj) hsome
      have hge : 2 ≤ table.countP (fun x => decide (x.keymask = e.keymask)) := by
        rcases Nat.lt_or_gt_of_ne hne with hlt | hgt
        · exact two_le_countP _ hlt hi2 hj (by simpa using heq) (by simp)
        · exact two_le_countP _ hgt hj hi2 (by simp) (by simpa using heq)
      omega
  have hlookup : ∀ j e, table[j]? = some e → merge.test j = false →
      aliases_find e.keymask
          (migrate (merge_entries table merge).keymask
            ((selected table merge).map (fun e => e.keymask)) aliases) =
        aliases_find e.keymask aliases := by
    intro j e hj hm
    rw [hfo e.keymask (hnequiv e (mem_of_getElem? hj))]
    cases hf : aliases_find e.keymask aliases with
    | none => split <;> rfl
    | some s =>
      rw [hany j e hj hm (by rw [hf]; rfl)]
      rfl
  refine ⟨_, _, happly, hsorted, ?_, ?_, ?_, ?_, ?_⟩
  · intro e he
    rcases mem_merge_apply_reference he with rfl | he
    · exact ⟨hM32, hMn⟩
    · exact h32n e he
  · intro q hq a ha
    rcases migrate_mem _ _ q hq a ha with ⟨q0, hq0, ha0⟩ | h
    · exact hal q0 hq0 a ha0
    · obtain ⟨e, he, rfl⟩ := List.mem_map.mp h
      exact h32n e (hselT e he)
  · intro o ho
    obtain ⟨E, hE, hroute1, hsrc, hkind⟩ := hrep o ho
    obtain ⟨j, hj⟩ := List.mem_iff_getElem?.mp hE
    cases hm : merge.test j with
    | false =>
      refine ⟨E, mem_merge_apply_reference_of_unselected hj hm, hroute1, hsrc, ?_⟩
      rw [hlookup j E hj hm]
      exact hkind
    | true =>
      have hEsel : E ∈ selected table merge := mem_selected.mpr ⟨j, hj, hm⟩
      refine ⟨merge_entries table merge, ?_, merge_entries_route_covers hEsel hroute1,
        merge_entries_source_covers hEsel hsrc, Or.inr ⟨S, hS, ?_⟩⟩
      · unfold merge_apply_reference
        simp
      · have hc := hcon E.keymask (List.mem_map.mpr ⟨E, hEsel, rfl⟩)
        unfold alias_contribution at hc
        rcases hkind with ⟨hkm, hnone⟩ | ⟨s, hs1, hos⟩
        · rw [hnone] at hc
          rw [← hkm]
          exact hc
        · rw [hs1] at hc
          exact hc _ hos
  · intro k o hko
    obtain ⟨E, hfm, hEr, hEal⟩ := hroute k o hko
    obtain ⟨p, hp, hEk, hfirst⟩ := first_match_index hfm
    have hE32n := h32n E (mem_of_getElem? hp)
    cases hm : merge.test p with
    | false =>
      have hI6 : ∀ s, aliases_find E.keymask
          (migrate (merge_entries table merge).keymask
            ((selected table merge).map (fun e => e.keymask)) aliases) = some s →
          ∃ a ∈ s, a.matches_key k = true := by
        intro s hs1
        rw [hlookup p E hp hm] at hs1
        exact hEal s hs1
      by_cases hlt : p < ip
      · exact ⟨E, first_match_reference_kept (first_match_kept_some hlt hp hm hEk hfirst),
          hEr, hI6⟩
      · cases hMk : (merge_entries table merge).keymask.matches_key k with
        | false =>
          exact ⟨E, first_match_reference_below hfm
            (fun j e hj he => hfirst j e (by omega) he) hMk, hEr, hI6⟩
        | true =>
          exfalso
          have hEdrop : E ∈ table.drop ip := by
            rw [List.mem_iff_getElem?]
            refine ⟨p - ip, ?_⟩
            rw [List.getElem?_drop, show ip + (p - ip) = p by omega]
            exact hp
          rcases hdown E hEdrop with hint | ⟨s, hs1, hall⟩
          · have := intersect_of_shared_key hM32 hMn hE32n.1 hE32n.2 hMk hEk
            rw [hint] at this
            cases this
          · obtain ⟨a, ha, hak⟩ := hEal s hs1
            obtain ⟨q, hq, hqs, _⟩ := aliases_find_mem hs1
            have ha32n := hal q hq a (hqs ▸ ha)
            have := intersect_of_shared_key ha32n.1 ha32n.2 hM32 hMn hak hMk
            rw [hall a ha] at this
            cases this
    | true =>
      have hEsel : E ∈ selected table merge := mem_selected.mpr ⟨p, hp, hm⟩
      have hpip := hsellt p E hp hm
      have hplen : p < table.length := (List.getElem?_eq_some.mp hp).1
      have hK : first_match (kept merge (table.take ip).enum) k = none := by
        apply first_match_kept_none
        intro j e hj he hmj
        rcases Nat.lt_trichotomy j p with hjp | hjp | hjp
        · exact hfirst j e hjp he
        · rw [hjp, hm] at hmj
          cases hmj
        · have hno := hupok p (List.mem_range.mpr hplen) E hp hm j e hjp hj he
          cases hek : e.keymask.matches_key k with
          | false => rfl
          | true =>
            have he32n := h32n e (mem_of_getElem? he)
            have := intersect_of_shared_key hE32n.1 hE32n.2 he32n.1 he32n.2 hEk hek
            rw [hno] at this
            cases this
      have hMk := merge_entries_covers_selected hEsel hEk
      refine ⟨merge_entries table merge, first_match_reference_merged hK hMk, ?_, ?_⟩
      · rw [merge_entries_route_eq hsel hr, ← hEr, hr E hEsel]
      · intro s hs1
        rw [hS] at hs1
        cases hs1
        have hc := hcon E.keymask (List.mem_map.mpr ⟨E, hEsel, rfl⟩)
        unfold alias_contribution at hc
        cases hf : aliases_find E.keymask aliases with
        | none =>
          rw [hf] at hc
          exact ⟨E.keymask, hc, hEk⟩
        | some old =>
          rw [hf] at hc
          obtain ⟨a, ha, hak⟩ := hEal old hf
          exact ⟨a, hc a ha, hak⟩
  · intro e he hsome
    by_cases hkm : e.keymask = (merge_entries table merge).keymask
    · apply countP_reference_merged
      intro x hx
      have := hnew x hx
      rw [← hkm] at this
      simpa using this
    · rcases mem_merge_apply_reference he with rfl | heT
      · exact absurd rfl hkm
      · have hle1 : (merge_apply_reference table merge ip).countP
            (fun x => decide (x.keymask = e.keymask)) ≤
            table.countP (fun x => decide (x.keymask = e.keymask)) := by
          apply countP_reference_le
          simpa using fun h => hkm h.symm
        have hsomeT : (aliases_find e.keymask aliases).isSome = true := by
          rw [hfo e.keymask (hnequiv e heT)] at hsome
          split at hsome
          · cases hsome
          · exact hsome
        have := huniq e heT hsomeT
        omega

/-! ### The driver preserves the semantics (claims C1, C2) -/

theorem sem_inv_init {table : Table} (hs : generality_sorted table) (h32 : table_is32 table)
    (hn : table_normalised table) : SemInv table table [] := by
  refine ⟨hs, fun e he => ⟨h32 e he, hn e he⟩, ?_, ?_, ?_, ?_⟩
  · intro q hq
    cases hq
  · intro o ho
    refine ⟨o, ho, Nat.and_self _, Nat.and_self _, Or.inl ⟨rfl, rfl⟩⟩
  · intro k o hko
    refine ⟨o, hko, rfl, ?_⟩
    intro s hs1
    simp [aliases_find] at hs1
  · intro e _ hsome
    simp [aliases_find] at hsome

theorem minimise_loop_sem_inv {orig : Table} (fuel target_length : Nat) :
    ∀ (steps : Nat) (table : Table) (aliases : Aliases) (r : Table × Aliases),
      SemInv orig table aliases →
      minimise_loop fuel target_length steps table aliases = some r →
      SemInv orig r.1 r.2 := by
  intro steps
  induction steps with
  | zero =>
    intro table aliases r _ h
    simp [minimise_loop] at h
  | succ steps ih =>
    intro table aliases r hinv h
    unfold minimise_loop at h
    split at h
    · split at h
      · cases h
      · rename_i merge hbest
        split at h
        · cases h
          exact hinv
        · rename_i hg
          obtain ⟨hvalid, _, h2⟩ := best_merge_applicable hinv.1 hbest hg
          obtain ⟨table1, aliases1, happly, hinv1⟩ := sem_inv_step hinv hvalid h2
          rw [happly] at h
          exact ih _ _ r hinv1 h
    · cases h
      exact hinv

theorem minimise_aliases_sem_inv {fuel : Nat} {table : Table} {target_length : Nat}
    {r : Table × Aliases} (hs : generality_sorted table) (h32 : table_is32 table)
    (hn : table_normalised table) (h : minimise_aliases fuel table target_length [] = some r) :
    SemInv table r.1 r.2 :=
  minimise_loop_sem_inv fuel target_length fuel table [] r (sem_inv_init hs h32 hn) h

theorem routes_preserved_of_sem_inv {orig table : Table} {aliases : Aliases}
    (hinv : SemInv orig table aliases) : routes_preserved orig table := by
  intro k hk
  obtain ⟨e, he, hek⟩ := hk
  cases hfm : first_match orig k with
  | none =>
    rw [first_match_eq_none] at hfm
    rw [hfm e he] at hek
    cases hek
  | some o =>
    obtain ⟨E, hE, hr, _⟩ := hinv.2.2.2.2.1 k o hfm
    exact ⟨o, E, rfl, hE, hr⟩

theorem represented_of_strong {aliases : Aliases} {table : Table} {o : Entry}
    (h : represented_strong aliases table o) : represented aliases table o := by
  obtain ⟨E, hE, hr, hsrc, hkind⟩ := h
  refine ⟨E, hE, hr, hsrc, ?_⟩
  rcases hkind with ⟨hkm, _⟩ | h
  · exact Or.inl hkm
  · exact Or.inr h

/-! ### The insertion index exists for every non-empty table -/

theorem get_insertion_index_search_total (table : Table) (g : Nat) :
    ∀ (fuel bottom top : Nat), bottom < top → top ≤ table.length → top - bottom ≤ fuel →
      ∃ p, get_insertion_index_search table g fuel bottom top (bottom + (top - bottom) / 2) =
        some p := by
  intro fuel
  induction fuel with
  | zero => intro bottom top h1 _ h3; omega
  | succ fuel ih =>
    intro bottom top hbt htl hfuel
    have hpos_lt : bottom + (top - bottom) / 2 < top := by omega
    obtain ⟨e, he⟩ : ∃ e, table[bottom + (top - bottom) / 2]? = some e :=
      ⟨_, List.getElem?_eq_getElem (by omega)⟩
    unfold get_insertion_index_search
    simp only [List.get?_eq_getElem?, he]
    split
    · rename_i hcond
      simp only [Bool.and_eq_true, bne_iff_ne, ne_eq, decide_eq_true_eq] at hcond
      obtain ⟨⟨_, hlt1⟩, hlt2⟩ := hcond
      split
      · exact ih _ _ hlt2 htl (by omega)
      · exact ih _ _ hlt1 (by omega) (by omega)
    · exact ⟨_, rfl⟩

theorem get_insertion_index_total {table : Table} (hne : table ≠ []) (g : Nat) :
    ∃ i, get_insertion_index table g = some i := by
  have hlen : 0 < table.length := List.length_pos.mpr hne
  obtain ⟨p, hp⟩ := get_insertion_index_search_total table g (table.length + 1) 0
    table.length hlen (Nat.le_refl _) (by omega)
  unfold get_insertion_index
  rw [hp]
  exact ⟨_, rfl⟩

/-! ### The downcheck makes progress -/

theorem and_bit_ne_zero (x b : Nat) : (x &&& (1 <<< b) != 0) = x.testBit b := by
  rw [Nat.one_shiftLeft]
  cases hx : x.testBit b with
  | true =>
    have : (x &&& 2 ^ b).testBit b = true := by
      rw [Nat.testBit_and, hx, Nat.testBit_two_pow]
      simp
    have hne : x &&& 2 ^ b ≠ 0 := by
      intro h0
      rw [h0, Nat.zero_testBit] at this
      cases this
    simpa using hne
  | false =>
    have : x &&& 2 ^ b = 0 := by
      apply Nat.eq_of_testBit_eq
      intro i
      rw [Nat.testBit_and, Nat.testBit_two_pow, Nat.zero_testBit]
      by_cases hbi : b = i
      · subst hbi
        simp [hx]
      · simp [hbi]
    simp [this]

theorem bit_and_ne_zero (b x : Nat) : ((1 <<< b) &&& x != 0) = x.testBit b := by
  rw [Nat.and_comm]
  exact and_bit_ne_zero x b

theorem get_settables_bits {a b : KeyMask} {s : Settables}
    (h : ∀ i, (s.set_to_zero.testBit i = true ∨ s.set_to_one.testBit i = true) →
      a.get_xs.testBit i = true) :
    ∀ i, ((get_settables a b s).set_to_zero.testBit i = true ∨
        (get_settables a b s).set_to_one.testBit i = true) → a.get_xs.testBit i = true := by
  intro i hi
  unfold get_settables at hi
  simp only at hi
  split at hi
  · simp only [Nat.testBit_and, Bool.and_eq_true] at hi
    rcases hi with hi | hi
    · exact hi.1.1
    · exact hi.1.1
  · split at hi
    · simp only [Nat.testBit_or, Nat.testBit_and, Bool.or_eq_true, Bool.and_eq_true] at hi
      rcases hi with (hi | hi) | (hi | hi)
      · exact h i (Or.inl hi)
      · exact hi.1.1
      · exact h i (Or.inr hi)
      · exact hi.1.1
    · exact h i hi

theorem cover_alias_fold_bits (merge_km : KeyMask) :
    ∀ (l : List KeyMask) (st : Bool × Settables),
      (∀ i, (st.2.set_to_zero.testBit i = true ∨ st.2.set_to_one.testBit i = true) →
        merge_km.get_xs.testBit i = true) →
      ∀ i, ((l.foldl (fun st1 al =>
            if al.intersect merge_km then (true, get_settables merge_km al st1.2) else st1)
          st).2.set_to_zero.testBit i = true ∨
          (l.foldl (fun st1 al =>
            if al.intersect merge_km then (true, get_settables merge_km al st1.2) else st1)
          st).2.set_to_one.testBit i = true) →
        merge_km.get_xs.testBit i = true := by
  intro l
  induction l with
  | nil => intro st h; exact h
  | cons x l ih =>
    intro st h
    rw [List.foldl_cons]
    apply ih
    split
    · exact get_settables_bits h
    · exact h

theorem get_cover_info_step_bits {aliases : Aliases} {merge_km : KeyMask}
    {st : Bool × Settables} (entry : Entry)
    (h : ∀ i, (st.2.set_to_zero.testBit i = true ∨ st.2.set_to_one.testBit i = true) →
      merge_km.get_xs.testBit i = true) :
    ∀ i, ((get_cover_info_step aliases merge_km st entry).2.set_to_zero.testBit i = true ∨
        (get_cover_info_step aliases merge_km st entry).2.set_to_one.testBit i = true) →
      merge_km.get_xs.testBit i = true := by
  unfold get_cover_info_step
  simp only
  split
  · split
    · exact get_settables_bits h
    · exact cover_alias_fold_bits merge_km _ st h
  · exact h

theorem get_cover_info_fold_bits {aliases : Aliases} {merge_km : KeyMask} :
    ∀ (l : List Entry) (st : Bool × Settables),
      (∀ i, (st.2.set_to_zero.testBit i = true ∨ st.2.set_to_one.testBit i = true) →
        merge_km.get_xs.testBit i = true) →
      ∀ i, ((l.foldl (get_cover_info_step aliases merge_km) st).2.set_to_zero.testBit i = true ∨
          (l.foldl (get_cover_info_step aliases merge_km) st).2.set_to_one.testBit i = true) →
        merge_km.get_xs.testBit i = true := by
  intro l
  induction l with
  | nil => intro st h; exact h
  | cons x l ih =>
    intro st h
    rw [List.foldl_cons]
    exact ih _ (get_cover_info_step_bits x h)

theorem get_cover_info_bits {table : Table} {aliases : Aliases} {merge : Merge}
    {info : CoverInfo} (h : get_cover_info table aliases merge = some info) :
    ∀ i, (info.set_to_zero.testBit i = true ∨ info.set_to_one.testBit i = true) →
      (merge_entries table merge).keymask.get_xs.testBit i = true := by
  unfold get_cover_info at h
  simp only at h
  split at h
  · cases h
  · cases h
    simp only
    apply get_cover_info_fold_bits
    intro i hi
    simp at hi

theorem find_removes_ne_nil {table : Table} {merge : Merge} {f : KeyMask → Bool} {e : Entry}
    (he : e ∈ selected table merge) (hf : f e.keymask = true) :
    find_removes table merge f ≠ [] := by
  obtain ⟨j, hj, hm⟩ := mem_selected.mp he
  unfold find_removes
  apply List.ne_nil_of_mem
  rw [List.mem_map]
  refine ⟨(j, e), ?_, rfl⟩
  rw [List.mem_filter]
  exact ⟨List.mk_mem_enum_iff_getElem?.mpr hj, by simp [hm, hf]⟩

theorem find_removes_selected {table : Table} {merge : Merge} {f : KeyMask → Bool} :
    ∀ j ∈ find_removes table merge f, merge.test j = true := by
  intro j hj
  unfold find_removes at hj
  obtain ⟨ie, hie, rfl⟩ := List.mem_map.mp hj
  have := (List.mem_filter.mp hie).2
  simp only [Bool.and_eq_true] at this
  exact this.1

theorem find_removes_candidates {table : Table}
    (h32n : ∀ e ∈ table, e.keymask.is32 ∧ e.keymask.normalised) {merge : Merge}
    (hsel : selected table merge ≠ []) {b : Nat}
    (hx : (merge_entries table merge).keymask.get_xs.testBit b = true) :
    find_removes table merge (blocks_zero (1 <<< b)) ≠ [] ∧
      find_removes table merge (blocks_one (1 <<< b)) ≠ [] := by
  rw [merge_entries_get_xs_testBit] at hx
  simp only [Bool.and_eq_true, decide_eq_true_eq, Bool.not_eq_true'] at hx
  obtain ⟨hb, hmask⟩ := hx
  have href := (merge_entries_matches_reference hsel).2.2.2.1 b hb
  have hcase := href.mp hmask
  have hsel32 : ∀ e ∈ selected table merge, e.keymask.is32 ∧ e.keymask.normalised := by
    intro e he
    obtain ⟨j, hj, _⟩ := mem_selected.mp he
    exact h32n e (mem_of_getElem? hj)
  rcases hcase with ⟨e, he, hem⟩ | ⟨e1, he1, e2, he2, hne⟩
  · constructor
    · apply find_removes_ne_nil he
      unfold blocks_zero
      rw [and_bit_ne_zero, testBit_not32, hem]
      simp [hb]
    · apply find_removes_ne_nil he
      unfold blocks_one
      rw [and_bit_ne_zero, testBit_not32]
      have hk : e.keymask.key.testBit b = false := by
        cases hk : e.keymask.key.testBit b with
        | false => rfl
        | true =>
          have := key_bit_imp_mask_bit (hsel32 e he).1 (hsel32 e he).2 b hk
          rw [hem] at this
          cases this
      simp [hb, hk]
  · cases h1 : e1.keymask.key.testBit b with
    | true =>
      have h2 : e2.keymask.key.testBit b = false := by
        cases h2 : e2.keymask.key.testBit b with
        | false => rfl
        | true => rw [h1, h2] at hne; exact absurd rfl hne
      constructor
      · apply find_removes_ne_nil he1
        unfold blocks_zero
        rw [and_bit_ne_zero, and_bit_ne_zero, h1]
        simp
      · apply find_removes_ne_nil he2
        unfold blocks_one
        rw [and_bit_ne_zero, testBit_not32, h2]
        simp [hb]
    | false =>
      have h2 : e2.keymask.key.testBit b = true := by
        cases h2 : e2.keymask.key.testBit b with
        | true => rfl
        | false => rw [h1, h2] at hne; exact absurd rfl hne
      constructor
      · apply find_removes_ne_nil he2
        unfold blocks_zero
        rw [and_bit_ne_zero, and_bit_ne_zero, h2]
        simp
      · apply find_removes_ne_nil he1
        unfold blocks_one
        rw [and_bit_ne_zero, testBit_not32, h1]
        simp [hb]

theorem better_removes_ne_nil {best new_removes : List Nat} (h : best ≠ [] ∨ new_removes ≠ []) :
    better_removes best new_removes ≠ [] := by
  unfold better_removes
  split
  · rename_i hc
    simp only [Bool.and_eq_true, bne_iff_ne, ne_eq] at hc
    intro hnil
    rw [hnil] at hc
    simp at hc
  · rename_i hc
    rcases h with h | h
    · exact h
    · intro hnil
      apply hc
      simp only [Bool.and_eq_true, Bool.or_eq_true, beq_iff_eq, decide_eq_true_eq, bne_iff_ne,
        ne_eq]
      rw [hnil]
      exact ⟨Or.inl rfl, by simpa using h⟩

theorem better_removes_mem {best new_removes : List Nat} {p : Nat → Prop}
    (h1 : ∀ j ∈ best, p j) (h2 : ∀ j ∈ new_removes, p j) :
    ∀ j ∈ better_removes best new_removes, p j := by
  unfold better_removes
  split
  · exact h2
  · exact h1

theorem best_removes_step_ne_nil (table : Table) (merge : Merge) (info : CoverInfo)
    {best : List Nat} (k : Nat) (h : best ≠ []) :
    best_removes_step table merge info best k ≠ [] := by
  unfold best_removes_step
  simp only
  split
  · exact h
  · have h1 : (if ((1 <<< k) &&& info.set_to_zero != 0) = true then
          better_removes best (find_removes table merge (blocks_zero (1 <<< k)))
        else best) ≠ [] := by
      split
      · exact better_removes_ne_nil (Or.inl h)
      · exact h
    split
    · exact better_removes_ne_nil (Or.inl h1)
    · exact h1

theorem best_removes_step_ne_nil_of_bit (table : Table) (merge : Merge) (info : CoverInfo)
    (best : List Nat) {k : Nat}
    (hbit : info.set_to_zero.testBit k = true ∨ info.set_to_one.testBit k = true)
    (hz : find_removes table merge (blocks_zero (1 <<< k)) ≠ [])
    (ho : find_removes table merge (blocks_one (1 <<< k)) ≠ []) :
    best_removes_step table merge info best k ≠ [] := by
  unfold best_removes_step
  simp only
  split
  · rename_i hlen
    intro hnil
    rw [hnil] at hlen
    simp at hlen
  · rw [bit_and_ne_zero, bit_and_ne_zero]
    split
    · exact better_removes_ne_nil (Or.inr ho)
    · rename_i hone
      rcases hbit with hzero | hone1
      · rw [hzero]
        simp only [if_true]
        exact better_removes_ne_nil (Or.inr hz)
      · exact absurd hone1 hone

theorem best_removes_fold_ne_nil (table : Table) (merge : Merge) (info : CoverInfo) :
    ∀ (l : List Nat) (best : List Nat),
      (best ≠ [] ∨ ∃ k ∈ l,
        (info.set_to_zero.testBit k = true ∨ info.set_to_one.testBit k = true) ∧
        find_removes table merge (blocks_zero (1 <<< k)) ≠ [] ∧
        find_removes table merge (blocks_one (1 <<< k)) ≠ []) →
      l.foldl (best_removes_step table merge info) best ≠ [] := by
  intro l
  induction l with
  | nil =>
    intro best h
    rcases h with h | ⟨k, hk, _⟩
    · exact h
    · cases hk
  | cons x l ih =>
    intro best h
    rw [List.foldl_cons]
    apply ih
    rcases h with h | ⟨k, hk, hbit, hz, ho⟩
    · exact Or.inl (best_removes_step_ne_nil table merge info x h)
    · rcases List.mem_cons.mp hk with rfl | hk
      · exact Or.inl (best_removes_step_ne_nil_of_bit table merge info best hbit hz ho)
      · exact Or.inr ⟨k, hk, hbit, hz, ho⟩

theorem find_best_removes_ne_nil {table : Table}
    (h32n : ∀ e ∈ table, e.keymask.is32 ∧ e.keymask.normalised) {aliases : Aliases}
    {merge : Merge} (hsel : selected table merge ≠ []) {info : CoverInfo}
    (hinfo : get_cover_info table aliases merge = some info)
    (hbits : ¬ ((info.set_to_one == 0 && info.set_to_zero == 0) = true)) :
    find_best_removes table merge info ≠ [] := by
  have hex : ∃ k, info.set_to_zero.testBit k = true ∨ info.set_to_one.testBit k = true := by
    by_cases h1 : info.set_to_one = 0
    · have h0 : info.set_to_zero ≠ 0 := by
        intro h0
        apply hbits
        simp [h1, h0]
      obtain ⟨k, hk⟩ := Nat.ne_zero_implies_bit_true h0
      exact ⟨k, Or.inl hk⟩
    · obtain ⟨k, hk⟩ := Nat.ne_zero_implies_bit_true h1
      exact ⟨k, Or.inr hk⟩
  obtain ⟨k, hk⟩ := hex
  have hx := get_cover_info_bits hinfo k hk
  have hcand := find_removes_candidates h32n hsel hx
  have hlt : k < 32 := by
    rw [merge_entries_get_xs_testBit] at hx
    simp only [Bool.and_eq_true, decide_eq_true_eq] at hx
    exact hx.1
  unfold find_best_removes
  apply best_removes_fold_ne_nil
  exact Or.inr ⟨k, by simpa using hlt, hk, hcand.1, hcand.2⟩

theorem get_cover_info_total {table : Table} (hne : table ≠ [])
    (aliases : Aliases) (merge : Merge) :
    ∃ info, get_cover_info table aliases merge = some info := by
  obtain ⟨i, hi⟩ := get_insertion_index_total hne
    (merge_entries table merge).keymask.count_xs
  unfold get_cover_info get_insertion_index_entry
  simp only
  rw [hi]
  exact ⟨_, rfl⟩

theorem table_ne_nil_of_selected {table : Table} {merge : Merge}
    (hsel : selected table merge ≠ []) : table ≠ [] := by
  intro hnil
  apply hsel
  rw [hnil]
  rfl

/-- The downcheck returns when its fuel exceeds the goodness of the merge. -/
theorem refine_merge_downcheck_loop_total {table : Table}
    (h32n : ∀ e ∈ table, e.keymask.is32 ∧ e.keymask.normalised) (aliases : Aliases)
    {min_goodness : Int} (hmin : 0 ≤ min_goodness) :
    ∀ (fuel : Nat) (merge : Merge) (removed goodness : Int),
      merge.length = table.length → 0 < fuel → goodness - min_goodness < fuel →
      (goodness ≤ merge_goodness merge ∨ goodness ≤ min_goodness) →
      ∃ r, refine_merge_downcheck_loop table aliases min_goodness fuel merge removed goodness =
        some r := by
  intro fuel
  induction fuel with
  | zero =>
    intro merge removed goodness _ h0
    omega
  | succ fuel ih =>
    intro merge removed goodness hlen _ hfuel hstate
    unfold refine_merge_downcheck_loop
    split
    · rename_i hgt
      have hle : goodness ≤ merge_goodness merge := by
        rcases hstate with h | h
        · exact h
        · omega
      have hsel : selected table merge ≠ [] :=
        (selected_ne_nil_of_goodness hlen (by omega)).1
      obtain ⟨info, hinfo⟩ :=
        get_cover_info_total (table_ne_nil_of_selected hsel) aliases merge
      rw [hinfo]
      simp only
      split
      · exact ⟨_, rfl⟩
      · split
        · exact ih _ _ _ (by simpa [merge_clear] using hlen) (by omega) (by omega)
            (Or.inr hmin)
        · rename_i hbits
          have hnil := find_best_removes_ne_nil h32n hsel hinfo hbits
          have hpos : 0 < (find_best_removes table merge info).length :=
            List.length_pos.mpr hnil
          have hsub := merge_subset_remove merge (find_best_removes table merge info)
          have hge := merge_goodness_remove_ge merge (find_best_removes table merge info)
          split
          · rename_i hzero
            have hz : goodness - ((find_best_removes table merge info).length : Int) = 0 := by
              simpa using hzero
            exact ih _ _ _ (by simpa [merge_clear] using hsub.1.trans hlen) (by omega)
              (by omega) (Or.inr (by omega))
          · exact ih _ _ _ (hsub.1.trans hlen) (by omega) (by omega) (Or.inl (by omega))
    · exact ⟨_, rfl⟩

theorem merge_goodness_lt_length (merge : Merge) : merge_goodness merge < merge.length := by
  rw [merge_goodness_eq]
  have := List.countP_le_length (fun b => b) (l := merge)
  omega

theorem refine_merge_downcheck_total {table : Table}
    (h32n : ∀ e ∈ table, e.keymask.is32 ∧ e.keymask.normalised) (aliases : Aliases)
    {min_goodness : Int} (hmin : 0 ≤ min_goodness) {fuel : Nat} {merge : Merge}
    (hlen : merge.length = table.length) (hfuel : table.length < fuel) :
    ∃ r, refine_merge_downcheck fuel table aliases merge min_goodness = some r := by
  unfold refine_merge_downcheck
  have := merge_goodness_lt_length merge
  exact refine_merge_downcheck_loop_total h32n aliases hmin fuel merge 0 _ hlen (by omega)
    (by omega) (Or.inl (Int.le_refl _))

/-! ### The upcheck, the search for the best merge and the driver return -/

theorem get_insertion_index_merge_total {table : Table}
    (hne : table ≠ []) (merge : Merge) :
    ∃ ip, get_insertion_index_merge table merge = some ip :=
  get_insertion_index_total hne (merge_entries table merge).keymask.count_xs

theorem refine_merge_upcheck_step_total {table : Table}
    (hne : table ≠ []) (min_goodness : Int) (st : UpState) {index : Nat}
    (hi : index < table.length) :
    ∃ st1, refine_merge_upcheck_step table min_goodness st index = some st1 := by
  unfold refine_merge_upcheck_step
  split
  · split
    · have hget : table.get? index = some (table.get ⟨index, hi⟩) := List.get?_eq_get hi
      rw [hget]
      simp only
      split
      · obtain ⟨ip, hip⟩ := get_insertion_index_merge_total hne (st.merge.set index false)
        rw [hip]
        exact ⟨_, rfl⟩
      · exact ⟨_, rfl⟩
    · exact ⟨_, rfl⟩
  · exact ⟨_, rfl⟩

theorem refine_merge_upcheck_loop_total {table : Table}
    (hne : table ≠ []) (min_goodness : Int) :
    ∀ (l : List Nat) (st : UpState), (∀ i ∈ l, i < table.length) →
      ∃ st1, refine_merge_upcheck_loop table min_goodness l st = some st1 := by
  intro l
  induction l with
  | nil =>
    intro st _
    exact ⟨st, rfl⟩
  | cons i l ih =>
    intro st hl
    obtain ⟨st1, hst1⟩ := refine_merge_upcheck_step_total hne min_goodness st
      (hl i (List.mem_cons_self _ _))
    obtain ⟨st2, hst2⟩ := ih st1 (fun j hj => hl j (List.mem_cons_of_mem _ hj))
    refine ⟨st2, ?_⟩
    unfold refine_merge_upcheck_loop
    rw [hst1]
    exact hst2

theorem refine_merge_upcheck_total {table : Table}
    (hne : table ≠ []) (merge : Merge) (min_goodness : Int) :
    ∃ r, refine_merge_upcheck table merge min_goodness = some r := by
  obtain ⟨ip, hip⟩ := get_insertion_index_merge_total hne merge
  obtain ⟨st, hst⟩ := refine_merge_upcheck_loop_total hne min_goodness
    (List.range table.length).reverse
    { merge := merge, removed := 0, goodness := merge_goodness merge, insertion_point := ip }
    (by intro i hi; simpa using hi)
  unfold refine_merge_upcheck
  rw [hip]
  simp only
  rw [hst]
  simp only
  split
  · exact ⟨_, rfl⟩
  · exact ⟨_, rfl⟩

theorem get_best_merge_refine_total {table : Table}
    (h32n : ∀ e ∈ table, e.keymask.is32 ∧ e.keymask.normalised) (hne : table ≠ [])
    (aliases : Aliases) {fuel : Nat} (hfuel : table.length < fuel) {m0 : Merge}
    (hlen : m0.length = table.length) (c0 : Int) {best : Int} (hbest : 0 ≤ best) :
    ∃ r, get_best_merge_refine fuel table aliases m0 c0 best = some r := by
  obtain ⟨r1, hr1⟩ := refine_merge_downcheck_total h32n aliases hbest hlen hfuel
  have hsub1 := refine_merge_downcheck_subset hr1
  obtain ⟨r2, hr2⟩ := refine_merge_upcheck_total hne r1.1 best
  have hsub2 := refine_merge_upcheck_subset hr2
  obtain ⟨r3, hr3⟩ := refine_merge_downcheck_total h32n aliases hbest
    (hsub2.1.trans (hsub1.1.trans hlen)) hfuel
  unfold get_best_merge_refine
  rw [hr1]
  simp only
  split
  · rw [hr2]
    simp only
    split
    · rw [hr3]
      simp only
      split
      · exact ⟨_, rfl⟩
      · exact ⟨_, rfl⟩
    · split
      · exact ⟨_, rfl⟩
      · exact ⟨_, rfl⟩
  · exact ⟨_, rfl⟩

theorem get_best_merge_step_total {table : Table}
    (h32n : ∀ e ∈ table, e.keymask.is32 ∧ e.keymask.normalised) (aliases : Aliases)
    {fuel : Nat} (hfuel : table.length < fuel) {st : BestState} {ie : Nat × Entry}
    (hie : table[ie.1]? = some ie.2) (hbest : 0 ≤ st.best_goodness) :
    ∃ st1, get_best_merge_step fuel table aliases st ie = some st1 := by
  have hne : table ≠ [] := by
    intro hnil
    rw [hnil] at hie
    simp at hie
  unfold get_best_merge_step
  split
  · exact ⟨_, rfl⟩
  · simp only
    split
    · have hgroup := group_fold_inv (table.drop (ie.1 + 1)) (ie.1 + 1) _ rfl
        (group_init_inv hie (st.considered.set ie.1 true))
      have hdrop : table.enum.drop (ie.1 + 1) =
          (table.drop (ie.1 + 1)).enumFrom (ie.1 + 1) := by
        rw [List.enum_eq_enumFrom, drop_enumFrom]
        simp
      rw [← hdrop] at hgroup
      obtain ⟨r, hr⟩ := get_best_merge_refine_total h32n hne aliases hfuel hgroup.1
        ((table.enum.drop (ie.1 + 1)).foldl (get_best_merge_group_step ie.2)
          { current_merge := (List.replicate table.length false).set ie.1 true
            considered := st.considered.set ie.1 true
            current_goodness := 0 }).current_goodness hbest
      rw [hr]
      rcases r with _ | ⟨m, g⟩
      · exact ⟨_, rfl⟩
      · exact ⟨_, rfl⟩
    · exact ⟨_, rfl⟩

theorem get_best_merge_loop_total {table : Table}
    (h32n : ∀ e ∈ table, e.keymask.is32 ∧ e.keymask.normalised) (aliases : Aliases)
    {fuel : Nat} (hfuel : table.length < fuel) :
    ∀ (l : List (Nat × Entry)) (st : BestState),
      (∀ ie ∈ l, table[ie.1]? = some ie.2) →
      (0 ≤ st.best_goodness ∧ merge_shape table st.best_merge) →
      ∃ st1, get_best_merge_loop fuel table aliases l st = some st1 := by
  intro l
  induction l with
  | nil =>
    intro st _ _
    exact ⟨st, rfl⟩
  | cons ie l ih =>
    intro st hl hinv
    have hie := hl ie (List.mem_cons_self _ _)
    obtain ⟨st1, hst1⟩ := get_best_merge_step_total h32n aliases hfuel hie hinv.1
    have hinv1 := get_best_merge_step_shape hie hinv hst1
    obtain ⟨st2, hst2⟩ := ih st1 (fun x hx => hl x (List.mem_cons_of_mem _ hx)) hinv1
    refine ⟨st2, ?_⟩
    unfold get_best_merge_loop
    rw [hst1]
    exact hst2

theorem get_best_merge_total {table : Table}
    (h32n : ∀ e ∈ table, e.keymask.is32 ∧ e.keymask.normalised) (aliases : Aliases)
    {fuel : Nat} (hfuel : table.length < fuel) :
    ∃ merge, get_best_merge fuel table aliases = some merge := by
  obtain ⟨st, hst⟩ := get_best_merge_loop_total h32n aliases hfuel table.enum
    { best_merge := List.replicate table.length false
      best_goodness := 0
      considered := List.replicate table.length false }
    (fun ie hie => List.mk_mem_enum_iff_getElem?.mp hie)
    ⟨Int.le_refl _, Or.inl rfl⟩
  unfold get_best_merge
  rw [hst]
  exact ⟨_, rfl⟩

/-- The driver returns when the step count and the downcheck fuel exceed the
length of the table. -/
theorem minimise_loop_total {orig : Table} (fuel target_length : Nat) :
    ∀ (steps : Nat) (table : Table) (aliases : Aliases),
      SemInv orig table aliases → table.length < fuel → table.length < steps →
      ∃ r, minimise_loop fuel target_length steps table aliases = some r := by
  intro steps
  induction steps with
  | zero =>
    intro table aliases _ _ h
    omega
  | succ steps ih =>
    intro table aliases hinv hfuel hsteps
    unfold minimise_loop
    split
    · obtain ⟨merge, hmerge⟩ := get_best_merge_total hinv.2.1 aliases hfuel
      rw [hmerge]
      simp only
      split
      · exact ⟨_, rfl⟩
      · rename_i hg
        obtain ⟨hvalid, hsel, h2⟩ := best_merge_applicable hinv.1 hmerge hg
        obtain ⟨table1, aliases1, happly, hinv1⟩ := sem_inv_step hinv hvalid h2
        obtain ⟨ip, _, happly1, hlen1, _⟩ := merge_apply_eq_reference hinv.1 aliases hsel
        rw [happly] at happly1
        have ht1 : table1 = merge_apply_reference table merge ip := by
          cases happly1
          rfl
        rw [happly]
        simp only
        rw [← ht1] at hlen1
        exact ih table1 aliases1 hinv1 (by omega) (by omega)
    · exact ⟨_, rfl⟩

theorem minimise_aliases_total {table : Table} (hn : table_normalised table)
    (h32 : table_is32 table) (hs : generality_sorted table) (target_length : Nat) {fuel : Nat}
    (hfuel : table.length < fuel) :
    ∃ r, minimise_aliases fuel table target_length [] = some r := by
  unfold minimise_aliases
  exact minimise_loop_total fuel target_length fuel table [] (sem_inv_init hs h32 hn) hfuel hfuel

/-! ### The contract of `minimise` -/

theorem minimise_total {table : Table} (hn : table_normalised table) (h32 : table_is32 table)
    (hs : generality_sorted table) (target_length : Nat) {fuel : Nat}
    (hfuel : table.length < fuel) :
    ∃ table1, minimise fuel table target_length = some table1 := by
  obtain ⟨r, hr⟩ := minimise_aliases_total hn h32 hs target_length hfuel
  unfold minimise
  rw [hr]
  exact ⟨r.1, rfl⟩

theorem minimise_routes_preserved {table : Table} (hn : table_normalised table)
    (h32 : table_is32 table) (hs : generality_sorted table) {target_length fuel : Nat}
    {table1 : Table} (h : minimise fuel table target_length = some table1) :
    routes_preserved table table1 := by
  unfold minimise at h
  cases hloop : minimise_aliases fuel table target_length [] with
  | none =>
    rw [hloop] at h
    cases h
  | some r =>
    rw [hloop] at h
    obtain ⟨t, a⟩ := r
    simp only [Option.some.injEq] at h
    rw [← h]
    exact routes_preserved_of_sem_inv (minimise_aliases_sem_inv hs h32 hn hloop)

/-- Claim C1 (semantic preservation): for every table of normalised 32-bit
keymasks sorted non-decreasing by `count_xs` and every target length,
`minimise`, started with an empty alias map, returns a table as soon as its
fuel exceeds the length of the table, and every key that matches at least one
entry of the original table is sent by first match on the returned table to
the same route as by first match on the original table. -/
theorem minimise_preserves_routes (table : Table) (target_length : Nat)
    (hn : table_normalised table) (h32 : table_is32 table) (hs : generality_sorted table) :
    (∀ fuel, table.length < fuel →
        ∃ table1, minimise fuel table target_length = some table1) ∧
      ∀ fuel table1, minimise fuel table target_length = some table1 →
        routes_preserved table table1 :=
  ⟨fun _ hfuel => minimise_total hn h32 hs target_length hfuel,
    fun _ _ h => minimise_routes_preserved hn h32 hs h⟩

set_option maxRecDepth 100000 in
/-- Witness of C1 on the full minimisation test: `minimise` returns the four
expected entries, which route every matched key as the eight original ones. -/
theorem minimise_preserves_routes_witness :
    table_normalised full_table ∧ table_is32 full_table ∧ generality_sorted full_table ∧
      minimise 9 full_table 0 = some full_table_minimised ∧
      routes_preserved full_table full_table_minimised :=
  ⟨by decide, by decide, by decide, by decide,
    (minimise_preserves_routes full_table 0 (by decide) (by decide) (by decide)).2
      9 full_table_minimised (by decide)⟩

/-- Claim C2 (original entries stay represented): for every table of normalised
32-bit keymasks sorted non-decreasing by `count_xs` and every target length,
`minimise`, started with an empty alias map, returns a table and an alias map
as soon as its fuel exceeds the length of the table, and every entry
`(km, src, route)` of the original table has an entry `E` of the returned table
with `E.route & route == route`, `E.source & src == src` and `E.keymask == km`
or `km` in `aliases[E.keymask]`. -/
theorem minimise_represents_originals (table : Table) (target_length : Nat)
    (hn : table_normalised table) (h32 : table_is32 table) (hs : generality_sorted table) :
    (∀ fuel, table.length < fuel →
        ∃ r, minimise_aliases fuel table target_length [] = some r) ∧
      ∀ fuel table1 aliases1,
        minimise_aliases fuel table target_length [] = some (table1, aliases1) →
        ∀ o ∈ table, represented aliases1 table1 o :=
  ⟨fun _ hfuel => minimise_aliases_total hn h32 hs target_length hfuel,
    fun _ _ _ h o ho =>
      represented_of_strong ((minimise_aliases_sem_inv hs h32 hn h).2.2.2.1 o ho)⟩

set_option maxRecDepth 100000 in
/-- Witness of C2 on the full minimisation test. -/
theorem minimise_represents_originals_witness :
    table_normalised full_table ∧ table_is32 full_table ∧ generality_sorted full_table ∧
      minimise_aliases 9 full_table 0 [] = some (full_table_minimised, full_table_aliases) ∧
      ∀ o ∈ full_table, represented full_table_aliases full_table_minimised o :=
  ⟨by decide, by decide, by decide, by decide,
    (minimise_represents_originals full_table 0 (by decide) (by decide) (by decide)).2
      9 full_table_minimised full_table_aliases (by decide)⟩

/-- Claim C5 (P2 generality-sorted): for every table whose `count_xs` values are
non-decreasing and every merge selecting at least one entry, `merge_apply`
returns a table whose `count_xs` values are again non-decreasing; consequently
the table is still sorted whenever `minimise` returns, and it does return, with
enough fuel, when the keymasks of the table are normalised 32-bit values. -/
theorem merge_apply_preserves_sorted (table : Table) (aliases : Aliases) (merge : Merge)
    (hs : generality_sorted table) (hsel : selected table merge ≠ []) :
    (∃ table1 aliases1, merge_apply table aliases merge = some (table1, aliases1) ∧
        generality_sorted table1) ∧
      (∀ fuel target_length table2, minimise fuel table target_length = some table2 →
        generality_sorted table2) ∧
      (table_normalised table → table_is32 table → ∀ fuel target_length,
        table.length < fuel → ∃ table2, minimise fuel table target_length = some table2) := by
  obtain ⟨ip, _, happly, _, hsorted⟩ := merge_apply_eq_reference hs aliases hsel
  exact ⟨⟨_, _, happly, hsorted⟩, fun _ _ _ h => minimise_sorted hs h,
    fun hn h32 _ target_length hfuel => minimise_total hn h32 hs target_length hfuel⟩

set_option maxRecDepth 100000 in
/-- Witness of C5 on the full minimisation test: the table is sorted, the merge
of its first and fourth entries keeps it sorted, and `minimise` returns the
expected sorted table. -/
theorem merge_apply_preserves_sorted_witness :
    generality_sorted full_table ∧
      selected full_table [true, false, false, true, false, false, false, false] ≠ [] ∧
      minimise 9 full_table 0 = some full_table_minimised ∧
      generality_sorted full_table_minimised ∧
      ∃ table1 aliases1,
        merge_apply full_table [] [true, false, false, true, false, false, false, false] =
          some (table1, aliases1) ∧ generality_sorted table1 :=
  ⟨by decide, by decide, by decide,
    (merge_apply_preserves_sorted full_table []
      [true, false, false, true, false, false, false, false] (by decide) (by decide)).2.1
      9 0 full_table_minimised (by decide),
    (merge_apply_preserves_sorted full_table []
      [true, false, false, true, false, false, false, false] (by decide) (by decide)).1⟩

/-! ### Goodness of a merge (claim C11) -/

/-- Claim C11, as amended: for every merge, `merge_goodness merge` is the number
of set flags minus one, as a signed integer: it is `max 0 (popcount - 1)`
whenever a flag is set, so 0 for one set flag, and it is -1 when no flag is
set. -/
theorem merge_goodness_popcount (merge : Merge) :
    merge_goodness merge = (merge_popcount merge : Int) - 1 ∧
      merge_goodness merge =
        if merge_popcount merge = 0 then -1 else max 0 ((merge_popcount merge : Int) - 1) := by
  have h := merge_goodness_eq merge
  unfold merge_popcount
  refine ⟨h, ?_⟩
  split
  · omega
  · omega

/-- Counterexample to C11 as stated: a merge with no set flag has goodness -1,
not `max 0 (popcount - 1) = 0`. -/
theorem merge_goodness_of_empty_merge_is_negative :
    merge_popcount [false, false] = 0 ∧ merge_goodness [false, false] = -1 ∧
      merge_goodness [false, false] ≠ max 0 ((merge_popcount [false, false] : Int) - 1) := by
  decide

/-! ### The driver leaves a short table alone (claim C12) -/

theorem minimise_loop_of_short {table : Table} {target_length : Nat}
    (h : table.length ≤ target_length) (fuel steps : Nat) (aliases : Aliases) :
    minimise_loop fuel target_length (steps + 1) table aliases = some (table, aliases) := by
  unfold minimise_loop
  rw [if_neg (by omega)]

/-- Claim C12: for every table and alias map, when the table is no longer than
`target_length`, `minimise` returns and leaves both the table and the alias map
unchanged. -/
theorem minimise_identity_when_short (table : Table) (aliases : Aliases)
    (target_length fuel : Nat) (h : table.length ≤ target_length) :
    minimise_aliases (fuel + 1) table target_length aliases = some (table, aliases) ∧
      minimise (fuel + 1) table target_length = some table := by
  have h1 : ∀ al, minimise_aliases (fuel + 1) table target_length al = some (table, al) :=
    fun al => minimise_loop_of_short h (fuel + 1) fuel al
  refine ⟨h1 aliases, ?_⟩
  unfold minimise
  rw [h1 []]

/-- Witness of C12 on the early termination test: the eight entries with target
length 1024 are returned untouched. -/
theorem minimise_identity_when_short_witness :
    full_table.length ≤ 1024 ∧
      minimise_aliases 1 full_table 1024 full_table_aliases =
        some (full_table, full_table_aliases) ∧
      minimise 1 full_table 1024 = some full_table :=
  ⟨by decide, minimise_identity_when_short full_table full_table_aliases 1024 0 (by decide)⟩

/-! ### Iterations of the driver (claims C13 and C14) -/

theorem minimise_history_erase (fuel target_length : Nat) :
    ∀ (steps : Nat) (table : Table) (aliases : Aliases),
      (minimise_history fuel target_length steps table aliases).map (fun p => p.2) =
        minimise_loop fuel target_length steps table aliases := by
  intro steps
  induction steps with
  | zero =>
    intro table aliases
    rfl
  | succ steps ih =>
    intro table aliases
    unfold minimise_history minimise_loop
    split
    · cases hbest : get_best_merge fuel table aliases with
      | none => rfl
      | some merge =>
        simp only
        split
        · rfl
        · cases happly : merge_apply table aliases merge with
          | none => rfl
          | some r1 =>
            obtain ⟨table1, aliases1⟩ := r1
            simp only
            rw [← ih table1 aliases1]
            cases minimise_history fuel target_length steps table1 aliases1 with
            | none => rfl
            | some hr => rfl
    · rfl

theorem minimise_history_of_loop {fuel target_length steps : Nat} {table : Table}
    {aliases : Aliases} {r : Table × Aliases}
    (h : minimise_loop fuel target_length steps table aliases = some r) :
    ∃ history, minimise_history fuel target_length steps table aliases = some (history, r) := by
  rw [← minimise_history_erase] at h
  cases hh : minimise_history fuel target_length steps table aliases with
  | none =>
    rw [hh] at h
    cases h
  | some p =>
    rw [hh] at h
    simp only [Option.map_some', Option.some.injEq] at h
    exact ⟨p.1, by rw [← h]⟩

theorem minimise_apply_shrinks {table : Table} (hs : generality_sorted table)
    {aliases : Aliases} {fuel : Nat} {merge : Merge}
    (hbest : get_best_merge fuel table aliases = some merge) (hg : ¬ merge_goodness merge < 1)
    {table1 : Table} {aliases1 : Aliases}
    (happly : merge_apply table aliases merge = some (table1, aliases1)) :
    generality_sorted table1 ∧ table1.length < table.length ∧
      (table1.length : Int) = (table.length : Int) - merge_goodness merge := by
  obtain ⟨hvalid, hsel, h2⟩ := best_merge_applicable hs hbest hg
  obtain ⟨ip, _, happly1, hlen1, hsorted⟩ := merge_apply_eq_reference hs aliases hsel
  rw [happly] at happly1
  have ht1 : table1 = merge_apply_reference table merge ip := by
    cases happly1
    rfl
  rw [← ht1] at hlen1 hsorted
  have hcount := selected_length_eq_count hvalid.1
  have hgood := merge_goodness_eq merge
  refine ⟨hsorted, by omega, by omega⟩

/-- Along the history of a run on a sorted table every applied merge has
goodness at least 1 and shortens a table longer than the target, and the
lengths add up. -/
theorem minimise_history_spec (fuel target_length : Nat) :
    ∀ (steps : Nat) (table : Table) (aliases : Aliases)
      (history : List (Table × Merge × Table)) (r : Table × Aliases),
      generality_sorted table →
      minimise_history fuel target_length steps table aliases = some (history, r) →
      (∀ x ∈ history, target_length < x.1.length ∧ 1 ≤ merge_goodness x.2.1 ∧
        x.2.2.length < x.1.length ∧
        (x.2.2.length : Int) = (x.1.length : Int) - merge_goodness x.2.1) ∧
      history.length + r.1.length ≤ table.length := by
  intro steps
  induction steps with
  | zero =>
    intro table aliases history r _ h
    simp [minimise_history] at h
  | succ steps ih =>
    intro table aliases history r hs h
    unfold minimise_history at h
    split at h
    · rename_i hlong
      split at h
      · cases h
      · rename_i merge hbest
        split at h
        · cases h
          exact ⟨by simp, by simp⟩
        · rename_i hg
          split at h
          · cases h
          · rename_i table1 aliases1 happly
            split at h
            · cases h
            · rename_i history1 r1 hrest
              cases h
              obtain ⟨hs1, hlt, hexact⟩ := minimise_apply_shrinks hs hbest hg happly
              obtain ⟨hall, hlen⟩ := ih table1 aliases1 history1 r hs1 hrest
              refine ⟨?_, by simp only [List.length_cons]; omega⟩
              intro x hx
              rcases List.mem_cons.mp hx with rfl | hx
              · refine ⟨hlong, ?_, hlt, hexact⟩
                show 1 ≤ merge_goodness merge
                omega
              · exact hall x hx
    · cases h
      exact ⟨by simp, by simp⟩

/-- The result of the driver does not depend on the step bound once the bound
exceeds the length of the table. -/
theorem minimise_loop_steps (fuel target_length : Nat) :
    ∀ (steps : Nat) (table : Table) (aliases : Aliases) (r : Table × Aliases),
      generality_sorted table →
      minimise_loop fuel target_length steps table aliases = some r →
      ∀ steps1, table.length < steps1 →
        minimise_loop fuel target_length steps1 table aliases = some r := by
  intro steps
  induction steps with
  | zero =>
    intro table aliases r _ h
    simp [minimise_loop] at h
  | succ steps ih =>
    intro table aliases r hs h steps1 hsteps1
    obtain ⟨k, rfl⟩ : ∃ k, steps1 = k + 1 := ⟨steps1 - 1, by omega⟩
    unfold minimise_loop at h ⊢
    split
    · rename_i hlong
      rw [if_pos hlong] at h
      split at h
      · cases h
      · rename_i merge hbest
        split
        · rename_i hg
          rw [if_pos hg] at h
          exact h
        · rename_i hg
          rw [if_neg hg] at h
          split at h
          · cases h
          · rename_i table1 aliases1 happly
            obtain ⟨hs1, hlt, _⟩ := minimise_apply_shrinks hs hbest hg happly
            exact ih table1 aliases1 r hs1 h k (by omega)
    · rename_i hshort
      rw [if_neg hshort] at h
      exact h

theorem minimise_history_exit (fuel target_length : Nat) :
    ∀ (steps : Nat) (table : Table) (aliases : Aliases)
      (history : List (Table × Merge × Table)) (r : Table × Aliases),
      minimise_history fuel target_length steps table aliases = some (history, r) →
      (r.1.length ≤ target_length ∨
        ∃ merge, get_best_merge fuel r.1 r.2 = some merge ∧ merge_goodness merge < 1) ∧
      ∀ x ∈ history, target_length < x.1.length ∧
        ∃ aliases0 aliases1, get_best_merge fuel x.1 aliases0 = some x.2.1 ∧
          merge_apply x.1 aliases0 x.2.1 = some (x.2.2, aliases1) := by
  intro steps
  induction steps with
  | zero =>
    intro table aliases history r h
    simp [minimise_history] at h
  | succ steps ih =>
    intro table aliases history r h
    unfold minimise_history at h
    split at h
    · rename_i hlong
      split at h
      · cases h
      · rename_i merge hbest
        split at h
        · rename_i hg
          cases h
          exact ⟨Or.inr ⟨merge, hbest, hg⟩, by simp⟩
        · split at h
          · cases h
          · rename_i table1 aliases1 happly
            split at h
            · cases h
            · rename_i history1 r1 hrest
              cases h
              obtain ⟨hexit, hall⟩ := ih table1 aliases1 history1 r hrest
              refine ⟨hexit, ?_⟩
              intro x hx
              rcases List.mem_cons.mp hx with rfl | hx
              · exact ⟨hlong, aliases, aliases1, hbest, happly⟩
              · exact hall x hx
    · rename_i hshort
      cases h
      exact ⟨Or.inl (by simpa using hshort), by simp⟩

/-- The driver returns on a sorted table of normalised 32-bit keymasks, whatever
the alias map, when the step count and the downcheck fuel exceed the length of
the table. -/
theorem minimise_loop_returns (fuel target_length : Nat) :
    ∀ (steps : Nat) (table : Table) (aliases : Aliases),
      generality_sorted table → (∀ e ∈ table, e.keymask.is32 ∧ e.keymask.normalised) →
      table.length < fuel → table.length < steps →
      ∃ r, minimise_loop fuel target_length steps table aliases = some r := by
  intro steps
  induction steps with
  | zero =>
    intro table aliases _ _ _ h
    omega
  | succ steps ih =>
    intro table aliases hs h32n hfuel hsteps
    unfold minimise_loop
    split
    · obtain ⟨merge, hmerge⟩ := get_best_merge_total h32n aliases hfuel
      rw [hmerge]
      simp only
      split
      · exact ⟨_, rfl⟩
      · rename_i hg
        obtain ⟨_, hsel, h2⟩ := best_merge_applicable hs hmerge hg
        obtain ⟨ip, _, happly, hlen1, hsorted⟩ := merge_apply_eq_reference hs aliases hsel
        rw [happly]
        simp only
        refine ih _ _ hsorted ?_ (by omega) (by omega)
        intro e he
        rcases mem_merge_apply_reference he with rfl | he
        · exact ⟨merge_entries_is32 table merge, merge_entries_normalised table merge⟩
        · exact h32n e he
    · exact ⟨_, rfl⟩

/-- Whenever the driver loop returns on a generality-sorted table, every merge it
passed to `merge_apply` had `merge_goodness` at least 1 and left a strictly
shorter table, there were at most `table.length` such iterations, and the
returned table is no longer than the input. -/
theorem minimise_iterations_of_result (table : Table) (aliases : Aliases)
    (target_length fuel steps : Nat) (r : Table × Aliases) (hs : generality_sorted table)
    (h : minimise_loop fuel target_length steps table aliases = some r) :
    ∃ history, minimise_history fuel target_length steps table aliases = some (history, r) ∧
      (∀ x ∈ history, 1 ≤ merge_goodness x.2.1 ∧ x.2.2.length < x.1.length) ∧
      history.length ≤ table.length ∧ r.1.length ≤ table.length := by
  obtain ⟨history, hh⟩ := minimise_history_of_loop h
  obtain ⟨hall, hlen⟩ := minimise_history_spec fuel target_length steps table aliases
    history r hs hh
  exact ⟨history, hh, fun x hx => ⟨(hall x hx).2.1, (hall x hx).2.2.1⟩, by omega, by omega⟩

/-- Claim C13, as amended (P5 and driver termination): on a generality-sorted
table of normalised 32-bit keymasks, with any alias map and downcheck fuel above
the length of the table, the driver loop returns within `table.length + 1`
evaluations of its condition, and returns the same result for every larger
number of them; every merge it passed to `merge_apply` had `merge_goodness` at
least 1 and left a strictly shorter table, there were at most `table.length`
such iterations, and the returned table is no longer than the input. -/
theorem minimise_iterations_shrink (table : Table) (aliases : Aliases)
    (target_length fuel : Nat) (hs : generality_sorted table) (hn : table_normalised table)
    (h32 : table_is32 table) (hfuel : table.length < fuel) :
    ∃ history r,
      minimise_history fuel target_length (table.length + 1) table aliases =
        some (history, r) ∧
      (∀ steps, table.length < steps →
        minimise_loop fuel target_length steps table aliases = some r) ∧
      (∀ x ∈ history, 1 ≤ merge_goodness x.2.1 ∧ x.2.2.length < x.1.length) ∧
      history.length ≤ table.length ∧ r.1.length ≤ table.length := by
  obtain ⟨r, hr⟩ := minimise_loop_returns fuel target_length (table.length + 1) table aliases
    hs (fun e he => ⟨h32 e he, hn e he⟩) hfuel (by omega)
  obtain ⟨history, hh, hall, hlen, hrlen⟩ :=
    minimise_iterations_of_result table aliases target_length fuel _ r hs hr
  refine ⟨history, r, hh, ?_, hall, hlen, hrlen⟩
  intro steps hsteps
  exact minimise_loop_steps fuel target_length _ table aliases r hs hr steps hsteps

set_option maxRecDepth 100000 in
/-- Witness of C13 on the full minimisation test: three merges take the table
from 8 entries to 6, 5 and 4. -/
theorem minimise_iterations_shrink_witness :
    (generality_sorted full_table ∧ table_normalised full_table ∧ table_is32 full_table ∧
      full_table.length < 9) ∧
      minimise_loop 9 0 9 full_table [] = some (full_table_minimised, full_table_aliases) ∧
      (minimise_history 9 0 9 full_table []).map
          (fun p => p.1.map (fun x => (x.1.length, merge_goodness x.2.1, x.2.2.length))) =
        some [(8, 2, 6), (6, 1, 5), (5, 1, 4)] ∧
      ∃ history r,
        minimise_history 9 0 (full_table.length + 1) full_table [] = some (history, r) ∧
        (∀ steps, full_table.length < steps →
          minimise_loop 9 0 steps full_table [] = some r) ∧
        (∀ x ∈ history, 1 ≤ merge_goodness x.2.1 ∧ x.2.2.length < x.1.length) ∧
        history.length ≤ full_table.length ∧ r.1.length ≤ full_table.length :=
  ⟨⟨by decide, by decide, by decide, by decide⟩, by decide, by decide,
    minimise_iterations_shrink full_table [] 0 9 (by decide) (by decide) (by decide)
      (by decide)⟩

/-- Claim C14 (exit condition): on a generality-sorted table, whenever `minimise`
returns, the returned table is no longer than `target_length` or
`get_best_merge` on the returned table and alias map has `merge_goodness` below
1; and every merge of the run was the best merge of a table strictly longer
than `target_length`. -/
theorem minimise_exit_condition (table : Table) (aliases : Aliases)
    (target_length fuel : Nat) (r : Table × Aliases) (hs : generality_sorted table)
    (h : minimise_aliases fuel table target_length aliases = some r) :
    generality_sorted r.1 ∧
    (r.1.length ≤ target_length ∨
        ∃ merge, get_best_merge fuel r.1 r.2 = some merge ∧ merge_goodness merge < 1) ∧
      ∃ history, minimise_history fuel target_length fuel table aliases = some (history, r) ∧
        ∀ x ∈ history, target_length < x.1.length ∧
          ∃ aliases0 aliases1, get_best_merge fuel x.1 aliases0 = some x.2.1 ∧
            merge_apply x.1 aliases0 x.2.1 = some (x.2.2, aliases1) := by
  unfold minimise_aliases at h
  obtain ⟨history, hh⟩ := minimise_history_of_loop h
  obtain ⟨hexit, hall⟩ := minimise_history_exit fuel target_length fuel table aliases
    history r hh
  exact ⟨minimise_loop_sorted fuel target_length fuel table aliases r hs h, hexit,
    history, hh, hall⟩

set_option maxRecDepth 100000 in
/-- Witness of C14 on the early termination test: with target length 7 the
driver stops after one merge, at 6 entries; with target length 0 it stops at 4
entries, where the best merge is empty. -/
theorem minimise_exit_condition_witness :
    generality_sorted full_table ∧
      (minimise_aliases 9 full_table 7 []).map (fun r => r.1.length) = some 6 ∧
      get_best_merge 9 full_table_minimised full_table_aliases =
        some [false, false, false, false] ∧
      minimise_aliases 9 full_table 0 [] = some (full_table_minimised, full_table_aliases) ∧
      generality_sorted full_table_minimised ∧
      (full_table_minimised.length ≤ 0 ∨
        ∃ merge, get_best_merge 9 full_table_minimised full_table_aliases = some merge ∧
          merge_goodness merge < 1) ∧
      ∃ history,
        minimise_history 9 0 9 full_table [] =
          some (history, (full_table_minimised, full_table_aliases)) ∧
        ∀ x ∈ history, 0 < x.1.length ∧
          ∃ aliases0 aliases1, get_best_merge 9 x.1 aliases0 = some x.2.1 ∧
            merge_apply x.1 aliases0 x.2.1 = some (x.2.2, aliases1) :=
  ⟨by decide, by decide, by decide, by decide,
    minimise_exit_condition full_table [] 0 9 (full_table_minimised, full_table_aliases)
      (by decide) (by decide)⟩

/-! ### Key algebra (claims C15, C16 and C17) -/

theorem shared_key_of_intersect {a b : KeyMask} (ha32 : a.is32) (hb32 : b.is32)
    (han : a.normalised) (hbn : b.normalised) (h : a.intersect b = true) :
    (a.key ||| b.key) < 2 ^ 32 ∧ (a.key ||| b.key) &&& a.mask = a.key ∧
      (a.key ||| b.key) &&& b.mask = b.key := by
  unfold KeyMask.intersect at h
  rw [beq_iff_eq] at h
  have hbit : ∀ i, (a.key.testBit i && b.mask.testBit i) =
      (b.key.testBit i && a.mask.testBit i) := by
    intro i
    have := congrArg (fun n => n.testBit i) h
    simpa [Nat.testBit_and] using this
  refine ⟨Nat.or_lt_two_pow ha32.1 hb32.1, ?_, ?_⟩
  · apply Nat.eq_of_testBit_eq
    intro i
    rw [Nat.testBit_and, Nat.testBit_or]
    have h1 := key_bit_imp_mask_bit ha32 han i
    have h2 := hbit i
    cases hak : a.key.testBit i <;> cases hbk : b.key.testBit i <;>
      cases ham : a.mask.testBit i <;> simp_all
  · apply Nat.eq_of_testBit_eq
    intro i
    rw [Nat.testBit_and, Nat.testBit_or]
    have h1 := key_bit_imp_mask_bit hb32 hbn i
    have h2 := hbit i
    cases hak : a.key.testBit i <;> cases hbk : b.key.testBit i <;>
      cases hbm : b.mask.testBit i <;> simp_all

theorem intersect_of_key {a b : KeyMask} {k : Nat} (hka : k &&& a.mask = a.key)
    (hkb : k &&& b.mask = b.key) : a.intersect b = true := by
  unfold KeyMask.intersect
  rw [beq_iff_eq, ← hka, ← hkb, Nat.and_assoc, Nat.and_assoc, Nat.and_comm a.mask b.mask]

/-- Claim C15: for all normalised keymasks `a` and `b` (32-bit fields),
`a.intersect b` is true if and only if some 32-bit key `k` has
`k & a.mask == a.key` and `k & b.mask == b.key`. -/
theorem intersect_iff_shared_key (a b : KeyMask) (ha32 : a.is32) (hb32 : b.is32)
    (han : a.normalised) (hbn : b.normalised) :
    a.intersect b = true ↔
      ∃ k, k < 2 ^ 32 ∧ k &&& a.mask = a.key ∧ k &&& b.mask = b.key := by
  constructor
  · intro h
    exact ⟨a.key ||| b.key, shared_key_of_intersect ha32 hb32 han hbn h⟩
  · rintro ⟨k, _, hka, hkb⟩
    exact intersect_of_key hka hkb

/-- Witness of C15: `0b1000/0b1000` and `0b0001/0b0111` share the key `0b1001`;
`0b0000/0b1111` and `0b0001/0b1111` share none. -/
theorem intersect_iff_shared_key_witness :
    (KeyMask.intersect ⟨8, 8⟩ ⟨1, 7⟩ = true ↔
        ∃ k, k < 2 ^ 32 ∧ k &&& 8 = 8 ∧ k &&& 7 = 1) ∧
      KeyMask.intersect ⟨8, 8⟩ ⟨1, 7⟩ = true ∧
      (KeyMask.intersect ⟨0, 15⟩ ⟨1, 15⟩ = true ↔
        ∃ k, k < 2 ^ 32 ∧ k &&& 15 = 0 ∧ k &&& 15 = 1) ∧
      KeyMask.intersect ⟨0, 15⟩ ⟨1, 15⟩ = false :=
  ⟨intersect_iff_shared_key ⟨8, 8⟩ ⟨1, 7⟩ (by decide) (by decide) (by decide) (by decide),
    by decide,
    intersect_iff_shared_key ⟨0, 15⟩ ⟨1, 15⟩ (by decide) (by decide) (by decide) (by decide),
    by decide⟩

/-- Claim C16: for any two keymasks `a` and `b`, normalised or not,
`a.intersect b == b.intersect a`. -/
theorem intersect_symmetric (a b : KeyMask) : a.intersect b = b.intersect a :=
  intersect_symm a b

theorem get_xs_eq_of_normalised {km : KeyMask} (hn : km.normalised) :
    km.get_xs = not32 km.mask := by
  unfold KeyMask.normalised at hn
  unfold KeyMask.get_xs
  apply Nat.eq_of_testBit_eq
  intro i
  have h := congrArg (fun n => n.testBit i) hn
  simp only [Nat.testBit_and, Nat.zero_testBit] at h
  rw [Nat.testBit_and, testBit_not32]
  rw [testBit_not32] at h ⊢
  cases hk : km.key.testBit i <;> cases hm : km.mask.testBit i <;> simp_all

theorem popcount_le (x : Nat) : popcount x ≤ 32 := by
  unfold popcount
  have := List.countP_le_length (fun i => x.testBit i) (l := List.range 32)
  simpa using this

/-- Claim C17: for every keymask with `key & ~mask == 0`, `get_xs` is `~mask`
and `count_xs` is `popcount(~mask)`, so `count_xs` lies in 0..32; it is 0 for
mask `0xffffffff` and 32 for mask 0. -/
theorem count_xs_of_normalised (km : KeyMask) (hn : km.normalised) :
    km.get_xs = not32 km.mask ∧ km.count_xs = popcount (not32 km.mask) ∧
      km.count_xs ≤ 32 ∧ (km.mask = 0xffffffff → km.count_xs = 0) ∧
      (km.mask = 0 → km.count_xs = 32) := by
  have hx := get_xs_eq_of_normalised hn
  have hc : km.count_xs = popcount (not32 km.mask) := by
    unfold KeyMask.count_xs
    rw [hx]
  refine ⟨hx, hc, by rw [hc]; exact popcount_le _, ?_, ?_⟩
  · intro hm
    rw [hc, hm]
    decide
  · intro hm
    rw [hc, hm]
    decide

/-- Witness of C17 on the values of the keymask tests: mask `0xffff0000` has the
16 wildcards `0x0000ffff`. -/
theorem count_xs_of_normalised_witness :
    KeyMask.normalised ⟨0, 0xffff0000⟩ ∧
      KeyMask.get_xs ⟨0, 0xffff0000⟩ = 0x0000ffff ∧
      KeyMask.count_xs ⟨0, 0xffff0000⟩ = 16 ∧
      KeyMask.get_xs ⟨0, 0xffff0000⟩ = not32 0xffff0000 ∧
      KeyMask.count_xs ⟨0, 0xffff0000⟩ = popcount (not32 0xffff0000) ∧
      KeyMask.count_xs ⟨0, 0xffff0000⟩ ≤ 32 ∧
      ((0xffff0000 : Nat) = 0xffffffff → KeyMask.count_xs ⟨0, 0xffff0000⟩ = 0) ∧
      ((0xffff0000 : Nat) = 0 → KeyMask.count_xs ⟨0, 0xffff0000⟩ = 32) :=
  ⟨by decide, by decide, by decide, count_xs_of_normalised ⟨0, 0xffff0000⟩ (by decide)⟩

/-! ### Soundness of the downcheck (claim C18) -/

theorem merge_goodness_remove_eq :
    ∀ (l : List Nat) (m : Merge), l.Nodup → (∀ j ∈ l, m.test j = true) →
      merge_goodness (merge_remove m l) = merge_goodness m - l.length := by
  intro l
  induction l with
  | nil =>
    intro m _ _
    simp [merge_remove]
  | cons i l ih =>
    intro m hnd hsel
    have hi := hsel i (List.mem_cons_self _ _)
    have hnd1 := List.nodup_cons.mp hnd
    have hrest : ∀ j ∈ l, Merge.test (m.set i false) j = true := by
      intro j hj
      rw [test_set_false]
      have hne : ¬ i = j := by
        intro hij
        subst hij
        exact hnd1.1 hj
      simp only [hne, if_false]
      exact hsel j (List.mem_cons_of_mem _ hj)
    have h1 := ih (m.set i false) hnd1.2 hrest
    have h2 := merge_goodness_set_false hi
    unfold merge_remove at h1 ⊢
    simp only [List.foldl_cons, List.length_cons]
    rw [h1, h2]
    push_cast
    omega

theorem find_removes_nodup (table : Table) (merge : Merge) (f : KeyMask → Bool) :
    (find_removes table merge f).Nodup := by
  unfold find_removes
  have hsub : List.Sublist
      ((table.enum.filter (fun je => merge.test je.1 && f je.2.keymask)).map (fun je => je.1))
      (table.enum.map (fun je => je.1)) :=
    List.Sublist.map _ (List.filter_sublist _)
  have hfst : table.enum.map (fun je => je.1) = List.range table.length :=
    List.enum_map_fst table
  rw [hfst] at hsub
  exact List.Nodup.sublist hsub (List.nodup_range _)

theorem better_removes_cases (best new_removes : List Nat) :
    better_removes best new_removes = best ∨ better_removes best new_removes = new_removes := by
  unfold better_removes
  split
  · exact Or.inr rfl
  · exact Or.inl rfl

theorem best_removes_step_prop (table : Table) (merge : Merge) (info : CoverInfo)
    {best : List Nat} (k : Nat)
    (h : best.Nodup ∧ ∀ j ∈ best, merge.test j = true) :
    (best_removes_step table merge info best k).Nodup ∧
      ∀ j ∈ best_removes_step table merge info best k, merge.test j = true := by
  have hfind : ∀ f, (find_removes table merge f).Nodup ∧
      ∀ j ∈ find_removes table merge f, merge.test j = true :=
    fun f => ⟨find_removes_nodup table merge f, find_removes_selected⟩
  have hbetter : ∀ (b : List Nat) f, (b.Nodup ∧ ∀ j ∈ b, merge.test j = true) →
      (better_removes b (find_removes table merge f)).Nodup ∧
        ∀ j ∈ better_removes b (find_removes table merge f), merge.test j = true := by
    intro b f hb
    rcases better_removes_cases b (find_removes table merge f) with h1 | h1
    · rw [h1]
      exact hb
    · rw [h1]
      exact hfind f
  unfold best_removes_step
  simp only
  split
  · exact h
  · have h1 : ((if ((1 <<< k) &&& info.set_to_zero != 0) = true then
          better_removes best (find_removes table merge (blocks_zero (1 <<< k)))
        else best).Nodup) ∧
        ∀ j ∈ (if ((1 <<< k) &&& info.set_to_zero != 0) = true then
          better_removes best (find_removes table merge (blocks_zero (1 <<< k)))
        else best), merge.test j = true := by
      split
      · exact hbetter best _ h
      · exact h
    split
    · exact hbetter _ _ h1
    · exact h1

theorem find_best_removes_prop (table : Table) (merge : Merge) (info : CoverInfo) :
    (find_best_removes table merge info).Nodup ∧
      ∀ j ∈ find_best_removes table merge info, merge.test j = true := by
  unfold find_best_removes
  have hfold : ∀ (l : List Nat) (best : List Nat),
      (best.Nodup ∧ ∀ j ∈ best, merge.test j = true) →
      (l.foldl (best_removes_step table merge info) best).Nodup ∧
        ∀ j ∈ l.foldl (best_removes_step table merge info) best, merge.test j = true := by
    intro l
    induction l with
    | nil =>
      intro best h
      exact h
    | cons k l ih =>
      intro best h
      rw [List.foldl_cons]
      exact ih _ (best_removes_step_prop table merge info k h)
  exact hfold _ [] ⟨List.nodup_nil, by simp⟩

/-- The downcheck leaves a merge that covers nothing or whose goodness is at
most `min_goodness`. -/
theorem refine_merge_downcheck_loop_sound (table : Table) (aliases : Aliases)
    (min_goodness : Int) :
    ∀ (fuel : Nat) (merge : Merge) (removed goodness : Int) (r : Merge × Int),
      refine_merge_downcheck_loop table aliases min_goodness fuel merge removed goodness =
        some r →
      merge_goodness merge ≤ goodness →
      cover_free table aliases r.1 ∨ merge_goodness r.1 ≤ min_goodness := by
  intro fuel
  induction fuel with
  | zero =>
    intro merge removed goodness r h
    simp [refine_merge_downcheck_loop] at h
  | succ fuel ih =>
    intro merge removed goodness r h hle
    unfold refine_merge_downcheck_loop at h
    split at h
    · split at h
      · cases h
      · rename_i info hinfo
        split at h
        · rename_i hcov
          cases h
          exact Or.inl ⟨info, hinfo, by simpa using hcov⟩
        · split at h
          · exact ih _ _ _ _ h (by rw [merge_goodness_clear]; decide)
          · simp only at h
            have hprop := find_best_removes_prop table merge info
            have heq := merge_goodness_remove_eq _ merge hprop.1 hprop.2
            split at h
            · rename_i hzero
              have hz : goodness - ((find_best_removes table merge info).length : Int) = 0 := by
                simpa using hzero
              exact ih _ _ _ _ h (by rw [merge_goodness_clear, hz]; decide)
            · exact ih _ _ _ _ h (by rw [heq]; omega)
    · rename_i hgt
      cases h
      exact Or.inr (by simp only; omega)

/-- Claim C18 (downcheck soundness): for every table, alias map, merge and
`min_goodness`, if `refine_merge_downcheck` returns and leaves a merge with
`merge_goodness` above `min_goodness`, then the insertion index of the refined
merge exists and every entry at or after it either does not intersect the
keymask synthesised from the refined merge or is a key of the alias map none
of whose aliases intersects that keymask. -/
theorem refine_merge_downcheck_sound (fuel : Nat) (table : Table) (aliases : Aliases)
    (merge : Merge) (min_goodness : Int) (r : Merge × Int)
    (h : refine_merge_downcheck fuel table aliases merge min_goodness = some r)
    (hgood : merge_goodness r.1 > min_goodness) :
    ∃ ip, get_insertion_index_merge table r.1 = some ip ∧
      ∀ j e, ip ≤ j → table[j]? = some e →
        (merge_entries table r.1).keymask.intersect e.keymask = false ∨
          ∃ s, aliases_find e.keymask aliases = some s ∧
            ∀ a ∈ s, a.intersect (merge_entries table r.1).keymask = false := by
  unfold refine_merge_downcheck at h
  rcases refine_merge_downcheck_loop_sound table aliases min_goodness fuel merge 0 _ r h
    (Int.le_refl _) with hfree | hle
  · obtain ⟨ip, hip, hall⟩ := downcheck_ok_of_cover_free hfree
    refine ⟨ip, hip, ?_⟩
    intro j e hj he
    apply hall e
    rw [List.mem_iff_getElem?]
    refine ⟨j - ip, ?_⟩
    rw [List.getElem?_drop]
    have : ip + (j - ip) = j := by omega
    rw [this]
    exact he
  · omega

set_option maxRecDepth 100000 in
/-- Witness of C18 on the downcheck test: the merge of the first three entries
loses the first one, and the remaining merge of goodness 1 covers nothing. -/
theorem refine_merge_downcheck_sound_witness :
    refine_merge_downcheck 5 downcheck_table [] [true, true, true, false] 0 =
        some ([false, true, true, false], 1) ∧
      merge_goodness [false, true, true, false] > 0 ∧
      ∃ ip, get_insertion_index_merge downcheck_table [false, true, true, false] = some ip ∧
        ∀ j e, ip ≤ j → downcheck_table[j]? = some e →
          (merge_entries downcheck_table [false, true, true, false]).keymask.intersect
              e.keymask = false ∨
            ∃ s, aliases_find e.keymask [] = some s ∧
              ∀ a ∈ s, a.intersect
                (merge_entries downcheck_table [false, true, true, false]).keymask = false :=
  ⟨by decide, by decide,
    refine_merge_downcheck_sound 5 downcheck_table [] [true, true, true, false] 0
      ([false, true, true, false], 1) (by decide) (by decide)⟩

/-! ### Soundness of the upcheck (claim C19) -/

/-- Claim C19 (upcheck soundness): for every non-empty table sorted
non-decreasing by `count_xs`, every merge and every `min_goodness ≥ 0`,
`refine_merge_upcheck` returns, and if it leaves a merge with `merge_goodness`
above `min_goodness` then the insertion index `ip` of the refined merge exists
and for every still-selected index `i` and every `j` with `i < j < ip` the
keymask of `table[j]` does not intersect the keymask of `table[i]`. -/
theorem refine_merge_upcheck_sound (table : Table) (merge : Merge) (min_goodness : Int)
    (hne : table ≠ []) (hs : generality_sorted table) (hmin : 0 ≤ min_goodness) :
    ∃ r, refine_merge_upcheck table merge min_goodness = some r ∧
      (merge_goodness r.1 > min_goodness →
        ∃ ip, get_insertion_index_merge table r.1 = some ip ∧
          ∀ i j ei ej, r.1.test i = true → i < j → j < ip → table[i]? = some ei →
            table[j]? = some ej → ej.keymask.intersect ei.keymask = false) := by
  obtain ⟨r, hr⟩ := refine_merge_upcheck_total hne merge min_goodness
  refine ⟨r, hr, ?_⟩
  intro hgood
  rcases refine_merge_upcheck_goodness hr with ⟨_, heq⟩ | ⟨hneg, _⟩
  · obtain ⟨_, _, ip, hip, hok⟩ := refine_merge_upcheck_spec hs hmin hr (by omega)
    refine ⟨ip, hip, ?_⟩
    intro i j ei ej hti hij hjip hei hej
    have hsel : selected table r.1 ≠ [] :=
      List.ne_nil_of_mem (mem_selected.mpr ⟨i, hei, hti⟩)
    have hi : i ∈ List.range table.length :=
      List.mem_range.mpr (List.getElem?_eq_some.mp hei).1
    rw [intersect_symm]
    exact hok hsel i hi ei hei hti j ej hij hjip hej
  · omega

set_option maxRecDepth 100000 in
/-- Witness of C19 on the upcheck test: of the first five entries the last two
stay merged, and nothing stands between them and their insertion index. -/
theorem refine_merge_upcheck_sound_witness :
    upcheck_table ≠ [] ∧ generality_sorted upcheck_table ∧
      refine_merge_upcheck upcheck_table [true, true, true, true, true, false] 0 =
        some ([false, false, false, true, true, false], 3) ∧
      refine_merge_upcheck upcheck_table [true, true, true, true, true, false] 2 =
        some ([false, false, false, false, false, false], 4) ∧
      ∃ r, refine_merge_upcheck upcheck_table [true, true, true, true, true, false] 0 = some r ∧
        (merge_goodness r.1 > 0 →
          ∃ ip, get_insertion_index_merge upcheck_table r.1 = some ip ∧
            ∀ i j ei ej, r.1.test i = true → i < j → j < ip → upcheck_table[i]? = some ei →
              upcheck_table[j]? = some ej → ej.keymask.intersect ei.keymask = false) :=
  ⟨by decide, by decide, by decide, by decide,
    refine_merge_upcheck_sound upcheck_table [true, true, true, true, true, false] 0
      (by decide) (by decide) (by decide)⟩

/-! ### Shape of the best merge (claim C20) -/

/-- Whenever `get_best_merge` returns, its result has one flag per table entry,
selects no entry or at least two entries, and all selected entries have one
route, which is then the route of the entry synthesised from the merge. -/
theorem get_best_merge_shape_of_result {table : Table} {aliases : Aliases} {fuel : Nat}
    {m : Merge} (h : get_best_merge fuel table aliases = some m) :
    m.length = table.length ∧
      (merge_popcount m = 0 ∨ 2 ≤ merge_popcount m) ∧
      (selected table m).length = merge_popcount m ∧
      ∃ r, (∀ e ∈ selected table m, e.route = r) ∧
        (selected table m ≠ [] → (merge_entries table m).route = r) := by
  rcases get_best_merge_has_shape h with hrep | ⟨hlen, ⟨r, hr⟩, hg⟩
  · subst hrep
    have hcount : merge_popcount (List.replicate table.length false) = 0 := by
      unfold merge_popcount
      rw [List.countP_replicate]
      simp
    refine ⟨by simp, Or.inl hcount, ?_, 0, ?_, ?_⟩
    · rw [selected_replicate_false, hcount]
      rfl
    · intro e he
      rw [selected_replicate_false] at he
      cases he
    · intro hne
      exact absurd (selected_replicate_false table table.length) hne
  · have hcount := selected_length_eq_count hlen
    have hgood := merge_goodness_eq m
    refine ⟨hlen, Or.inr ?_, hcount, r, hr, fun hne => merge_entries_route_eq hne hr⟩
    unfold merge_popcount
    omega

/-- Claim C20, as amended (shape of the best merge): for every table of
normalised 32-bit keymasks and every alias map, with downcheck fuel above the
length of the table, `get_best_merge` returns a merge that has one flag per
table entry, selects no entry or at least two entries, and whose selected
entries all have one route, which is then the route of the entry synthesised
from the merge. -/
theorem get_best_merge_shape (table : Table) (aliases : Aliases) (fuel : Nat)
    (hn : table_normalised table) (h32 : table_is32 table) (hfuel : table.length < fuel) :
    ∃ m, get_best_merge fuel table aliases = some m ∧
      m.length = table.length ∧
      (merge_popcount m = 0 ∨ 2 ≤ merge_popcount m) ∧
      (selected table m).length = merge_popcount m ∧
      ∃ r, (∀ e ∈ selected table m, e.route = r) ∧
        (selected table m ≠ [] → (merge_entries table m).route = r) := by
  obtain ⟨m, hm⟩ := get_best_merge_total (fun e he => ⟨h32 e he, hn e he⟩) aliases hfuel
  exact ⟨m, hm, get_best_merge_shape_of_result hm⟩

set_option maxRecDepth 100000 in
/-- Witness of C20 on the full minimisation test: the best merge of the eight
entries selects the three entries of route 6. -/
theorem get_best_merge_shape_witness :
    (table_normalised full_table ∧ table_is32 full_table ∧ full_table.length < 9) ∧
      get_best_merge 9 full_table [] =
        some [true, false, false, true, false, false, true, false] ∧
      (∀ e ∈ selected full_table [true, false, false, true, false, false, true, false],
        e.route = 6) ∧
      ∃ m, get_best_merge 9 full_table [] = some m ∧
        m.length = full_table.length ∧
        (merge_popcount m = 0 ∨ 2 ≤ merge_popcount m) ∧
        (selected full_table m).length = merge_popcount m ∧
        ∃ r, (∀ e ∈ selected full_table m, e.route = r) ∧
          (selected full_table m ≠ [] → (merge_entries full_table m).route = r) :=
  ⟨⟨by decide, by decide, by decide⟩, by decide, by decide,
    get_best_merge_shape full_table [] 9 (by decide) (by decide) (by decide)⟩

/-! ### The best merge passes both refinements (claim C21) -/

/-- Claim C21: on a generality-sorted table, a merge returned by `get_best_merge`
that selects at least one entry passes both refinements at once: its insertion
index `ip` exists, the keymask synthesised from it covers no entry at or after
`ip` (it does not intersect the keymask of the entry, or the entry has aliases
and it intersects none of them), and no selected entry `i` intersects an entry
`j` with `i < j < ip`.  On a table of normalised 32-bit keymasks
`get_best_merge` does return once its fuel exceeds the length of the table. -/
theorem get_best_merge_passes_refinements (table : Table) (aliases : Aliases) (fuel : Nat)
    (hs : generality_sorted table) :
    (∀ m, get_best_merge fuel table aliases = some m → selected table m ≠ [] →
      ∃ ip, get_insertion_index_merge table m = some ip ∧
        (∀ j e, ip ≤ j → table[j]? = some e →
          not_covered aliases (merge_entries table m).keymask e) ∧
        ∀ i j ei ej, m.test i = true → i < j → j < ip → table[i]? = some ei →
          table[j]? = some ej → ei.keymask.intersect ej.keymask = false) ∧
      (table_normalised table → table_is32 table → table.length < fuel →
        ∃ m, get_best_merge fuel table aliases = some m) := by
  constructor
  · intro m h hsel
    rcases get_best_merge_valid hs h with hrep | hvalid
    · rw [hrep, selected_replicate_false] at hsel
      exact absurd rfl hsel
    · obtain ⟨_, _, ⟨ip, hip, hdown⟩, ⟨ip1, hip1, hup⟩⟩ := hvalid
      have hipeq : ip1 = ip := by
        unfold get_insertion_index_merge at hip1
        rw [hip] at hip1
        cases hip1
        rfl
      subst hipeq
      refine ⟨ip1, hip1, ?_, ?_⟩
      · intro j e hj he
        apply hdown e
        rw [List.mem_iff_getElem?]
        refine ⟨j - ip1, ?_⟩
        rw [List.getElem?_drop]
        have : ip1 + (j - ip1) = j := by omega
        rw [this]
        exact he
      · intro i j ei ej hti hij hjip hei hej
        have hi : i ∈ List.range table.length :=
          List.mem_range.mpr (List.getElem?_eq_some.mp hei).1
        exact hup hsel i hi ei hei hti j ej hij hjip hej
  · intro hn h32 hfuel
    exact get_best_merge_total (fun e he => ⟨h32 e he, hn e he⟩) aliases hfuel

set_option maxRecDepth 100000 in
/-- Witness of C21 on the best merge test with a downcheck: only the first three
of the five entries of route E are merged. -/
theorem get_best_merge_passes_refinements_witness :
    generality_sorted best_downcheck_table ∧
      get_best_merge 7 best_downcheck_table [] =
        some [true, true, true, false, false, false] ∧
      ∃ ip, get_insertion_index_merge best_downcheck_table
          [true, true, true, false, false, false] = some ip ∧
        (∀ j e, ip ≤ j → best_downcheck_table[j]? = some e →
          not_covered [] (merge_entries best_downcheck_table
            [true, true, true, false, false, false]).keymask e) ∧
        ∀ i j ei ej, Merge.test [true, true, true, false, false, false] i = true → i < j →
          j < ip → best_downcheck_table[i]? = some ei →
          best_downcheck_table[j]? = some ej → ei.keymask.intersect ej.keymask = false :=
  ⟨by decide, by decide,
    (get_best_merge_passes_refinements best_downcheck_table [] 7 (by decide)).1
      [true, true, true, false, false, false] (by decide) (by decide)⟩

/-! ### The mask formula of `merge_entries` (claim C25) -/

theorem foldl_include_any_ones_eq (l : List Entry) (acc : MergeAcc) :
    (l.foldl include_entry acc).any_ones =
      l.foldl (fun a e => a ||| e.keymask.key) acc.any_ones := by
  induction l generalizing acc with
  | nil => rfl
  | cons a l ih => simp [ih, include_entry]

theorem foldl_include_all_sels_eq (l : List Entry) (acc : MergeAcc) :
    (l.foldl include_entry acc).all_sels =
      l.foldl (fun a e => a &&& e.keymask.mask) acc.all_sels := by
  induction l generalizing acc with
  | nil => rfl
  | cons a l ih => simp [ih, include_entry]

/-- Claim C25, as amended: for every table and merge, with `any_ones` the OR of
the selected keys, `all_ones` the AND of the selected keys, `all_sels` the AND
of the selected masks and `new_xs = any_ones XOR ~all_ones`, the mask returned
by `merge_entries` is `all_sels AND new_xs`. -/
theorem merge_entries_mask_formula (table : Table) (merge : Merge) :
    (merge_entries table merge).keymask.mask =
      (selected table merge).foldl (fun a e => a &&& e.keymask.mask) 0xffffffff &&&
        ((selected table merge).foldl (fun a e => a ||| e.keymask.key) 0 ^^^
          not32 ((selected table merge).foldl (fun a e => a &&& e.keymask.key) 0xffffffff)) := by
  simp only [merge_entries, merge_entries_acc_eq, foldl_include_any_ones_eq,
    foldl_include_all_sels_eq, foldl_include_all_ones_eq]

/-- Counterexample to C25 as stated: for the three entries of the merge synthesis
test `all_sels AND ~new_xs` is 3, while the mask returned is `0xfffffffc`. -/
theorem merge_entries_mask_is_not_and_of_complement :
    (merge_entries synthesis_table [true, true, true]).keymask.mask = 0xfffffffc ∧
      (selected synthesis_table [true, true, true]).foldl
          (fun a e => a &&& e.keymask.mask) 0xffffffff &&&
        not32 ((selected synthesis_table [true, true, true]).foldl
            (fun a e => a ||| e.keymask.key) 0 ^^^
          not32 ((selected synthesis_table [true, true, true]).foldl
            (fun a e => a &&& e.keymask.key) 0xffffffff)) = 3 ∧
      (merge_entries synthesis_table [true, true, true]).keymask.mask ≠
        (selected synthesis_table [true, true, true]).foldl
            (fun a e => a &&& e.keymask.mask) 0xffffffff &&&
          not32 ((selected synthesis_table [true, true, true]).foldl
              (fun a e => a ||| e.keymask.key) 0 ^^^
            not32 ((selected synthesis_table [true, true, true]).foldl
              (fun a e => a &&& e.keymask.key) 0xffffffff)) := by
  decide

/-! ### The downcheck on merges that need no pruning (claims C26 and C29) -/

theorem refine_merge_downcheck_of_low_goodness (fuel : Nat) (table : Table) (aliases : Aliases)
    {merge : Merge} {min_goodness : Int} (h : merge_goodness merge ≤ min_goodness) :
    refine_merge_downcheck (fuel + 1) table aliases merge min_goodness = some (merge, 0) := by
  unfold refine_merge_downcheck refine_merge_downcheck_loop
  rw [if_neg (by omega)]

/-- Claim C26, as amended: for every table, alias map and merge with
`merge_goodness merge ≤ min_goodness`, `refine_merge_downcheck` returns 0 and
leaves the merge as it is. -/
theorem refine_merge_downcheck_keeps_poor_merge (fuel : Nat) (table : Table)
    (aliases : Aliases) (merge : Merge) (min_goodness : Int)
    (h : merge_goodness merge ≤ min_goodness) :
    refine_merge_downcheck (fuel + 1) table aliases merge min_goodness = some (merge, 0) :=
  refine_merge_downcheck_of_low_goodness fuel table aliases h

/-- Witness of C26: the merge of goodness 1 with `min_goodness` 1. -/
theorem refine_merge_downcheck_keeps_poor_merge_witness :
    merge_goodness [true, true, false] ≤ 1 ∧
      refine_merge_downcheck (0 + 1) unresolvable_table [] [true, true, false] 1 =
        some ([true, true, false], 0) :=
  ⟨by decide,
    refine_merge_downcheck_keeps_poor_merge 0 unresolvable_table [] [true, true, false] 1
      (by decide)⟩

set_option maxRecDepth 100000 in
/-- Counterexample to C26 as stated: with `min_goodness` 1 the merge of the first
two entries, of goodness 1, is returned with both flags still set. -/
theorem refine_merge_downcheck_does_not_empty_poor_merge :
    merge_goodness [true, true, false] ≤ 1 ∧
      ∃ r, refine_merge_downcheck 5 unresolvable_table [] [true, true, false] 1 = some r ∧
        r.1.test 0 = true ∧ r.2 = 0 :=
  ⟨by decide, ([true, true, false], 0), by decide, by decide, rfl⟩

theorem cover_alias_fold_of_not_intersect (merge_km : KeyMask) :
    ∀ (l : List KeyMask) (st : Bool × Settables), (∀ a ∈ l, a.intersect merge_km = false) →
      l.foldl (fun st1 al =>
          if al.intersect merge_km then (true, get_settables merge_km al st1.2) else st1)
        st = st := by
  intro l
  induction l with
  | nil => intro st _; rfl
  | cons x l ih =>
    intro st h
    rw [List.foldl_cons, h x (List.mem_cons_self _ _)]
    simp only [Bool.false_eq_true, if_false]
    exact ih st (fun a ha => h a (List.mem_cons_of_mem _ ha))

theorem get_cover_info_step_of_not_covered {aliases : Aliases} {merge_km : KeyMask}
    (st : Bool × Settables) {entry : Entry} (h : not_covered aliases merge_km entry) :
    get_cover_info_step aliases merge_km st entry = st := by
  unfold get_cover_info_step
  simp only
  split
  · rename_i hint
    rcases h with h | ⟨s, hs, hall⟩
    · rw [h] at hint
      cases hint
    · rw [hs]
      exact cover_alias_fold_of_not_intersect merge_km s st hall
  · rfl

theorem get_cover_info_fold_of_not_covered {aliases : Aliases} {merge_km : KeyMask} :
    ∀ (l : List Entry) (st : Bool × Settables),
      (∀ e ∈ l, not_covered aliases merge_km e) →
      l.foldl (get_cover_info_step aliases merge_km) st = st := by
  intro l
  induction l with
  | nil => intro st _; rfl
  | cons x l ih =>
    intro st h
    rw [List.foldl_cons, get_cover_info_step_of_not_covered st (h x (List.mem_cons_self _ _))]
    exact ih st (fun e he => h e (List.mem_cons_of_mem _ he))

theorem cover_free_of_downcheck_ok {table : Table} {aliases : Aliases} {merge : Merge}
    (h : downcheck_ok table aliases merge) : cover_free table aliases merge := by
  obtain ⟨ip, hip, hall⟩ := h
  unfold cover_free get_cover_info
  simp only
  rw [hip]
  simp only
  rw [get_cover_info_fold_of_not_covered _ _ hall]
  exact ⟨_, rfl, rfl⟩

theorem refine_merge_downcheck_of_cover_free (fuel : Nat) {table : Table} {aliases : Aliases}
    {merge : Merge} (min_goodness : Int) (h : cover_free table aliases merge) :
    refine_merge_downcheck (fuel + 1) table aliases merge min_goodness = some (merge, 0) := by
  obtain ⟨info, hinfo, hcov⟩ := h
  unfold refine_merge_downcheck refine_merge_downcheck_loop
  split
  · rw [hinfo]
    simp only
    rw [hcov]
    rfl
  · rfl

/-- Claim C29: for every table, alias map, merge and `min_goodness`, if the
insertion index `ip` of the merge exists and every entry at or after `ip`
either does not intersect the synthesised keymask or is a key of the alias map
none of whose aliases intersects it, then `refine_merge_downcheck` returns 0
and leaves every flag of the merge unchanged. -/
theorem refine_merge_downcheck_noop_without_covers (fuel : Nat) (table : Table)
    (aliases : Aliases) (merge : Merge) (min_goodness : Int) (ip : Nat)
    (hip : get_insertion_index_merge table merge = some ip)
    (h : ∀ j e, ip ≤ j → table[j]? = some e →
      (merge_entries table merge).keymask.intersect e.keymask = false ∨
        ∃ s, aliases_find e.keymask aliases = some s ∧
          ∀ a ∈ s, a.intersect (merge_entries table merge).keymask = false) :
    refine_merge_downcheck (fuel + 1) table aliases merge min_goodness = some (merge, 0) := by
  apply refine_merge_downcheck_of_cover_free
  apply cover_free_of_downcheck_ok
  refine ⟨ip, hip, ?_⟩
  intro e he
  obtain ⟨n, hn⟩ := List.mem_iff_getElem?.mp he
  rw [List.getElem?_drop] at hn
  exact h (ip + n) e (by omega) hn

set_option maxRecDepth 100000 in
/-- Witness of C29 on the downcheck test without covers: the last entry
intersects the merged `110XX` but neither of its two aliases does. -/
theorem refine_merge_downcheck_noop_without_covers_witness :
    get_insertion_index_merge no_cover_table [true, true, false, false] = some 2 ∧
      (∀ j e, 2 ≤ j → no_cover_table[j]? = some e →
        (merge_entries no_cover_table [true, true, false, false]).keymask.intersect
            e.keymask = false ∨
          ∃ s, aliases_find e.keymask no_cover_aliases = some s ∧
            ∀ a ∈ s, a.intersect
              (merge_entries no_cover_table [true, true, false, false]).keymask = false) ∧
      refine_merge_downcheck (4 + 1) no_cover_table no_cover_aliases
        [true, true, false, false] 0 = some ([true, true, false, false], 0) := by
  have hip : get_insertion_index_merge no_cover_table [true, true, false, false] = some 2 := by
    decide
  have hall : ∀ j e, 2 ≤ j → no_cover_table[j]? = some e →
      (merge_entries no_cover_table [true, true, false, false]).keymask.intersect
          e.keymask = false ∨
        ∃ s, aliases_find e.keymask no_cover_aliases = some s ∧
          ∀ a ∈ s, a.intersect
            (merge_entries no_cover_table [true, true, false, false]).keymask = false := by
    intro j e hj he
    have hlt : j < 4 := (List.getElem?_eq_some.mp he).1
    have hcases : j = 2 ∨ j = 3 := by omega
    rcases hcases with rfl | rfl
    · left
      simp only [no_cover_table, List.getElem?_cons_succ, List.getElem?_cons_zero,
        Option.some.injEq] at he
      subst he
      decide
    · right
      simp only [no_cover_table, List.getElem?_cons_succ, List.getElem?_cons_zero,
        Option.some.injEq] at he
      subst he
      exact ⟨[{ key := 0x08, mask := 0x1f }, { key := 0x1f, mask := 0x1f }], by decide,
        by decide⟩
  exact ⟨hip, hall,
    refine_merge_downcheck_noop_without_covers 4 no_cover_table no_cover_aliases
      [true, true, false, false] 0 2 hip hall⟩

/-! ### Termination of the downcheck (claim C27) -/

theorem merge_popcount_remove {merge : Merge} {l : List Nat} (hnd : l.Nodup)
    (hsel : ∀ j ∈ l, merge.test j = true) :
    merge_popcount (merge_remove merge l) + l.length = merge_popcount merge := by
  have h := merge_goodness_remove_eq l merge hnd hsel
  rw [merge_goodness_eq, merge_goodness_eq] at h
  unfold merge_popcount
  have hpos : l.length ≤ merge.countP (fun b => b) := by
    by_contra hcon
    omega
  omega

/-- Claim C27 (downcheck terminates): on a table of normalised 32-bit keymasks,
for every alias map, every merge that selects an entry and the cover
information of the merge, every bit of `set_to_zero` and every bit of
`set_to_one` has a non-empty removal set, so a pass that does not break or
abandon clears at least one selected entry; hence for every merge with one
flag per entry and every `min_goodness ≥ 0` the loop returns as soon as its
fuel, the bound on the evaluations of the loop condition, is positive and at
least the number of set flags of the merge. -/
theorem refine_merge_downcheck_terminates (table : Table) (aliases : Aliases) (merge : Merge)
    (min_goodness : Int) (hn : table_normalised table) (h32 : table_is32 table)
    (hmin : 0 ≤ min_goodness) :
    (selected table merge ≠ [] → ∀ info, get_cover_info table aliases merge = some info →
      (∀ k, info.set_to_zero.testBit k = true →
        find_removes table merge (blocks_zero (1 <<< k)) ≠ []) ∧
      (∀ k, info.set_to_one.testBit k = true →
        find_removes table merge (blocks_one (1 <<< k)) ≠ []) ∧
      (¬ ((info.set_to_one == 0 && info.set_to_zero == 0) = true) →
        find_best_removes table merge info ≠ [] ∧
        (∀ j ∈ find_best_removes table merge info, merge.test j = true) ∧
        merge_popcount (merge_remove merge (find_best_removes table merge info)) +
          (find_best_removes table merge info).length = merge_popcount merge)) ∧
      (merge.length = table.length → ∀ fuel, 0 < fuel → merge_popcount merge ≤ fuel →
        ∃ r, refine_merge_downcheck fuel table aliases merge min_goodness = some r) := by
  have h32n : ∀ e ∈ table, e.keymask.is32 ∧ e.keymask.normalised :=
    fun e he => ⟨h32 e he, hn e he⟩
  constructor
  · intro hsel info hinfo
    have hbits := get_cover_info_bits hinfo
    refine ⟨fun k hk => (find_removes_candidates h32n hsel (hbits k (Or.inl hk))).1,
      fun k hk => (find_removes_candidates h32n hsel (hbits k (Or.inr hk))).2, ?_⟩
    intro hnz
    have hprop := find_best_removes_prop table merge info
    exact ⟨find_best_removes_ne_nil h32n hsel hinfo hnz, hprop.2,
      merge_popcount_remove hprop.1 hprop.2⟩
  · intro hlen fuel hpos hfuel
    unfold refine_merge_downcheck
    have hg := merge_goodness_eq merge
    unfold merge_popcount at hfuel
    exact refine_merge_downcheck_loop_total h32n aliases hmin fuel merge 0 _ hlen hpos
      (by omega) (Or.inl (Int.le_refl _))

set_option maxRecDepth 100000 in
/-- Witness of C27 on the iterating downcheck test: the merge of four entries is
pruned to nothing within four evaluations of the loop condition. -/
theorem refine_merge_downcheck_terminates_witness :
    table_normalised iterate_table ∧ table_is32 iterate_table ∧
      refine_merge_downcheck 4 iterate_table [] [true, true, true, true, false, false] 0 =
        some ([false, false, false, false, false, false], 4) ∧
      ∃ r, refine_merge_downcheck 4 iterate_table [] [true, true, true, true, false, false] 0 =
        some r :=
  ⟨by decide, by decide, by decide,
    (refine_merge_downcheck_terminates iterate_table []
      [true, true, true, true, false, false] 0 (by decide) (by decide) (by decide)).2
      (by decide) 4 (by decide) (by decide)⟩

/-! ### An unavoidable cover abandons the merge (claim C28) -/

theorem settable_eq_zero_of_popcount {x y : Nat} (h : popcount (x &&& not32 y) = 0) :
    x &&& not32 y = 0 := by
  apply Nat.eq_of_testBit_eq
  intro i
  rw [Nat.zero_testBit]
  cases hbit : (x &&& not32 y).testBit i with
  | false => rfl
  | true =>
    have hlt : i < 32 := by
      rw [Nat.testBit_and, testBit_not32] at hbit
      simp only [Bool.and_eq_true, decide_eq_true_eq] at hbit
      exact hbit.2.1
    unfold popcount at h
    rw [List.countP_eq_zero] at h
    exact absurd hbit (h i (List.mem_range.mpr hlt))

theorem get_settables_zero_stringency (a b : KeyMask) {st : Bool × Settables} (c : Bool)
    (h : ZeroStringency st) : ZeroStringency (c, get_settables a b st.2) := by
  unfold ZeroStringency at h ⊢
  unfold get_settables
  simp only
  split
  · intro hz
    simp only at hz
    rw [settable_eq_zero_of_popcount hz]
    simp
  · split
    · rename_i heq
      intro hz
      simp only at hz
      obtain ⟨h0, h1⟩ := h hz
      rw [hz] at heq
      simp only
      rw [settable_eq_zero_of_popcount heq, h0, h1]
      simp
    · exact h

theorem get_settables_no_settable (a b : KeyMask) {st : Bool × Settables}
    (h : NoSettable st) : NoSettable (true, get_settables a b st.2) := by
  obtain ⟨_, hs, h0, h1⟩ := h
  unfold NoSettable get_settables
  simp only
  rw [hs]
  split
  · rename_i hlt
    omega
  · split
    · rename_i heq
      simp only
      rw [settable_eq_zero_of_popcount heq, h0, h1]
      simp
    · simp [h0, h1, hs]

theorem get_settables_establish (a b : KeyMask) {st : Bool × Settables}
    (hset : a.get_xs &&& not32 b.get_xs = 0) (h : ZeroStringency st) :
    NoSettable (true, get_settables a b st.2) := by
  unfold NoSettable get_settables
  simp only
  rw [hset]
  have hp : popcount 0 = 0 := by decide
  rw [hp]
  split
  · simp
  · split
    · rename_i heq
      obtain ⟨h0, h1⟩ := h heq.symm
      simp only
      rw [h0, h1, ← heq]
      simp
    · rename_i h1 h2
      omega

theorem foldl_establish {α β : Type} (f : β → α → β) (W Z : β → Prop)
    (hW : ∀ s x, W s → W (f s x)) (hZ : ∀ s x, Z s → Z (f s x)) (x0 : α)
    (h0 : ∀ s, W s → Z (f s x0)) :
    ∀ (l : List α), x0 ∈ l → ∀ s, W s → Z (l.foldl f s) := by
  have hkeep : ∀ (l : List α) (s : β), Z s → Z (l.foldl f s) := by
    intro l
    induction l with
    | nil => intro s hs; exact hs
    | cons x l ih => intro s hs; exact ih _ (hZ s x hs)
  intro l
  induction l with
  | nil => intro hx; cases hx
  | cons x l ih =>
    intro hx s hs
    rw [List.foldl_cons]
    rcases List.mem_cons.mp hx with rfl | hx
    · exact hkeep l _ (h0 s hs)
    · exact ih hx _ (hW s x hs)

theorem cover_alias_fold_zero_stringency (merge_km : KeyMask) :
    ∀ (l : List KeyMask) (st : Bool × Settables), ZeroStringency st →
      ZeroStringency (l.foldl (fun st1 al =>
        if al.intersect merge_km then (true, get_settables merge_km al st1.2) else st1) st) := by
  intro l
  induction l with
  | nil => intro st h; exact h
  | cons x l ih =>
    intro st h
    rw [List.foldl_cons]
    apply ih
    split
    · exact get_settables_zero_stringency merge_km x true h
    · exact h

theorem cover_alias_fold_no_settable (merge_km : KeyMask) :
    ∀ (l : List KeyMask) (st : Bool × Settables), NoSettable st →
      NoSettable (l.foldl (fun st1 al =>
        if al.intersect merge_km then (true, get_settables merge_km al st1.2) else st1) st) := by
  intro l
  induction l with
  | nil => intro st h; exact h
  | cons x l ih =>
    intro st h
    rw [List.foldl_cons]
    apply ih
    split
    · exact get_settables_no_settable merge_km x h
    · exact h

theorem get_cover_info_step_zero_stringency (aliases : Aliases) (merge_km : KeyMask)
    (st : Bool × Settables) (entry : Entry) (h : ZeroStringency st) :
    ZeroStringency (get_cover_info_step aliases merge_km st entry) := by
  unfold get_cover_info_step
  simp only
  split
  · split
    · exact get_settables_zero_stringency merge_km entry.keymask true h
    · exact cover_alias_fold_zero_stringency merge_km _ st h
  · exact h

theorem get_cover_info_step_no_settable (aliases : Aliases) (merge_km : KeyMask)
    (st : Bool × Settables) (entry : Entry) (h : NoSettable st) :
    NoSettable (get_cover_info_step aliases merge_km st entry) := by
  unfold get_cover_info_step
  simp only
  split
  · split
    · exact get_settables_no_settable merge_km entry.keymask h
    · exact cover_alias_fold_no_settable merge_km _ st h
  · exact h

/-- The protected keymask `b` of the entry: its own keymask when it has no
aliases, and otherwise one of its aliases that intersects `km`. -/
theorem get_cover_info_step_establish {aliases : Aliases} {merge_km : KeyMask}
    {entry : Entry} {b : KeyMask} (hint : merge_km.intersect entry.keymask = true)
    (hb : (aliases_find entry.keymask aliases = none ∧ b = entry.keymask) ∨
      ∃ s, aliases_find entry.keymask aliases = some s ∧ b ∈ s ∧
        b.intersect merge_km = true)
    (hset : merge_km.get_xs &&& not32 b.get_xs = 0) (st : Bool × Settables)
    (h : ZeroStringency st) :
    NoSettable (get_cover_info_step aliases merge_km st entry) := by
  unfold get_cover_info_step
  simp only
  rw [if_pos hint]
  rcases hb with ⟨hnone, rfl⟩ | ⟨s, hs, hmem, hbint⟩
  · rw [hnone]
    exact get_settables_establish merge_km entry.keymask hset h
  · rw [hs]
    simp only
    apply foldl_establish _ ZeroStringency NoSettable _ _ b _ s hmem st h
    · intro s1 x hs1
      split
      · exact get_settables_zero_stringency merge_km x true hs1
      · exact hs1
    · intro s1 x hs1
      split
      · exact get_settables_no_settable merge_km x hs1
      · exact hs1
    · intro s1 hs1
      rw [if_pos hbint]
      exact get_settables_establish merge_km b hset hs1

theorem get_cover_info_unavoidable {table : Table} {aliases : Aliases} {merge : Merge}
    {ip j : Nat} {entry : Entry} {b : KeyMask}
    (hip : get_insertion_index_merge table merge = some ip) (hj : ip ≤ j)
    (he : table[j]? = some entry)
    (hint : (merge_entries table merge).keymask.intersect entry.keymask = true)
    (hb : (aliases_find entry.keymask aliases = none ∧ b = entry.keymask) ∨
      ∃ s, aliases_find entry.keymask aliases = some s ∧ b ∈ s ∧
        b.intersect (merge_entries table merge).keymask = true)
    (hset : (merge_entries table merge).keymask.get_xs &&& not32 b.get_xs = 0) :
    get_cover_info table aliases merge =
      some { covers := true, set_to_zero := 0, set_to_one := 0 } := by
  have hmem : entry ∈ table.drop ip := by
    rw [List.mem_iff_getElem?]
    refine ⟨j - ip, ?_⟩
    rw [List.getElem?_drop]
    have : ip + (j - ip) = j := by omega
    rw [this]
    exact he
  have hfold := foldl_establish (get_cover_info_step aliases (merge_entries table merge).keymask)
    ZeroStringency NoSettable
    (fun s x hs => get_cover_info_step_zero_stringency aliases _ s x hs)
    (fun s x hs => get_cover_info_step_no_settable aliases _ s x hs) entry
    (fun s hs => get_cover_info_step_establish hint hb hset s hs)
    (table.drop ip) hmem (false, { stringency := 33, set_to_zero := 0, set_to_one := 0 })
    (by intro h; simp at h)
  obtain ⟨h1, _, h3, h4⟩ := hfold
  unfold get_insertion_index_merge at hip
  unfold get_cover_info
  simp only
  rw [hip]
  simp only
  rw [h1, h3, h4]

/-- Claim C28 (unavoidable cover): for every table, alias map, `min_goodness ≥ 0`
and merge with `merge_goodness merge > min_goodness`, if some protected keymask
`b` (the keymask of an entry without aliases, or an alias that intersects the
synthesised keymask `km`) of an entry at or after the insertion index that
intersects `km` has no settable bit (`km.get_xs & ~b.get_xs == 0`), then
`refine_merge_downcheck` clears every flag of the merge and returns the number
of flags the merge had set. -/
theorem refine_merge_downcheck_abandons (fuel : Nat) (table : Table) (aliases : Aliases)
    (merge : Merge) (min_goodness : Int) (ip j : Nat) (entry : Entry) (b : KeyMask)
    (hmin : 0 ≤ min_goodness) (hgood : merge_goodness merge > min_goodness)
    (hip : get_insertion_index_merge table merge = some ip) (hj : ip ≤ j)
    (he : table[j]? = some entry)
    (hint : (merge_entries table merge).keymask.intersect entry.keymask = true)
    (hb : (aliases_find entry.keymask aliases = none ∧ b = entry.keymask) ∨
      ∃ s, aliases_find entry.keymask aliases = some s ∧ b ∈ s ∧
        b.intersect (merge_entries table merge).keymask = true)
    (hset : (merge_entries table merge).keymask.get_xs &&& not32 b.get_xs = 0) :
    refine_merge_downcheck (fuel + 2) table aliases merge min_goodness =
        some (merge_clear merge, (merge_popcount merge : Int)) ∧
      ∀ i, Merge.test (merge_clear merge) i = false := by
  refine ⟨?_, test_merge_clear merge⟩
  have hinfo := get_cover_info_unavoidable hip hj he hint hb hset
  have hg := merge_goodness_eq merge
  unfold refine_merge_downcheck refine_merge_downcheck_loop
  rw [if_pos hgood, hinfo]
  simp only [Bool.not_true, Bool.false_eq_true, if_false, beq_self_eq_true, Bool.and_self,
    if_true]
  unfold refine_merge_downcheck_loop
  rw [if_neg (by omega)]
  unfold merge_popcount
  congr 2
  omega

set_option maxRecDepth 100000 in
/-- Witness of C28 on the unresolvable downcheck test: merging `1001` and `1010`
gives `10XX`, which covers `1XXX` with no settable bit, so both flags are
cleared and 2 is returned. -/
theorem refine_merge_downcheck_abandons_witness :
    merge_goodness [true, true, false] > 0 ∧
      get_insertion_index_merge unresolvable_table [true, true, false] = some 2 ∧
      merge_clear [true, true, false] = [false, false, false] ∧
      merge_popcount [true, true, false] = 2 ∧
      refine_merge_downcheck (0 + 2) unresolvable_table [] [true, true, false] 0 =
        some (merge_clear [true, true, false], (merge_popcount [true, true, false] : Int)) ∧
      ∀ i, Merge.test (merge_clear [true, true, false]) i = false :=
  ⟨by decide, by decide, by decide, by decide,
    refine_merge_downcheck_abandons 0 unresolvable_table [] [true, true, false] 0 2 2
      { keymask := { key := 0x8, mask := 0x8 }, source := 1, route := 4 }
      { key := 0x8, mask := 0x8 } (by decide) (by decide) (by decide) (by decide)
      (by decide) (by decide) (Or.inl ⟨by decide, rfl⟩) (by decide)⟩

/-! ### The smallest removal set (claim C30) -/

theorem first_smallest_append_of_singleton {P : List (List Nat)} {best : List Nat}
    (h : IsFirstSmallest P best) (hlen : best.length = 1) (Q : List (List Nat)) :
    IsFirstSmallest (P ++ Q) best := by
  rcases h with ⟨hnil, _⟩ | ⟨hne, n, hn, hmin, hfirst⟩
  · rw [hnil] at hlen
    cases hlen
  · have hlt : n < P.length := (List.getElem?_eq_some.mp hn).1
    refine Or.inr ⟨hne, n, ?_, ?_, ?_⟩
    · rw [List.getElem?_append_left hlt]
      exact hn
    · intro c hc hcne
      rcases List.mem_append.mp hc with hc | hc
      · exact hmin c hc hcne
      · have : 0 < c.length := List.length_pos.mpr hcne
        omega
    · intro m c hm hmc hcne
      rw [List.getElem?_append_left (by omega)] at hmc
      exact hfirst m c hm hmc hcne

theorem first_smallest_snoc {P : List (List Nat)} {best : List Nat}
    (h : IsFirstSmallest P best) (c : List Nat) :
    IsFirstSmallest (P ++ [c]) (better_removes best c) := by
  have hmemP : ∀ m x, m < P.length → (P ++ [c])[m]? = some x → x ∈ P := by
    intro m x hm hx
    rw [List.getElem?_append_left hm] at hx
    exact List.mem_iff_getElem?.mpr ⟨m, hx⟩
  unfold better_removes
  split
  · rename_i hcond
    simp only [Bool.and_eq_true, Bool.or_eq_true, beq_iff_eq, decide_eq_true_eq, bne_iff_ne,
      ne_eq] at hcond
    obtain ⟨hbetter, hcne⟩ := hcond
    have hcne1 : c ≠ [] := by
      intro hnil
      rw [hnil] at hcne
      exact hcne rfl
    have hlt : ∀ x ∈ P, x ≠ [] → c.length < x.length := by
      intro x hx hxne
      rcases h with ⟨_, hall⟩ | ⟨hne, _, _, hmin, _⟩
      · exact absurd (hall x hx) hxne
      · have h1 := hmin x hx hxne
        rcases hbetter with hb | hb
        · exact absurd (List.length_eq_zero.mp hb) hne
        · omega
    refine Or.inr ⟨hcne1, P.length, by simp, ?_, ?_⟩
    · intro x hx hxne
      rcases List.mem_append.mp hx with hx | hx
      · exact Nat.le_of_lt (hlt x hx hxne)
      · rw [List.mem_singleton.mp hx]
    · intro m x hm hmx hxne
      exact hlt x (hmemP m x hm hmx) hxne
  · rename_i hcond
    simp only [Bool.and_eq_true, Bool.or_eq_true, beq_iff_eq, decide_eq_true_eq, bne_iff_ne,
      ne_eq, not_and, not_not] at hcond
    rcases h with ⟨hnil, hall⟩ | ⟨hne, n, hn, hmin, hfirst⟩
    · refine Or.inl ⟨hnil, ?_⟩
      intro x hx
      rcases List.mem_append.mp hx with hx | hx
      · exact hall x hx
      · rw [List.mem_singleton.mp hx]
        exact List.length_eq_zero.mp (hcond (Or.inl (by rw [hnil]; rfl)))
    · have hlt : n < P.length := (List.getElem?_eq_some.mp hn).1
      refine Or.inr ⟨hne, n, ?_, ?_, ?_⟩
      · rw [List.getElem?_append_left hlt]
        exact hn
      · intro x hx hxne
        rcases List.mem_append.mp hx with hx | hx
        · exact hmin x hx hxne
        · rw [List.mem_singleton.mp hx] at hxne ⊢
          by_contra hcon
          have := hcond (Or.inr (by omega))
          exact hxne (List.length_eq_zero.mp this)
      · intro m x hm hmx hxne
        exact hfirst m x hm (by rw [List.getElem?_append_left (by omega)] at hmx; exact hmx)
          hxne

theorem first_smallest_step (table : Table) (merge : Merge) (info : CoverInfo)
    {P : List (List Nat)} {best : List Nat} (h : IsFirstSmallest P best) (k : Nat) :
    IsFirstSmallest
      (P ++ ((if ((1 <<< k) &&& info.set_to_zero) != 0 then
            [find_removes table merge (blocks_zero (1 <<< k))] else []) ++
        (if ((1 <<< k) &&& info.set_to_one) != 0 then
            [find_removes table merge (blocks_one (1 <<< k))] else [])))
      (best_removes_step table merge info best k) := by
  unfold best_removes_step
  simp only
  by_cases hlen : (best.length == 1) = true
  · rw [if_pos hlen]
    exact first_smallest_append_of_singleton h (by simpa using hlen) _
  · rw [if_neg hlen]
    by_cases hz : ((1 <<< k) &&& info.set_to_zero != 0) = true
    · by_cases ho : ((1 <<< k) &&& info.set_to_one != 0) = true
      · simp only [hz, ho, if_true]
        rw [← List.append_assoc]
        exact first_smallest_snoc (first_smallest_snoc h _) _
      · simp only [hz, ho, if_true, if_false, List.append_nil]
        exact first_smallest_snoc h _
    · by_cases ho : ((1 <<< k) &&& info.set_to_one != 0) = true
      · simp only [hz, ho, if_true, if_false, List.nil_append]
        exact first_smallest_snoc h _
      · simp only [hz, ho, Bool.false_eq_true, if_false, List.append_nil]
        exact h

theorem first_smallest_fold (table : Table) (merge : Merge) (info : CoverInfo) :
    ∀ (ks : List Nat) (P : List (List Nat)) (best : List Nat), IsFirstSmallest P best →
      IsFirstSmallest
        (P ++ ks.flatMap (fun k =>
          (if ((1 <<< k) &&& info.set_to_zero) != 0 then
              [find_removes table merge (blocks_zero (1 <<< k))] else []) ++
          (if ((1 <<< k) &&& info.set_to_one) != 0 then
              [find_removes table merge (blocks_one (1 <<< k))] else [])))
        (ks.foldl (best_removes_step table merge info) best) := by
  intro ks
  induction ks with
  | nil =>
    intro P best h
    simpa using h
  | cons k ks ih =>
    intro P best h
    rw [List.foldl_cons, List.flatMap_cons, ← List.append_assoc]
    exact ih _ _ (first_smallest_step table merge info h k)

theorem test_merge_remove (l : List Nat) :
    ∀ (m : Merge) (j : Nat),
      Merge.test (merge_remove m l) j = true ↔ m.test j = true ∧ j ∉ l := by
  induction l with
  | nil =>
    intro m j
    simp [merge_remove]
  | cons i l ih =>
    intro m j
    have h := ih (m.set i false) j
    unfold merge_remove at h ⊢
    rw [List.foldl_cons, h, test_set_false]
    by_cases hij : i = j
    · subst hij
      simp
    · simp only [hij, if_false, List.mem_cons]
      constructor
      · rintro ⟨h1, h2⟩
        exact ⟨h1, fun hc => hc.elim (fun e => hij e.symm) h2⟩
      · rintro ⟨h1, h2⟩
        exact ⟨h1, fun hc => h2 (Or.inr hc)⟩

/-- Claim C30 (smallest removal set): in a removing pass of
`refine_merge_downcheck` the list `best_removes` whose indices are cleared from
the merge is the first list of smallest length among the non-empty candidate
removal sets, taken in the order of the scan: bits 31 down to 0, and at each
bit the set for `set_to_zero` (selected entries with a wildcard or a 1 at the
bit) before the set for `set_to_one` (selected entries with key bit 0); the
pass clears exactly its indices. -/
theorem find_best_removes_first_smallest (table : Table) (aliases : Aliases) (merge : Merge)
    (info : CoverInfo) :
    IsFirstSmallest (removal_candidates table merge info) (find_best_removes table merge info) ∧
      (∀ j, Merge.test (merge_remove merge (find_best_removes table merge info)) j = true ↔
        merge.test j = true ∧ j ∉ find_best_removes table merge info) ∧
      ∀ (fuel : Nat) (min_goodness removed goodness : Int), goodness > min_goodness →
        get_cover_info table aliases merge = some info → info.covers = true →
        ¬ ((info.set_to_one == 0 && info.set_to_zero == 0) = true) →
        refine_merge_downcheck_loop table aliases min_goodness (fuel + 1) merge removed
            goodness =
          if (goodness - ((find_best_removes table merge info).length : Int) == 0) = true then
            refine_merge_downcheck_loop table aliases min_goodness fuel
              (merge_clear (merge_remove merge (find_best_removes table merge info)))
              (removed + ((find_best_removes table merge info).length : Int) + 1)
              (goodness - ((find_best_removes table merge info).length : Int))
          else
            refine_merge_downcheck_loop table aliases min_goodness fuel
              (merge_remove merge (find_best_removes table merge info))
              (removed + ((find_best_removes table merge info).length : Int))
              (goodness - ((find_best_removes table merge info).length : Int)) := by
  refine ⟨?_, test_merge_remove _ merge, ?_⟩
  · have h := first_smallest_fold table merge info (List.range 32).reverse [] []
      (Or.inl ⟨rfl, fun c hc => by cases hc⟩)
    rw [List.nil_append] at h
    exact h
  · intro fuel min_goodness removed goodness hgood hinfo hcov hnz
    rw [refine_merge_downcheck_loop, if_pos hgood, hinfo]
    simp only
    rw [hcov]
    simp only [Bool.not_true, Bool.false_eq_true, if_false]
    rw [if_neg hnz]

set_option maxRecDepth 100000 in
/-- Witness of C30 on the downcheck test that removes one entry: the only
candidate set is the one of bit 3 for `set_to_zero`, and exactly index 0 is
removed. -/
theorem find_best_removes_first_smallest_witness :
    get_cover_info remove_one_table [] [true, true, true, false] =
        some { covers := true, set_to_zero := 8, set_to_one := 0 } ∧
      removal_candidates remove_one_table [true, true, true, false]
        { covers := true, set_to_zero := 8, set_to_one := 0 } = [[0]] ∧
      find_best_removes remove_one_table [true, true, true, false]
        { covers := true, set_to_zero := 8, set_to_one := 0 } = [0] ∧
      refine_merge_downcheck 5 remove_one_table [] [true, true, true, false] 0 =
        some ([false, true, true, false], 1) ∧
      IsFirstSmallest
        (removal_candidates remove_one_table [true, true, true, false]
          { covers := true, set_to_zero := 8, set_to_one := 0 })
        (find_best_removes remove_one_table [true, true, true, false]
          { covers := true, set_to_zero := 8, set_to_one := 0 }) :=
  ⟨by decide, by decide, by decide, by decide,
    (find_best_removes_first_smallest remove_one_table [] [true, true, true, false]
      { covers := true, set_to_zero := 8, set_to_one := 0 }).1⟩

/-! ### Default routes (claims C23 and C24) -/

theorem and_core_mask_eq_zero_iff {x : Nat} (h32 : x < 2 ^ 32) :
    x &&& 0xffffffc0 = 0 ↔ x < 64 := by
  have hc : (0xffffffc0 : Nat) = not32 63 := by decide
  have h63 : (63 : Nat) = 2 ^ 6 - 1 := by decide
  constructor
  · intro h
    have hbits : ∀ k, 6 ≤ k → x.testBit k = false := by
      intro k hk
      by_cases hk32 : k < 32
      · have := congrArg (fun n => n.testBit k) h
        simp only [Nat.testBit_and, Nat.zero_testBit] at this
        rw [hc, testBit_not32, h63, Nat.testBit_two_pow_sub_one] at this
        have hk6 : ¬ k < 6 := by omega
        simpa [hk32, hk6] using this
      · exact Nat.testBit_lt_two_pow
          (Nat.lt_of_lt_of_le h32 (Nat.pow_le_pow_right (by decide) (by omega)))
    exact Nat.lt_pow_two_of_testBit x (n := 6) hbits
  · intro h
    apply Nat.eq_of_testBit_eq
    intro k
    rw [Nat.testBit_and, Nat.zero_testBit, hc, testBit_not32, h63,
      Nat.testBit_two_pow_sub_one]
    by_cases hk : k < 6
    · simp [hk]
    · have : x.testBit k = false :=
        Nat.testBit_lt_two_pow
          (Nat.lt_of_lt_of_le h (Nat.pow_le_pow_right (by decide) (by omega) : 2 ^ 6 ≤ 2 ^ k))
      simp [this]

set_option maxRecDepth 100000 in
theorem count_links_eq_one_iff :
    ∀ s, s < 64 → (DefaultRoutes.count_links s = 1 ↔ ∃ d, d < 6 ∧ s = 1 <<< d) := by
  decide

theorem opposite_source_of_link :
    ∀ d, d < 6 → DefaultRoutes.opposite_source (1 <<< d) = 1 <<< ((d + 3) % 6) := by
  decide

theorem link_lt (d : Nat) (h : d < 6) : 1 <<< d < 64 := by
  rw [Nat.one_shiftLeft]
  exact Nat.lt_of_lt_of_le (Nat.pow_lt_pow_right (by decide) h) (by decide)

theorem any_intersect_eq_false_iff (table : Table) (i : Nat) (km : KeyMask) :
    (table.drop (i + 1)).any (fun other => other.keymask.intersect km) = false ↔
      ∀ j other, i < j → table[j]? = some other → other.keymask.intersect km = false := by
  rw [List.any_eq_false]
  constructor
  · intro h j other hij hj
    have hmem : other ∈ table.drop (i + 1) := by
      rw [List.mem_iff_getElem?]
      refine ⟨j - (i + 1), ?_⟩
      rw [List.getElem?_drop]
      have : i + 1 + (j - (i + 1)) = j := by omega
      rw [this]
      exact hj
    simpa using h other hmem
  · intro h other hmem
    obtain ⟨n, hn⟩ := List.mem_iff_getElem?.mp hmem
    rw [List.getElem?_drop] at hn
    simpa using h (i + 1 + n) other (by omega) hn

theorem defaultable_entry_iff (table : Table) (i : Nat) (entry : Entry)
    (hs32 : entry.source < 2 ^ 32) (hr32 : entry.route < 2 ^ 32) :
    DefaultRoutes.defaultable_entry table i entry = true ↔
      entry.source < 64 ∧ entry.route < 64 ∧
      (∃ d, d < 6 ∧ entry.source = 1 <<< d ∧ entry.route = 1 <<< ((d + 3) % 6)) ∧
      ∀ j other, i < j → table[j]? = some other →
        other.keymask.intersect entry.keymask = false := by
  have hsrc := and_core_mask_eq_zero_iff hs32
  have hrt := and_core_mask_eq_zero_iff hr32
  have hany := any_intersect_eq_false_iff table i entry.keymask
  unfold DefaultRoutes.defaultable_entry
  constructor
  · intro h
    split at h
    · cases h
    · rename_i hcore
      simp only [Bool.or_eq_true, bne_iff_ne, ne_eq, not_or, not_not] at hcore
      have hs64 := hsrc.mp hcore.1
      have hr64 := hrt.mp hcore.2
      split at h
      · cases h
      · rename_i hopp
        simp only [bne_iff_ne, ne_eq, not_not] at hopp
        split at h
        · cases h
        · rename_i hcount
          simp only [Bool.or_eq_true, bne_iff_ne, ne_eq, not_or, not_not] at hcount
          obtain ⟨d, hd, hsd⟩ := (count_links_eq_one_iff entry.source hs64).mp hcount.1
          refine ⟨hs64, hr64, ⟨d, hd, hsd, ?_⟩, hany.mp (by simpa using h)⟩
          rw [← hopp, hsd]
          exact opposite_source_of_link d hd
  · rintro ⟨hs64, hr64, ⟨d, hd, hsd, hrd⟩, hall⟩
    have hopp : DefaultRoutes.opposite_source entry.source = entry.route := by
      rw [hsd, hrd]
      exact opposite_source_of_link d hd
    have hcs : DefaultRoutes.count_links entry.source = 1 :=
      (count_links_eq_one_iff entry.source hs64).mpr ⟨d, hd, hsd⟩
    have hcr : DefaultRoutes.count_links entry.route = 1 :=
      (count_links_eq_one_iff entry.route hr64).mpr
        ⟨(d + 3) % 6, Nat.mod_lt _ (by decide), hrd⟩
    rw [if_neg (by simp [hsrc.mpr hs64, hrt.mpr hr64]), if_neg (by simp [hopp]),
      if_neg (by simp [hcs, hcr]), hany.mpr hall]
    rfl

/-- Claim C23: `defaultable table i` is true if and only if the source and the
route of the entry at index `i` have no bit set above bit 5, the source is a
single bit `1 << d` with `d` in 0..5, the route is exactly the opposite link bit
`1 << ((d + 3) mod 6)`, and no entry at an index greater than `i` has a keymask
that intersects the keymask of the entry. -/
theorem defaultable_iff (table : Table) (i : Nat) (entry : Entry)
    (he : table[i]? = some entry) (hs32 : entry.source < 2 ^ 32)
    (hr32 : entry.route < 2 ^ 32) :
    DefaultRoutes.defaultable table i = some true ↔
      entry.source < 64 ∧ entry.route < 64 ∧
      (∃ d, d < 6 ∧ entry.source = 1 <<< d ∧ entry.route = 1 <<< ((d + 3) % 6)) ∧
      ∀ j other, i < j → table[j]? = some other →
        other.keymask.intersect entry.keymask = false := by
  unfold DefaultRoutes.defaultable
  rw [List.get?_eq_getElem?, he]
  simp only [Option.some.injEq]
  exact defaultable_entry_iff table i entry hs32 hr32

set_option maxRecDepth 100000 in
/-- Witness of C23 on the orthogonal table test: the first entry, from link 2 to
link 5, is defaultable and the second, from link 2 to link 2, is not. -/
theorem defaultable_iff_witness :
    DefaultRoutes.defaultable DefaultRoutes.orthogonal_table 0 = some true ∧
      DefaultRoutes.defaultable DefaultRoutes.orthogonal_table 1 = some false ∧
      (DefaultRoutes.defaultable DefaultRoutes.orthogonal_table 0 = some true ↔
        (4 : Nat) < 64 ∧ (32 : Nat) < 64 ∧
        (∃ d, d < 6 ∧ (4 : Nat) = 1 <<< d ∧ (32 : Nat) = 1 <<< ((d + 3) % 6)) ∧
        ∀ j other, 0 < j → DefaultRoutes.orthogonal_table[j]? = some other →
          other.keymask.intersect { key := 0x0, mask := 0xf } = false) :=
  ⟨by decide, by decide,
    defaultable_iff DefaultRoutes.orthogonal_table 0
      { keymask := { key := 0x0, mask := 0xf }, source := 4, route := 32 }
      (by decide) (by decide) (by decide)⟩

theorem drop_frontier (orig out : List Entry) (s : Nat) (h : out.length ≤ s) :
    (out ++ orig.drop out.length).drop s = orig.drop s := by
  apply List.ext_getElem?
  intro n
  rw [List.getElem?_drop, List.getElem?_drop, read_frontier orig out (s + n) (by omega)]

theorem defaultable_entry_congr {t1 t2 : Table} (i : Nat) (e : Entry)
    (h : t1.drop (i + 1) = t2.drop (i + 1)) :
    DefaultRoutes.defaultable_entry t1 i e = DefaultRoutes.defaultable_entry t2 i e := by
  unfold DefaultRoutes.defaultable_entry
  rw [h]

theorem default_minimise_step_spec (orig : Table) (st : DefaultRoutes.MinState)
    (out : List Entry) (s : Nat) (e : Entry) (he : orig[s]? = some e)
    (htab : st.table = out ++ orig.drop out.length) (hins : st.insert = out.length)
    (hle : out.length ≤ s) :
    DefaultRoutes.minimise_step st s = some
      (if DefaultRoutes.defaultable_entry orig s e then
        { st with final_size := st.final_size - 1 }
      else
        { table := (out ++ [e]) ++ orig.drop (out ++ [e]).length
          insert := (out ++ [e]).length
          final_size := st.final_size }) := by
  have hslt : s < orig.length := (List.getElem?_eq_some.mp he).1
  have hread : st.table.get? s = some e := by
    rw [List.get?_eq_getElem?, htab, read_frontier orig out s hle]
    exact he
  have hdef : DefaultRoutes.defaultable_entry st.table s e =
      DefaultRoutes.defaultable_entry orig s e := by
    apply defaultable_entry_congr
    rw [htab]
    exact drop_frontier orig out (s + 1) (by omega)
  unfold DefaultRoutes.minimise_step DefaultRoutes.defaultable
  rw [hread]
  simp only
  rw [hdef]
  cases hd : DefaultRoutes.defaultable_entry orig s e with
  | true => simp
  | false =>
    simp only [Bool.not_false, if_true, Bool.false_eq_true, if_false]
    rw [htab, hins, write_frontier orig out e (by omega)]
    simp

theorem default_minimise_loop_spec (orig : Table) :
    ∀ (rest : List Entry) (s : Nat) (st : DefaultRoutes.MinState) (out : List Entry),
      orig.drop s = rest → s ≤ orig.length → st.table = out ++ orig.drop out.length →
      st.insert = out.length → out.length ≤ s →
      st.final_size + s = orig.length + out.length →
      ∃ st1, DefaultRoutes.minimise_loop (List.range' s rest.length) st = some st1 ∧
        st1.table =
          (out ++ ((rest.enumFrom s).filter
              (fun ie => !DefaultRoutes.defaultable_entry orig ie.1 ie.2)).map (fun ie => ie.2)) ++
            orig.drop (out ++ ((rest.enumFrom s).filter
              (fun ie => !DefaultRoutes.defaultable_entry orig ie.1 ie.2)).map
                (fun ie => ie.2)).length ∧
        st1.final_size = (out ++ ((rest.enumFrom s).filter
            (fun ie => !DefaultRoutes.defaultable_entry orig ie.1 ie.2)).map
              (fun ie => ie.2)).length := by
  intro rest
  induction rest with
  | nil =>
    intro s st out hdrop hs htab _ _ hfin
    have hlen : s = orig.length := by
      have := List.drop_eq_nil_iff.mp hdrop
      omega
    refine ⟨st, rfl, ?_, ?_⟩
    · simpa using htab
    · simp
      omega
  | cons e rest ih =>
    intro s st out hdrop hs htab hins hle hfin
    have hslt : s < orig.length := by
      by_contra hcon
      have : orig.drop s = [] := List.drop_eq_nil_iff.mpr (by omega)
      rw [this] at hdrop
      cases hdrop
    have hd := List.drop_eq_getElem_cons hslt
    rw [hd] at hdrop
    have he : orig[s]? = some e := by
      rw [List.getElem?_eq_getElem hslt]
      congr 1
      exact (List.cons.inj hdrop).1
    have hdrop1 : orig.drop (s + 1) = rest := (List.cons.inj hdrop).2
    have hstep := default_minimise_step_spec orig st out s e he htab hins hle
    have hrange : List.range' s (e :: rest).length = s :: List.range' (s + 1) rest.length := by
      simp [List.range'_succ]
    rw [hrange]
    unfold DefaultRoutes.minimise_loop
    rw [hstep]
    simp only [List.enumFrom_cons]
    cases hdef : DefaultRoutes.defaultable_entry orig s e with
    | true =>
      simp only [if_true]
      obtain ⟨st1, hloop, h1, h2⟩ := ih (s + 1) { st with final_size := st.final_size - 1 }
        out hdrop1 (by omega) htab hins (by omega) (by simp only; omega)
      refine ⟨st1, hloop, ?_, ?_⟩
      · simpa [List.filter_cons, hdef] using h1
      · simpa [List.filter_cons, hdef] using h2
    | false =>
      simp only [Bool.false_eq_true, if_false]
      obtain ⟨st1, hloop, h1, h2⟩ := ih (s + 1)
        { table := (out ++ [e]) ++ orig.drop (out ++ [e]).length
          insert := (out ++ [e]).length
          final_size := st.final_size }
        (out ++ [e]) hdrop1 (by omega) rfl rfl (by simp; omega) (by simp; omega)
      refine ⟨st1, hloop, ?_, ?_⟩
      · simpa [List.filter_cons, hdef] using h1
      · simpa [List.filter_cons, hdef] using h2

theorem default_minimise_eq_reference (table : Table) :
    DefaultRoutes.minimise table = some (DefaultRoutes.minimise_reference table) := by
  obtain ⟨st1, hloop, h1, h2⟩ := default_minimise_loop_spec table table 0
    { table := table, insert := 0, final_size := table.length } [] rfl (Nat.zero_le _)
    rfl rfl (Nat.le_refl _) (by simp)
  unfold DefaultRoutes.minimise
  rw [List.range_eq_range', hloop]
  simp only [List.nil_append] at h1 h2
  simp only
  rw [h1, h2, resize_append_left]
  rfl

/-- Claim C24: the in-place compaction of `DefaultRoutes.minimise` returns, for
every table, the subsequence in original order of exactly the entries for which
`defaultable`, evaluated on the original table at the original index of the
entry, is false. -/
theorem default_minimise_is_filter (table : Table) :
    DefaultRoutes.minimise table = some (DefaultRoutes.minimise_reference table) ∧
      DefaultRoutes.minimise_reference table =
        (table.enum.filter
          (fun ie => DefaultRoutes.defaultable table ie.1 == some false)).map (fun ie => ie.2) := by
  refine ⟨default_minimise_eq_reference table, ?_⟩
  unfold DefaultRoutes.minimise_reference
  congr 1
  apply List.filter_congr
  intro ie hie
  have hget : table[ie.1]? = some ie.2 := List.mk_mem_enum_iff_getElem?.mp hie
  unfold DefaultRoutes.defaultable
  rw [List.get?_eq_getElem?, hget]
  simp only
  cases DefaultRoutes.defaultable_entry table ie.1 ie.2 <;> rfl

set_option maxRecDepth 100000 in
/-- Witness of C24 on the non-orthogonal table test: `1000` is dropped, and
`0000` is kept because it intersects the later `0XXX`. -/
theorem default_minimise_is_filter_witness :
    DefaultRoutes.minimise DefaultRoutes.nonorthogonal_table =
        some [ { keymask := { key := 0x0, mask := 0xf }, source := 4, route := 32 },
               { keymask := { key := 0x0, mask := 0x8 }, source := 4, route := 64 } ] ∧
      (DefaultRoutes.minimise DefaultRoutes.orthogonal_table).map
          (fun t => t.map (fun e => e.keymask.key)) = some [1, 2, 3, 4] ∧
      DefaultRoutes.minimise DefaultRoutes.nonorthogonal_table =
        some (DefaultRoutes.minimise_reference DefaultRoutes.nonorthogonal_table) :=
  ⟨by decide, by decide, (default_minimise_is_filter DefaultRoutes.nonorthogonal_table).1⟩

/-! ### The greedy choice when nothing is pruned (claim C22) -/

theorem sorted_of_same_generality {table : Table} (h : same_generality table) :
    generality_sorted table := by
  unfold generality_sorted
  apply List.pairwise_of_forall_mem_list
  intro a ha b hb
  exact Nat.le_of_eq (h a ha b hb)

theorem insertion_index_of_same_generality {table : Table} (h : same_generality table)
    {merge : Merge} (hsel : selected table merge ≠ []) :
    get_insertion_index_merge table merge = some table.length := by
  have hs := sorted_of_same_generality h
  have hne := table_ne_nil_of_selected hsel
  obtain ⟨ip, hip, hle, _, habove⟩ := get_insertion_index_spec hs hne
    (merge_entries table merge).keymask.count_xs
  obtain ⟨x, hx⟩ := List.exists_mem_of_ne_nil _ hsel
  have hxle := count_xs_le_merge_entries hx
  have hxt : x ∈ table := by
    obtain ⟨j, hj, _⟩ := mem_selected.mp hx
    exact mem_of_getElem? hj
  have hipeq : ip = table.length := by
    by_contra hcon
    have hlt : ip < table.length := by omega
    have hget : table[ip]? = some table[ip] := List.getElem?_eq_getElem hlt
    have h1 := habove ip _ (Nat.le_refl _) hget
    have h2 := h table[ip] (mem_of_getElem? hget) x hxt
    omega
  unfold get_insertion_index_merge get_insertion_index_entry
  rw [hip, hipeq]

theorem downcheck_of_same_generality {table : Table} (h : same_generality table)
    (aliases : Aliases) {merge : Merge} (hsel : selected table merge ≠ []) (fuel : Nat)
    (min_goodness : Int) :
    refine_merge_downcheck (fuel + 1) table aliases merge min_goodness = some (merge, 0) := by
  apply refine_merge_downcheck_of_cover_free
  apply cover_free_of_downcheck_ok
  refine ⟨table.length, insertion_index_of_same_generality h hsel, ?_⟩
  intro e he
  rw [List.drop_length] at he
  cases he

theorem upcheck_step_of_disjoint {table : Table} (hd : pairwise_disjoint table)
    (min_goodness : Int) (st : UpState) {index : Nat} (hi : index < table.length) :
    refine_merge_upcheck_step table min_goodness st index = some st := by
  unfold refine_merge_upcheck_step
  split
  · split
    · have hget : table.get? index = some (table.get ⟨index, hi⟩) := List.get?_eq_get hi
      rw [hget]
      simp only
      split
      · rename_i hcond
        exfalso
        obtain ⟨j, hj, hjc⟩ := List.any_eq_true.mp hcond
        have hjgt : index < j := by
          have := (List.mem_range'_1.mp hj).1
          omega
        cases hjget : table.get? j with
        | none =>
          rw [hjget] at hjc
          cases hjc
        | some other =>
          rw [hjget] at hjc
          simp only at hjc
          rw [List.get?_eq_getElem?] at hjget hget
          rw [hd index j _ other (by omega) hget hjget] at hjc
          cases hjc
      · rfl
    · rfl
  · rfl

theorem upcheck_loop_of_disjoint {table : Table} (hd : pairwise_disjoint table)
    (min_goodness : Int) :
    ∀ (l : List Nat) (st : UpState), (∀ i ∈ l, i < table.length) →
      refine_merge_upcheck_loop table min_goodness l st = some st := by
  intro l
  induction l with
  | nil => intro st _; rfl
  | cons i l ih =>
    intro st hl
    unfold refine_merge_upcheck_loop
    rw [upcheck_step_of_disjoint hd min_goodness st (hl i (List.mem_cons_self _ _))]
    exact ih st (fun j hj => hl j (List.mem_cons_of_mem _ hj))

theorem upcheck_of_disjoint {table : Table} (hd : pairwise_disjoint table) (hne : table ≠ [])
    {merge : Merge} {min_goodness : Int} (hg : merge_goodness merge > min_goodness) :
    refine_merge_upcheck table merge min_goodness = some (merge, 0) := by
  obtain ⟨ip, hip⟩ := get_insertion_index_merge_total hne merge
  unfold refine_merge_upcheck
  rw [hip]
  simp only
  rw [upcheck_loop_of_disjoint hd min_goodness _ _ (by intro i hi; simpa using hi)]
  simp only
  rw [if_neg (by omega)]

theorem refine_of_unpruned {table : Table} (hg : same_generality table)
    (hd : pairwise_disjoint table) (aliases : Aliases) (fuel : Nat) {merge : Merge}
    (hlen : merge.length = table.length) {best : Int} (hbest : 0 ≤ best)
    (hgood : merge_goodness merge > best) :
    get_best_merge_refine (fuel + 1) table aliases merge (merge_goodness merge) best =
      some (some (merge, merge_goodness merge)) := by
  have hsel : selected table merge ≠ [] := (selected_ne_nil_of_goodness hlen (by omega)).1
  have hne := table_ne_nil_of_selected hsel
  unfold get_best_merge_refine
  rw [downcheck_of_same_generality hg aliases hsel fuel best]
  simp only [Int.sub_zero]
  rw [if_pos hgood, upcheck_of_disjoint hd hne hgood]
  simp only [Int.sub_zero, bne_self_eq_false, Bool.false_and, Bool.false_eq_true, if_false]
  rw [if_pos hgood]

theorem group_exact_step {table : Table} {i : Nat} {entry : Entry} {considered1 : List Bool}
    {n : Nat} {st : GroupState} {e : Entry}
    (hinv : GroupExact table i entry.route considered1 n st) (he : table[n]? = some e)
    (hin : i < n) (hclen : considered1.length = table.length) :
    GroupExact table i entry.route considered1 (n + 1)
      (get_best_merge_group_step entry st (n, e)) := by
  obtain ⟨hlen, hcl, hcm, hcons⟩ := hinv
  have hn : n < table.length := (List.getElem?_eq_some.mp he).1
  unfold get_best_merge_group_step
  by_cases hr : (e.route == entry.route) = true
  · simp only [hr, if_true]
    refine ⟨by simp [hlen], by simp [hcl], ?_, ?_⟩
    · intro j o hj
      rw [test_set_true _ _ _ (by omega)]
      by_cases hnj : n = j
      · subst hnj
        rw [he] at hj
        cases hj
        have h1 : ¬ n = i := by omega
        simp [h1, hin, hr]
      · rw [if_neg hnj, hcm j o hj]
        have h1 : (j < n + 1) ↔ (j < n) := by omega
        simp [h1]
    · intro j o hj
      rw [test_set_true _ _ _ (by omega)]
      by_cases hnj : n = j
      · subst hnj
        rw [he] at hj
        cases hj
        simp [hin, hr]
      · rw [if_neg hnj, hcons j o hj]
        have h1 : (j < n + 1) ↔ (j < n) := by omega
        simp [h1]
  · simp only [hr, Bool.false_eq_true, if_false]
    refine ⟨hlen, hcl, ?_, ?_⟩
    · intro j o hj
      rw [hcm j o hj]
      by_cases hnj : n = j
      · subst hnj
        rw [he] at hj
        cases hj
        simp [hr]
      · have h1 : (j < n + 1) ↔ (j < n) := by omega
        simp [h1]
    · intro j o hj
      rw [hcons j o hj]
      by_cases hnj : n = j
      · subst hnj
        rw [he] at hj
        cases hj
        simp [hr]
      · have h1 : (j < n + 1) ↔ (j < n) := by omega
        simp [h1]

theorem group_exact_fold {table : Table} {i : Nat} {entry : Entry} {considered1 : List Bool}
    (hclen : considered1.length = table.length) :
    ∀ (rest : List Entry) (n : Nat) (st : GroupState), table.drop n = rest → i < n →
      GroupExact table i entry.route considered1 n st →
      GroupExact table i entry.route considered1 (n + rest.length)
        ((rest.enumFrom n).foldl (get_best_merge_group_step entry) st) := by
  intro rest
  induction rest with
  | nil =>
    intro n st _ _ hinv
    simpa using hinv
  | cons e rest ih =>
    intro n st hdrop hin hinv
    have hn : n < table.length := by
      by_contra hcon
      have : table.drop n = [] := List.drop_eq_nil_iff.mpr (by omega)
      rw [this] at hdrop
      cases hdrop
    have hd := List.drop_eq_getElem_cons hn
    rw [hd] at hdrop
    have he : table[n]? = some e := by
      rw [List.getElem?_eq_getElem hn]
      congr 1
      exact (List.cons.inj hdrop).1
    have hdrop1 : table.drop (n + 1) = rest := (List.cons.inj hdrop).2
    have h := ih (n + 1) _ hdrop1 (by omega) (group_exact_step hinv he hin hclen)
    simp only [List.enumFrom_cons, List.foldl_cons, List.length_cons]
    have hlen : n + (rest.length + 1) = n + 1 + rest.length := by omega
    rw [hlen]
    exact h

theorem merge_ext {m1 m2 : Merge} (hlen : m1.length = m2.length)
    (h : ∀ j, j < m1.length → m1.test j = m2.test j) : m1 = m2 := by
  apply List.ext_getElem hlen
  intro j h1 h2
  have := h j h1
  unfold Merge.test at this
  rw [List.getD_eq_getElem?_getD, List.getD_eq_getElem?_getD, List.getElem?_eq_getElem h1,
    List.getElem?_eq_getElem h2] at this
  simpa using this

theorem test_route_group (table : Table) (r : Nat) {j : Nat} {o : Entry}
    (h : table[j]? = some o) : (route_group table r).test j = (o.route == r) := by
  unfold Merge.test route_group
  rw [List.getD_eq_getElem?_getD, List.getElem?_map, h]
  rfl

theorem merge_goodness_route_group (table : Table) (r : Nat) :
    merge_goodness (route_group table r) = (group_size table r : Int) - 1 := by
  rw [merge_goodness_eq]
  unfold route_group group_size
  rw [List.countP_map]
  rfl

theorem greedy_group {table : Table} {n : Nat} {e : Entry} {considered : List Bool}
    (he : table[n]? = some e) (hclen : considered.length = table.length)
    (hnone : ∀ k a, k < n → table[k]? = some a → a.route ≠ e.route) :
    ((table.enum.drop (n + 1)).foldl (get_best_merge_group_step e)
        { current_merge := (List.replicate table.length false).set n true
          considered := considered.set n true
          current_goodness := 0 }).current_merge = route_group table e.route ∧
      ((table.enum.drop (n + 1)).foldl (get_best_merge_group_step e)
        { current_merge := (List.replicate table.length false).set n true
          considered := considered.set n true
          current_goodness := 0 }).current_goodness = (group_size table e.route : Int) - 1 ∧
      ((table.enum.drop (n + 1)).foldl (get_best_merge_group_step e)
        { current_merge := (List.replicate table.length false).set n true
          considered := considered.set n true
          current_goodness := 0 }).considered.length = table.length ∧
      ∀ j o, table[j]? = some o →
        (Merge.test ((table.enum.drop (n + 1)).foldl (get_best_merge_group_step e)
            { current_merge := (List.replicate table.length false).set n true
              considered := considered.set n true
              current_goodness := 0 }).considered j = true ↔
          Merge.test considered j = true ∨ o.route = e.route) := by
  have hn : n < table.length := (List.getElem?_eq_some.mp he).1
  have hdrop : table.enum.drop (n + 1) = (table.drop (n + 1)).enumFrom (n + 1) := by
    rw [List.enum_eq_enumFrom, drop_enumFrom]
    simp
  rw [hdrop]
  have hinit : GroupExact table n e.route (considered.set n true) (n + 1)
      { current_merge := (List.replicate table.length false).set n true
        considered := considered.set n true
        current_goodness := 0 } := by
    refine ⟨by simp, rfl, ?_, ?_⟩
    · intro j o _
      simp only
      rw [test_set_true _ _ _ (by simpa using hn), test_replicate_false]
      by_cases hnj : n = j
      · subst hnj
        simp
      · have h1 : ¬ j = n := fun h => hnj h.symm
        have h2 : ¬ (n < j ∧ j < n + 1) := by omega
        by_cases h3 : n < j
        · have h4 : ¬ j < n + 1 := by omega
          simp [hnj, h1, h4]
        · simp [hnj, h1, h3]
    · intro j o _
      have h2 : ¬ (n < j ∧ j < n + 1) := by omega
      by_cases h3 : n < j
      · have h4 : ¬ j < n + 1 := by omega
        simp [h4]
      · simp [h3]
  have hexact := group_exact_fold (by simpa using hclen) (table.drop (n + 1)) (n + 1) _ rfl
    (Nat.lt_succ_self n) hinit
  have hginv := group_fold_inv (table.drop (n + 1)) (n + 1) _ rfl
    (group_init_inv he (considered.set n true))
  obtain ⟨hlen, hcl, hcm, hcons⟩ := hexact
  have hend : n + 1 + (table.drop (n + 1)).length = table.length := by
    simp only [List.length_drop]
    omega
  rw [hend] at hcm hcons
  have hmerge : ((List.enumFrom (n + 1) (table.drop (n + 1))).foldl
      (get_best_merge_group_step e)
      { current_merge := (List.replicate table.length false).set n true
        considered := considered.set n true
        current_goodness := 0 }).current_merge = route_group table e.route := by
    apply merge_ext
    · rw [hlen]
      simp [route_group]
    · intro j hj
      rw [hlen] at hj
      have hget : table[j]? = some table[j] := List.getElem?_eq_getElem hj
      rw [hcm j _ hget, test_route_group table e.route hget]
      by_cases hjn : j = n
      · subst hjn
        rw [he] at hget
        cases hget
        simp
      · by_cases hlt : n < j
        · simp [hjn, hlt, hj]
        · have hne := hnone j table[j] (by omega) hget
          simp [hjn, hlt, hne]
  refine ⟨hmerge, ?_, by rw [hcl]; simpa using hclen, ?_⟩
  · rw [← hginv.2.2.1, hmerge, merge_goodness_route_group]
  · intro j o hj
    have hjlt : j < table.length := (List.getElem?_eq_some.mp hj).1
    rw [hcons j o hj, test_set_true _ _ _ (by omega)]
    by_cases hnj : n = j
    · subst hnj
      rw [he] at hj
      cases hj
      simp
    · by_cases hlt : n < j
      · simp [hnj, hlt, hjlt]
      · simp only [hnj, if_false, hlt, decide_False, Bool.false_and, Bool.or_false]
        constructor
        · intro h
          exact Or.inl h
        · rintro (h | h)
          · exact h
          · exact absurd h (hnone j o (by omega) hj)

theorem greedy_step {table : Table} (hg : same_generality table)
    (hd : pairwise_disjoint table) (aliases : Aliases) (fuel : Nat) {n : Nat}
    {st : BestState} {e : Entry} (he : table[n]? = some e) (hinv : GreedyInv table n st) :
    ∃ st1, get_best_merge_step (fuel + 1) table aliases st (n, e) = some st1 ∧
      GreedyInv table (n + 1) st1 := by
  obtain ⟨hclen, hcons, hbest0, hmax, hbest⟩ := hinv
  have hbest1 : (st.best_goodness = 0 ∧ st.best_merge = List.replicate table.length false) ∨
      ∃ (k : Nat) (a : Entry), k < n + 1 ∧ table[k]? = some a ∧
        st.best_goodness = (group_size table a.route : Int) - 1 ∧ 1 ≤ st.best_goodness ∧
        st.best_merge = route_group table a.route ∧
        ∀ (j : Nat) (o : Entry), j < k → table[j]? = some o →
          group_size table o.route < group_size table a.route := by
    rcases hbest with h | ⟨k, a, hk, h⟩
    · exact Or.inl h
    · exact Or.inr ⟨k, a, by omega, h⟩
  unfold get_best_merge_step
  by_cases hcn : st.considered.getD n false = true
  · simp only [hcn, if_true]
    obtain ⟨k, a, hk, hka, hroute⟩ := (hcons n e he).mp hcn
    refine ⟨st, rfl, hclen, ?_, hbest0, ?_, hbest1⟩
    · intro j o hj
      rw [hcons j o hj]
      constructor
      · rintro ⟨k1, a1, hk1, h1, h2⟩
        exact ⟨k1, a1, by omega, h1, h2⟩
      · rintro ⟨k1, a1, hk1, h1, h2⟩
        by_cases hlt : k1 < n
        · exact ⟨k1, a1, hlt, h1, h2⟩
        · have hk1n : k1 = n := by omega
          subst hk1n
          rw [he] at h1
          cases h1
          exact ⟨k, a, hk, hka, hroute.trans h2⟩
    · intro k1 a1 hk1 h1
      by_cases hlt : k1 < n
      · exact hmax k1 a1 hlt h1
      · have hk1n : k1 = n := by omega
        subst hk1n
        rw [he] at h1
        cases h1
        rw [← hroute]
        exact hmax k a hk hka
  · have hnone : ∀ k a, k < n → table[k]? = some a → a.route ≠ e.route := by
      intro k a hk hka hroute
      exact hcn ((hcons n e he).mpr ⟨k, a, hk, hka, hroute⟩)
    obtain ⟨hmerge, hgood, hglen, hgcons⟩ := greedy_group he hclen hnone
    have hcons1 : ∀ (j : Nat) (o : Entry), table[j]? = some o →
        (Merge.test ((table.enum.drop (n + 1)).foldl (get_best_merge_group_step e)
            { current_merge := (List.replicate table.length false).set n true
              considered := st.considered.set n true
              current_goodness := 0 }).considered j = true ↔
          ∃ (k : Nat) (a : Entry), k < n + 1 ∧ table[k]? = some a ∧ a.route = o.route) := by
      intro j o hj
      rw [hgcons j o hj, hcons j o hj]
      constructor
      · rintro (⟨k1, a1, hk1, h1, h2⟩ | h)
        · exact ⟨k1, a1, by omega, h1, h2⟩
        · exact ⟨n, e, by omega, he, h.symm⟩
      · rintro ⟨k1, a1, hk1, h1, h2⟩
        by_cases hlt : k1 < n
        · exact Or.inl ⟨k1, a1, hlt, h1, h2⟩
        · have hk1n : k1 = n := by omega
          subst hk1n
          rw [he] at h1
          cases h1
          exact Or.inr h2.symm
    simp only [hcn, Bool.false_eq_true, if_false]
    generalize hgroup : (table.enum.drop (n + 1)).foldl (get_best_merge_group_step e)
      { current_merge := (List.replicate table.length false).set n true
        considered := st.considered.set n true
        current_goodness := 0 } = group at hmerge hgood hglen hcons1
    by_cases hgt : group.current_goodness > st.best_goodness
    · rw [if_pos hgt]
      have hmg : merge_goodness group.current_merge = group.current_goodness := by
        rw [hmerge, merge_goodness_route_group, hgood]
      have href := refine_of_unpruned hg hd aliases fuel
        (by rw [hmerge]; simp [route_group] : group.current_merge.length = table.length)
        hbest0 (by rw [hmg]; exact hgt)
      rw [hmg] at href
      rw [href]
      refine ⟨_, rfl, hglen, hcons1, by simp only; omega, ?_, ?_⟩
      · intro k1 a1 hk1 h1
        simp only
        by_cases hlt : k1 < n
        · have := hmax k1 a1 hlt h1
          omega
        · have hk1n : k1 = n := by omega
          subst hk1n
          rw [he] at h1
          cases h1
          omega
      · refine Or.inr ⟨n, e, by omega, he, hgood, by simp only; omega, hmerge, ?_⟩
        intro j o hj hjo
        have := hmax j o hj hjo
        omega
    · rw [if_neg hgt]
      refine ⟨_, rfl, hglen, hcons1, hbest0, ?_, hbest1⟩
      intro k1 a1 hk1 h1
      simp only
      by_cases hlt : k1 < n
      · exact hmax k1 a1 hlt h1
      · have hk1n : k1 = n := by omega
        subst hk1n
        rw [he] at h1
        cases h1
        omega

theorem greedy_loop {table : Table} (hg : same_generality table)
    (hd : pairwise_disjoint table) (aliases : Aliases) (fuel : Nat) :
    ∀ (rest : List Entry) (n : Nat) (st : BestState), table.drop n = rest →
      GreedyInv table n st →
      ∃ st1, get_best_merge_loop (fuel + 1) table aliases (rest.enumFrom n) st = some st1 ∧
        GreedyInv table (n + rest.length) st1 := by
  intro rest
  induction rest with
  | nil =>
    intro n st _ hinv
    exact ⟨st, rfl, by simpa using hinv⟩
  | cons e rest ih =>
    intro n st hdrop hinv
    have hn : n < table.length := by
      by_contra hcon
      have : table.drop n = [] := List.drop_eq_nil_iff.mpr (by omega)
      rw [this] at hdrop
      cases hdrop
    have hdc := List.drop_eq_getElem_cons hn
    rw [hdc] at hdrop
    have he : table[n]? = some e := by
      rw [List.getElem?_eq_getElem hn]
      congr 1
      exact (List.cons.inj hdrop).1
    have hdrop1 : table.drop (n + 1) = rest := (List.cons.inj hdrop).2
    obtain ⟨st1, hst1, hinv1⟩ := greedy_step hg hd aliases fuel he hinv
    obtain ⟨st2, hst2, hinv2⟩ := ih (n + 1) st1 hdrop1 hinv1
    refine ⟨st2, ?_, ?_⟩
    · simp only [List.enumFrom_cons]
      unfold get_best_merge_loop
      rw [hst1]
      exact hst2
    · have hlen : n + (e :: rest).length = n + 1 + rest.length := by
        simp only [List.length_cons]
        omega
      rw [hlen]
      exact hinv2

theorem get_best_merge_greedy {table : Table} (hg : same_generality table)
    (hd : pairwise_disjoint table) (aliases : Aliases) (fuel : Nat) :
    ∃ m, get_best_merge (fuel + 1) table aliases = some m ∧ IsGreedyChoice table m := by
  have hinit : GreedyInv table 0
      { best_merge := List.replicate table.length false
        best_goodness := 0
        considered := List.replicate table.length false } := by
    refine ⟨by simp, ?_, Int.le_refl _, ?_, Or.inl ⟨rfl, rfl⟩⟩
    · intro j o _
      rw [test_replicate_false]
      constructor
      · intro h
        cases h
      · rintro ⟨k, _, hk, _⟩
        omega
    · intro k a hk
      omega
  obtain ⟨st, hst, hinv⟩ := greedy_loop hg hd aliases fuel table 0 _ rfl hinit
  rw [← List.enum_eq_enumFrom] at hst
  unfold get_best_merge
  rw [hst]
  refine ⟨st.best_merge, rfl, ?_⟩
  obtain ⟨_, _, _, hmax, hbest⟩ := hinv
  simp only [Nat.zero_add] at hmax hbest
  have hall : ∀ o ∈ table, (group_size table o.route : Int) - 1 ≤ st.best_goodness := by
    intro o ho
    obtain ⟨k, hk⟩ := List.mem_iff_getElem?.mp ho
    exact hmax k o (List.getElem?_eq_some.mp hk).1 hk
  rcases hbest with ⟨h0, hrep⟩ | ⟨k, a, _, hka, hgood, h1, hmerge, hfirst⟩
  · refine Or.inl ⟨?_, hrep⟩
    intro o ho
    have := hall o ho
    omega
  · refine Or.inr ⟨k, a, hka, by omega, hmerge, ?_, hfirst⟩
    intro o ho
    have := hall o ho
    omega

theorem pairwise_disjoint_of_pairwise {table : Table}
    (h : table.Pairwise (fun a b => a.keymask.intersect b.keymask = false)) :
    pairwise_disjoint table := by
  rw [List.pairwise_iff_getElem] at h
  intro i j a b hij hi hj
  obtain ⟨hil, hia⟩ := List.getElem?_eq_some.mp hi
  obtain ⟨hjl, hjb⟩ := List.getElem?_eq_some.mp hj
  subst hia hjb
  by_cases hlt : i < j
  · exact h i j hil hjl hlt
  · rw [intersect_symm]
    exact h j i hjl hil (by omega)

/-- Claim C22 (greedy choice when nothing is pruned): for every table whose
entries all have the same `count_xs` and pairwise non-intersecting keymasks,
and every alias map, `get_best_merge` returns, and its result selects exactly
the entries of the largest group of entries of equal route, the group of the
first entry whose group has the largest size, or nothing when every group has
size 1. -/
theorem get_best_merge_largest_group (table : Table) (aliases : Aliases) (fuel : Nat)
    (hg : same_generality table) (hd : pairwise_disjoint table) :
    ∃ m, get_best_merge (fuel + 1) table aliases = some m ∧
      (((∀ e ∈ table, group_size table e.route ≤ 1) ∧
          m = List.replicate table.length false) ∨
        ∃ (i : Nat) (e : Entry), table[i]? = some e ∧ 2 ≤ group_size table e.route ∧
          m = table.map (fun o => o.route == e.route) ∧
          (∀ o ∈ table, group_size table o.route ≤ group_size table e.route) ∧
          ∀ (j : Nat) (o : Entry), j < i → table[j]? = some o →
            group_size table o.route < group_size table e.route) :=
  get_best_merge_greedy hg hd aliases fuel

set_option maxRecDepth 100000 in
/-- Witness of C22 on the largest merge test: of the groups of 3, 4 and 2
entries the group of four, the second met, is returned. -/
theorem get_best_merge_largest_group_witness :
    same_generality largest_table ∧ pairwise_disjoint largest_table ∧
      get_best_merge (9 + 1) largest_table [] =
        some [false, false, false, true, true, true, true, false, false] ∧
      ∃ m, get_best_merge (9 + 1) largest_table [] = some m ∧
        (((∀ e ∈ largest_table, group_size largest_table e.route ≤ 1) ∧
            m = List.replicate largest_table.length false) ∨
          ∃ (i : Nat) (e : Entry), largest_table[i]? = some e ∧
            2 ≤ group_size largest_table e.route ∧
            m = largest_table.map (fun o => o.route == e.route) ∧
            (∀ o ∈ largest_table,
              group_size largest_table o.route ≤ group_size largest_table e.route) ∧
            ∀ (j : Nat) (o : Entry), j < i → largest_table[j]? = some o →
              group_size largest_table o.route < group_size largest_table e.route) :=
  ⟨by decide, pairwise_disjoint_of_pairwise (by decide), by decide,
    get_best_merge_largest_group largest_table [] 9 (by decide)
      (pairwise_disjoint_of_pairwise (by decide))⟩

/-! ### The synthesised keymask is normalised (claim C38) -/

theorem selected_merge_clear (table : Table) (merge : Merge) :
    selected table (merge_clear merge) = [] := by
  by_contra h
  obtain ⟨j, e, _, hm⟩ := selected_ne_nil_iff.mp h
  rw [test_merge_clear] at hm
  cases hm

/-- Claim C38 (`merge_entries` is normalised): for every table and every merge the
keymask returned by `merge_entries` satisfies `key & ~mask == 0`, its `count_xs`
equals `popcount(~mask)`, and for the merge with every flag cleared the result is
the entry with key 0, mask 0, source 0 and route 0. -/
theorem merge_entries_returns_normalised (table : Table) (merge : Merge) :
    (merge_entries table merge).keymask.key &&&
        not32 (merge_entries table merge).keymask.mask = 0 ∧
      (merge_entries table merge).keymask.count_xs =
        popcount (not32 (merge_entries table merge).keymask.mask) ∧
      merge_entries table (merge_clear merge) =
        { keymask := { key := 0, mask := 0 }, source := 0, route := 0 } := by
  have hn := merge_entries_normalised table merge
  refine ⟨hn, ?_, ?_⟩
  · unfold KeyMask.count_xs
    rw [get_xs_eq_of_normalised hn]
  · simp only [merge_entries, merge_entries_acc_eq, selected_merge_clear, List.foldl_nil]
    decide

/-! ### Refinements only shrink a merge (claim C33) -/

theorem not_selected_of_subset {m1 m2 : Merge} (h : merge_subset m1 m2) (i : Nat)
    (hi : m2.test i = false) : m1.test i = false := by
  cases h1 : m1.test i with
  | false => rfl
  | true =>
    rw [h.2 i h1] at hi
    cases hi

/-- Claim C33 (refinements only shrink a merge): for every table, alias map, merge
and `min_goodness`, the merge returned by `refine_merge_downcheck` and the merge
returned by `refine_merge_upcheck` have the length of the merge passed in, every
index selected in the result was selected before, and every index that was not
selected before is not selected in the result.  The table and the alias map are
arguments passed by constant reference and are not part of the result. -/
theorem refinements_only_shrink (fuel : Nat) (table : Table) (aliases : Aliases)
    (merge : Merge) (min_goodness : Int) :
    (∀ r, refine_merge_downcheck fuel table aliases merge min_goodness = some r →
      r.1.length = merge.length ∧ (∀ i, r.1.test i = true → merge.test i = true) ∧
        ∀ i, merge.test i = false → r.1.test i = false) ∧
    (∀ r, refine_merge_upcheck table merge min_goodness = some r →
      r.1.length = merge.length ∧ (∀ i, r.1.test i = true → merge.test i = true) ∧
        ∀ i, merge.test i = false → r.1.test i = false) := by
  constructor
  · intro r h
    have hsub := refine_merge_downcheck_subset h
    exact ⟨hsub.1, hsub.2, not_selected_of_subset hsub⟩
  · intro r h
    have hsub := refine_merge_upcheck_subset h
    exact ⟨hsub.1, hsub.2, not_selected_of_subset hsub⟩

set_option maxRecDepth 100000 in
/-- Witness of C33 on the downcheck test table and on the upcheck test table: the
downcheck takes index 0 out of the merge of the first three entries, the upcheck
takes indices 0, 1 and 2 out of the merge of the first five. -/
theorem refinements_only_shrink_witness :
    (refine_merge_downcheck 5 downcheck_table [] [true, true, true, false] 0 =
        some ([false, true, true, false], 1) ∧
      refine_merge_upcheck upcheck_table [true, true, true, true, true, false] 0 =
        some ([false, false, false, true, true, false], 3)) ∧
    (([false, true, true, false] : Merge).length = ([true, true, true, false] : Merge).length ∧
      (∀ i, Merge.test [false, true, true, false] i = true →
        Merge.test [true, true, true, false] i = true) ∧
      ∀ i, Merge.test [true, true, true, false] i = false →
        Merge.test [false, true, true, false] i = false) ∧
    (([false, false, false, true, true, false] : Merge).length =
        ([true, true, true, true, true, false] : Merge).length ∧
      (∀ i, Merge.test [false, false, false, true, true, false] i = true →
        Merge.test [true, true, true, true, true, false] i = true) ∧
      ∀ i, Merge.test [true, true, true, true, true, false] i = false →
        Merge.test [false, false, false, true, true, false] i = false) :=
  ⟨⟨by decide, by decide⟩,
    (refinements_only_shrink 5 downcheck_table [] [true, true, true, false] 0).1
      ([false, true, true, false], 1) (by decide),
    (refinements_only_shrink 5 upcheck_table [] [true, true, true, true, true, false] 0).2
      ([false, false, false, true, true, false], 3) (by decide)⟩

/-! ### Selected entries lie below the insertion point (claim C35) -/

/-- Claim C35 (selected entries sit below the insertion point): for every table
sorted non-decreasing by `count_xs` and every merge selecting at least one entry,
`count_xs` of the synthesised keymask is at least `count_xs` of every selected
entry, `get_insertion_index` of the merge returns, and every selected index is
strictly less than the index it returns. -/
theorem selected_below_insertion_point (table : Table) (merge : Merge)
    (hs : generality_sorted table)
    (hsel : ∃ j, j < table.length ∧ merge.test j = true) :
    (∀ j e, table[j]? = some e → merge.test j = true →
      e.keymask.count_xs ≤ (merge_entries table merge).keymask.count_xs) ∧
    ∃ ip, get_insertion_index_merge table merge = some ip ∧
      ∀ j, j < table.length → merge.test j = true → j < ip := by
  obtain ⟨j0, hj0, hm0⟩ := hsel
  have hne : selected table merge ≠ [] :=
    selected_ne_nil_iff.mpr ⟨j0, table[j0], List.getElem?_eq_getElem hj0, hm0⟩
  constructor
  · intro j e hj hm
    exact count_xs_le_merge_entries (mem_selected.mpr ⟨j, hj, hm⟩)
  · obtain ⟨ip, hip, _, _, _, hlt⟩ := insertion_point_below_selected hs hne
    refine ⟨ip, hip, ?_⟩
    intro j hj hm
    exact hlt j table[j] (List.getElem?_eq_getElem hj) hm

set_option maxRecDepth 100000 in
/-- Witness of C35 on the upcheck test table with the merge of its first five
entries: the insertion index is 6. -/
theorem selected_below_insertion_point_witness :
    generality_sorted upcheck_table ∧
    (∃ j, j < upcheck_table.length ∧
      Merge.test [true, true, true, true, true, false] j = true) ∧
    get_insertion_index_merge upcheck_table [true, true, true, true, true, false] = some 6 ∧
    ((∀ j e, upcheck_table[j]? = some e →
        Merge.test [true, true, true, true, true, false] j = true →
        e.keymask.count_xs ≤
          (merge_entries upcheck_table
            [true, true, true, true, true, false]).keymask.count_xs) ∧
      ∃ ip, get_insertion_index_merge upcheck_table [true, true, true, true, true, false] =
          some ip ∧
        ∀ j, j < upcheck_table.length →
          Merge.test [true, true, true, true, true, false] j = true → j < ip) :=
  ⟨by decide, ⟨0, by decide, by decide⟩, by decide,
    selected_below_insertion_point upcheck_table [true, true, true, true, true, false]
      (by decide) ⟨0, by decide, by decide⟩⟩

/-! ### The ordering of keymasks (claim C34) -/

theorem lt_lexicographic {a b : KeyMask} (ha : a.is32) (hb : b.is32) :
    a.lt b = true ↔ a.key < b.key ∨ (a.key = b.key ∧ a.mask < b.mask) := by
  rw [lt_iff_as64, as64_eq_of_is32 ha, as64_eq_of_is32 hb]
  have h1 := ha.2
  have h2 := hb.2
  omega

/-- Claim C34 (`operator<` is a strict total order): the comparison of keymasks
by the 64-bit value `(key << 32) | mask` is irreflexive and transitive; on
keymasks of 32-bit keys and masks it is the lexicographic order on the key, then
the mask, and for any two of them exactly one of `a < b`, `b < a` and `a == b`
(equal keys and equal masks) holds. -/
theorem keymask_lt_strict_total_order :
    (∀ a : KeyMask, a.lt a = false) ∧
    (∀ a b c : KeyMask, a.lt b = true → b.lt c = true → a.lt c = true) ∧
    (∀ a b : KeyMask, a.is32 → b.is32 →
      (a.lt b = true ↔ a.key < b.key ∨ (a.key = b.key ∧ a.mask < b.mask))) ∧
    (∀ a b : KeyMask, a.is32 → b.is32 →
      (a.lt b = true ∧ b.lt a = false ∧ ¬ (a.key = b.key ∧ a.mask = b.mask)) ∨
      (a.lt b = false ∧ b.lt a = true ∧ ¬ (a.key = b.key ∧ a.mask = b.mask)) ∨
      (a.lt b = false ∧ b.lt a = false ∧ (a.key = b.key ∧ a.mask = b.mask))) := by
  refine ⟨?_, ?_, ?_, ?_⟩
  · intro a
    simp [KeyMask.lt]
  · intro a b c hab hbc
    rw [lt_iff_as64] at hab hbc ⊢
    omega
  · intro a b ha hb
    exact lt_lexicographic ha hb
  · intro a b ha hb
    have hab := lt_lexicographic ha hb
    have hba := lt_lexicographic hb ha
    cases h1 : a.lt b <;> cases h2 : b.lt a <;> rw [h1] at hab <;> rw [h2] at hba <;>
      simp only [Bool.false_eq_true, false_iff, true_iff] at hab hba <;>
      simp only [Bool.false_eq_true, true_and, false_and, and_true, or_false, false_or,
        not_true_eq_false, and_false, or_self] <;> omega

/-- Witness of C34 on the pairs of the ordering test: `{0, 0}` is less than
`{0, 0xffffffff}` by the mask, and `{0xffffffff, 0xfffffffe}` is less than
`{0xffffffff, 0xffffffff}`; `{0, 0}` is not less than itself, and on the first
pair the comparison agrees with the lexicographic order. -/
theorem keymask_lt_strict_total_order_witness :
    KeyMask.lt (KeyMask.mk 0 0) (KeyMask.mk 0 0xffffffff) = true ∧
    KeyMask.lt (KeyMask.mk 0xffffffff 0xfffffffe) (KeyMask.mk 0xffffffff 0xffffffff) = true ∧
    KeyMask.lt (KeyMask.mk 0 0) (KeyMask.mk 0 0) = false ∧
    (KeyMask.lt (KeyMask.mk 0 0) (KeyMask.mk 0 0xffffffff) = true ↔
      (KeyMask.mk 0 0).key < (KeyMask.mk 0 0xffffffff).key ∨
        ((KeyMask.mk 0 0).key = (KeyMask.mk 0 0xffffffff).key ∧
          (KeyMask.mk 0 0).mask < (KeyMask.mk 0 0xffffffff).mask)) :=
  ⟨by decide, by decide, keymask_lt_strict_total_order.1 (KeyMask.mk 0 0),
    keymask_lt_strict_total_order.2.2.1 (KeyMask.mk 0 0) (KeyMask.mk 0 0xffffffff)
      (by decide) (by decide)⟩

/-! ### The value returned by the upcheck (claim C32) -/

/-- Claim C32 (return value of the upcheck): for every non-empty table, merge and
`min_goodness`, the insertion index is found and the loop of
`refine_merge_upcheck` ends in a state `st`.  If `st.goodness > min_goodness` the
function returns the merge of `st` and the number of entries cleared from the
merge passed in; otherwise it returns a merge of the same length with no index
selected and the value `merge_goodness` of the merge passed in. -/
theorem refine_merge_upcheck_return_value (table : Table) (merge : Merge) (min_goodness : Int)
    (hne : table ≠ []) :
    ∃ ip st, get_insertion_index_merge table merge = some ip ∧
      refine_merge_upcheck_loop table min_goodness (List.range table.length).reverse
        { merge := merge, removed := 0, goodness := merge_goodness merge,
          insertion_point := ip } = some st ∧
      (st.goodness > min_goodness →
        refine_merge_upcheck table merge min_goodness = some (st.merge, st.removed) ∧
          merge_subset st.merge merge ∧
          st.removed = (merge_popcount merge : Int) - (merge_popcount st.merge : Int)) ∧
      (st.goodness ≤ min_goodness →
        ∃ m, refine_merge_upcheck table merge min_goodness = some (m, merge_goodness merge) ∧
          m.length = merge.length ∧ ∀ i, m.test i = false) := by
  obtain ⟨ip, hip⟩ := get_insertion_index_merge_total hne merge
  obtain ⟨st, hst⟩ := refine_merge_upcheck_loop_total hne min_goodness
    (List.range table.length).reverse
    { merge := merge, removed := 0, goodness := merge_goodness merge, insertion_point := ip }
    (by intro i hi; simpa using hi)
  have hinv := @refine_merge_upcheck_loop_goodness table min_goodness (merge_goodness merge)
    _ _ _ hst ⟨rfl, by simp⟩
  have hsub := refine_merge_upcheck_loop_subset table min_goodness _ _ _ hst
  refine ⟨ip, st, hip, hst, ?_, ?_⟩
  · intro hgood
    refine ⟨?_, hsub, ?_⟩
    · unfold refine_merge_upcheck
      rw [hip]
      simp only
      rw [hst]
      simp only
      rw [if_neg (by omega)]
    · have h1 := merge_goodness_eq merge
      have h2 := merge_goodness_eq st.merge
      unfold merge_popcount
      omega
  · intro hbad
    refine ⟨merge_clear st.merge, ?_, ?_, ?_⟩
    · unfold refine_merge_upcheck
      rw [hip]
      simp only
      rw [hst]
      simp only
      rw [if_pos hbad]
      have : st.removed + st.goodness = merge_goodness merge := by omega
      rw [this]
    · have := hsub.1
      simp only [merge_clear, List.length_map]
      exact this
    · intro i
      exact test_merge_clear st.merge i

set_option maxRecDepth 100000 in
/-- Witness of C32 on the upcheck test table with the merge of its first five
entries: 3 is returned for `min_goodness` 0, leaving entries 3 and 4 merged, and
4 is returned for `min_goodness` 2, leaving nothing merged. -/
theorem refine_merge_upcheck_return_value_witness :
    upcheck_table ≠ [] ∧
    refine_merge_upcheck upcheck_table [true, true, true, true, true, false] 0 =
      some ([false, false, false, true, true, false], 3) ∧
    refine_merge_upcheck upcheck_table [true, true, true, true, true, false] 2 =
      some ([false, false, false, false, false, false], 4) ∧
    merge_goodness [true, true, true, true, true, false] = 4 ∧
    ∃ ip st, get_insertion_index_merge upcheck_table [true, true, true, true, true, false] =
        some ip ∧
      refine_merge_upcheck_loop upcheck_table 2 (List.range upcheck_table.length).reverse
        { merge := [true, true, true, true, true, false], removed := 0,
          goodness := merge_goodness [true, true, true, true, true, false],
          insertion_point := ip } = some st ∧
      (st.goodness > 2 →
        refine_merge_upcheck upcheck_table [true, true, true, true, true, false] 2 =
            some (st.merge, st.removed) ∧
          merge_subset st.merge [true, true, true, true, true, false] ∧
          st.removed = (merge_popcount [true, true, true, true, true, false] : Int) -
            (merge_popcount st.merge : Int)) ∧
      (st.goodness ≤ 2 →
        ∃ m, refine_merge_upcheck upcheck_table [true, true, true, true, true, false] 2 =
            some (m, merge_goodness [true, true, true, true, true, false]) ∧
          m.length = ([true, true, true, true, true, false] : Merge).length ∧
          ∀ i, m.test i = false) :=
  ⟨by decide, by decide, by decide, by decide,
    refine_merge_upcheck_return_value upcheck_table [true, true, true, true, true, false] 2
      (by decide)⟩

/-! ### A settable bit escapes the cover (claim C31) -/

theorem testBit_bit_self (k : Nat) : (1 <<< k).testBit k = true := by
  rw [Nat.one_shiftLeft, Nat.testBit_two_pow]
  simp

/-- Claim C31 (a settable bit escapes the cover): for all keymasks `km` and `B`
and every bit `1 << k` of `km.get_xs() & ~B.get_xs()`, if the bit is in `B.key`
then `get_settables` offers it in `set_to_zero` and the keymask obtained from
`km` by fixing the bit to 0 (`mask | b`, `key & ~b`) does not intersect `B`, and
if the bit is not in `B.key` then `get_settables` offers it in `set_to_one` and
the keymask obtained by fixing the bit to 1 (`mask | b`, `key | b`) does not
intersect `B`. -/
theorem settable_bit_escapes_cover (km B : KeyMask) (k : Nat)
    (hb : (km.get_xs &&& not32 B.get_xs).testBit k = true) :
    (B.key.testBit k = true →
      (get_settables km B
        { stringency := 33, set_to_zero := 0, set_to_one := 0 }).set_to_zero.testBit k = true ∧
      KeyMask.intersect
        { key := km.key &&& not32 (1 <<< k), mask := km.mask ||| (1 <<< k) } B = false) ∧
    (B.key.testBit k = false →
      (get_settables km B
        { stringency := 33, set_to_zero := 0, set_to_one := 0 }).set_to_one.testBit k = true ∧
      KeyMask.intersect
        { key := km.key ||| (1 <<< k), mask := km.mask ||| (1 <<< k) } B = false) := by
  have hpop : popcount (km.get_xs &&& not32 B.get_xs) < 33 := by
    have := popcount_le (km.get_xs &&& not32 B.get_xs)
    omega
  have hset : get_settables km B { stringency := 33, set_to_zero := 0, set_to_one := 0 } =
      { stringency := popcount (km.get_xs &&& not32 B.get_xs)
        set_to_one := (km.get_xs &&& not32 B.get_xs) &&& not32 B.key
        set_to_zero := (km.get_xs &&& not32 B.get_xs) &&& B.key } := by
    unfold get_settables
    simp only
    rw [if_pos hpop]
  have hk : k < 32 := by
    rw [Nat.testBit_and, testBit_not32] at hb
    simp only [Bool.and_eq_true, decide_eq_true_eq] at hb
    exact hb.2.1
  have hB : B.mask.testBit k = true ∨ B.key.testBit k = true := by
    rw [Nat.testBit_and, testBit_not32] at hb
    unfold KeyMask.get_xs at hb
    simp only [Nat.testBit_and, testBit_not32, Bool.and_eq_true, decide_eq_true_eq,
      Bool.not_eq_true', Bool.and_eq_false_imp] at hb
    cases hm : B.mask.testBit k with
    | true => exact Or.inl rfl
    | false =>
      right
      have := hb.2.2 ⟨hk, hm⟩ hk
      simpa using this
  rw [hset]
  constructor
  · intro hkey
    constructor
    · show ((km.get_xs &&& not32 B.get_xs) &&& B.key).testBit k = true
      rw [Nat.testBit_and, hb, hkey]
      rfl
    · unfold KeyMask.intersect
      simp only [beq_eq_false_iff_ne, ne_eq]
      intro heq
      have h := congrArg (fun n => n.testBit k) heq
      simp only [Nat.testBit_and, Nat.testBit_or, testBit_not32, testBit_bit_self, hkey,
        Bool.not_true, Bool.and_false, Bool.false_and, Bool.or_true, Bool.and_true] at h
      cases h
  · intro hkey
    constructor
    · show ((km.get_xs &&& not32 B.get_xs) &&& not32 B.key).testBit k = true
      rw [Nat.testBit_and, hb, testBit_not32, hkey]
      simp [hk]
    · have hmask : B.mask.testBit k = true := by
        rcases hB with h | h
        · exact h
        · rw [hkey] at h
          cases h
      unfold KeyMask.intersect
      simp only [beq_eq_false_iff_ne, ne_eq]
      intro heq
      have h := congrArg (fun n => n.testBit k) heq
      simp only [Nat.testBit_and, Nat.testBit_or, testBit_bit_self, hkey, hmask,
        Bool.or_true, Bool.and_true, Bool.false_and] at h
      cases h

/-- Witness of C31: the keymask `XXXX` (key 0, mask 0xfffffff0) intersects
`B = 1001`; bit 3 is settable and is in `B.key`, and `0XXX`, obtained by fixing
it to 0, does not intersect `B`. -/
theorem settable_bit_escapes_cover_witness :
    (((KeyMask.mk 0 0xfffffff0).get_xs &&& not32 (KeyMask.mk 0x9 0xffffffff).get_xs).testBit 3 =
      true) ∧
    (KeyMask.mk 0x9 0xffffffff).key.testBit 3 = true ∧
    KeyMask.intersect (KeyMask.mk 0 0xfffffff0) (KeyMask.mk 0x9 0xffffffff) = true ∧
    KeyMask.intersect { key := 0 &&& not32 (1 <<< 3), mask := 0xfffffff0 ||| (1 <<< 3) }
      (KeyMask.mk 0x9 0xffffffff) = false ∧
    ((KeyMask.mk 0x9 0xffffffff).key.testBit 3 = true →
      (get_settables (KeyMask.mk 0 0xfffffff0) (KeyMask.mk 0x9 0xffffffff)
        { stringency := 33, set_to_zero := 0, set_to_one := 0 }).set_to_zero.testBit 3 = true ∧
      KeyMask.intersect
        { key := (KeyMask.mk 0 0xfffffff0).key &&& not32 (1 <<< 3),
          mask := (KeyMask.mk 0 0xfffffff0).mask ||| (1 <<< 3) }
        (KeyMask.mk 0x9 0xffffffff) = false) ∧
    ((KeyMask.mk 0x9 0xffffffff).key.testBit 3 = false →
      (get_settables (KeyMask.mk 0 0xfffffff0) (KeyMask.mk 0x9 0xffffffff)
        { stringency := 33, set_to_zero := 0, set_to_one := 0 }).set_to_one.testBit 3 = true ∧
      KeyMask.intersect
        { key := (KeyMask.mk 0 0xfffffff0).key ||| (1 <<< 3),
          mask := (KeyMask.mk 0 0xfffffff0).mask ||| (1 <<< 3) }
        (KeyMask.mk 0x9 0xffffffff) = false) :=
  ⟨by decide, by decide, by decide, by decide,
    settable_bit_escapes_cover (KeyMask.mk 0 0xfffffff0) (KeyMask.mk 0x9 0xffffffff) 3
      (by decide)⟩

/-! ### Removing a candidate set fixes the bit (claim C37) -/

theorem mem_find_removes {table : Table} {merge : Merge} {f : KeyMask → Bool} {j : Nat} :
    j ∈ find_removes table merge f ↔
      ∃ e, table[j]? = some e ∧ merge.test j = true ∧ f e.keymask = true := by
  unfold find_removes
  simp only [List.mem_map, List.mem_filter, Bool.and_eq_true, Prod.exists]
  constructor
  · rintro ⟨i, e, ⟨hmem, hm, hf⟩, rfl⟩
    exact ⟨e, List.mk_mem_enum_iff_getElem?.mp hmem, hm, hf⟩
  · rintro ⟨e, hj, hm, hf⟩
    exact ⟨j, e, ⟨List.mk_mem_enum_iff_getElem?.mpr hj, hm, hf⟩, rfl⟩

theorem selected_after_remove {table : Table} {merge : Merge} {f : KeyMask → Bool} {e : Entry}
    (he : e ∈ selected table (merge_remove merge (find_removes table merge f))) :
    e ∈ selected table merge ∧ f e.keymask = false := by
  obtain ⟨j, hj, hm⟩ := mem_selected.mp he
  obtain ⟨hsel, hnot⟩ := (test_merge_remove _ merge j).mp hm
  refine ⟨mem_selected.mpr ⟨j, hj, hsel⟩, ?_⟩
  cases hf : f e.keymask with
  | false => rfl
  | true => exact absurd (mem_find_removes.mpr ⟨e, hj, hsel, hf⟩) hnot

theorem blocks_zero_false {k : Nat} {km : KeyMask} (hk : k < 32)
    (h : blocks_zero (1 <<< k) km = false) :
    km.mask.testBit k = true ∧ km.key.testBit k = false := by
  unfold blocks_zero at h
  rw [and_bit_ne_zero, and_bit_ne_zero, testBit_not32] at h
  simpa [hk] using h

theorem blocks_one_false {k : Nat} {km : KeyMask} (hk : k < 32)
    (h : blocks_one (1 <<< k) km = false) : km.key.testBit k = true := by
  unfold blocks_one at h
  rw [and_bit_ne_zero, testBit_not32] at h
  simpa [hk] using h

theorem normalised_key_bit {km : KeyMask} (hn : km.normalised) {k : Nat} (hk : k < 32)
    (h : km.key.testBit k = true) : km.mask.testBit k = true := by
  have hbit := congrArg (fun n => n.testBit k) hn
  simp only [Nat.testBit_and, testBit_not32, Nat.zero_testBit, h, hk, decide_True,
    Bool.true_and, Bool.not_eq_false'] at hbit
  exact hbit

theorem all_eq_false_of_mem {α : Type} {p : α → Bool} {l : List α} {a : α} (ha : a ∈ l)
    (hp : p a = false) : l.all p = false := by
  cases h : l.all p with
  | false => rfl
  | true =>
    rw [List.all_eq_true.mp h a ha] at hp
    cases hp

/-- Claim C37 (removing a candidate set fixes the bit): for every table with
normalised entries, every merge and every bit `1 << k` with `k < 32`, if the
entries returned by `find_removes` with the set-to-zero predicate are cleared
from the merge and an entry stays selected, the keymask synthesised from the
remaining merge has mask bit `k` set and key bit `k` clear; with the set-to-one
predicate it has mask bit `k` set and key bit `k` set. -/
theorem removing_candidates_fixes_bit (table : Table) (merge : Merge) (k : Nat)
    (hk : k < 32) (hn : ∀ e ∈ table, e.keymask.normalised) :
    ((∃ j, j < table.length ∧
        Merge.test (merge_remove merge
          (find_removes table merge (blocks_zero (1 <<< k)))) j = true) →
      (merge_entries table (merge_remove merge
          (find_removes table merge (blocks_zero (1 <<< k))))).keymask.mask.testBit k = true ∧
        (merge_entries table (merge_remove merge
          (find_removes table merge (blocks_zero (1 <<< k))))).keymask.key.testBit k = false) ∧
    ((∃ j, j < table.length ∧
        Merge.test (merge_remove merge
          (find_removes table merge (blocks_one (1 <<< k)))) j = true) →
      (merge_entries table (merge_remove merge
          (find_removes table merge (blocks_one (1 <<< k))))).keymask.mask.testBit k = true ∧
        (merge_entries table (merge_remove merge
          (find_removes table merge (blocks_one (1 <<< k))))).keymask.key.testBit k = true) := by
  constructor
  · rintro ⟨j0, hj0, hm0⟩
    have he0 : table[j0] ∈ selected table (merge_remove merge
        (find_removes table merge (blocks_zero (1 <<< k)))) :=
      mem_selected.mpr ⟨j0, List.getElem?_eq_getElem hj0, hm0⟩
    have hmask : (selected table (merge_remove merge
        (find_removes table merge (blocks_zero (1 <<< k))))).all
          (fun e => e.keymask.mask.testBit k) = true := by
      rw [List.all_eq_true]
      intro e he
      exact (blocks_zero_false hk (selected_after_remove he).2).1
    have hany : (selected table (merge_remove merge
        (find_removes table merge (blocks_zero (1 <<< k))))).any
          (fun e => e.keymask.key.testBit k) = false := by
      rw [List.any_eq_false]
      intro e he
      rw [(blocks_zero_false hk (selected_after_remove he).2).2]
      simp
    have hall : (selected table (merge_remove merge
        (find_removes table merge (blocks_zero (1 <<< k))))).all
          (fun e => e.keymask.key.testBit k) = false :=
      all_eq_false_of_mem he0 (blocks_zero_false hk (selected_after_remove he0).2).2
    rw [merge_entries_key_testBit, merge_entries_mask_testBit, hmask, hany, hall]
    simp [hk]
  · rintro ⟨j0, hj0, hm0⟩
    have he0 : table[j0] ∈ selected table (merge_remove merge
        (find_removes table merge (blocks_one (1 <<< k)))) :=
      mem_selected.mpr ⟨j0, List.getElem?_eq_getElem hj0, hm0⟩
    have hkey : ∀ e ∈ selected table (merge_remove merge
        (find_removes table merge (blocks_one (1 <<< k)))), e.keymask.key.testBit k = true :=
      fun e he => blocks_one_false hk (selected_after_remove he).2
    have hmask : (selected table (merge_remove merge
        (find_removes table merge (blocks_one (1 <<< k))))).all
          (fun e => e.keymask.mask.testBit k) = true := by
      rw [List.all_eq_true]
      intro e he
      obtain ⟨j, hj, _⟩ := mem_selected.mp he
      exact normalised_key_bit (hn e (mem_of_getElem? hj)) hk (hkey e he)
    have hany : (selected table (merge_remove merge
        (find_removes table merge (blocks_one (1 <<< k))))).any
          (fun e => e.keymask.key.testBit k) = true :=
      List.any_eq_true.mpr ⟨_, he0, hkey _ he0⟩
    have hall : (selected table (merge_remove merge
        (find_removes table merge (blocks_one (1 <<< k))))).all
          (fun e => e.keymask.key.testBit k) = true :=
      List.all_eq_true.mpr hkey
    rw [merge_entries_key_testBit, merge_entries_mask_testBit, hmask, hany, hall]
    simp [hk]

set_option maxRecDepth 100000 in
/-- Witness of C37 on the downcheck test table with the merge of `0001`, `1000`
and `1001` and bit 3: the set-to-zero predicate removes entries 1 and 2 and leaves
`0001`, the set-to-one predicate removes entry 0 and leaves `100X`. -/
theorem removing_candidates_fixes_bit_witness :
    (3 < 32 ∧ ∀ e ∈ downcheck_table, e.keymask.normalised) ∧
    find_removes downcheck_table [true, true, true, false] (blocks_zero (1 <<< 3)) = [1, 2] ∧
    find_removes downcheck_table [true, true, true, false] (blocks_one (1 <<< 3)) = [0] ∧
    ((merge_entries downcheck_table (merge_remove [true, true, true, false]
        (find_removes downcheck_table [true, true, true, false]
          (blocks_zero (1 <<< 3))))).keymask.mask.testBit 3 = true ∧
      (merge_entries downcheck_table (merge_remove [true, true, true, false]
        (find_removes downcheck_table [true, true, true, false]
          (blocks_zero (1 <<< 3))))).keymask.key.testBit 3 = false) ∧
    ((merge_entries downcheck_table (merge_remove [true, true, true, false]
        (find_removes downcheck_table [true, true, true, false]
          (blocks_one (1 <<< 3))))).keymask.mask.testBit 3 = true ∧
      (merge_entries downcheck_table (merge_remove [true, true, true, false]
        (find_removes downcheck_table [true, true, true, false]
          (blocks_one (1 <<< 3))))).keymask.key.testBit 3 = true) :=
  ⟨⟨by decide, by decide⟩, by decide, by decide,
    (removing_candidates_fixes_bit downcheck_table [true, true, true, false] 3
      (by decide) (by decide)).1 ⟨0, by decide, by decide⟩,
    (removing_candidates_fixes_bit downcheck_table [true, true, true, false] 3
      (by decide) (by decide)).2 ⟨1, by decide, by decide⟩⟩

/-! ### Accounting of the downcheck (claim C36) -/

/-- The accounting invariant of the loop of `refine_merge_downcheck` for a merge
of goodness `g0`: the tracked goodness is the goodness of the merge and the
difference to `g0` has been counted as removed, or the merge has been cleared and
all the `g0 + 1` entries have been counted. -/
theorem refine_merge_downcheck_loop_accounting (table : Table) (aliases : Aliases)
    {min_goodness : Int} (hmin : 0 ≤ min_goodness) (g0 : Int) :
    ∀ (fuel : Nat) (merge : Merge) (removed goodness : Int) (r : Merge × Int),
      refine_merge_downcheck_loop table aliases min_goodness fuel merge removed goodness =
        some r →
      ((merge_goodness merge = goodness ∧ goodness = g0 - removed) ∨
        (merge_goodness merge = -1 ∧ goodness = 0 ∧ removed = g0 + 1)) →
      merge_goodness r.1 = g0 - r.2 := by
  intro fuel
  induction fuel with
  | zero =>
    intro merge removed goodness r h
    simp [refine_merge_downcheck_loop] at h
  | succ fuel ih =>
    intro merge removed goodness r h hinv
    unfold refine_merge_downcheck_loop at h
    split at h
    · rename_i hgood
      have hA : merge_goodness merge = goodness ∧ goodness = g0 - removed := by
        rcases hinv with hA | hB
        · exact hA
        · omega
      split at h
      · cases h
      · rename_i info _
        split at h
        · cases h
          simp only
          omega
        · split at h
          · refine ih _ _ _ _ h (Or.inr ⟨merge_goodness_clear _, rfl, ?_⟩)
            omega
          · simp only at h
            have hprop := find_best_removes_prop table merge info
            have hrem := merge_goodness_remove_eq _ merge hprop.1 hprop.2
            split at h
            · rename_i hzero
              simp only [beq_iff_eq] at hzero
              refine ih _ _ _ _ h (Or.inr ⟨merge_goodness_clear _, hzero, ?_⟩)
              omega
            · refine ih _ _ _ _ h (Or.inl ⟨?_, ?_⟩)
              · rw [hrem]
                omega
              · omega
    · cases h
      simp only
      rcases hinv with hA | hB
      · omega
      · omega

/-- Claim C36 (downcheck accounting is exact): for every table, alias map, merge
and `min_goodness ≥ 0` on which `refine_merge_downcheck` returns, `merge_goodness`
of the merge after equals `merge_goodness` of the merge before minus the returned
value; in particular when the merge after has goodness -1 the returned value is
the number of entries selected before. -/
theorem refine_merge_downcheck_accounting (fuel : Nat) (table : Table) (aliases : Aliases)
    (merge : Merge) (min_goodness : Int) (r : Merge × Int) (hmin : 0 ≤ min_goodness)
    (h : refine_merge_downcheck fuel table aliases merge min_goodness = some r) :
    merge_goodness r.1 = merge_goodness merge - r.2 ∧
      (merge_goodness r.1 = -1 → r.2 = (merge_popcount merge : Int)) := by
  have hacc := refine_merge_downcheck_loop_accounting table aliases hmin (merge_goodness merge)
    fuel merge 0 (merge_goodness merge) r h (Or.inl ⟨rfl, by omega⟩)
  refine ⟨hacc, ?_⟩
  intro hneg
  have hg := merge_goodness_eq merge
  unfold merge_popcount
  omega

set_option maxRecDepth 100000 in
/-- Witness of C36 on the downcheck tests: one entry of three is removed from the
merge of `0001`, `1000` and `1001` (goodness 2 before, 1 after), and the merge of
`1001` and `1010` above `1XXX` is abandoned (goodness -1 after, 2 returned). -/
theorem refine_merge_downcheck_accounting_witness :
    (refine_merge_downcheck 5 downcheck_table [] [true, true, true, false] 0 =
        some ([false, true, true, false], 1) ∧
      refine_merge_downcheck 5 unresolvable_table [] [true, true, false] 0 =
        some ([false, false, false], 2)) ∧
    (merge_goodness ([false, true, true, false], (1 : Int)).1 =
        merge_goodness [true, true, true, false] - ([false, true, true, false], (1 : Int)).2 ∧
      (merge_goodness ([false, true, true, false], (1 : Int)).1 = -1 →
        ([false, true, true, false], (1 : Int)).2 =
          (merge_popcount [true, true, true, false] : Int))) ∧
    (merge_goodness ([false, false, false], (2 : Int)).1 =
        merge_goodness [true, true, false] - ([false, false, false], (2 : Int)).2 ∧
      (merge_goodness ([false, false, false], (2 : Int)).1 = -1 →
        ([false, false, false], (2 : Int)).2 = (merge_popcount [true, true, false] : Int))) :=
  ⟨⟨by decide, by decide⟩,
    refine_merge_downcheck_accounting 5 downcheck_table [] [true, true, true, false] 0
      ([false, true, true, false], 1) (by decide) (by decide),
    refine_merge_downcheck_accounting 5 unresolvable_table [] [true, true, false] 0
      ([false, false, false], 2) (by decide) (by decide)⟩

/-! ### A table on which the downcheck makes no progress -/

set_option maxRecDepth 100000 in
/-- On `looping_table` the merge of the first two entries covers the third, the
only settable bit is bit 0 (to one), and no selected entry blocks it, so an
iteration of the downcheck loop leaves its variables as they were. -/
theorem refine_merge_downcheck_loop_looping :
    ∀ (fuel : Nat) (removed : Int),
      refine_merge_downcheck_loop looping_table [] 0 fuel [true, true, false] removed 1 =
        none := by
  intro fuel
  induction fuel with
  | zero =>
    intro removed
    rfl
  | succ fuel ih =>
    intro removed
    have hinfo : get_cover_info looping_table [] [true, true, false] =
        some { covers := true, set_to_zero := 0, set_to_one := 1 } := by decide
    have hbest : find_best_removes looping_table [true, true, false]
        { covers := true, set_to_zero := 0, set_to_one := 1 } = [] := by decide
    rw [refine_merge_downcheck_loop]
    simp only [hinfo, hbest]
    simp [merge_remove]
    exact ih _

theorem get_best_merge_looping (fuel : Nat) : get_best_merge fuel looping_table [] = none := by
  have hdown : refine_merge_downcheck fuel looping_table [] [true, true, false] 0 = none := by
    unfold refine_merge_downcheck
    have hg : merge_goodness [true, true, false] = 1 := by decide
    rw [hg]
    exact refine_merge_downcheck_loop_looping fuel 0
  have hstep : get_best_merge_step fuel looping_table []
      { best_merge := List.replicate looping_table.length false
        best_goodness := 0
        considered := List.replicate looping_table.length false }
      (0, { keymask := { key := 0x1, mask := 0xfffffffe }, source := 1, route := 1 }) = none := by
    unfold get_best_merge_step get_best_merge_refine
    unfold looping_table at hdown
    simp [looping_table, get_best_merge_group_step, hdown]
  unfold get_best_merge
  have henum : looping_table.enum =
      (0, { keymask := { key := 0x1, mask := 0xfffffffe }, source := 1, route := 1 }) ::
        (looping_table.drop 1).enumFrom 1 := rfl
  rw [henum, get_best_merge_loop, hstep]

theorem minimise_loop_looping (fuel steps : Nat) :
    minimise_loop fuel 0 steps looping_table [] = none := by
  cases steps with
  | zero => rfl
  | succ steps =>
    rw [minimise_loop, get_best_merge_looping]
    simp [looping_table]

/-- Counterexample to C20 as stated for every non-empty table: `looping_table` is
non-empty, sorted by generality and holds 32-bit keys and masks, and for no
amount of fuel does `get_best_merge` return on it with the empty alias map. -/
theorem get_best_merge_does_not_return_on_looping_table :
    looping_table ≠ [] ∧ generality_sorted looping_table ∧ table_is32 looping_table ∧
      ¬ ∃ fuel m, get_best_merge fuel looping_table [] = some m := by
  refine ⟨by decide, by decide, by decide, ?_⟩
  rintro ⟨fuel, m, h⟩
  rw [get_best_merge_looping] at h
  cases h

/-- Counterexample to C13 as stated for every generality-sorted table:
`looping_table` is sorted by generality and holds 32-bit keys and masks, and for
no amount of fuel and no number of iterations does the driver loop return on it,
nor does `minimise`. -/
theorem minimise_does_not_return_on_looping_table :
    generality_sorted looping_table ∧ table_is32 looping_table ∧
      (¬ ∃ fuel steps r, minimise_loop fuel 0 steps looping_table [] = some r) ∧
      ¬ ∃ fuel r, minimise fuel looping_table 0 = some r := by
  refine ⟨by decide, by decide, ?_, ?_⟩
  · rintro ⟨fuel, steps, r, h⟩
    rw [minimise_loop_looping] at h
    cases h
  · rintro ⟨fuel, r, h⟩
    unfold minimise minimise_aliases at h
    rw [minimise_loop_looping] at h
    cases h

/-! ### Alias migration on a table that is not sorted -/

set_option maxRecDepth 100000 in
/-- Counterexample to C6 as stated for every table: on `unsorted_table` the
insertion index of the merge of the last two entries is 2, the rewrite puts the
merged entry over the entry at index 3 before that entry is read, and the set of
the merged keymask is left without the keymask `0...0100` of that entry. -/
theorem merge_apply_alias_migration_fails_on_unsorted_table :
    ¬ generality_sorted unsorted_table ∧
    merge_apply unsorted_table [] [false, false, false, true, true] =
      some
        ([ { keymask := { key := 0x2, mask := 0xffffffff }, source := 1, route := 1 },
           { keymask := { key := 0x3, mask := 0xffffffff }, source := 1, route := 1 },
           { keymask := { key := 0x4, mask := 0xfffffffe }, source := 1, route := 1 },
           { keymask := { key := 0x4, mask := 0xfffffffe }, source := 1, route := 1 } ],
         [ ({ key := 0x4, mask := 0xfffffffe },
            [{ key := 0x4, mask := 0xfffffffe }, { key := 0x5, mask := 0xffffffff }]) ]) ∧
    ¬ AliasMigration unsorted_table [] [false, false, false, true, true]
      [ ({ key := 0x4, mask := 0xfffffffe },
         [{ key := 0x4, mask := 0xfffffffe }, { key := 0x5, mask := 0xffffffff }]) ] := by
  refine ⟨by decide, by decide, ?_⟩
  intro h
  obtain ⟨⟨s, hs, hc⟩, _⟩ := h ⟨⟨0x4, 0xffffffff⟩, 1, 1⟩ (by decide)
  have hm : (merge_entries unsorted_table [false, false, false, true, true]).keymask =
      { key := 0x4, mask := 0xfffffffe } := by decide
  rw [hm] at hs
  have hs1 : s = [{ key := 0x4, mask := 0xfffffffe }, { key := 0x5, mask := 0xffffffff }] := by
    have : aliases_find { key := 0x4, mask := 0xfffffffe }
        [ (({ key := 0x4, mask := 0xfffffffe } : KeyMask),
           ([{ key := 0x4, mask := 0xfffffffe }, { key := 0x5, mask := 0xffffffff }] :
             KeyMaskSet)) ] =
        some [{ key := 0x4, mask := 0xfffffffe }, { key := 0x5, mask := 0xffffffff }] := by
      decide
    rw [this] at hs
    exact (Option.some.inj hs).symm
  subst hs1
  unfold alias_contribution at hc
  simp [aliases_find] at hc

end OrderedCovering
